import Mathlib

/-!
# RHM stemma reconstruction (`rhm.c`): tree model, parsimony evaluator, tree edits

A shallow embedding of the tree-inference engine of `src/stemmabench/algorithms/rhm.c`.

* Nodes live in a node memory `Mem`, a map from addresses to `node_st` records; a C pointer
  to a node is an address, `NULL` is `none`.
* The cost cache `tree->cost` is a flat array `Nat → Int`, indexed exactly as in the source
  (`id*leafs*chunks + i*chunks + ch` for the live region, `(n+id)*leafs*chunks + ...` for the
  snapshot region).
* The program globals (`n`, `leafs`, `chunks`, `Kyx`, `Kx`, `unique`, `bootw`) are gathered in
  `Globals`.  `RAND_MAX` comes from the C library and is a field of `Globals` as well.
* Loops that walk pointers (`while (node) ... node = node->up`) and the recursion over the
  children take a fuel argument and return `none` when it runs out.
-/

namespace Rhm

/-! ## Data model -/

/-- The record `struct node_st`: the id and the three links. The per-node `fill` array and the
`cost` pointer (only the one of the root is ever used) are kept outside the record. -/
structure node_st where
  id : Nat
  left : Option Nat
  right : Option Nat
  up : Option Nat
deriving DecidableEq

/-- Node memory: address to record. -/
abbrev Mem := Nat → node_st

/-- The cost cache `tree->cost` (a flat `int` array). -/
abbrev Cache := Nat → Int

/-- The global variables the evaluator reads. -/
structure Globals where
  n : Nat
  leafs : Nat
  chunks : Nat
  Kyx : Nat → Int
  Kx : Nat → Int
  unique : Nat → Int
  bootw : Nat → Int
  RAND_MAX : Nat

/-- The sentinel `RAND_MAX/256` standing for an unusable (infinite) cost. -/
def sentinel (g : Globals) : Int := ((g.RAND_MAX / 256 : Nat) : Int)

/-- Index of entry `(id, i, ch)` of the cache: `id*leafs*chunks + i*chunks + ch`. -/
def idx (g : Globals) (id i ch : Nat) : Nat := id * g.leafs * g.chunks + i * g.chunks + ch

def setLeft (m : Mem) (p : Nat) (v : Option Nat) : Mem :=
  Function.update m p { m p with left := v }

def setRight (m : Mem) (p : Nat) (v : Option Nat) : Mem :=
  Function.update m p { m p with right := v }

def setUp (m : Mem) (p : Nat) (v : Option Nat) : Mem :=
  Function.update m p { m p with up := v }

/-! ## Parsimony evaluator -/

/-- One round of the `for (j ...)` loop of `min_cost`; `base` is the offset of the row that the
pointer argument `cost` of the C function points to. -/
def min_cost_step (g : Globals) (cost : Cache) (base i ch : Nat) (minval : Int) (j : Nat) : Int :=
  if g.unique (j * g.chunks + ch) ≠ 0 then
    let val := cost (base + (j * g.chunks + ch)) + g.Kyx (i * g.leafs * g.chunks + j * g.chunks + ch)
    if val < minval ∨ minval = -1 then val else minval
  else minval

/-- The function `min_cost(cost + base, id, i, ch)` (built without `EMPTY_IS_MISSING`). -/
def min_cost (g : Globals) (cost : Cache) (base id i ch : Nat) : Int :=
  if g.unique (i * g.chunks + ch) = 0 then sentinel g
  else if id < g.leafs then g.Kyx (i * g.leafs * g.chunks + id * g.chunks + ch)
  else (List.range g.leafs).foldl (min_cost_step g cost base i ch) (-1)

/-- Body of the `for (i ...)` loop over an internal node, shared by `eval_subtree` and
`eval_uptree`: writes `cost[node][i][ch]` and tracks the running minimum. The test
`isinf((float)minval)` of the source is false for every `int` and is dropped. -/
def internal_step (g : Globals) (nid lid rid ch : Nat) (s : Int × Cache) (i : Nat) : Int × Cache :=
  let v := min_cost g s.2 (lid * g.leafs * g.chunks) lid i ch
         + min_cost g s.2 (rid * g.leafs * g.chunks) rid i ch
  let c := Function.update s.2 (nid * g.leafs * g.chunks + i * g.chunks + ch) v
  (if i = 0 ∨ v < s.1 then v else s.1, c)

def internal_loop (g : Globals) (nid lid rid ch : Nat) (cost : Cache) : Int × Cache :=
  (List.range g.leafs).foldl (internal_step g nid lid rid ch) (0, cost)

/-- Body of the `for (i ...)` loop over a node without two children. -/
def leaf_step (g : Globals) (nid ch : Nat) (c : Cache) (i : Nat) : Cache :=
  if i = nid then Function.update c (nid * g.leafs * g.chunks + i * g.chunks + ch) 0
  else Function.update c (nid * g.leafs * g.chunks + i * g.chunks + ch) (sentinel g)

def leaf_loop (g : Globals) (nid ch : Nat) (cost : Cache) : Int × Cache :=
  (0, (List.range g.leafs).foldl (leaf_step g nid ch) cost)

/-- The function `eval_subtree(cost, node, ch)`: returns `minval` and the updated cache. -/
def eval_subtree (g : Globals) (m : Mem) : Nat → Cache → Nat → Nat → Option (Int × Cache)
  | 0, _, _, _ => none
  | fuel + 1, cost, node, ch =>
    match (m node).left, (m node).right with
    | some l, some r =>
      match eval_subtree g m fuel cost l ch with
      | none => none
      | some (_, c1) =>
        match eval_subtree g m fuel c1 r ch with
        | none => none
        | some (_, c2) => some (internal_loop g (m node).id (m l).id (m r).id ch c2)
    | _, _ => some (leaf_loop g (m node).id ch cost)

/-- The rows `eval_uptree` recomputes at one node. -/
def eval_node (g : Globals) (m : Mem) (cost : Cache) (node ch : Nat) : Int × Cache :=
  match (m node).left, (m node).right with
  | some l, some r => internal_loop g (m node).id (m l).id (m r).id ch cost
  | _, _ => leaf_loop g (m node).id ch cost

/-- The function `eval_uptree(tree, node, stopper, ch)`, with `cost = tree->cost`. -/
def eval_uptree (g : Globals) (m : Mem) (tree : Nat) :
    Nat → Cache → Option Nat → Option Nat → Nat → Option (Int × Cache)
  | 0, _, _, _, _ => none
  | fuel + 1, cost, node, stopper, ch =>
    let nd := node.getD tree
    let r := eval_node g m cost nd ch
    match (m nd).up with
    | some u =>
      if some u ≠ stopper then eval_uptree g m tree fuel r.2 (some u) stopper ch
      else some r
    | none => some r

/-- The function `level(tree, node)`. -/
def level (m : Mem) (tree : Nat) : Nat → Option Nat → Option Nat
  | _, none => some 0
  | 0, some _ => none
  | fuel + 1, some p =>
    if p = tree then some 0 else (level m tree fuel (m p).up).map (· + 1)

/-- The loop `while (leva > levb && aup) { aup = aup->up; leva--; }`. -/
def raise (m : Mem) : Nat → Nat → Option Nat → Nat × Option Nat
  | leva + 1, levb, some p =>
    if leva + 1 > levb then raise m leva levb (m p).up else (leva + 1, some p)
  | leva, _, aup => (leva, aup)

/-- The loop `while (aup && bup && aup != bup) { aup = aup->up; bup = bup->up; }`. -/
def lockstep (m : Mem) : Nat → Option Nat → Option Nat → Option (Option Nat × Option Nat)
  | fuel, some a, some b =>
    if a = b then some (some a, some b)
    else match fuel with
      | 0 => none
      | fuel + 1 => lockstep m fuel (m a).up (m b).up
  | _, aup, bup => some (aup, bup)

/-- The stopper that `eval_tree` computes from the two endpoints. -/
def find_stopper (m : Mem) (tree : Nat) (fuel : Nat) (ra rb : Option Nat) : Option (Option Nat) :=
  match level m tree fuel ra, level m tree fuel rb with
  | some leva, some levb =>
    let a1 := raise m leva levb ra
    let b1 := raise m levb a1.1 rb
    match lockstep m fuel a1.2 b1.2 with
    | some (aup, bup) => some (if aup = bup then aup else none)
    | none => none
  | _, _ => none

/-- Body of the `for (ch ...)` loop of `eval_tree`. -/
def eval_tree_step (g : Globals) (m : Mem) (tree fuel : Nat) (ra rb : Option Nat)
    (s : Option (Int × Cache)) (ch : Nat) : Option (Int × Cache) :=
  match s with
  | none => none
  | some (value, cost) =>
    if g.bootw ch ≠ 0 then
      if ra = none ∧ rb = none then
        match eval_subtree g m fuel cost tree ch with
        | some (v, c) => some (value + g.bootw ch * v, c)
        | none => none
      else
        match find_stopper m tree fuel ra rb with
        | none => none
        | some stopper =>
          match eval_uptree g m tree fuel cost ra stopper ch with
          | none => none
          | some (_, c1) =>
            match eval_uptree g m tree fuel c1 rb none ch with
            | some (v, c2) => some (value + g.bootw ch * v, c2)
            | none => none
    else some (value, cost)

/-- The function `eval_tree(tree, ra, rb)`. The cache `tree->cost` is `none` when it is `NULL`;
it is then allocated (`fresh` is the content of the new block) and the endpoints are dropped. -/
def eval_tree (g : Globals) (m : Mem) (fresh : Cache) (fuel : Nat) (tree : Nat)
    (cache : Option Cache) (ra rb : Option Nat) : Option (Int × Cache) :=
  match cache with
  | none => (List.range g.chunks).foldl (eval_tree_step g m tree fuel none none) (some (0, fresh))
  | some cost => (List.range g.chunks).foldl (eval_tree_step g m tree fuel ra rb) (some (0, cost))

/-! ## Cache snapshots -/

/-- The two inner loops of `store_cost_uptree` for one node id. -/
def store_row (g : Globals) (id : Nat) (cost : Cache) : Cache :=
  (List.range g.chunks).foldl (fun c ch =>
    if g.bootw ch ≠ 0 then
      (List.range g.leafs).foldl (fun c i =>
        Function.update c ((g.n + id) * g.leafs * g.chunks + i * g.chunks + ch)
          (c (id * g.leafs * g.chunks + i * g.chunks + ch))) c
    else c) cost

/-- The two inner loops of `restore_cost_uptree` for one node id. -/
def restore_row (g : Globals) (id : Nat) (cost : Cache) : Cache :=
  (List.range g.chunks).foldl (fun c ch =>
    if g.bootw ch ≠ 0 then
      (List.range g.leafs).foldl (fun c i =>
        Function.update c (id * g.leafs * g.chunks + i * g.chunks + ch)
          (c ((g.n + id) * g.leafs * g.chunks + i * g.chunks + ch))) c
    else c) cost

/-- The function `store_cost_uptree(tree, node)`. -/
def store_cost_uptree (g : Globals) (m : Mem) : Nat → Cache → Option Nat → Option Cache
  | _, cost, none => some cost
  | 0, _, some _ => none
  | fuel + 1, cost, some p => store_cost_uptree g m fuel (store_row g (m p).id cost) (m p).up

/-- The function `restore_cost_uptree(tree, node)`. -/
def restore_cost_uptree (g : Globals) (m : Mem) : Nat → Cache → Option Nat → Option Cache
  | _, cost, none => some cost
  | 0, _, some _ => none
  | fuel + 1, cost, some p => restore_cost_uptree g m fuel (restore_row g (m p).id cost) (m p).up

/-! ## Tree edits -/

/-- The function `same_branch(a, b)`; the two upward walks share the fuel bound. -/
def reaches_up (m : Mem) : Nat → Option Nat → Nat → Option Bool
  | _, none, _ => some false
  | 0, some _, _ => none
  | fuel + 1, some p, b => if p = b then some true else reaches_up m fuel (m p).up b

def same_branch (m : Mem) (fuel : Nat) (a b : Nat) : Option Bool :=
  if a = b then some true
  else match reaches_up m fuel (m a).up b with
    | none => none
    | some true => some true
    | some false => reaches_up m fuel (m b).up a

/-- The idiom `if (p->left == old) p->left = new; else p->right = new;`. -/
def replace_child (m : Mem) (p old new : Nat) : Mem :=
  if (m p).left = some old then setLeft m p (some new) else setRight m p (some new)

/-- The swap branch of `do_mutate_tree` (`alternate` set). A `NULL` dereference is `none`. -/
def do_swap (m : Mem) (a b : Nat) : Option Mem := do
  let pa ← (m a).up
  let m1 := replace_child m pa a b
  let pb ← (m1 b).up
  let m2 := replace_child m1 pb b a
  let tmp := (m2 a).up
  let m3 := setUp m2 a (m2 b).up
  pure (setUp m3 b tmp)

/-- The regraft branch of `do_mutate_tree` (`alternate` clear): returns the memory and the
root. -/
def do_regraft (m : Mem) (tree a b : Nat) : Option (Mem × Nat) := do
  let pa ← (m a).up
  let tmp ← if (m pa).left = some a then (m pa).right else (m pa).left
  let m1 := setUp m tmp (m pa).up
  let pa1 ← (m1 a).up
  let (m2, tree2) :=
    match (m1 pa1).up with
    | some g => (replace_child m1 g pa1 tmp, tree)
    | none => (m1, tmp)
  let tmp2 ← (m2 b).up
  let m3 := setUp m2 b (m2 a).up
  let pa3 ← (m3 a).up
  let m4 := setUp m3 pa3 (some tmp2)
  let pa4 ← (m4 a).up
  let m5 := replace_child m4 tmp2 b pa4
  let pa5 ← (m5 a).up
  let m6 := setLeft m5 pa5 (some b)
  let pa6 ← (m6 a).up
  pure (setRight m6 pa6 (some a), tree2)

/-- The function `do_mutate_tree(tree, a, b)` under the global flag `alternate`. -/
def do_mutate_tree (alternate : Bool) (m : Mem) (tree a b : Nat) : Option (Mem × Nat) :=
  if alternate then (do_swap m a b).map (fun m1 => (m1, tree))
  else do_regraft m tree a b

/-- The acceptance test that ends the resampling loop of `prep_mutate_tree`, for the nodes
`a = array[i]` and `b = array[j]` and the value of `alternate` after the toggle. -/
def prep_filter (m : Mem) (fuel : Nat) (alternate : Bool) (a b : Nat) : Option Bool :=
  match (m a).up, (m b).up with
  | some pa, some pb =>
    match same_branch m fuel a b with
    | none => none
    | some sb =>
      some (!sb && decide (pa ≠ pb) &&
        (alternate || ((m pa).up.isSome && (m pb).up.isSome)))
  | _, _ => some false

/-- The scoring endpoints `(ra, rb)` that `prep_mutate_tree` returns. -/
def prep_endpoints (m : Mem) (alternate : Bool) (a b : Nat) : Option (Nat × Option Nat) :=
  if alternate then some (a, some b)
  else match (m a).up with
    | none => none
    | some pa => some (a, if (m pa).left = some a then (m pa).right else (m pa).left)

/-! ## One iteration of `optimize_tree` -/

/-- The proposal of one iteration of `optimize_tree` (build without `COPY_AND_REPLACE`): the
snapshots of the chains above `a` and `b`, the edit, and the incremental evaluation between the
endpoints. The root that `do_mutate_tree` returns is dropped, as in the source. -/
def optimize_propose (g : Globals) (m : Mem) (fresh : Cache) (fuel tree : Nat)
    (alternate : Bool) (a b ra : Nat) (rb : Option Nat) (cost : Cache) :
    Option (Mem × Int × Cache) := do
  let s1 ← store_cost_uptree g m fuel cost (some a)
  let s2 ← store_cost_uptree g m fuel s1 (some b)
  let (m1, _) ← do_mutate_tree alternate m tree a b
  let (newval, c1) ← eval_tree g m1 fresh fuel tree (some s2) (some ra) rb
  pure (m1, newval, c1)

/-- The `else` branch of the acceptance test: the edit back on the endpoints and the two
restores. -/
def optimize_reject (g : Globals) (m1 : Mem) (fuel tree : Nat) (alternate : Bool)
    (a b ra : Nat) (rb : Option Nat) (c1 : Cache) : Option (Mem × Cache) := do
  let rb1 ← rb
  let (m2, _) ← do_mutate_tree alternate m1 tree ra rb1
  let t1 ← restore_cost_uptree g m2 fuel c1 (some a)
  let t2 ← restore_cost_uptree g m2 fuel t1 (some b)
  pure (m2, t2)

/-! ## Initial tree -/

/-- State of `init_tree`: the allocator (`alloc` nodes created so far, at addresses
`0 .. alloc-1`), the lookup array, the permutation buffer, the counter `n` and the root. -/
structure InitState where
  alloc : Nat
  mem : Mem
  array : Nat → Option Nat
  permut : Nat → Nat
  n : Nat
  tree : Option Nat

/-- The function `new_node(i)`: a fresh record with id `i` and no links. -/
def new_node (s : InitState) (i : Nat) : InitState × Nat :=
  ({ s with alloc := s.alloc + 1,
            mem := Function.update s.mem s.alloc ⟨i, none, none, none⟩ }, s.alloc)

/-- One round of the main loop of `init_tree`; `pi` is the random draw of the round. -/
def init_step (leafs : Nat) (pi : Nat → Nat) (s : InitState) (i : Nat) : InitState :=
  let (s1, new) := new_node s (s.permut (pi i))
  let s2 := { s1 with permut := Function.update s1.permut (pi i) (s1.permut (leafs - i - 1)),
                      array := Function.update s1.array (s1.mem new).id (some new) }
  match s2.tree with
  | none =>
    let (s3, up) := new_node s2 s2.n
    let mem1 := setUp s3.mem new (some up)
    let mem2 := setRight mem1 up (some new)
    { s3 with n := s2.n + 1, mem := mem2,
              array := Function.update s3.array (mem1 up).id (some up), tree := some up }
  | some t =>
    if (s2.mem t).left = none then
      { s2 with mem := setUp (setLeft s2.mem t (some new)) new (some t) }
    else
      let (s3, up) := new_node s2 s2.n
      let mem1 := setUp s3.mem new (some up)
      let mem2 := setLeft mem1 up (some new)
      let mem3 := setRight mem2 up (some t)
      let mem4 := setUp mem3 t (some up)
      { s3 with n := s2.n + 1, mem := mem4,
                array := Function.update s3.array (mem1 up).id (some up), tree := some up }

/-- The function `init_tree()` for `leafs` witnesses and the draws `pi 0, pi 1, ...`; the
content of the buffer `permut` outside `[0, leafs)` is `junk`. -/
def init_tree (leafs : Nat) (pi : Nat → Nat) (junk : Nat → Nat) : InitState :=
  (List.range leafs).foldl (init_step leafs pi)
    { alloc := 0, mem := fun _ => ⟨0, none, none, none⟩, array := fun _ => none,
      permut := fun j => if j < leafs then j else junk j, n := leafs, tree := none }

/-! ## Well-formed trees and admitted pairs -/

/-- Number of `up` links between `p` and the parentless node above it, following at most
`fuel` links. -/
def depth (m : Mem) : Nat → Nat → Nat
  | 0, _ => 0
  | fuel + 1, p =>
    match (m p).up with
    | none => 0
    | some q => depth m fuel q + 1

/-- The nodes at the addresses `0 .. n-1` form a binary tree with root `root`: links stay
inside the node set, child and parent links are mutually consistent, a node has no child or two
different children, `root` is the only parentless node, and no `up` chain cycles. -/
structure TreeOK (n : Nat) (m : Mem) (root : Nat) : Prop where
  root_lt : root < n
  root_up : (m root).up = none
  one_root : ∀ p < n, (m p).up = none → p = root
  up_lt : ∀ p < n, ∀ q ∈ (m p).up, q < n
  left_lt : ∀ p < n, ∀ q ∈ (m p).left, q < n
  right_lt : ∀ p < n, ∀ q ∈ (m p).right, q < n
  two : ∀ p < n, ((m p).left = none ↔ (m p).right = none)
  lr_ne : ∀ p < n, ∀ q ∈ (m p).left, (m p).right ≠ some q
  left_up : ∀ p < n, ∀ q ∈ (m p).left, (m q).up = some p
  right_up : ∀ p < n, ∀ q ∈ (m p).right, (m q).up = some p
  up_child : ∀ p < n, ∀ q ∈ (m p).up, (m q).left = some p ∨ (m q).right = some p
  acyclic : ∀ p < n, depth m n p < n

instance (n : Nat) (m : Mem) (root : Nat) : Decidable (TreeOK n m root) :=
  decidable_of_iff
    (root < n ∧ (m root).up = none ∧ (∀ p < n, (m p).up = none → p = root) ∧
      (∀ p < n, ∀ q ∈ (m p).up, q < n) ∧ (∀ p < n, ∀ q ∈ (m p).left, q < n) ∧
      (∀ p < n, ∀ q ∈ (m p).right, q < n) ∧
      (∀ p < n, ((m p).left = none ↔ (m p).right = none)) ∧
      (∀ p < n, ∀ q ∈ (m p).left, (m p).right ≠ some q) ∧
      (∀ p < n, ∀ q ∈ (m p).left, (m q).up = some p) ∧
      (∀ p < n, ∀ q ∈ (m p).right, (m q).up = some p) ∧
      (∀ p < n, ∀ q ∈ (m p).up, (m q).left = some p ∨ (m q).right = some p) ∧
      (∀ p < n, depth m n p < n))
    ⟨fun ⟨h1, h2, h3, h4, h5, h6, h7, h8, h9, h10, h11, h12⟩ =>
      ⟨h1, h2, h3, h4, h5, h6, h7, h8, h9, h10, h11, h12⟩,
     fun h => ⟨h.root_lt, h.root_up, h.one_root, h.up_lt, h.left_lt, h.right_lt, h.two,
      h.lr_ne, h.left_up, h.right_up, h.up_child, h.acyclic⟩⟩

/-- The ids of the `n` nodes are below `n` and pairwise different: a node is addressed by its
id, and its cache row by `id*leafs*chunks`. -/
structure IdsOK (n : Nat) (m : Mem) : Prop where
  id_lt : ∀ p < n, (m p).id < n
  id_inj : ∀ p < n, ∀ q < n, (m p).id = (m q).id → p = q

instance (n : Nat) (m : Mem) : Decidable (IdsOK n m) :=
  decidable_of_iff
    ((∀ p < n, (m p).id < n) ∧ (∀ p < n, ∀ q < n, (m p).id = (m q).id → p = q))
    ⟨fun ⟨h1, h2⟩ => ⟨h1, h2⟩, fun h => ⟨h.id_lt, h.id_inj⟩⟩

/-- The leaves are the nodes numbered `0 .. leafs-1`. -/
def LeafIds (g : Globals) (m : Mem) : Prop :=
  ∀ p < g.n, ((m p).left = none ↔ (m p).id < g.leafs)

instance (g : Globals) (m : Mem) : Decidable (LeafIds g m) := by
  unfold LeafIds; infer_instance

/-- The pair `(a, b)` of nodes passes the filter of `prep_mutate_tree` for the move kind
`alternate` (`true`: swap, `false`: regraft). -/
def Admitted (n : Nat) (m : Mem) (alternate : Bool) (a b : Nat) : Prop :=
  a < n ∧ b < n ∧ prep_filter m n alternate a b = some true

instance (n : Nat) (m : Mem) (alternate : Bool) (a b : Nat) :
    Decidable (Admitted n m alternate a b) := by
  unfold Admitted; infer_instance

/-- The node `y` lies on the `up` chain that starts at `x` (`y` is `x` or an ancestor of it). -/
inductive Anc (m : Mem) : Nat → Nat → Prop
  | refl (x : Nat) : Anc m x x
  | step {x p y : Nat} : (m x).up = some p → Anc m p y → Anc m x y

/-! ## Choice of the two nodes in `prep_mutate_tree` -/

/-- The two ids `(i, j)` that one pass of the loop of `prep_mutate_tree` makes of its two
scaled draws `u = (int)((float)n*rand()/(RAND_MAX+1.0))` and
`v = (int)((float)(n-1)*rand()/(RAND_MAX+1.0))`: `i = u; j = v; if (j == i) j++;`. The
floating-point scaling is outside the model; its `int` results are the inputs. -/
def select_pair (u v : Int) : Int × Int := (u, if v = u then v + 1 else v)

/-- One pass of the `while (1)` loop of `prep_mutate_tree` on the scaled draws `u`, `v`:
`some none` stands for a pass that starts over (`continue`, or a failed acceptance test),
`some (some (a, b))` for `break`, and `none` for a dereference of `NULL` or a walk of
`same_branch` that does not end. `array` is `tree->array`. -/
def prep_pass (m : Mem) (array : Nat → Option Nat) (n : Nat) (alternate : Bool) (u v : Int) :
    Option (Option (Nat × Nat)) :=
  let ij := select_pair u v
  if ij.1 < 0 ∨ ij.1 ≥ n ∨ ij.2 < 0 ∨ ij.2 ≥ n then some none
  else
    match array ij.1.toNat, array ij.2.toNat with
    | some a, some b =>
      match prep_filter m n alternate a b with
      | none => none
      | some true => some (some (a, b))
      | some false => some none
    | _, _ => none

/-- The `while (1)` loop of `prep_mutate_tree`: `draws k` is the `k`-th scaled draw of the
run; returns the pair and the number of draws used so far. -/
def prep_loop (m : Mem) (array : Nat → Option Nat) (n : Nat) (alternate : Bool)
    (draws : Nat → Int) : Nat → Nat → Option (Nat × Nat × Nat)
  | 0, _ => none
  | fuel + 1, k =>
    match prep_pass m array n alternate (draws k) (draws (k + 1)) with
    | none => none
    | some (some (a, b)) => some (a, b, k + 2)
    | some none => prep_loop m array n alternate draws fuel (k + 2)

/-- What `prep_mutate_tree` leaves behind: the global `alternate`, the out-parameters `a`,
`b`, `ra`, `rb`, and the number `k` of scaled draws used so far. -/
structure PrepResult where
  alternate : Bool
  a : Nat
  b : Nat
  ra : Nat
  rb : Option Nat
  k : Nat
deriving DecidableEq

/-- The function `prep_mutate_tree(tree, &a, &b, &ra, &rb)`: toggles `alternate`, picks the
pair and sets the scoring endpoints. -/
def prep_mutate_tree (m : Mem) (array : Nat → Option Nat) (n : Nat) (alternate : Bool)
    (draws : Nat → Int) (fuel k : Nat) : Option PrepResult :=
  match prep_loop m array n (!alternate) draws fuel k with
  | none => none
  | some (a, b, k1) =>
    match prep_endpoints m (!alternate) a b with
    | none => none
    | some (ra, rb) => some ⟨!alternate, a, b, ra, rb, k1⟩

/-! ## Bootstrap weights -/

/-- The loop `i = -1; while (i < 0 || i >= chunks) i = (int)((float)chunks*rand()/(RAND_MAX+1.0));`
of `init_bootstrap` on the scaled draws from position `k` on: returns the index and the
position after the draws it used. -/
def draw_chunk (chunks : Nat) (draws : Nat → Int) : Nat → Nat → Option (Nat × Nat)
  | 0, _ => none
  | fuel + 1, k =>
    if draws k < 0 ∨ draws k ≥ chunks then draw_chunk chunks draws fuel (k + 1)
    else some ((draws k).toNat, k + 1)

/-- Body of the second loop of `init_bootstrap`: `strap` is the file-scope variable. -/
def bootstrap_step (chunks : Nat) (strap : Int) (draws : Nat → Int) (fuel : Nat)
    (s : Option ((Nat → Int) × Nat)) (ch : Nat) : Option ((Nat → Int) × Nat) :=
  match s with
  | none => none
  | some (bootw, k) =>
    if strap = 1 then some (Function.update bootw ch (bootw ch + 1), k)
    else
      match draw_chunk chunks draws fuel k with
      | none => none
      | some (i, k1) => some (Function.update bootw i (bootw i + 1), k1)

/-- The function `init_bootstrap()`: the weights (entries `0 .. chunks-1`; the array has no
other entry) and the position in the stream of scaled draws. -/
def init_bootstrap (chunks : Nat) (strap : Int) (draws : Nat → Int) (fuel k : Nat) :
    Option ((Nat → Int) × Nat) :=
  (List.range chunks).foldl (bootstrap_step chunks strap draws fuel) (some (fun _ => 0, k))

/-- The file-scope variable `strap` (`int boot, strap, n, leafs, chunks, ...;`): zero at
program start, and no statement of the program assigns it. The parameter `strap` of `compute`
is another variable, which hides it inside `compute` only. -/
def strap_global : Int := 0

/-- The weights of the first replicate of `compute(dirname_in, chunkSize, strap, nb_opti,
print_dot)`: the loop `for (boot = 0; boot < strap; boot++)` runs on the parameter `strap`,
and its first statement `init_bootstrap()` reads the file-scope `strap`. No draw is made
before it. `none` when the loop body is not entered. -/
def compute_first_weights (chunks : Nat) (strap : Int) (draws : Nat → Int) (fuel : Nat) :
    Option ((Nat → Int) × Nat) :=
  if 0 < strap then init_bootstrap chunks strap_global draws fuel 0 else none

/-! ## The fill assignment -/

/-- The per-node arrays `node->fill`: `fill p ch` is `fill[ch]` of the node at address `p`. -/
abbrev Fill := Nat → Nat → Nat

/-- The value `val` that `fill_subtree` computes for the witness `i`: the table entry under
the fill of the parent (`Kx` for the parentless node) plus the cost entry of the node. -/
def fill_val (g : Globals) (m : Mem) (cost : Cache) (fill : Fill) (node ch i : Nat) : Int :=
  (match (m node).up with
   | some p => g.Kyx (fill p ch * g.leafs * g.chunks + i * g.chunks + ch)
   | none => g.Kx (i * g.chunks + ch))
  + cost ((m node).id * g.leafs * g.chunks + i * g.chunks + ch)

/-- Body of the `for (i ...)` loop of `fill_subtree`; the state is `minval` and the fill
arrays. The test `isinf((float)minval)` is false for every `int` and is dropped. -/
def fill_step (g : Globals) (m : Mem) (cost : Cache) (node ch : Nat) (s : Int × Fill)
    (i : Nat) : Int × Fill :=
  if i = 0 ∨ fill_val g m cost s.2 node ch i < s.1 then
    (fill_val g m cost s.2 node ch i, Function.update s.2 node (Function.update (s.2 node) ch i))
  else s

/-- Body of the `for (ch ...)` loop of `fill_subtree`. -/
def fill_chunk (g : Globals) (m : Mem) (cost : Cache) (node : Nat) (s : Int × Fill)
    (ch : Nat) : Int × Fill :=
  if g.bootw ch ≠ 0 then (List.range g.leafs).foldl (fill_step g m cost node ch) s else s

/-- The two loops of `fill_subtree` at one node (`minval` starts at `0`). -/
def fill_node (g : Globals) (m : Mem) (cost : Cache) (node : Nat) (fill : Fill) : Fill :=
  ((List.range g.chunks).foldl (fill_chunk g m cost node) (0, fill)).2

/-- The function `fill_subtree(cost, node)`; it reads `cost` and writes only fill arrays. -/
def fill_subtree (g : Globals) (m : Mem) (cost : Cache) : Nat → Option Nat → Fill → Option Fill
  | _, none, fill => some fill
  | 0, some _, _ => none
  | fuel + 1, some p, fill =>
    match fill_subtree g m cost fuel (m p).left (fill_node g m cost p fill) with
    | none => none
    | some f1 => fill_subtree g m cost fuel (m p).right f1

/-! ## The loop of `optimize_tree` -/

/-- The variables that `optimize_tree` carries from one iteration to the next: the tree, its
cache `tree->cost`, the fill arrays, the global `alternate`, `minval`, `bestval`, and the
number `k` of scaled draws that `prep_mutate_tree` has used. -/
structure OptState where
  m : Mem
  cost : Cache
  fill : Fill
  alternate : Bool
  minval : Int
  bestval : Int
  k : Nat

/-- The statements of `optimize_tree` before the loop:
`bestval = minval = eval_tree(tree, NULL, NULL); fill_subtree(tree->cost, tree);`. -/
def optimize_start (g : Globals) (m : Mem) (tree : Nat) (fresh : Cache) (fuel : Nat)
    (cache : Option Cache) (fill : Fill) (alternate : Bool) (k : Nat) : Option OptState :=
  match eval_tree g m fresh fuel tree cache none none with
  | none => none
  | some (v, c) =>
    match fill_subtree g m c fuel (some tree) fill with
    | none => none
    | some f => some ⟨m, c, f, alternate, v, v, k⟩

/-- One pass of the loop `while (iter++ < iters)` (build without `COPY_AND_REPLACE`). The
floating-point part of the acceptance test is an input of the model: `tpos` is the truth value
of `T > 0.0`, and `lucky` the one of `(dif=(float)(minval-newval)/T) > -10.0 && drand48() <
exp(dif)`; the test itself is `newval <= minval || (T > 0.0 && ...)`. -/
def optimize_iter (g : Globals) (array : Nat → Option Nat) (tree : Nat) (fresh : Cache)
    (fuel : Nat) (draws : Nat → Int) (tpos lucky : Bool) (s : OptState) : Option OptState :=
  match prep_mutate_tree s.m array g.n s.alternate draws fuel s.k with
  | none => none
  | some r =>
    match optimize_propose g s.m fresh fuel tree r.alternate r.a r.b r.ra r.rb s.cost with
    | none => none
    | some (m1, newval, c1) =>
      if newval ≤ s.minval ∨ (tpos = true ∧ lucky = true) then
        if newval < s.bestval then
          match fill_subtree g m1 c1 fuel (some tree) s.fill with
          | none => none
          | some f => some ⟨m1, c1, f, r.alternate, newval, newval, r.k⟩
        else some ⟨m1, c1, s.fill, r.alternate, newval, s.bestval, r.k⟩
      else
        match optimize_reject g m1 fuel tree r.alternate r.a r.b r.ra r.rb c1 with
        | none => none
        | some (m2, t2) => some ⟨m2, t2, s.fill, r.alternate, s.minval, s.bestval, r.k⟩

/-- The state of `optimize_tree` after `t` passes of its loop; pass `iter` runs with
`tpos iter` and `lucky iter`. -/
def optimize_after (g : Globals) (array : Nat → Option Nat) (tree : Nat) (fresh : Cache)
    (fuel : Nat) (draws : Nat → Int) (tpos lucky : Nat → Bool) (s0 : Option OptState) :
    Nat → Option OptState
  | 0 => s0
  | t + 1 =>
    match optimize_after g array tree fresh fuel draws tpos lucky s0 t with
    | none => none
    | some s => optimize_iter g array tree fresh fuel draws (tpos (t + 1)) (lucky (t + 1)) s

/-- The function `optimize_tree(iters, out_file)`: the value it returns (`bestval`) and the
state it leaves. Printing is left out. -/
def optimize_tree (g : Globals) (array : Nat → Option Nat) (m : Mem) (tree : Nat)
    (fresh : Cache) (fuel : Nat) (cache : Option Cache) (fill : Fill) (alternate : Bool)
    (draws : Nat → Int) (tpos lucky : Nat → Bool) (iters : Nat) : Option (Int × OptState) :=
  (optimize_after g array tree fresh fuel draws tpos lucky
    (optimize_start g m tree fresh fuel cache fill alternate 0) iters).map
    (fun s => (s.bestval, s))

/-! ## The cost-matrix builder `read_file`

Bytes are natural numbers (`'\n'` is 10, `' '` is 32, the terminator is 0). A `FILE *` is a
`Stream`; the array `char buf[4096]` is a map from indices to bytes, and a store outside the
array, a scan for a terminator that leaves it, or a call of `fgets` with a size that is not
positive gives `none`. The files of the directory that pass the name filter are an input, in
the order `readdir` lists them. What `gzputs` and `gzflush(Z_SYNC_FLUSH)` leave in `total_out`
for a string written to a newly opened `tmp.gz` is the input `zout`. -/

/-- The array `char buf[4096]`: index to byte. -/
abbrev Buf := Nat → Nat

/-- A stream opened for reading: the bytes of the file, the position, and the end-of-file
indicator. -/
structure Stream where
  data : List Nat
  pos : Nat
  eof : Bool
deriving DecidableEq

/-- The call `fopen(name, "r")` on a file with these bytes. -/
def fopen (data : List Nat) : Stream := ⟨data, 0, false⟩

/-- The call `fseek(f, off, SEEK_SET)`: sets the position and clears the end-of-file
indicator. -/
def fseek (f : Stream) (off : Nat) : Stream := ⟨f.data, off, false⟩

/-- The bytes that `fgets` takes from the rest of the file when it may take at most `k`: up to
and including the first newline. -/
def take_line : Nat → List Nat → List Nat
  | 0, _ => []
  | _ + 1, [] => []
  | k + 1, c :: cs => if c = 10 then [c] else c :: take_line k cs

/-- The buffer after the bytes `l` have been stored from index `off` on. -/
def write_at (buf : Buf) (off : Nat) (l : List Nat) : Buf :=
  fun i => if off ≤ i ∧ i < off + l.length then l.getD (i - off) 0 else buf i

/-- The call `fgets(buf + off, size, f)` of the C library: at most `size - 1` bytes are read, none
after a newline, and a terminator is stored after them; when the end of the file is met before
any byte is read the array is left as it is, and the end-of-file indicator is set whenever the
end of the file is met. -/
def fgets (buf : Buf) (off : Nat) (size : Int) (f : Stream) : Option (Buf × Stream) :=
  if size ≤ 0 then none
  else
    let k := (size - 1).toNat
    let got := take_line k (f.data.drop f.pos)
    if k ≠ 0 ∧ got = [] then some (buf, ⟨f.data, f.pos, true⟩)
    else some (write_at buf off (got ++ [0]),
      ⟨f.data, f.pos + got.length, f.eof || (decide (got.length < k) && got.getLast? != some 10)⟩)

/-- The assignment `buf[i] = v`. -/
def store (buf : Buf) (i v : Nat) : Option Buf :=
  if i < 4096 then some (Function.update buf i v) else none

/-- The scan of `strlen` over at most `fuel` cells from index `off` on. -/
def strlen_from (buf : Buf) : Nat → Nat → Option Nat
  | 0, _ => none
  | fuel + 1, off =>
    if buf off = 0 then some 0 else (strlen_from buf fuel (off + 1)).map (fun l => l + 1)

/-- The call `strlen(buf + off)`. -/
def strlen (buf : Buf) (off : Nat) : Option Nat := strlen_from buf (4096 - off) off

/-- The test `!strcmp(buf + off, lit)` for a string literal `lit` (given without its
terminator). -/
def str_is (buf : Buf) : Nat → List Nat → Bool
  | off, [] => decide (buf off = 0)
  | off, c :: cs => decide (buf off = c) && str_is buf (off + 1) cs

/-- The call `strcpy(buf + off, lit)` for a string literal. -/
def strcpy (buf : Buf) (off : Nat) (lit : List Nat) : Option Buf :=
  if off + lit.length < 4096 then some (write_at buf off (lit ++ [0])) else none

/-- The test `!strncmp(buf + a, buf + b, k)`. -/
def strncmp_eq (buf : Buf) : Nat → Nat → Nat → Bool
  | 0, _, _ => true
  | k + 1, a, b =>
    if buf a ≠ buf b then false
    else if buf a = 0 then true
    else strncmp_eq buf k (a + 1) (b + 1)

/-- The string at `buf + off`, read over at most `fuel` cells. -/
def cstr (buf : Buf) : Nat → Nat → List Nat
  | 0, _ => []
  | fuel + 1, off => if buf off = 0 then [] else buf off :: cstr buf fuel (off + 1)

/-- The literal `"PUUT\n"`. -/
def lit_PUUT : List Nat := [80, 85, 85, 84, 10]

/-- The literal `"POIS\n"`. -/
def lit_POIS : List Nat := [80, 79, 73, 83, 10]

/-- The loop of `count_lines` after the first `fgets`:
`while (!feof(f)) { line++; fgets(tmp, 2048, f); }`. The contents of `tmp` are never read. -/
def count_loop : Nat → Stream → Nat → Option Nat
  | 0, _, _ => none
  | fuel + 1, f, line =>
    if f.eof then some line
    else
      match fgets (fun _ => 0) 0 2048 f with
      | none => none
      | some (_, f1) => count_loop fuel f1 (line + 1)

/-- The function `count_lines(fname)` on a file with these bytes. -/
def count_lines (data : List Nat) : Option Nat :=
  match fgets (fun _ => 0) 0 2048 (fopen data) with
  | none => none
  | some (_, f) => count_loop (data.length + 1) f 0

/-- The arrays that `read_file` fills, and its buffer. -/
structure Tables where
  buf : Buf
  Kx : Nat → Int
  Kyx : Nat → Int
  empty : Nat → Int
  unique : Nat → Int

/-- One pass of the first line loop of a segment (built without `REPLACE_AMP_BY_ET`); `e` is
the index `f1i*chunks+ch`. -/
def read_line1 (e : Nat) (buf : Buf) (bufpos1 : Nat) (f1 : Stream) (empty : Nat → Int) :
    Option (Buf × Nat × Stream × (Nat → Int)) :=
  let buf1 := if 0 < bufpos1 ∧ buf (bufpos1 - 1) = 10 then Function.update buf (bufpos1 - 1) 32
    else buf
  match fgets buf1 bufpos1 (2048 - (bufpos1 : Int)) f1 with
  | none => none
  | some (buf2, f1a) =>
    let empty1 := if buf2 bufpos1 ≠ 0 ∧ buf2 bufpos1 ≠ 10 then Function.update empty e 0
      else empty
    if str_is buf2 bufpos1 lit_PUUT = false ∧ str_is buf2 bufpos1 lit_POIS = false then
      match strlen buf2 bufpos1 with
      | none => none
      | some len => some (buf2, bufpos1 + len, f1a, empty1)
    else
      match store buf2 bufpos1 10 with
      | none => none
      | some buf3 => some (buf3, bufpos1 + 1, f1a, empty1)

/-- The loop `for (line = 0; !feof(f1) && line < chunksize; line++)`, with `k` passes left. -/
def read_lines1 (e : Nat) : Nat → Buf → Nat → Stream → (Nat → Int) →
    Option (Buf × Nat × Stream × (Nat → Int))
  | 0, buf, bufpos1, f1, empty => some (buf, bufpos1, f1, empty)
  | k + 1, buf, bufpos1, f1, empty =>
    if f1.eof then some (buf, bufpos1, f1, empty)
    else
      match read_line1 e buf bufpos1 f1 empty with
      | none => none
      | some (buf1, bp, f1a, empty1) => read_lines1 e k buf1 bp f1a empty1

/-- The statements after a line loop: `if (bufpos == start || buf[bufpos-1] != '\n')
buf[bufpos++] = '\n'; buf[bufpos] = '\0';`. -/
def terminate (buf : Buf) (start bufpos : Nat) : Option (Buf × Nat) :=
  if bufpos = start ∨ buf (bufpos - 1) ≠ 10 then
    match store buf bufpos 10 with
    | none => none
    | some buf1 =>
      match store buf1 (bufpos + 1) 0 with
      | none => none
      | some buf2 => some (buf2, bufpos + 1)
  else
    match store buf bufpos 0 with
    | none => none
    | some buf1 => some (buf1, bufpos)

/-- The first half of the body of the segment loop: the segment of `f1` is read into the
buffer, `buf[bufpos1] = '\0'; bufpos1 = strlen(buf);`, and the text is terminated. -/
def read_chunk1 (chunksize : Int) (e : Nat) (buf : Buf) (f1 : Stream) (empty : Nat → Int) :
    Option (Buf × Nat × Stream × (Nat → Int)) :=
  match read_lines1 e chunksize.toNat buf 0 f1 empty with
  | none => none
  | some (buf1, bp, f1a, empty1) =>
    match store buf1 bp 0 with
    | none => none
    | some buf2 =>
      match strlen buf2 0 with
      | none => none
      | some len =>
        match terminate buf2 0 len with
        | none => none
        | some (buf3, bufpos1) => some (buf3, bufpos1, f1a, empty1)

/-- One pass of the second line loop of a segment. -/
def read_line2 (buf : Buf) (bufpos1 bufpos2 : Nat) (f2 : Stream) :
    Option (Buf × Nat × Stream) :=
  let buf1 := if bufpos1 < bufpos2 ∧ buf (bufpos2 - 1) = 10
    then Function.update buf (bufpos2 - 1) 32 else buf
  match fgets buf1 bufpos2 (4096 - (bufpos2 : Int)) f2 with
  | none => none
  | some (buf2, f2a) =>
    match (if str_is buf2 bufpos2 [38, 10] = true then strcpy buf2 bufpos2 [101, 116, 10]
      else some buf2) with
    | none => none
    | some buf3 =>
      if str_is buf3 bufpos2 lit_PUUT = false ∧ str_is buf3 bufpos2 lit_POIS = false then
        match strlen buf3 bufpos2 with
        | none => none
        | some len => some (buf3, bufpos2 + len, f2a)
      else
        match store buf3 bufpos2 10 with
        | none => none
        | some buf4 => some (buf4, bufpos2 + 1, f2a)

/-- The loop `for (line = 0; !feof(f2) && line < chunksize; line++)`, with `k` passes left. -/
def read_lines2 (bufpos1 : Nat) : Nat → Buf → Nat → Stream → Option (Buf × Nat × Stream)
  | 0, buf, bufpos2, f2 => some (buf, bufpos2, f2)
  | k + 1, buf, bufpos2, f2 =>
    if f2.eof then some (buf, bufpos2, f2)
    else
      match read_line2 buf bufpos1 bufpos2 f2 with
      | none => none
      | some (buf1, bp, f2a) => read_lines2 bufpos1 k buf1 bp f2a

/-- The second half of the reading: the segment of `f2` is read behind the text of `f1`, the
text is terminated, and `bufpos2 = bufpos1+strlen(buf+bufpos1)`. -/
def read_chunk2 (chunksize : Int) (buf : Buf) (bufpos1 : Nat) (f2 : Stream) :
    Option (Buf × Nat × Stream) :=
  match read_lines2 bufpos1 chunksize.toNat buf bufpos1 f2 with
  | none => none
  | some (buf1, bp, f2a) =>
    match terminate buf1 bufpos1 bp with
    | none => none
    | some (buf2, _) =>
      match strlen buf2 bufpos1 with
      | none => none
      | some len => some (buf2, bufpos1 + len, f2a)

/-- The body of the loop `for (ch = 0; ch < chunks; ch++)` for the pair `(f1i, f2i)` (built
without `EXACT_COPY_IS_FREE`, `IGNORE_CASE` and `IGNORE_V_VS_U`). When `f2i = f1i` the two
file pointers are the same stream, which is sought back to the start of the segment before the
second reading. -/
def segment_step (zout : List Nat → Int) (chunksize : Int) (leafs chunks f1i f2i ch : Nat)
    (t : Tables) (f1 f2 : Stream) : Option (Tables × Stream × Stream) :=
  let f1offset := f1.pos
  match read_chunk1 chunksize (f1i * chunks + ch) t.buf f1 t.empty with
  | none => none
  | some (buf1, bufpos1, f1a, empty1) =>
    let Kx1 := if t.Kx (f1i * chunks + ch) = -1
      then Function.update t.Kx (f1i * chunks + ch) (zout (cstr buf1 4096 0) - 6) else t.Kx
    let g := if f2i = f1i then fseek f1a f1offset else f2
    match read_chunk2 chunksize buf1 bufpos1 g with
    | none => none
    | some (buf2, bufpos2, g1) =>
      let Kyx1 := Function.update t.Kyx (f1i * leafs * chunks + f2i * chunks + ch)
        (zout (cstr buf2 4096 0) - Kx1 (f1i * chunks + ch) - 6)
      let unique1 := if strncmp_eq buf2 (bufpos2 / 2) 0 bufpos1 = true ∧ f2i < f1i
        then Function.update t.unique (f2i * chunks + ch) 0 else t.unique
      some (⟨buf2, Kx1, Kyx1, empty1, unique1⟩, if f2i = f1i then g1 else f1a, g1)

/-- The state after the passes `ch = 0, ..., k-1` of the segment loop for the pair
`(f1i, f2i)`. -/
def segment_loop (zout : List Nat → Int) (chunksize : Int) (leafs chunks f1i f2i : Nat)
    (t : Tables) (f1 f2 : Stream) : Nat → Option (Tables × Stream × Stream)
  | 0 => some (t, f1, f2)
  | k + 1 =>
    match segment_loop zout chunksize leafs chunks f1i f2i t f1 f2 k with
    | none => none
    | some (t1, f1a, f2a) => segment_step zout chunksize leafs chunks f1i f2i k t1 f1a f2a

/-- The body of the loop `for (f2i = 0; f2i < leafs; f2i++)`: `f1` is rewound, `f2` is opened
(or is `f1`), and the segments are compared. -/
def pair_step (zout : List Nat → Int) (chunksize : Int) (files : List (List Nat))
    (chunks f1i f2i : Nat) (t : Tables) (f1 : Stream) : Option (Tables × Stream) :=
  let f1a := fseek f1 0
  let f2 := if f2i ≠ f1i then fopen (files.getD f2i []) else f1a
  match segment_loop zout chunksize files.length chunks f1i f2i t f1a f2 chunks with
  | none => none
  | some (t1, f1b, _) => some (t1, f1b)

/-- The state after the passes `f2i = 0, ..., k-1` of the inner file loop. -/
def pair_loop (zout : List Nat → Int) (chunksize : Int) (files : List (List Nat))
    (chunks f1i : Nat) (t : Tables) (f1 : Stream) : Nat → Option (Tables × Stream)
  | 0 => some (t, f1)
  | k + 1 =>
    match pair_loop zout chunksize files chunks f1i t f1 k with
    | none => none
    | some (t1, f1a) => pair_step zout chunksize files chunks f1i k t1 f1a

/-- The table `a` after `a[f1i*chunks+ch] = v` for `ch = 0, ..., k-1`. -/
def init_row (a : Nat → Int) (chunks f1i : Nat) (v : Int) : Nat → Nat → Int
  | 0 => a
  | k + 1 => Function.update (init_row a chunks f1i v k) (f1i * chunks + k) v

/-- The body of the loop `for (f1i = 0; f1i < leafs; f1i++)`: the file is opened, its flags
are set (`Kx` to -1, `empty` and `unique` to 1), and it is compared with every file. -/
def file_step (zout : List Nat → Int) (chunksize : Int) (files : List (List Nat))
    (chunks f1i : Nat) (t : Tables) : Option Tables :=
  let t1 : Tables := ⟨t.buf, init_row t.Kx chunks f1i (-1) chunks, t.Kyx,
    init_row t.empty chunks f1i 1 chunks, init_row t.unique chunks f1i 1 chunks⟩
  match pair_loop zout chunksize files chunks f1i t1 (fopen (files.getD f1i [])) files.length with
  | none => none
  | some (t2, _) => some t2

/-- The state after the passes `f1i = 0, ..., k-1` of the outer file loop. -/
def file_loop (zout : List Nat → Int) (chunksize : Int) (files : List (List Nat))
    (chunks : Nat) (t : Tables) : Nat → Option Tables
  | 0 => some t
  | k + 1 =>
    match file_loop zout chunksize files chunks t k with
    | none => none
    | some t1 => file_step zout chunksize files chunks k t1

/-- The number of segments `chunks = (lines-1)/chunksize+1` (the division of C truncates). -/
def chunk_count (lines : Nat) (chunksize : Int) : Int := ((lines : Int) - 1).tdiv chunksize + 1

/-- The function `read_file(dirname)`: `files` are the files of the directory that pass the
name filter (at least one, at most 256 names fit the array `names`), `t0` holds the contents
that the buffer and the newly allocated tables have at the start. Returns the value returned
(`leafs`), the global `chunks`, and the tables. -/
def read_file (zout : List Nat → Int) (chunksize : Int) (files : List (List Nat)) (t0 : Tables) :
    Option (Nat × Int × Tables) :=
  if files.length = 0 ∨ 256 < files.length ∨ chunksize = 0 then none
  else
    match count_lines (files.getD 0 []) with
    | none => none
    | some lines =>
      match file_loop zout chunksize files (chunk_count lines chunksize).toNat t0 files.length with
      | none => none
      | some t => some (files.length, chunk_count lines chunksize, t)

/-! ## Deep copy of a tree -/

/-- State of `copy_subtree`: the allocator (the next `malloc` of a node returns the address
`alloc`), the node memory, and the lookup array `array` that the copy fills. -/
structure CopyState where
  alloc : Nat
  mem : Mem
  array : Nat → Option Nat

/-- The function `copy_subtree(src, array)`, with `new_node(src->id)` at the address `alloc`;
`bound` is the number of slots of `array`, and a store behind its end is `none`. The field
`node->array` is the same block for every node of the copy and is not kept in the record. -/
def copy_subtree (bound : Nat) : Nat → Option Nat → CopyState →
    Option (Option Nat × CopyState)
  | _, none, s => some (none, s)
  | 0, some _, _ => none
  | fuel + 1, some src, s =>
    let node := s.alloc
    let mem1 := Function.update s.mem node ⟨(s.mem src).id, none, none, none⟩
    if (mem1 node).id < bound then
      let s2 : CopyState := ⟨s.alloc + 1, mem1, Function.update s.array (mem1 node).id (some node)⟩
      match copy_subtree bound fuel (s2.mem src).left s2 with
      | none => none
      | some (l, s3) =>
        let mem4 := setLeft s3.mem node l
        let mem5 := match (mem4 node).left with
          | some l1 => setUp mem4 l1 (some node)
          | none => mem4
        match copy_subtree bound fuel (mem5 src).right ⟨s3.alloc, mem5, s3.array⟩ with
        | none => none
        | some (r, s6) =>
          let mem7 := setRight s6.mem node r
          let mem8 := match (mem7 node).right with
            | some r1 => setUp mem7 r1 (some node)
            | none => mem7
          some (some node, ⟨s6.alloc, mem8, s6.array⟩)
    else none

/-- What `copy_tree` returns: the memory with the new nodes, the root of the copy, its lookup
array and its cost cache (`none` for `NULL`). -/
structure TreeCopy where
  mem : Mem
  tree : Option Nat
  array : Nat → Option Nat
  cost : Option Cache

/-- The function `copy_tree(src)`: `junk` is the content of the new array block and `fresh`
that of the new cache block before they are written; `cost` is `src->cost`. -/
def copy_tree (g : Globals) (m : Mem) (alloc : Nat) (junk : Nat → Option Nat) (fresh : Cache)
    (fuel : Nat) (src : Nat) (cost : Option Cache) : Option TreeCopy :=
  match copy_subtree g.n fuel (some src) ⟨alloc, m, junk⟩ with
  | none => none
  | some (new_tree, s) =>
    some ⟨s.mem, new_tree, s.array,
      match cost with
      | none => none
      | some c => some (fun k => if k < g.n * g.leafs * g.chunks * 2 then c k else fresh k)⟩

/-! ## Auxiliary definitions used by the proofs -/

/-- Example tree `6(4(0,1), 5(2,3))` over four witnesses; the address of a node is its id. -/
def exMem : Mem := fun p =>
  match p with
  | 0 => ⟨0, none, none, some 4⟩
  | 1 => ⟨1, none, none, some 4⟩
  | 2 => ⟨2, none, none, some 5⟩
  | 3 => ⟨3, none, none, some 5⟩
  | 4 => ⟨4, some 0, some 1, some 6⟩
  | 5 => ⟨5, some 2, some 3, some 6⟩
  | 6 => ⟨6, some 4, some 5, none⟩
  | _ => ⟨0, none, none, none⟩

/-- Example globals for `exMem`: one segment of weight 1, every witness unique, and an
asymmetric pair-cost table. -/
def exGlobals : Globals where
  n := 7
  leafs := 4
  chunks := 1
  Kyx := fun k => ((k * 7 + 3) % 11 : Nat)
  Kx := fun _ => 0
  unique := fun _ => 1
  bootw := fun _ => 1
  RAND_MAX := 2147483647

/-- Example cache for `exMem` and `exGlobals`: the rows that the full evaluation computes. -/
def exCache : Cache := fun k =>
  ([0, 8388607, 8388607, 8388607, 8388607, 0, 8388607, 8388607, 8388607, 8388607, 0, 8388607,
    8388607, 8388607, 8388607, 0, 13, 14, 4, 16, 8, 9, 10, 11, 21, 16, 20, 18] : List Int).getD k 0

/-- The nodes met on the `up` chain of `p`, following at most `f` links. -/
def upchain (m : Mem) : Nat → Nat → List Nat
  | 0, p => [p]
  | f + 1, p =>
    p :: (match (m p).up with
      | none => []
      | some q => upchain m f q)

/-- The facts about an admitted pair that the tree edits rely on. -/
structure PairOK (m : Mem) (alternate : Bool) (a b pa pb : Nat) : Prop where
  up_a : (m a).up = some pa
  up_b : (m b).up = some pb
  ne : a ≠ b
  up_ne : pa ≠ pb
  not_anc_ab : ¬ Anc m a b
  not_anc_ba : ¬ Anc m b a
  grand : alternate = false → (m pa).up ≠ none ∧ (m pb).up ≠ none

/-- Replace `old` by `new` in a child slot. -/
def subst_child (old new : Nat) (o : Option Nat) : Option Nat :=
  if o = some old then some new else o

/-- Closed form of the memory after the swap of `a` (parent `pa`) and `b` (parent `pb`). -/
def swapMem (m : Mem) (a b pa pb : Nat) : Mem := fun x =>
  { id := (m x).id
    left := if x = pa then subst_child a b (m x).left
            else if x = pb then subst_child b a (m x).left else (m x).left
    right := if x = pa then subst_child a b (m x).right
             else if x = pb then subst_child b a (m x).right else (m x).right
    up := if x = a then some pb else if x = b then some pa else (m x).up }

/-- Distinctness facts for an admitted pair in a well-formed tree. -/
structure PairNe (a b pa pb : Nat) : Prop where
  a_b : a ≠ b
  a_pa : a ≠ pa
  a_pb : a ≠ pb
  b_pa : b ≠ pa
  b_pb : b ≠ pb
  pa_pb : pa ≠ pb

/-- What the regraft does to a child slot of a node `x` other than the parent of `a`: in the
grandparent `G` the parent `P` gives way to the sibling `s`, and in the parent `Bp` of `b` the
node `b` gives way to `P`. -/
def regraftSlot (b P s G Bp x : Nat) (o : Option Nat) : Option Nat :=
  if x = Bp then subst_child b P (if x = G then subst_child P s o else o)
  else if x = G then subst_child P s o else o

/-- Closed form of the memory after the regraft of `a` next to `b`: `P` is the parent of `a`,
`s` the sibling of `a`, `G` the parent of `P`, and `Bp` the parent of `b`. -/
def regraftMem (m : Mem) (a b P s G Bp : Nat) : Mem := fun x =>
  { id := (m x).id
    left := if x = P then some b else regraftSlot b P s G Bp x (m x).left
    right := if x = P then some a else regraftSlot b P s G Bp x (m x).right
    up := if x = P then some Bp else if x = b then some P
          else if x = s then some G else (m x).up }

/-- The nodes around a regraft of `a` next to `b` and what the edit needs to know of them. -/
structure RegraftPre (n : Nat) (m : Mem) (a b P s G Bp : Nat) : Prop where
  a_lt : a < n
  b_lt : b < n
  P_lt : P < n
  s_lt : s < n
  G_lt : G < n
  Bp_lt : Bp < n
  up_a : (m a).up = some P
  up_b : (m b).up = some Bp
  up_s : (m s).up = some P
  up_P : (m P).up = some G
  sib : ((m P).left = some a ∧ (m P).right = some s) ∨
        ((m P).left = some s ∧ (m P).right = some a)
  a_b : a ≠ b
  a_P : a ≠ P
  a_s : a ≠ s
  a_G : a ≠ G
  a_Bp : a ≠ Bp
  b_P : b ≠ P
  b_s : b ≠ s
  b_Bp : b ≠ Bp
  P_s : P ≠ s
  P_G : P ≠ G
  P_Bp : P ≠ Bp
  s_G : s ≠ G
  slot_P : ((m G).left = some P ∧ (m G).right ≠ some P) ∨
           ((m G).left ≠ some P ∧ (m G).right = some P)
  slot_b : ((m Bp).left = some b ∧ (m Bp).right ≠ some b) ∨
           ((m Bp).left ≠ some b ∧ (m Bp).right = some b)

/-- The nodes around an admitted regraft pair: neither node is an ancestor of the other. -/
structure RegraftOK (n : Nat) (m : Mem) (a b P s G Bp : Nat)
    extends RegraftPre n m a b P s G Bp : Prop where
  not_anc_ab : ¬ Anc m a b
  not_anc_ba : ¬ Anc m b a

/-- Number of nodes among the addresses `0 .. a-1` that have no left child. -/
def countLeaves (m : Mem) : Nat → Nat
  | 0 => 0
  | a + 1 => countLeaves m a + (if (m a).left = none then 1 else 0)

/-- State of `init_tree` after the first `j` rounds of its main loop. -/
def init_iter (leafs : Nat) (pi : Nat → Nat) (junk : Nat → Nat) (j : Nat) : InitState :=
  (List.range j).foldl (init_step leafs pi)
    { alloc := 0, mem := fun _ => ⟨0, none, none, none⟩, array := fun _ => none,
      permut := fun j => if j < leafs then j else junk j, n := leafs, tree := none }

/-- Shape of the tree that `init_tree` has built after `j ≥ 2` rounds. -/
structure InitShape (k j : Nat) (s : InitState) : Prop where
  alloc_eq : s.alloc = 2 * j - 1
  n_eq : s.n = k + j - 1
  root : ∃ r, s.tree = some r ∧ r < s.alloc ∧ (s.mem r).up = none ∧ (s.mem r).left ≠ none ∧
    ∀ p < s.alloc, (s.mem p).up = none → p = r
  two : ∀ p < s.alloc, ((s.mem p).left = none ↔ (s.mem p).right = none)
  leaves : countLeaves s.mem s.alloc = j

/-- The id given to the leaf created in round `i` of `init_tree`: `permut[pi]` at that time. -/
def leaf_id_of_round (k : Nat) (pi junk : Nat → Nat) (i : Nat) : Nat :=
  (init_iter k pi junk i).permut (pi i)

/-- Invariant of the permutation buffer after `j` rounds: its first `k - j` cells hold,
without repetition, exactly the leaf ids that no earlier round has handed out. -/
structure PermInv (k j : Nat) (perm : Nat → Nat) (used : Nat → Prop) : Prop where
  lt : ∀ x < k - j, perm x < k
  inj : ∀ x < k - j, ∀ y < k - j, perm x = perm y → x = y
  fresh : ∀ x < k - j, ¬ used (perm x)
  used_lt : ∀ id, used id → id < k
  cover : ∀ id < k, used id ∨ ∃ x < k - j, perm x = id

/-- Invariant on the ids of the nodes that `init_tree` has created after `j ≥ 2` rounds. -/
structure InitIds (k j : Nat) (l : Nat → Nat) (s : InitState) : Prop where
  arr : ∀ p < s.alloc, s.array (s.mem p).id = some p
  leaf_used : ∀ p < s.alloc, (s.mem p).left = none → ∃ i < j, (s.mem p).id = l i
  used_leaf : ∀ i < j, ∃ p < s.alloc, (s.mem p).left = none ∧ (s.mem p).id = l i
  int_id : ∀ p < s.alloc, (s.mem p).left ≠ none → k ≤ (s.mem p).id ∧ (s.mem p).id < s.n
  int1 : (s.mem 1).id = k
  ints : ∀ i, 2 ≤ i → i < j → (s.mem (2 * i)).id = k + i - 1

/-- The running minimum kept by the `for (i ...)` loops: the first value, then every strictly
smaller one. -/
def row_min (v : Nat → Int) (L : Nat) : Int :=
  (List.range L).foldl (fun mv i => if i = 0 ∨ v i < mv then v i else mv) 0

/-- The value that the evaluator stores in `cost[node][i][ch]`, as a function of the current
cache: the sum of the two `min_cost` terms for an internal node, the fixed leaf row otherwise. -/
def node_val (g : Globals) (m : Mem) (c : Cache) (p ch i : Nat) : Int :=
  match (m p).left, (m p).right with
  | some l, some r =>
    min_cost g c ((m l).id * g.leafs * g.chunks) (m l).id i ch
      + min_cost g c ((m r).id * g.leafs * g.chunks) (m r).id i ch
  | _, _ => if i = (m p).id then 0 else sentinel g

/-- The value `minval` that the evaluator returns at a node. -/
def node_min (g : Globals) (m : Mem) (c : Cache) (p ch : Nat) : Int :=
  match (m p).left, (m p).right with
  | some _, some _ => row_min (fun i => node_val g m c p ch i) g.leafs
  | _, _ => 0

/-- The cache row of node `p` for segment `ch` holds what the evaluator would store there. -/
def Cons (g : Globals) (m : Mem) (c : Cache) (ch p : Nat) : Prop :=
  ∀ i < g.leafs, c (idx g (m p).id i ch) = node_val g m c p ch i

/-- Every row of every node is consistent, in every segment of non-zero weight. -/
def AllCons (g : Globals) (m : Mem) (c : Cache) : Prop :=
  ∀ ch < g.chunks, g.bootw ch ≠ 0 → ∀ x < g.n, Cons g m c ch x

/-- Weighted sum of the minima of the root over the first `j` segments. -/
def total_upto (g : Globals) (m : Mem) (c : Cache) (root j : Nat) : Int :=
  (List.range j).foldl (fun acc ch =>
    if g.bootw ch ≠ 0 then acc + g.bootw ch * node_min g m c root ch else acc) 0

/-- The total cost that a cache stands for: the weighted sum of the minima of the root. -/
def total (g : Globals) (m : Mem) (c : Cache) (root : Nat) : Int :=
  total_upto g m c root g.chunks

/-- What `eval_tree` does for one segment of non-zero weight. -/
def chunk_proc (g : Globals) (m : Mem) (tree fuel : Nat) (ra rb : Option Nat) (c : Cache)
    (ch : Nat) : Option (Int × Cache) :=
  if ra = none ∧ rb = none then eval_subtree g m fuel c tree ch
  else
    match find_stopper m tree fuel ra rb with
    | none => none
    | some stopper =>
      match eval_uptree g m tree fuel c ra stopper ch with
      | none => none
      | some (_, c1) => eval_uptree g m tree fuel c1 rb none ch

/-- The loop body of `eval_tree` around a per-segment step `proc`. -/
def chunk_step (g : Globals) (proc : Cache → Nat → Option (Int × Cache))
    (s : Option (Int × Cache)) (ch : Nat) : Option (Int × Cache) :=
  match s with
  | none => none
  | some (value, cost) =>
    if g.bootw ch ≠ 0 then
      match proc cost ch with
      | some (v, c) => some (value + g.bootw ch * v, c)
      | none => none
    else some (value, cost)

/-- The live rows of `c0` agree with what the full evaluation of the tree computes, in every
segment of non-zero weight: running `eval_tree` without endpoints on `c0` changes none of
them. -/
def FullAgrees (g : Globals) (m : Mem) (root : Nat) (c0 : Cache) : Prop :=
  match eval_tree g m c0 g.n root (some c0) none none with
  | some r => ∀ ch < g.chunks, g.bootw ch ≠ 0 → ∀ id < g.n, ∀ i < g.leafs,
      r.2 (idx g id i ch) = c0 (idx g id i ch)
  | none => False

instance (g : Globals) (m : Mem) (root : Nat) (c0 : Cache) :
    Decidable (FullAgrees g m root c0) := by
  unfold FullAgrees
  cases eval_tree g m c0 g.n root (some c0) none none with
  | none => exact isFalse (fun h => h)
  | some r => exact inferInstanceAs (Decidable (∀ ch < g.chunks, g.bootw ch ≠ 0 →
      ∀ id < g.n, ∀ i < g.leafs, r.2 (idx g id i ch) = c0 (idx g id i ch)))

/-- The memory `m2` has the ids and parent links of `m`, and at every node the same two
children, possibly exchanged. -/
structure SameShape (n : Nat) (m m2 : Mem) : Prop where
  id_eq : ∀ y, (m2 y).id = (m y).id
  up_eq : ∀ x < n, (m2 x).up = (m x).up
  kids : ∀ x < n, ((m2 x).left = (m x).left ∧ (m2 x).right = (m x).right) ∨
    ((m2 x).left = (m x).right ∧ (m2 x).right = (m x).left)

/-- The table entry `PairCost[w][w'][s]`, stored at `Kyx[w*leafs*chunks + w'*chunks + s]`. -/
def PairCost (g : Globals) (w w' s : Nat) : Int :=
  g.Kyx (w * g.leafs * g.chunks + w' * g.chunks + s)

/-- The least of the values `v j` over the Unique witnesses `j < L` of segment `s`; `none`
when no witness below `L` is Unique. -/
def least_upto (g : Globals) (s : Nat) (v : Nat → Int) (L : Nat) : Option Int :=
  (List.range L).foldl (fun acc j =>
    if g.unique (j * g.chunks + s) ≠ 0 then
      (match acc with
       | none => some (v j)
       | some a => some (min a (v j)))
    else acc) none

/-- One term of the recurrence as the evaluator computes it, for the child `child` and the
witness `i` at the parent: the sentinel when `i` is not Unique, the table entry
`PairCost[i][child]` when the child is a leaf, and otherwise the least of
`cost[child][j] + PairCost[i][j]` over the Unique witnesses `j`. -/
def recurrence_term (g : Globals) (m : Mem) (c : Cache) (child i s : Nat) : Option Int :=
  if g.unique (i * g.chunks + s) = 0 then some (sentinel g)
  else if (m child).left = none then some (PairCost g i (m child).id s)
  else least_upto g s (fun j => c (idx g (m child).id j s) + PairCost g i j s) g.leafs

/-- The row entry `cost[x][i][s]` according to the recurrence of the evaluator. -/
def recurrence_row (g : Globals) (m : Mem) (c : Cache) (x i s : Nat) : Option Int :=
  match (m x).left, (m x).right with
  | some l, some r =>
    match recurrence_term g m c l i s, recurrence_term g m c r i s with
    | some a, some b => some (a + b)
    | _, _ => none
  | _, _ => some (if i = (m x).id then 0 else sentinel g)

/-- One term of the recurrence in the words of the description:
`min_j (cost[child][j] + PairCost[j][i])` over the Unique witnesses `j`, for leaves and
internal children alike, and the sentinel when `i` is not Unique. -/
def claimed_term (g : Globals) (m : Mem) (c : Cache) (child i s : Nat) : Option Int :=
  if g.unique (i * g.chunks + s) = 0 then some (sentinel g)
  else least_upto g s (fun j => c (idx g (m child).id j s) + PairCost g j i s) g.leafs

/-- The row entry `cost[x][i][s]` according to the recurrence of the description. -/
def claimed_row (g : Globals) (m : Mem) (c : Cache) (x i s : Nat) : Option Int :=
  match (m x).left, (m x).right with
  | some l, some r =>
    match claimed_term g m c l i s, claimed_term g m c r i s with
    | some a, some b => some (a + b)
    | _, _ => none
  | _, _ => some (if i = (m x).id then 0 else sentinel g)

/-- Two leaves `0`, `1` under the root `2`. -/
def cxMem : Mem := fun p =>
  match p with
  | 0 => ⟨0, none, none, some 2⟩
  | 1 => ⟨1, none, none, some 2⟩
  | 2 => ⟨2, some 0, some 1, none⟩
  | _ => ⟨0, none, none, none⟩

/-- Globals for `cxMem` with the asymmetric table `PairCost[0][1] = 1`, `PairCost[1][0] = 5`
and zero on the diagonal. -/
def cxGlobals : Globals where
  n := 3
  leafs := 2
  chunks := 1
  Kyx := fun k => ([0, 1, 5, 0] : List Int).getD k 0
  Kx := fun _ => 0
  unique := fun _ => 1
  bootw := fun _ => 1
  RAND_MAX := 2147483647

/-- Globals for `cxMem` with a symmetric table (`PairCost[0][1] = PairCost[1][0] = 1`, zero on
the diagonal) in which witness `1` is not Unique. -/
def cxGlobals2 : Globals where
  n := 3
  leafs := 2
  chunks := 1
  Kyx := fun k => ([0, 1, 1, 0] : List Int).getD k 0
  Kx := fun _ => 0
  unique := fun k => if k = 1 then 0 else 1
  bootw := fun _ => 1
  RAND_MAX := 2147483647

/-- An assignment `α` of witnesses to the nodes that is admissible in segment `s`: a leaf
carries its own id, an internal node a witness that is Unique in `s`. -/
def ValidAssign (g : Globals) (m : Mem) (s : Nat) (α : Nat → Nat) : Prop :=
  ∀ x < g.n, if (m x).left = none then α x = (m x).id
    else α x < g.leafs ∧ g.unique (α x * g.chunks + s) ≠ 0

instance (g : Globals) (m : Mem) (s : Nat) (α : Nat → Nat) : Decidable (ValidAssign g m s α) := by
  unfold ValidAssign; infer_instance

/-- The cost of the edge between `x` and its parent under `α`; nothing for the root. -/
def edge_cost (g : Globals) (m : Mem) (s : Nat) (α : Nat → Nat) (x : Nat) : Int :=
  match (m x).up with
  | some p => PairCost g (α p) (α x) s
  | none => 0

/-- The sum over all parent-child edges of `PairCost[α parent][α child][s]`. -/
def edge_sum (g : Globals) (m : Mem) (s : Nat) (α : Nat → Nat) : Int :=
  ∑ x ∈ Finset.range g.n, edge_cost g m s α x

/-- The sum of the edge costs below a node, by recursion over the children. -/
def sub_sum (g : Globals) (m : Mem) (s : Nat) (α : Nat → Nat) : Nat → Nat → Int
  | 0, _ => 0
  | fuel + 1, x =>
    match (m x).left, (m x).right with
    | some l, some r =>
      (PairCost g (α x) (α l) s + sub_sum g m s α fuel l)
        + (PairCost g (α x) (α r) s + sub_sum g m s α fuel r)
    | _, _ => 0

/-- The sum of the edge costs below `x`, with the fuel that the height below `x` needs. -/
def below_sum (g : Globals) (m : Mem) (s : Nat) (α : Nat → Nat) (x : Nat) : Int :=
  sub_sum g m s α (g.n - depth m g.n x) x

/-- The lookup array of `exMem`: the address of a node is its id. -/
def exArray : Nat → Option Nat := fun i => if i < 7 then some i else none

/-- The fill of node `x` in segment `s` is a witness below `leafs` that minimises `fill_val`,
the lowest such witness. -/
def FillMin (g : Globals) (m : Mem) (cost : Cache) (fill : Fill) (x s : Nat) : Prop :=
  fill x s < g.leafs ∧
  (∀ i < g.leafs, fill_val g m cost fill x s (fill x s) ≤ fill_val g m cost fill x s i) ∧
  (∀ i < fill x s, fill_val g m cost fill x s (fill x s) < fill_val g m cost fill x s i)

/-- The scaled draws of the example run: pass 1 picks the ids `(0, 5)`, pass 2 the ids
`(1, 2)`. -/
def exDraws : Nat → Int := fun k => ([0, 5, 1, 2] : List Int).getD k 0

/-- The example run of `optimize_tree` on `exMem` after `t` passes: the global `alternate` is
clear at the start (so pass 1 is a swap and pass 2 a regraft), `T > 0.0` holds in pass 1 only,
and the random acceptance test succeeds whenever it is reached. -/
def exRun (t : Nat) : Option OptState :=
  optimize_after exGlobals exArray 6 (fun _ => 0) 7 exDraws (fun iter => decide (iter < 2))
    (fun _ => true) (optimize_start exGlobals exMem 6 (fun _ => 0) 7 none (fun _ _ => 0) false 0) t

/-- The bytes of a file made of the lines `ls`, each of them ended by a newline. -/
def file_bytes : List (List Nat) → List Nat
  | [] => []
  | l :: ls => l ++ 10 :: file_bytes ls

/-- The text of a segment as the builder compares it: the lines of the segment with a space
between two of them and a newline at the end. -/
def seg_text : List (List Nat) → List Nat
  | [] => []
  | [l] => l ++ [10]
  | l :: l' :: ls => l ++ 32 :: seg_text (l' :: ls)

/-- The lines of segment `s` of a file with the lines `ls`, for the segment size `c`. -/
def segment (c : Nat) (ls : List (List Nat)) (s : Nat) : List (List Nat) :=
  (ls.drop (s * c)).take c

/-- A line without newline and terminator bytes that is none of `&`, `PUUT`, `POIS`. -/
def PlainLine (l : List Nat) : Prop :=
  10 ∉ l ∧ 0 ∉ l ∧ l ≠ [38] ∧ l ≠ [80, 85, 85, 84] ∧ l ≠ [80, 79, 73, 83]

instance (l : List Nat) : Decidable (PlainLine l) := by
  unfold PlainLine
  exact inferInstance

/-- The number of segments of a file of `L` lines for the segment size `c`. -/
def seg_count (c L : Nat) : Nat := (L - 1) / c + 1

/-- The line as the second reading rewrites it: `et` for the line `&`. -/
def amp (l : List Nat) : List Nat := if l = [38] then [101, 116] else l

/-- What a reading keeps of a line in the text of its segment: nothing of the lines `PUUT` and
`POIS`, whose place is taken by a newline alone. -/
def kept (l : List Nat) : List Nat :=
  if l = [80, 85, 85, 84] ∨ l = [80, 79, 73, 83] then [] else l

/-- The bytes of a line `PUUT` or `POIS` that stay in the buffer behind the newline put in its
place. -/
def residue (l : List Nat) : List Nat :=
  if l = [80, 85, 85, 84] then [85, 85, 84, 10]
  else if l = [80, 79, 73, 83] then [79, 73, 83, 10] else []

/-- The bytes that stay in the buffer behind the text of a run of lines. -/
def last_residue (seg : List (List Nat)) : List Nat :=
  match seg.getLast? with
  | some l => residue l
  | none => []

/-- The text that a reading leaves in the buffer for a segment, for the segment size `c`. For
a segment of `c` lines it is the text of the lines kept. For a last segment of fewer lines the
reading meets the end of the file: the newline at the end of the text has become a space, and
it is followed by what the buffer held behind it, or by a newline. -/
def stored (c : Nat) (seg : List (List Nat)) : List Nat :=
  if seg.length < c then
    (seg_text (seg.map kept)).dropLast ++
      32 :: (if last_residue seg = [] then [10] else last_residue seg)
  else seg_text (seg.map kept)

/-- A segment fits the halves of the buffer: at most 2047 bytes, with a line `&` counted as
the three bytes that `et` and its newline take, and one byte less for a last segment of fewer
than `c` lines. -/
def Fits (c : Nat) (seg : List (List Nat)) : Prop :=
  (file_bytes seg).length + seg.count [38] + (if seg.length < c then 1 else 0) ≤ 2047

instance (c : Nat) (seg : List (List Nat)) : Decidable (Fits c seg) := by
  unfold Fits
  exact inferInstance

/-- A corpus of at least one and at most 256 files, each of `L` lines (at least one) without
newline and terminator bytes, every segment fitting the buffer. -/
def Corpus (c L : Nat) (lines : List (List (List Nat))) : Prop :=
  0 < c ∧ 0 < L ∧ 0 < lines.length ∧ lines.length ≤ 256 ∧
  ∀ ls ∈ lines, ls.length = L ∧ (∀ l ∈ ls, 10 ∉ l ∧ 0 ∉ l) ∧
    ∀ s < seg_count c L, Fits c (segment c ls s)

instance (c L : Nat) (lines : List (List (List Nat))) : Decidable (Corpus c L lines) := by
  unfold Corpus
  exact inferInstance

/-- A corpus without a line `&`, `PUUT` or `POIS`: every line counts for its bytes, so that
every segment is at most 2047 bytes long, and a last segment of fewer than `c` lines at most
2046. -/
def Plain (c L : Nat) (lines : List (List (List Nat))) : Prop :=
  Corpus c L lines ∧ ∀ ls ∈ lines, ∀ l ∈ ls, PlainLine l

instance (c L : Nat) (lines : List (List (List Nat))) : Decidable (Plain c L lines) := by
  unfold Plain
  exact inferInstance

/-- The buffer holds the bytes `l` from index `off` on. -/
def Holds (buf : Buf) (off : Nat) (l : List Nat) : Prop :=
  ∀ i < l.length, buf (off + i) = l.getD i 0

/-- A segment whose lines are all empty (each line is its newline only). -/
def Blank (seg : List (List Nat)) : Prop := ∀ l ∈ seg, l = []

instance (seg : List (List Nat)) : Decidable (Blank seg) := by
  unfold Blank
  exact inferInstance
/-- The text in the buffer at the end of a line loop, before it is closed: for a last segment
of fewer than `c` lines the newline at the end of the text has become a space, and what the
buffer held behind it has joined the text. -/
def unclosed (c : Nat) (seg : List (List Nat)) : List Nat :=
  if seg.length < c then (seg_text (seg.map kept)).dropLast ++ 32 :: last_residue seg
  else seg_text (seg.map kept)

/-- The stream on the file with the lines `ls` when the first `j` lines have been read. -/
def at_line (ls : List (List Nat)) (j : Nat) : Stream :=
  ⟨file_bytes ls, (file_bytes (ls.take j)).length, false⟩

/-- The lines of segment `s` of witness `w` in a corpus given by the lines of its files. -/
def witness_segment (c : Nat) (lines : List (List (List Nat))) (w s : Nat) : List (List Nat) :=
  segment c (lines.getD w []) s

/-- An output size for the examples: the length of the string plus the header. -/
def exZout : List Nat → Int := fun l => (l.length : Int) + 6

/-- Tables and buffer filled with zeros. -/
def exTables : Tables := ⟨fun _ => 0, fun _ => 0, fun _ => 0, fun _ => 0, fun _ => 0⟩

/-- A corpus of three witnesses with three lines each, read with segments of two lines:
`a`, `b`, `c` / `a`, an empty line, `d` / `a`, `b`, `c`. -/
def exLines : List (List (List Nat)) :=
  [[[97], [98], [99]], [[97], [], [100]], [[97], [98], [99]]]

/-- A corpus of three witnesses with three lines each, read with segments of two lines, with
lines `&`, `PUUT` and `POIS`: `&`, an empty line, `PUUT` / three empty lines / `POIS`, an empty
line, an empty line. -/
def exMarked : List (List (List Nat)) :=
  [[[38], [], [80, 85, 85, 84]], [[], [], []], [[80, 79, 73, 83], [], []]]

/-- The invariant of the loop of `optimize_tree`: the tree held is well formed with root
`tree`, every row of its cache is consistent in every segment of non-zero weight, and `minval`
is the total that the cache stands for. -/
def LoopInv (g : Globals) (tree : Nat) (s : OptState) : Prop :=
  TreeOK g.n s.m tree ∧ IdsOK g.n s.m ∧ AllCons g s.m s.cost ∧
    s.minval = total g s.m s.cost tree

instance (g : Globals) (m : Mem) (c : Cache) (ch p : Nat) : Decidable (Cons g m c ch p) := by
  unfold Cons; infer_instance

/-- The number of leaves (nodes without a left child) among the nodes `0 .. n-1`. -/
def leaf_count (n : Nat) (m : Mem) : Nat :=
  ((Finset.range n).filter (fun x => (m x).left = none)).card

/-- The number of internal nodes (nodes with a left child) among the nodes `0 .. n-1`. -/
def internal_count (n : Nat) (m : Mem) : Nat :=
  ((Finset.range n).filter (fun x => (m x).left ≠ none)).card

/-- The idiom `if (c) c->up = node;`. -/
def attach (m : Mem) (node : Nat) (c : Option Nat) : Mem :=
  match c with
  | some c1 => setUp m c1 (some node)
  | none => m

/-- The node `y` of the memory `m1` is the copy of the node `x` of `m` under the lookup array
`array`: same id, and the children are the nodes that the array holds for the ids of the
children of `x`. -/
def CopyOf (m m1 : Mem) (array : Nat → Option Nat) (x y : Nat) : Prop :=
  array (m x).id = some y ∧ (m1 y).id = (m x).id ∧
    (m1 y).left = (m x).left.bind (fun c => array (m c).id) ∧
    (m1 y).right = (m x).right.bind (fun c => array (m c).id)

/-- What a call of `copy_subtree` on a slot `c` does: it takes addresses from `alloc` on,
writes only there and only the array entries of the ids below `c`, leaves the `up` link of
the copy of `c` empty, and links the other copies as their sources are linked. -/
def CopySpec (n : Nat) (m : Mem) (c : Option Nat) (st st1 : CopyState) : Prop :=
  st.alloc ≤ st1.alloc ∧ (c ≠ none → st.alloc < st1.alloc) ∧
    (∀ y, y < st.alloc ∨ st1.alloc ≤ y → st1.mem y = st.mem y) ∧
    (∀ i, (∀ x < n, ∀ y0, c = some y0 → Anc m x y0 → (m x).id ≠ i) →
      st1.array i = st.array i) ∧
    (c ≠ none → (st1.mem st.alloc).up = none) ∧
    (∀ x < n, ∀ y0, c = some y0 → Anc m x y0 →
      ∃ y, CopyOf m st1.mem st1.array x y ∧ st.alloc ≤ y ∧ y < st1.alloc ∧
        (x = y0 → y = st.alloc) ∧
        (x ≠ y0 → (st1.mem y).up = (m x).up.bind (fun q => st1.array (m q).id)))

/-- The value `newval = eval_tree(new_tree, ra, rb)` of the proposal that a pass of the loop
of `optimize_tree` makes from the state `s`. -/
def pass_newval (g : Globals) (array : Nat → Option Nat) (tree : Nat) (fresh : Cache)
    (fuel : Nat) (draws : Nat → Int) (s : OptState) : Option Int :=
  match prep_mutate_tree s.m array g.n s.alternate draws fuel s.k with
  | none => none
  | some r =>
    match optimize_propose g s.m fresh fuel tree r.alternate r.a r.b r.ra r.rb s.cost with
    | none => none
    | some (_, newval, _) => some newval

/-- The new costs that the passes `1 .. t` of the loop of `optimize_tree` have accepted, the
latest first. -/
def accepted_costs (g : Globals) (array : Nat → Option Nat) (tree : Nat) (fresh : Cache)
    (fuel : Nat) (draws : Nat → Int) (tpos lucky : Nat → Bool) (s0 : Option OptState) :
    Nat → List Int
  | 0 => []
  | t + 1 =>
    match optimize_after g array tree fresh fuel draws tpos lucky s0 t with
    | none => accepted_costs g array tree fresh fuel draws tpos lucky s0 t
    | some s =>
      match pass_newval g array tree fresh fuel draws s with
      | none => accepted_costs g array tree fresh fuel draws tpos lucky s0 t
      | some nv =>
        if nv ≤ s.minval ∨ (tpos (t + 1) = true ∧ lucky (t + 1) = true) then
          nv :: accepted_costs g array tree fresh fuel draws tpos lucky s0 t
        else accepted_costs g array tree fresh fuel draws tpos lucky s0 t

/-- A cost row for the node id 2 under `cxGlobals` whose first candidate sum is `-1`:
`cost[2][0] = -1`, `cost[2][1] = 3`. -/
def cxRowMinusOne : Cache := fun k => if k = 4 then -1 else 3

/-- A cost row for the node id 2 under `cxGlobals` with negative entries whose last candidate
sum is `-1`: `cost[2][0] = -3`, `cost[2][1] = -2`. -/
def cxRowNegative : Cache := fun k => if k = 4 then -3 else -2

/-- The links `(left, right, up)` of a node record. -/
def node_links (v : node_st) : Option Nat × Option Nat × Option Nat := (v.left, v.right, v.up)

/-- The links of the address `x` in the caterpillar with `j ≥ 2` leaves: the leaves are at the
addresses `0, 2, 3, 5, 7, ...`, the internal nodes at `1, 4, 6, ...`, the root is the last
internal node, and the addresses from `2*j-1` on hold no node. -/
def caterpillar_links (j x : Nat) : Option Nat × Option Nat × Option Nat :=
  if 2 * j - 1 ≤ x then (none, none, none)
  else if x = 0 then (none, none, some 1)
  else if x = 1 then (some 2, some 0, if j = 2 then none else some 4)
  else if x = 2 then (none, none, some 1)
  else if x % 2 = 1 then (none, none, some (x + 1))
  else (some (x - 1), some (if x = 4 then 1 else x - 2),
    if x + 2 = 2 * j then none else some (x + 2))

/-- The address of the root of the caterpillar with `j ≥ 2` leaves. -/
def caterpillar_root (j : Nat) : Nat := if j = 2 then 1 else 2 * j - 2

/-! ## Loops and index arithmetic -/

theorem foldl_range_inv {α : Type} (P : Nat → α → Prop) (step : α → Nat → α) (a0 : α) (N : Nat)
    (h0 : P 0 a0) (hs : ∀ i < N, ∀ a, P i a → P (i + 1) (step a i)) :
    P N ((List.range N).foldl step a0) := by
  induction N with
  | zero => simpa using h0
  | succ k ih =>
    rw [List.range_succ, List.foldl_append]
    simp only [List.foldl_cons, List.foldl_nil]
    exact hs k (Nat.lt_succ_self k) _ (ih (fun i hi a ha => hs i (Nat.lt_succ_of_lt hi) a ha))

theorem cell_inj {C i j x y : Nat} (h : i * C + x = j * C + y) (hx : x < C) (hy : y < C) :
    i = j ∧ x = y := by
  have hC : 0 < C := Nat.lt_of_le_of_lt (Nat.zero_le _) hx
  have hd : (i * C + x) / C = (j * C + y) / C := by rw [h]
  have hm : (i * C + x) % C = (j * C + y) % C := by rw [h]
  rw [Nat.add_comm (i * C), Nat.add_comm (j * C), Nat.add_mul_div_right _ _ hC,
    Nat.add_mul_div_right _ _ hC, Nat.div_eq_of_lt hx, Nat.div_eq_of_lt hy] at hd
  rw [Nat.add_comm (i * C), Nat.add_comm (j * C), Nat.add_mul_mod_self_right,
    Nat.add_mul_mod_self_right, Nat.mod_eq_of_lt hx, Nat.mod_eq_of_lt hy] at hm
  exact ⟨by simpa using hd, hm⟩

theorem cell_lt {L C i ch : Nat} (hi : i < L) (hc : ch < C) : i * C + ch < L * C := by
  calc i * C + ch < i * C + C := Nat.add_lt_add_left hc _
    _ = (i + 1) * C := by ring
    _ ≤ L * C := Nat.mul_le_mul_right _ hi

theorem idx_inj (g : Globals) {id id' i j ch ch' : Nat} (hi : i < g.leafs) (hj : j < g.leafs)
    (hc : ch < g.chunks) (hc' : ch' < g.chunks) (h : idx g id i ch = idx g id' j ch') :
    id = id' ∧ i = j ∧ ch = ch' := by
  unfold idx at h
  have h' : id * (g.leafs * g.chunks) + (i * g.chunks + ch)
      = id' * (g.leafs * g.chunks) + (j * g.chunks + ch') := by
    rw [← Nat.mul_assoc, ← Nat.mul_assoc, ← Nat.add_assoc, ← Nat.add_assoc]; exact h
  obtain ⟨h1, h2⟩ := cell_inj h' (cell_lt hi hc) (cell_lt hj hc')
  obtain ⟨h3, h4⟩ := cell_inj h2 hc hc'
  exact ⟨h1, h3, h4⟩

theorem idx_lt (g : Globals) {id i ch : Nat} (hid : id < g.n) (hi : i < g.leafs)
    (hc : ch < g.chunks) : idx g id i ch < g.n * g.leafs * g.chunks := by
  unfold idx
  have := cell_lt (L := g.leafs) hi hc
  calc id * g.leafs * g.chunks + i * g.chunks + ch
      = id * (g.leafs * g.chunks) + (i * g.chunks + ch) := by ring
    _ < id * (g.leafs * g.chunks) + g.leafs * g.chunks := Nat.add_lt_add_left this _
    _ = (id + 1) * (g.leafs * g.chunks) := by ring
    _ ≤ g.n * (g.leafs * g.chunks) := Nat.mul_le_mul_right _ hid
    _ = g.n * g.leafs * g.chunks := by ring

theorem idx_scratch_ge (g : Globals) (id i ch : Nat) :
    g.n * g.leafs * g.chunks ≤ idx g (g.n + id) i ch := by
  unfold idx
  calc g.n * g.leafs * g.chunks ≤ g.n * g.leafs * g.chunks + (id * g.leafs * g.chunks + i * g.chunks + ch) :=
        Nat.le_add_right _ _
    _ = (g.n + id) * g.leafs * g.chunks + i * g.chunks + ch := by ring

/-! ## Depth and ancestor chains -/

theorem depth_stable (m : Mem) : ∀ (f : Nat) (p : Nat), depth m f p < f →
    ∀ f', f ≤ f' → depth m f' p = depth m f p := by
  intro f
  induction f with
  | zero => intro p h; exact absurd h (Nat.not_lt_zero _)
  | succ k ih =>
    intro p h f' hf'
    obtain ⟨k', rfl⟩ : ∃ k', f' = k' + 1 := ⟨f' - 1, by omega⟩
    unfold depth at h ⊢
    cases hup : (m p).up with
    | none => simp
    | some q =>
      simp only [hup] at h ⊢
      rw [ih q (by omega) k' (by omega)]

theorem TreeOK.depth_up {n : Nat} {m : Mem} {root : Nat} (hT : TreeOK n m root) {p q : Nat}
    (hp : p < n) (hq : (m p).up = some q) : depth m n p = depth m n q + 1 := by
  have h := hT.acyclic p hp
  obtain ⟨k, rfl⟩ : ∃ k, n = k + 1 := ⟨n - 1, by omega⟩
  have h2 : depth m (k + 1) p = depth m k q + 1 := by
    conv_lhs => unfold depth
    simp [hq]
  rw [h2] at h ⊢
  rw [depth_stable m k q (by omega) (k + 1) (by omega)]

theorem TreeOK.depth_root {n : Nat} {m : Mem} {root : Nat} (hT : TreeOK n m root) {p : Nat}
    (hq : (m p).up = none) : depth m n p = 0 := by
  cases n with
  | zero => rfl
  | succ k => unfold depth; simp [hq]

/-- Induction along the `up` links (from the root down to the node). -/
theorem TreeOK.up_induction {n : Nat} {m : Mem} {root : Nat} (hT : TreeOK n m root)
    (P : Nat → Prop) (h : ∀ p < n, (∀ q, (m p).up = some q → P q) → P p) :
    ∀ p < n, P p := by
  have key : ∀ d, ∀ p < n, depth m n p = d → P p := by
    intro d
    induction d with
    | zero =>
      intro p hp hd
      refine h p hp (fun q hq => ?_)
      have := hT.depth_up hp hq
      omega
    | succ k ih =>
      intro p hp hd
      refine h p hp (fun q hq => ?_)
      have := hT.depth_up hp hq
      exact ih q (hT.up_lt p hp q hq) (by omega)
  intro p hp
  exact key _ p hp rfl

/-- Induction from the leaves up to a node. -/
theorem TreeOK.down_induction {n : Nat} {m : Mem} {root : Nat} (hT : TreeOK n m root)
    (P : Nat → Prop) (h : ∀ p < n, (∀ c < n, (m c).up = some p → P c) → P p) :
    ∀ p < n, P p := by
  have key : ∀ k, ∀ p < n, n - depth m n p ≤ k → P p := by
    intro k
    induction k with
    | zero =>
      intro p hp hd
      have := hT.acyclic p hp
      omega
    | succ k ih =>
      intro p hp hd
      refine h p hp (fun c hc hcp => ?_)
      have := hT.depth_up hc hcp
      have := hT.acyclic c hc
      exact ih c hc (by omega)
  intro p hp
  exact key _ p hp (Nat.le_refl _)

theorem Anc.trans {m : Mem} {x y z : Nat} (h1 : Anc m x y) (h2 : Anc m y z) : Anc m x z := by
  induction h1 with
  | refl _ => exact h2
  | step hup _ ih => exact Anc.step hup (ih h2)

theorem Anc.of_up {m : Mem} {x p : Nat} (h : (m x).up = some p) : Anc m x p :=
  Anc.step h (Anc.refl p)

theorem Anc.lt {n : Nat} {m : Mem} {root : Nat} (hT : TreeOK n m root) {x y : Nat}
    (h : Anc m x y) (hx : x < n) : y < n := by
  induction h with
  | refl _ => exact hx
  | step hup _ ih => exact ih (hT.up_lt _ hx _ hup)

theorem Anc.depth_le {n : Nat} {m : Mem} {root : Nat} (hT : TreeOK n m root) {x y : Nat}
    (h : Anc m x y) (hx : x < n) : depth m n y ≤ depth m n x := by
  induction h with
  | refl _ => exact Nat.le_refl _
  | step hup _ ih =>
    have := hT.depth_up hx hup
    have := ih (hT.up_lt _ hx _ hup)
    omega

theorem Anc.eq_of_depth {n : Nat} {m : Mem} {root : Nat} (hT : TreeOK n m root) {x y : Nat}
    (h : Anc m x y) (hx : x < n) (hd : depth m n x ≤ depth m n y) : x = y := by
  cases h with
  | refl _ => rfl
  | step hup h2 =>
    have := hT.depth_up hx hup
    have := h2.depth_le hT (hT.up_lt _ hx _ hup)
    omega

theorem Anc.antisymm {n : Nat} {m : Mem} {root : Nat} (hT : TreeOK n m root) {x y : Nat}
    (h1 : Anc m x y) (h2 : Anc m y x) (hx : x < n) : x = y :=
  h1.eq_of_depth hT hx (h2.depth_le hT (h1.lt hT hx))

/-- No node is an ancestor of its own parent. -/
theorem TreeOK.not_anc_up {n : Nat} {m : Mem} {root : Nat} (hT : TreeOK n m root) {x p : Nat}
    (hx : x < n) (hup : (m x).up = some p) : ¬ Anc m p x := by
  intro h
  have := h.depth_le hT (hT.up_lt _ hx _ hup)
  have := hT.depth_up hx hup
  omega

theorem TreeOK.up_ne {n : Nat} {m : Mem} {root : Nat} (hT : TreeOK n m root) {x p : Nat}
    (hx : x < n) (hup : (m x).up = some p) : p ≠ x := by
  intro h
  exact hT.not_anc_up hx hup (h ▸ Anc.refl _)

theorem Anc.cases_up {m : Mem} {x y : Nat} (h : Anc m x y) :
    x = y ∨ ∃ p, (m x).up = some p ∧ Anc m p y := by
  cases h with
  | refl _ => exact Or.inl rfl
  | step hup h2 => exact Or.inr ⟨_, hup, h2⟩

/-- Two nodes on one `up` chain are comparable. -/
theorem Anc.linear {m : Mem} {x a b : Nat} (ha : Anc m x a) (hb : Anc m x b) :
    Anc m a b ∨ Anc m b a := by
  induction ha with
  | refl _ => exact Or.inl hb
  | step hup h2 ih =>
    cases hb with
    | refl _ => exact Or.inr (Anc.step hup h2)
    | step hup' h3 =>
      rw [hup] at hup'
      cases hup'
      exact ih h3

/-- A chain that reaches `p` from elsewhere enters it through one of its children. -/
theorem Anc.through_child {m : Mem} {x p : Nat} (h : Anc m x p) :
    x = p ∨ ∃ c, (m c).up = some p ∧ Anc m x c := by
  induction h with
  | refl _ => exact Or.inl rfl
  | step hup _ ih =>
    rcases ih with rfl | ⟨c, hc, hac⟩
    · exact Or.inr ⟨_, hup, Anc.refl _⟩
    · exact Or.inr ⟨c, hc, Anc.step hup hac⟩

theorem TreeOK.anc_root {n : Nat} {m : Mem} {root : Nat} (hT : TreeOK n m root) :
    ∀ p < n, Anc m p root := by
  apply hT.up_induction
  intro p hp ih
  cases hup : (m p).up with
  | none => rw [hT.one_root p hp hup]; exact Anc.refl _
  | some q => exact Anc.step hup (ih q hup)

theorem TreeOK.child_cases {n : Nat} {m : Mem} {root : Nat} (hT : TreeOK n m root) {c p l r : Nat}
    (hc : c < n) (hup : (m c).up = some p) (hl : (m p).left = some l)
    (hr : (m p).right = some r) : c = l ∨ c = r := by
  rcases hT.up_child c hc p hup with h | h
  · rw [hl] at h; exact Or.inl (Option.some.inj h).symm
  · rw [hr] at h; exact Or.inr (Option.some.inj h).symm

/-! ## Snapshot loops -/

/-- The double loop shared by `store_cost_uptree` and `restore_cost_uptree`: every entry
`dst i ch` of a weighted segment receives the value of `src i ch`, nothing else changes. -/
theorem copy_loops (g : Globals) (dst src : Nat → Nat → Nat)
    (hds : ∀ i < g.leafs, ∀ ch < g.chunks, ∀ i' < g.leafs, ∀ ch' < g.chunks,
      dst i ch ≠ src i' ch')
    (hinj : ∀ i < g.leafs, ∀ ch < g.chunks, ∀ i' < g.leafs, ∀ ch' < g.chunks,
      dst i ch = dst i' ch' → i = i' ∧ ch = ch')
    (c : Cache) :
    (∀ k, (∀ ch < g.chunks, g.bootw ch ≠ 0 → ∀ i < g.leafs, k ≠ dst i ch) →
      (List.range g.chunks).foldl (fun c ch =>
        if g.bootw ch ≠ 0 then
          (List.range g.leafs).foldl (fun c i => Function.update c (dst i ch) (c (src i ch))) c
        else c) c k = c k) ∧
    (∀ ch < g.chunks, g.bootw ch ≠ 0 → ∀ i < g.leafs,
      (List.range g.chunks).foldl (fun c ch =>
        if g.bootw ch ≠ 0 then
          (List.range g.leafs).foldl (fun c i => Function.update c (dst i ch) (c (src i ch))) c
        else c) c (dst i ch) = c (src i ch)) := by
  have outer := foldl_range_inv
    (fun j (c' : Cache) =>
      (∀ k, (∀ ch < j, g.bootw ch ≠ 0 → ∀ i < g.leafs, k ≠ dst i ch) → c' k = c k) ∧
      (∀ ch < j, g.bootw ch ≠ 0 → ∀ i < g.leafs, c' (dst i ch) = c (src i ch)))
    (fun c ch =>
        if g.bootw ch ≠ 0 then
          (List.range g.leafs).foldl (fun c i => Function.update c (dst i ch) (c (src i ch))) c
        else c) c g.chunks
    ⟨fun k _ => rfl, fun ch h => absurd h (Nat.not_lt_zero _)⟩
    (by
      intro j hj c' ⟨h1, h2⟩
      by_cases hw : g.bootw j ≠ 0
      · simp only [hw, if_true, ne_eq, not_false_eq_true]
        have inner := foldl_range_inv
          (fun i (c'' : Cache) =>
            (∀ k, (∀ i' < i, k ≠ dst i' j) → c'' k = c' k) ∧
            (∀ i' < i, c'' (dst i' j) = c (src i' j)))
          (fun c i => Function.update c (dst i j) (c (src i j))) c' g.leafs
          ⟨fun k _ => rfl, fun i h => absurd h (Nat.not_lt_zero _)⟩
          (by
            intro i hi c'' ⟨g1, g2⟩
            beta_reduce
            constructor
            · intro k hk
              rw [Function.update_noteq (hk i (Nat.lt_succ_self i))]
              exact g1 k (fun i' hi' => hk i' (Nat.lt_succ_of_lt hi'))
            · intro i' hi'
              rcases Nat.lt_succ_iff_lt_or_eq.mp hi' with hlt | rfl
              · have hne : dst i' j ≠ dst i j := by
                  intro he
                  have := (hinj i' (by omega) j hj i hi j hj he).1
                  omega
                rw [Function.update_noteq hne]
                exact g2 i' hlt
              · rw [Function.update_same]
                rw [g1 _ (fun i'' hi'' he => hds i'' (by omega) j hj i' hi j hj he.symm)]
                exact h1 _ (fun ch hch _ i'' hi'' he =>
                  hds i'' hi'' ch (by omega) i' hi j hj he.symm))
        obtain ⟨g1, g2⟩ := inner
        constructor
        · intro k hk
          rw [g1 k (fun i' hi' => hk j (Nat.lt_succ_self j) hw i' hi')]
          exact h1 k (fun ch hch hwc i hi => hk ch (Nat.lt_succ_of_lt hch) hwc i hi)
        · intro ch hch hwc i hi
          rcases Nat.lt_succ_iff_lt_or_eq.mp hch with hlt | rfl
          · rw [g1 _ (fun i' hi' he => by
              have := (hinj i hi ch (by omega) i' hi' j hj he).2
              omega)]
            exact h2 ch hlt hwc i hi
          · exact g2 i hi
      · simp only [hw, if_false]
        constructor
        · intro k hk
          exact h1 k (fun ch hch hwc i hi => hk ch (Nat.lt_succ_of_lt hch) hwc i hi)
        · intro ch hch hwc i hi
          rcases Nat.lt_succ_iff_lt_or_eq.mp hch with hlt | rfl
          · exact h2 ch hlt hwc i hi
          · exact absurd hwc hw)
  exact outer

theorem idx_live_ne_scratch (g : Globals) {id id' i i' ch ch' : Nat} (hid : id < g.n)
    (hi : i < g.leafs) (hc : ch < g.chunks) : idx g id i ch ≠ idx g (g.n + id') i' ch' := by
  have h1 := idx_lt g hid hi hc
  have h2 := idx_scratch_ge g id' i' ch'
  omega

theorem store_row_spec (g : Globals) (id : Nat) (hid : id < g.n) (c : Cache) :
    (∀ k, (∀ ch < g.chunks, g.bootw ch ≠ 0 → ∀ i < g.leafs, k ≠ idx g (g.n + id) i ch) →
      store_row g id c k = c k) ∧
    (∀ ch < g.chunks, g.bootw ch ≠ 0 → ∀ i < g.leafs,
      store_row g id c (idx g (g.n + id) i ch) = c (idx g id i ch)) :=
  copy_loops g (fun i ch => idx g (g.n + id) i ch) (fun i ch => idx g id i ch)
    (fun _ _ _ _ _ hi' _ hc' he => idx_live_ne_scratch g hid hi' hc' he.symm)
    (fun _ hi _ hc _ hi' _ hc' he => (idx_inj g hi hi' hc hc' he).2) c

theorem restore_row_spec (g : Globals) (id : Nat) (hid : id < g.n) (c : Cache) :
    (∀ k, (∀ ch < g.chunks, g.bootw ch ≠ 0 → ∀ i < g.leafs, k ≠ idx g id i ch) →
      restore_row g id c k = c k) ∧
    (∀ ch < g.chunks, g.bootw ch ≠ 0 → ∀ i < g.leafs,
      restore_row g id c (idx g id i ch) = c (idx g (g.n + id) i ch)) :=
  copy_loops g (fun i ch => idx g id i ch) (fun i ch => idx g (g.n + id) i ch)
    (fun _ hi _ hc _ _ _ _ he => idx_live_ne_scratch g hid hi hc he)
    (fun _ hi _ hc _ hi' _ hc' he => (idx_inj g hi hi' hc hc' he).2) c

/-- Restoring a row whose snapshot equals the live row changes nothing. -/
theorem restore_row_id (g : Globals) (id : Nat) (hid : id < g.n) (c : Cache)
    (h : ∀ ch < g.chunks, g.bootw ch ≠ 0 → ∀ i < g.leafs,
      c (idx g (g.n + id) i ch) = c (idx g id i ch)) : restore_row g id c = c := by
  funext k
  obtain ⟨h1, h2⟩ := restore_row_spec g id hid c
  by_cases hk : ∀ ch < g.chunks, g.bootw ch ≠ 0 → ∀ i < g.leafs, k ≠ idx g id i ch
  · exact h1 k hk
  · push_neg at hk
    obtain ⟨ch, hch, hw, i, hi, rfl⟩ := hk
    rw [h2 ch hch hw i hi, h ch hch hw i hi]

/-! ## `store_cost_uptree` and `restore_cost_uptree` along a chain -/

theorem anc_of_noparent {m : Mem} {p x : Nat}
    (hup : (m p).up = none) (h : Anc m p x) : x = p := by
  cases h with
  | refl _ => rfl
  | step hup' _ => rw [hup] at hup'; cases hup'

theorem store_walk {g : Globals} {m : Mem} {root : Nat} (hT : TreeOK g.n m root)
    (hI : IdsOK g.n m) :
    ∀ p < g.n, ∀ (f : Nat) (c : Cache), depth m g.n p < f →
      ∃ c1, store_cost_uptree g m f c (some p) = some c1 ∧
        (∀ k, (∀ x, Anc m p x → ∀ ch < g.chunks, g.bootw ch ≠ 0 → ∀ i < g.leafs,
          k ≠ idx g (g.n + (m x).id) i ch) → c1 k = c k) ∧
        (∀ x, Anc m p x → ∀ ch < g.chunks, g.bootw ch ≠ 0 → ∀ i < g.leafs,
          c1 (idx g (g.n + (m x).id) i ch) = c (idx g (m x).id i ch)) := by
  apply hT.up_induction
  intro p hp ih f c hf
  obtain ⟨f, rfl⟩ : ∃ f', f = f' + 1 := ⟨f - 1, by omega⟩
  obtain ⟨s1, s2⟩ := store_row_spec g (m p).id (hI.id_lt p hp) c
  rw [store_cost_uptree]
  cases hup : (m p).up with
  | none =>
    refine ⟨store_row g (m p).id c, by cases f <;> rfl, ?_, ?_⟩
    · intro k hk
      exact s1 k (hk p (Anc.refl p))
    · intro x hx
      rw [anc_of_noparent hup hx]
      exact s2
  | some q =>
    have hq := hT.up_lt p hp q hup
    have hd := hT.depth_up hp hup
    obtain ⟨c1, e1, f1, f2⟩ := ih q hup f (store_row g (m p).id c) (by omega)
    refine ⟨c1, e1, ?_, ?_⟩
    · intro k hk
      rw [f1 k (fun x hx => hk x (Anc.step hup hx))]
      exact s1 k (hk p (Anc.refl p))
    · intro x hx ch hch hw i hi
      rcases hx.cases_up with rfl | ⟨q', hq', hx'⟩
      · rw [f1 _ (fun y hy ch' hch' _ i' hi' he => ?_)]
        · exact s2 ch hch hw i hi
        · have e := (idx_inj g hi hi' hch hch' he).1
          have e2 : (m p).id = (m y).id := by omega
          have := hI.id_inj p hp y (hy.lt hT hq) e2
          subst this
          exact hT.not_anc_up hp hup hy
      · rw [hup] at hq'; cases hq'
        rw [f2 x hx' ch hch hw i hi]
        exact s1 _ (fun ch' hch' _ i' hi' he =>
          idx_live_ne_scratch g (hI.id_lt x (hx'.lt hT hq)) hi hch he)

theorem restore_walk {g : Globals} {m : Mem} {root : Nat} (hT : TreeOK g.n m root)
    (hI : IdsOK g.n m) :
    ∀ p < g.n, ∀ (f : Nat) (c : Cache), depth m g.n p < f →
      ∃ c2, restore_cost_uptree g m f c (some p) = some c2 ∧
        (∀ k, (∀ x, Anc m p x → ∀ ch < g.chunks, g.bootw ch ≠ 0 → ∀ i < g.leafs,
          k ≠ idx g (m x).id i ch) → c2 k = c k) ∧
        (∀ x, Anc m p x → ∀ ch < g.chunks, g.bootw ch ≠ 0 → ∀ i < g.leafs,
          c2 (idx g (m x).id i ch) = c (idx g (g.n + (m x).id) i ch)) := by
  apply hT.up_induction
  intro p hp ih f c hf
  obtain ⟨f, rfl⟩ : ∃ f', f = f' + 1 := ⟨f - 1, by omega⟩
  obtain ⟨s1, s2⟩ := restore_row_spec g (m p).id (hI.id_lt p hp) c
  rw [restore_cost_uptree]
  cases hup : (m p).up with
  | none =>
    refine ⟨restore_row g (m p).id c, by cases f <;> rfl, ?_, ?_⟩
    · intro k hk
      exact s1 k (hk p (Anc.refl p))
    · intro x hx
      rw [anc_of_noparent hup hx]
      exact s2
  | some q =>
    have hq := hT.up_lt p hp q hup
    have hd := hT.depth_up hp hup
    obtain ⟨c1, e1, f1, f2⟩ := ih q hup f (restore_row g (m p).id c) (by omega)
    refine ⟨c1, e1, ?_, ?_⟩
    · intro k hk
      rw [f1 k (fun x hx => hk x (Anc.step hup hx))]
      exact s1 k (hk p (Anc.refl p))
    · intro x hx ch hch hw i hi
      rcases hx.cases_up with rfl | ⟨q', hq', hx'⟩
      · rw [f1 _ (fun y hy ch' hch' _ i' hi' he => ?_)]
        · exact s2 ch hch hw i hi
        · have e := (idx_inj g hi hi' hch hch' he).1
          have := hI.id_inj p hp y (hy.lt hT hq) e
          subst this
          exact hT.not_anc_up hp hup hy
      · rw [hup] at hq'; cases hq'
        rw [f2 x hx' ch hch hw i hi]
        exact s1 _ (fun ch' hch' _ i' hi' he =>
          idx_live_ne_scratch g (hI.id_lt p hp) hi' hch' he.symm)

/-- C10: on a well-formed tree, `store_cost_uptree(tree, node)` immediately followed by
`restore_cost_uptree(tree, node)` returns (with fuel for the longest chain) and leaves every
entry of the live region of the cache (rows of the ids `0 .. n-1`) as it was. -/
theorem store_then_restore_noop (g : Globals) (m : Mem) (root node fuel : Nat) (c : Cache)
    (hT : TreeOK g.n m root) (hI : IdsOK g.n m) (hnode : node < g.n) (hfuel : g.n ≤ fuel) :
    ∃ c1 c2, store_cost_uptree g m fuel c (some node) = some c1 ∧
      restore_cost_uptree g m fuel c1 (some node) = some c2 ∧
      ∀ k < g.n * g.leafs * g.chunks, c2 k = c k := by
  have hd := hT.acyclic node hnode
  obtain ⟨c1, e1, s1, s2⟩ := store_walk hT hI node hnode fuel c (by omega)
  obtain ⟨c2, e2, r1, r2⟩ := restore_walk hT hI node hnode fuel c1 (by omega)
  refine ⟨c1, c2, e1, e2, ?_⟩
  intro k hk
  have live : ∀ k < g.n * g.leafs * g.chunks, c1 k = c k := by
    intro k hk
    refine s1 k (fun x _ ch _ _ i _ he => ?_)
    have := idx_scratch_ge g (m x).id i ch
    omega
  by_cases hx : ∀ x, Anc m node x → ∀ ch < g.chunks, g.bootw ch ≠ 0 → ∀ i < g.leafs,
      k ≠ idx g (m x).id i ch
  · rw [r1 k hx]; exact live k hk
  · push_neg at hx
    obtain ⟨x, hx, ch, hch, hw, i, hi, rfl⟩ := hx
    rw [r2 x hx ch hch hw i hi, s2 x hx ch hch hw i hi]

theorem store_then_restore_noop_witness :
    ∃ c1 c2, store_cost_uptree exGlobals exMem 7 (fun k => (k : Int)) (some 0) = some c1 ∧
      restore_cost_uptree exGlobals exMem 7 c1 (some 0) = some c2 ∧
      ∀ k < exGlobals.n * exGlobals.leafs * exGlobals.chunks, c2 k = (fun k => (k : Int)) k :=
  store_then_restore_noop exGlobals exMem 6 0 7 (fun k => (k : Int))
    (by decide) (by decide) (by decide) (by decide)

/-! ## Acyclicity from a rank function -/

theorem upchain_length (m : Mem) : ∀ f p, (upchain m f p).length = depth m f p + 1 := by
  intro f
  induction f with
  | zero => intro p; rfl
  | succ k ih =>
    intro p
    unfold upchain depth
    cases (m p).up with
    | none => rfl
    | some q => simp [ih q]

theorem upchain_mem {n : Nat} {m : Mem} (hup : ∀ p < n, ∀ q ∈ (m p).up, q < n)
    (r : Nat → Nat) (hr : ∀ p < n, ∀ q ∈ (m p).up, r q < r p) :
    ∀ f p, p < n → ∀ y ∈ upchain m f p, y < n ∧ r y ≤ r p := by
  intro f
  induction f with
  | zero =>
    intro p hp y hy
    simp [upchain] at hy
    subst hy
    exact ⟨hp, Nat.le_refl _⟩
  | succ k ih =>
    intro p hp y hy
    unfold upchain at hy
    rcases List.mem_cons.mp hy with rfl | hy
    · exact ⟨hp, Nat.le_refl _⟩
    · cases hq : (m p).up with
      | none => simp [hq] at hy
      | some q =>
        simp only [hq] at hy
        have h1 := ih q (hup p hp q hq) y hy
        have h2 := hr p hp q hq
        exact ⟨h1.1, by omega⟩

theorem upchain_nodup {n : Nat} {m : Mem} (hup : ∀ p < n, ∀ q ∈ (m p).up, q < n)
    (r : Nat → Nat) (hr : ∀ p < n, ∀ q ∈ (m p).up, r q < r p) :
    ∀ f p, p < n → (upchain m f p).Nodup := by
  intro f
  induction f with
  | zero => intro p _; simp [upchain]
  | succ k ih =>
    intro p hp
    unfold upchain
    cases hq : (m p).up with
    | none => simp
    | some q =>
      simp only [List.nodup_cons]
      refine ⟨fun hmem => ?_, ih q (hup p hp q hq)⟩
      have h1 := upchain_mem hup r hr k q (hup p hp q hq) p hmem
      have h2 := hr p hp q hq
      omega

/-- A rank that decreases along every `up` link bounds the length of the chains. -/
theorem acyclic_of_rank {n : Nat} {m : Mem} (hup : ∀ p < n, ∀ q ∈ (m p).up, q < n)
    (r : Nat → Nat) (hr : ∀ p < n, ∀ q ∈ (m p).up, r q < r p) :
    ∀ p < n, depth m n p < n := by
  intro p hp
  have hnd := upchain_nodup hup r hr n p hp
  have hmem := upchain_mem hup r hr n p hp
  have hsub : (upchain m n p).toFinset ⊆ Finset.range n := by
    intro y hy
    rw [List.mem_toFinset] at hy
    exact Finset.mem_range.mpr (hmem y hy).1
  have hcard := Finset.card_le_card hsub
  rw [List.toFinset_card_of_nodup hnd, Finset.card_range, upchain_length] at hcard
  omega

/-! ## What the filter of `prep_mutate_tree` guarantees -/

theorem reaches_up_false (m : Mem) (b : Nat) : ∀ (f : Nat) (o : Option Nat),
    reaches_up m f o b = some false → ∀ x ∈ o, ¬ Anc m x b := by
  intro f
  induction f with
  | zero =>
    intro o h x hx
    cases o with
    | none => cases hx
    | some p => simp [reaches_up] at h
  | succ k ih =>
    intro o h x hx
    cases o with
    | none => cases hx
    | some p =>
      cases hx
      rw [reaches_up] at h
      by_cases hpb : x = b
      · simp [hpb] at h
      · simp only [hpb, if_false] at h
        intro hanc
        rcases hanc.cases_up with e | ⟨q, hq, hqb⟩
        · exact hpb e
        · exact ih _ h q hq hqb

theorem Admitted.pair {n : Nat} {m : Mem} {alternate : Bool} {a b : Nat}
    (h : Admitted n m alternate a b) : ∃ pa pb, PairOK m alternate a b pa pb := by
  obtain ⟨_, _, hf⟩ := h
  unfold prep_filter at hf
  cases hpa : (m a).up with
  | none => simp [hpa] at hf
  | some pa =>
    cases hpb : (m b).up with
    | none => simp [hpa, hpb] at hf
    | some pb =>
      simp only [hpa, hpb] at hf
      cases hsb : same_branch m n a b with
      | none => simp [hsb] at hf
      | some sb =>
        simp only [hsb, Option.some.injEq, Bool.and_eq_true, Bool.not_eq_true',
          decide_eq_true_eq, Bool.or_eq_true, Option.isSome_iff_ne_none] at hf
        obtain ⟨⟨hsbf, hne⟩, hg⟩ := hf
        subst hsbf
        unfold same_branch at hsb
        by_cases hab : a = b
        · simp [hab] at hsb
        · simp only [hab, if_false, hpa, hpb] at hsb
          cases h1 : reaches_up m n (some pa) b with
          | none => simp [h1] at hsb
          | some v =>
            cases v with
            | true => simp [h1] at hsb
            | false =>
              simp only [h1] at hsb
              have n1 := reaches_up_false m b n _ h1 pa rfl
              have n2 := reaches_up_false m a n _ hsb pb rfl
              refine ⟨pa, pb, hpa, hpb, hab, hne, ?_, ?_, ?_⟩
              · intro hanc
                rcases hanc.cases_up with e | ⟨q, hq, hqb⟩
                · exact hab e
                · rw [hpa] at hq; cases hq; exact n1 hqb
              · intro hanc
                rcases hanc.cases_up with e | ⟨q, hq, hqb⟩
                · exact hab e.symm
                · rw [hpb] at hq; cases hq; exact n2 hqb
              · intro halt
                subst halt
                simpa using hg

@[simp] theorem setLeft_id (m : Mem) (p : Nat) (v : Option Nat) (x : Nat) :
    (setLeft m p v x).id = (m x).id := by
  unfold setLeft; rw [Function.update_apply]; split_ifs with h <;> simp [h]

@[simp] theorem setLeft_up (m : Mem) (p : Nat) (v : Option Nat) (x : Nat) :
    (setLeft m p v x).up = (m x).up := by
  unfold setLeft; rw [Function.update_apply]; split_ifs with h <;> simp [h]

@[simp] theorem setLeft_right (m : Mem) (p : Nat) (v : Option Nat) (x : Nat) :
    (setLeft m p v x).right = (m x).right := by
  unfold setLeft; rw [Function.update_apply]; split_ifs with h <;> simp [h]

@[simp] theorem setLeft_left (m : Mem) (p : Nat) (v : Option Nat) (x : Nat) :
    (setLeft m p v x).left = if x = p then v else (m x).left := by
  unfold setLeft; rw [Function.update_apply]; split_ifs with h <;> simp

@[simp] theorem setRight_id (m : Mem) (p : Nat) (v : Option Nat) (x : Nat) :
    (setRight m p v x).id = (m x).id := by
  unfold setRight; rw [Function.update_apply]; split_ifs with h <;> simp [h]

@[simp] theorem setRight_up (m : Mem) (p : Nat) (v : Option Nat) (x : Nat) :
    (setRight m p v x).up = (m x).up := by
  unfold setRight; rw [Function.update_apply]; split_ifs with h <;> simp [h]

@[simp] theorem setRight_left (m : Mem) (p : Nat) (v : Option Nat) (x : Nat) :
    (setRight m p v x).left = (m x).left := by
  unfold setRight; rw [Function.update_apply]; split_ifs with h <;> simp [h]

@[simp] theorem setRight_right (m : Mem) (p : Nat) (v : Option Nat) (x : Nat) :
    (setRight m p v x).right = if x = p then v else (m x).right := by
  unfold setRight; rw [Function.update_apply]; split_ifs with h <;> simp

@[simp] theorem setUp_id (m : Mem) (p : Nat) (v : Option Nat) (x : Nat) :
    (setUp m p v x).id = (m x).id := by
  unfold setUp; rw [Function.update_apply]; split_ifs with h <;> simp [h]

@[simp] theorem setUp_left (m : Mem) (p : Nat) (v : Option Nat) (x : Nat) :
    (setUp m p v x).left = (m x).left := by
  unfold setUp; rw [Function.update_apply]; split_ifs with h <;> simp [h]

@[simp] theorem setUp_right (m : Mem) (p : Nat) (v : Option Nat) (x : Nat) :
    (setUp m p v x).right = (m x).right := by
  unfold setUp; rw [Function.update_apply]; split_ifs with h <;> simp [h]

@[simp] theorem setUp_up (m : Mem) (p : Nat) (v : Option Nat) (x : Nat) :
    (setUp m p v x).up = if x = p then v else (m x).up := by
  unfold setUp; rw [Function.update_apply]; split_ifs with h <;> simp

@[simp] theorem replace_child_id (m : Mem) (p old new x : Nat) :
    (replace_child m p old new x).id = (m x).id := by
  unfold replace_child; split_ifs <;> simp

@[simp] theorem replace_child_up (m : Mem) (p old new x : Nat) :
    (replace_child m p old new x).up = (m x).up := by
  unfold replace_child; split_ifs <;> simp

@[simp] theorem replace_child_left (m : Mem) (p old new x : Nat) :
    (replace_child m p old new x).left =
      if x = p ∧ (m p).left = some old then some new else (m x).left := by
  unfold replace_child; split_ifs <;> simp_all

@[simp] theorem replace_child_right (m : Mem) (p old new x : Nat) :
    (replace_child m p old new x).right =
      if x = p ∧ (m p).left ≠ some old then some new else (m x).right := by
  unfold replace_child; split_ifs <;> simp_all

theorem node_ext {u v : node_st} (h1 : u.id = v.id) (h2 : u.left = v.left)
    (h3 : u.right = v.right) (h4 : u.up = v.up) : u = v := by
  cases u; cases v; simp_all

theorem PairOK.pairNe {n : Nat} {m : Mem} {root : Nat} {alt : Bool} {a b pa pb : Nat}
    (hT : TreeOK n m root) (ha : a < n) (hb : b < n) (h : PairOK m alt a b pa pb) :
    PairNe a b pa pb :=
  { a_b := h.ne
    a_pa := fun e => hT.up_ne ha h.up_a e.symm
    a_pb := fun e => h.not_anc_ba (e ▸ Anc.of_up h.up_b)
    b_pa := fun e => h.not_anc_ab (e ▸ Anc.of_up h.up_a)
    b_pb := fun e => hT.up_ne hb h.up_b e.symm
    pa_pb := h.up_ne }

theorem TreeOK.child_slot {n : Nat} {m : Mem} {root : Nat} (hT : TreeOK n m root) {c p : Nat}
    (hc : c < n) (hup : (m c).up = some p) :
    ((m p).left = some c ∧ (m p).right ≠ some c) ∨
    ((m p).left ≠ some c ∧ (m p).right = some c) := by
  have hp := hT.up_lt c hc p hup
  rcases hT.up_child c hc p hup with h | h
  · exact Or.inl ⟨h, hT.lr_ne p hp c h⟩
  · refine Or.inr ⟨fun h' => hT.lr_ne p hp c h' h, h⟩

/-- The swap in closed form, from the parent links, the distinctness facts and the slots that
hold `a` and `b`. -/
theorem swap_form_raw {m : Mem} {a b pa pb : Nat}
    (hua : (m a).up = some pa) (hub : (m b).up = some pb) (hne : PairNe a b pa pb)
    (sa : ((m pa).left = some a ∧ (m pa).right ≠ some a) ∨
      ((m pa).left ≠ some a ∧ (m pa).right = some a))
    (sb : ((m pb).left = some b ∧ (m pb).right ≠ some b) ∨
      ((m pb).left ≠ some b ∧ (m pb).right = some b)) :
    do_swap m a b = some (swapMem m a b pa pb) := by
  obtain ⟨e1, e2, e3, e4, e5, e6⟩ := hne
  unfold do_swap
  simp only [hua, Option.bind_eq_bind, Option.some_bind, Option.pure_def, bind, pure,
    replace_child_up, hub]
  congr 1
  funext x
  apply node_ext
  · simp [swapMem]
  · simp only [setUp_left, replace_child_left, swapMem, subst_child]
    rcases sa with ⟨sa1, sa2⟩ | ⟨sa1, sa2⟩ <;> rcases sb with ⟨sb1, sb2⟩ | ⟨sb1, sb2⟩ <;>
      by_cases hx1 : x = pa <;> by_cases hx2 : x = pb <;> simp_all
  · simp only [setUp_right, replace_child_right, replace_child_left, swapMem, subst_child]
    rcases sa with ⟨sa1, sa2⟩ | ⟨sa1, sa2⟩ <;> rcases sb with ⟨sb1, sb2⟩ | ⟨sb1, sb2⟩ <;>
      by_cases hx1 : x = pa <;> by_cases hx2 : x = pb <;> simp_all
  · simp only [setUp_up, replace_child_up, swapMem]
    by_cases hx1 : x = a <;> by_cases hx2 : x = b <;> simp_all

theorem swap_form {n : Nat} {m : Mem} {root : Nat} {a b pa pb : Nat}
    (hT : TreeOK n m root) (ha : a < n) (hb : b < n) (h : PairOK m true a b pa pb) :
    do_swap m a b = some (swapMem m a b pa pb) :=
  swap_form_raw h.up_a h.up_b (h.pairNe hT ha hb) (hT.child_slot ha h.up_a)
    (hT.child_slot hb h.up_b)

theorem RegraftPre.sibling {n : Nat} {m : Mem} {a b P s G Bp : Nat}
    (h : RegraftPre n m a b P s G Bp) :
    (if (m P).left = some a then (m P).right else (m P).left) = some s := by
  rcases h.sib with ⟨h1, h2⟩ | ⟨h1, h2⟩
  · simp [h1, h2]
  · have : (m P).left ≠ some a := by
      rw [h1]; exact fun e => h.a_s (Option.some.inj e).symm
    rw [if_neg this, h1]

theorem PairOK.regraft {n : Nat} {m : Mem} {root : Nat} {a b pa pb : Nat}
    (hT : TreeOK n m root) (ha : a < n) (hb : b < n) (h : PairOK m false a b pa pb) :
    ∃ s G, RegraftOK n m a b pa s G pb := by
  obtain ⟨e1, e2, e3, e4, e5, e6⟩ := h.pairNe hT ha hb
  have hP := hT.up_lt a ha pa h.up_a
  have hBp := hT.up_lt b hb pb h.up_b
  obtain ⟨G, hG⟩ := Option.ne_none_iff_exists'.mp (h.grand rfl).1
  have hGlt := hT.up_lt pa hP G hG
  have hs : ∃ s, ((m pa).left = some a ∧ (m pa).right = some s) ∨
      ((m pa).left = some s ∧ (m pa).right = some a) := by
    rcases hT.up_child a ha pa h.up_a with hl | hr
    · cases hr : (m pa).right with
      | none => rw [(hT.two pa hP).mpr hr] at hl; cases hl
      | some s => exact ⟨s, Or.inl ⟨hl, rfl⟩⟩
    · cases hl : (m pa).left with
      | none => rw [(hT.two pa hP).mp hl] at hr; cases hr
      | some s => exact ⟨s, Or.inr ⟨rfl, hr⟩⟩
  obtain ⟨s, hsib⟩ := hs
  have hslt : s < n := by
    rcases hsib with ⟨_, h2⟩ | ⟨h1, _⟩
    · exact hT.right_lt pa hP s h2
    · exact hT.left_lt pa hP s h1
  have hups : (m s).up = some pa := by
    rcases hsib with ⟨_, h2⟩ | ⟨h1, _⟩
    · exact hT.right_up pa hP s h2
    · exact hT.left_up pa hP s h1
  have has : a ≠ s := by
    rintro rfl
    rcases hsib with ⟨h1, h2⟩ | ⟨h1, h2⟩ <;> exact hT.lr_ne pa hP a h1 h2
  refine ⟨s, G, ⟨ha, hb, hP, hslt, hGlt, hBp, h.up_a, h.up_b, hups, hG, hsib,
    e1, e2, has, ?_, e3, e4, ?_, e5, ?_, ?_, e6, ?_, hT.child_slot hP hG,
    hT.child_slot hb h.up_b⟩, h.not_anc_ab, h.not_anc_ba⟩
  · rintro rfl
    exact hT.not_anc_up ha h.up_a (Anc.of_up hG)
  · rintro rfl
    exact e6 (Option.some.inj (hups.symm.trans h.up_b))
  · exact hT.up_ne hslt hups
  · exact (hT.up_ne hP hG).symm
  · exact fun e => hT.not_anc_up hslt hups (e ▸ Anc.of_up hG)

theorem regraft_form {n : Nat} {m : Mem} {a b P s G Bp : Nat}
    (h : RegraftPre n m a b P s G Bp) (tree : Nat) :
    do_regraft m tree a b = some (regraftMem m a b P s G Bp, tree) := by
  have sG := h.slot_P
  have sB := h.slot_b
  have ha := h.up_a
  have hb := h.up_b
  have hP := h.up_P
  have hsib := h.sib
  obtain ⟨_, _, _, _, _, _, _, _, _, _, _, e1, e2, e3, e4, e5, e6, e7, e9, e10, e11,
    e12, e13, _, _⟩ := h
  have hcomp : do_regraft m tree a b = some
      (setRight (setLeft (replace_child (setUp (setUp (replace_child (setUp m s (some G)) G P s)
        b (some P)) P (some Bp)) Bp b P) P (some b)) P (some a), tree) := by
    unfold do_regraft
    rcases hsib with ⟨h1, h2⟩ | ⟨h1, h2⟩
    · simp only [ha, h1, h2, hP, hb, Option.bind_eq_bind, Option.some_bind, bind, pure, if_true,
        replace_child_up, setUp_up, setLeft_up, e1, e2, e3, e4, e5, e6, e7, e9, e10, e11,
        e12, e13, if_false]
    · simp only [ha, h1, h2, hP, hb, Option.bind_eq_bind, Option.some_bind, bind, pure,
        Option.some.injEq, Ne.symm e3,
        replace_child_up, setUp_up, setLeft_up, e1, e2, e3, e4, e5, e6, e7, e9, e10, e11,
        e12, e13, if_false]
  rw [hcomp]
  have e1' := Ne.symm e1; have e2' := Ne.symm e2; have e3' := Ne.symm e3
  have e4' := Ne.symm e4; have e5' := Ne.symm e5; have e6' := Ne.symm e6
  have e7' := Ne.symm e7; have e9' := Ne.symm e9
  have e10' := Ne.symm e10; have e11' := Ne.symm e11; have e12' := Ne.symm e12
  have e13' := Ne.symm e13
  simp only [Option.some.injEq, Prod.mk.injEq, and_true]
  funext x
  apply node_ext
  · simp [regraftMem]
  · simp only [setRight_left, setLeft_left, replace_child_left, setUp_left, regraftMem,
      regraftSlot, subst_child]
    by_cases hx1 : x = P
    · simp [hx1]
    · rcases sG with ⟨g1, g2⟩ | ⟨g1, g2⟩ <;> rcases sB with ⟨b1, b2⟩ | ⟨b1, b2⟩ <;>
        by_cases hx2 : x = Bp <;> by_cases hx3 : x = G <;> simp_all
  · simp only [setRight_right, setLeft_right, replace_child_right, replace_child_left,
      setUp_right, setUp_left, regraftMem, regraftSlot, subst_child]
    by_cases hx1 : x = P
    · simp [hx1]
    · rcases sG with ⟨g1, g2⟩ | ⟨g1, g2⟩ <;> rcases sB with ⟨b1, b2⟩ | ⟨b1, b2⟩ <;>
        by_cases hx2 : x = Bp <;> by_cases hx3 : x = G <;> simp_all
  · simp only [setRight_up, setLeft_up, replace_child_up, setUp_up, regraftMem]

/-! ## The swap keeps the tree well-formed -/

theorem subst_child_none (a b : Nat) (o : Option Nat) : subst_child a b o = none ↔ o = none := by
  unfold subst_child; split_ifs with h <;> simp [h]

theorem subst_child_some {a b q : Nat} {o : Option Nat} (h : subst_child a b o = some q) :
    (o = some a ∧ q = b) ∨ (o ≠ some a ∧ o = some q) := by
  unfold subst_child at h
  split_ifs at h with h1
  · exact Or.inl ⟨h1, (Option.some.inj h).symm⟩
  · exact Or.inr ⟨h1, h⟩

section swap
variable {n : Nat} {m : Mem} {root : Nat} {a b pa pb : Nat}

theorem swapMem_up (x : Nat) : (swapMem m a b pa pb x).up =
    if x = a then some pb else if x = b then some pa else (m x).up := rfl

theorem swapMem_id (x : Nat) : (swapMem m a b pa pb x).id = (m x).id := rfl

theorem swapMem_left (x : Nat) : (swapMem m a b pa pb x).left =
    if x = pa then subst_child a b (m x).left
    else if x = pb then subst_child b a (m x).left else (m x).left := rfl

theorem swapMem_right (x : Nat) : (swapMem m a b pa pb x).right =
    if x = pa then subst_child a b (m x).right
    else if x = pb then subst_child b a (m x).right else (m x).right := rfl

/-- A child of `p` after the swap is a node whose new parent is `p`. -/
theorem swap_child_up (hT : TreeOK n m root) (ha : a < n) (hb : b < n)
    (h : PairOK m true a b pa pb) {p q : Nat} (hp : p < n)
    (hq : (swapMem m a b pa pb p).left = some q ∨ (swapMem m a b pa pb p).right = some q) :
    q < n ∧ (swapMem m a b pa pb q).up = some p := by
  obtain ⟨e1, e2, e3, e4, e5, e6⟩ := h.pairNe hT ha hb
  have old : ∀ q, ((m p).left = some q ∨ (m p).right = some q) → q < n ∧ (m q).up = some p := by
    intro q hq
    rcases hq with hq | hq
    · exact ⟨hT.left_lt p hp q hq, hT.left_up p hp q hq⟩
    · exact ⟨hT.right_lt p hp q hq, hT.right_up p hp q hq⟩
  rw [swapMem_left, swapMem_right, swapMem_up] at *
  by_cases hpa : p = pa
  · subst hpa
    simp only [if_true] at hq
    have key : (q = b) ∨ (q ≠ a ∧ ((m p).left = some q ∨ (m p).right = some q)) := by
      rcases hq with hq | hq <;> rcases subst_child_some hq with ⟨_, h2⟩ | ⟨h1, h2⟩
      · exact Or.inl h2
      · exact Or.inr ⟨fun e => h1 (e ▸ h2), Or.inl h2⟩
      · exact Or.inl h2
      · exact Or.inr ⟨fun e => h1 (e ▸ h2), Or.inr h2⟩
    rcases key with rfl | ⟨hqa, hc⟩
    · exact ⟨hb, by simp [Ne.symm e1]⟩
    · obtain ⟨h1, h2⟩ := old q hc
      have hqb : q ≠ b := by
        rintro rfl
        rw [h.up_b] at h2
        exact e6 (Option.some.inj h2).symm
      exact ⟨h1, by simp [hqa, hqb, h2]⟩
  · by_cases hpb : p = pb
    · subst hpb
      simp only [hpa, if_false, if_true] at hq
      have key : (q = a) ∨ (q ≠ b ∧ ((m p).left = some q ∨ (m p).right = some q)) := by
        rcases hq with hq | hq <;> rcases subst_child_some hq with ⟨_, h2⟩ | ⟨h1, h2⟩
        · exact Or.inl h2
        · exact Or.inr ⟨fun e => h1 (e ▸ h2), Or.inl h2⟩
        · exact Or.inl h2
        · exact Or.inr ⟨fun e => h1 (e ▸ h2), Or.inr h2⟩
      rcases key with rfl | ⟨hqb, hc⟩
      · exact ⟨ha, by simp⟩
      · obtain ⟨h1, h2⟩ := old q hc
        have hqa : q ≠ a := by
          rintro rfl
          rw [h.up_a] at h2
          exact e6 (Option.some.inj h2)
        exact ⟨h1, by simp [hqa, hqb, h2]⟩
    · simp only [hpa, hpb, if_false] at hq
      obtain ⟨h1, h2⟩ := old q hq
      have hqa : q ≠ a := by
        rintro rfl
        rw [h.up_a] at h2
        exact hpa (Option.some.inj h2).symm
      have hqb : q ≠ b := by
        rintro rfl
        rw [h.up_b] at h2
        exact hpb (Option.some.inj h2).symm
      exact ⟨h1, by simp [hqa, hqb, h2]⟩

/-- A node whose new parent is `p` is a child of `p` after the swap. -/
theorem swap_up_child (hT : TreeOK n m root) (ha : a < n) (hb : b < n)
    (h : PairOK m true a b pa pb) {p q : Nat} (hq : q < n)
    (hup : (swapMem m a b pa pb q).up = some p) :
    (swapMem m a b pa pb p).left = some q ∨ (swapMem m a b pa pb p).right = some q := by
  obtain ⟨e1, e2, e3, e4, e5, e6⟩ := h.pairNe hT ha hb
  have sa := hT.up_child a ha pa h.up_a
  have sb := hT.up_child b hb pb h.up_b
  rw [swapMem_left, swapMem_right]
  rw [swapMem_up] at hup
  by_cases hqa : q = a
  · subst hqa
    simp only [if_true] at hup
    cases hup
    simp only [Ne.symm e6, if_false, if_true, subst_child]
    rcases sb with s | s <;> simp [s]
  · by_cases hqb : q = b
    · subst hqb
      simp only [hqa, if_false, if_true] at hup
      cases hup
      simp only [if_true, subst_child]
      rcases sa with s | s <;> simp [s]
    · simp only [hqa, hqb, if_false] at hup
      have old := hT.up_child q hq p hup
      have hne1 : ∀ o : Option Nat, o = some q → subst_child a b o = some q := by
        intro o ho; subst ho; simp [subst_child, hqa]
      have hne2 : ∀ o : Option Nat, o = some q → subst_child b a o = some q := by
        intro o ho; subst ho; simp [subst_child, hqb]
      by_cases hpa : p = pa
      · simp only [hpa, if_true]; rw [hpa] at old
        rcases old with o | o
        · exact Or.inl (hne1 _ o)
        · exact Or.inr (hne1 _ o)
      · by_cases hpb : p = pb
        · simp only [hpb, Ne.symm e6, if_true, if_false]; rw [hpb] at old
          rcases old with o | o
          · exact Or.inl (hne2 _ o)
          · exact Or.inr (hne2 _ o)
        · simpa only [hpa, hpb, if_false] using old

end swap

section swap
variable {n : Nat} {m : Mem} {root : Nat} {a b pa pb : Nat}

theorem swap_lr_ne (hT : TreeOK n m root) (ha : a < n) (hb : b < n)
    (h : PairOK m true a b pa pb) {p q : Nat} (hp : p < n)
    (hl : (swapMem m a b pa pb p).left = some q) :
    (swapMem m a b pa pb p).right ≠ some q := by
  obtain ⟨e1, e2, e3, e4, e5, e6⟩ := h.pairNe hT ha hb
  intro hr
  have old := hT.lr_ne p hp
  rw [swapMem_left] at hl
  rw [swapMem_right] at hr
  by_cases hpa : p = pa
  · subst hpa
    simp only [if_true] at hl hr
    have nb : ∀ o, o = (m p).left ∨ o = (m p).right → o ≠ some b := by
      rintro o (rfl | rfl) hob
      · have := hT.left_up p hp b hob
        rw [h.up_b] at this
        exact e6 (Option.some.inj this).symm
      · have := hT.right_up p hp b hob
        rw [h.up_b] at this
        exact e6 (Option.some.inj this).symm
    rcases subst_child_some hl with ⟨l1, l2⟩ | ⟨l1, l2⟩ <;>
      rcases subst_child_some hr with ⟨r1, r2⟩ | ⟨r1, r2⟩
    · exact old a l1 r1
    · subst l2; exact nb _ (Or.inr rfl) r2
    · subst r2; exact nb _ (Or.inl rfl) l2
    · exact old q l2 r2
  · by_cases hpb : p = pb
    · subst hpb
      simp only [hpa, if_false, if_true] at hl hr
      have na : ∀ o, o = (m p).left ∨ o = (m p).right → o ≠ some a := by
        rintro o (rfl | rfl) hob
        · have := hT.left_up p hp a hob
          rw [h.up_a] at this
          exact e6 (Option.some.inj this)
        · have := hT.right_up p hp a hob
          rw [h.up_a] at this
          exact e6 (Option.some.inj this)
      rcases subst_child_some hl with ⟨l1, l2⟩ | ⟨l1, l2⟩ <;>
        rcases subst_child_some hr with ⟨r1, r2⟩ | ⟨r1, r2⟩
      · exact old b l1 r1
      · subst l2; exact na _ (Or.inr rfl) r2
      · subst r2; exact na _ (Or.inl rfl) l2
      · exact old q l2 r2
    · simp only [hpa, hpb, if_false] at hl hr
      exact old q hl hr

/-- Rank that decreases along the `up` links after the swap: the two exchanged subtrees are
lifted above everything else. -/
theorem swap_rank (hT : TreeOK n m root) (ha : a < n) (hb : b < n)
    (h : PairOK m true a b pa pb) :
    ∃ r : Nat → Nat, ∀ p < n, ∀ q ∈ (swapMem m a b pa pb p).up, r q < r p := by
  classical
  obtain ⟨e1, e2, e3, e4, e5, e6⟩ := h.pairNe hT ha hb
  have hpa := hT.up_lt a ha pa h.up_a
  have hpb := hT.up_lt b hb pb h.up_b
  have dA := hT.depth_up ha h.up_a
  have dB := hT.depth_up hb h.up_b
  have npa : ¬ (Anc m pa a ∨ Anc m pa b) := by
    rintro (x | x)
    · exact hT.not_anc_up ha h.up_a x
    · exact h.not_anc_ab (Anc.step h.up_a x)
  have npb : ¬ (Anc m pb a ∨ Anc m pb b) := by
    rintro (x | x)
    · exact h.not_anc_ba (Anc.step h.up_b x)
    · exact hT.not_anc_up hb h.up_b x
  refine ⟨fun x => if Anc m x a ∨ Anc m x b then depth m n x + (depth m n a + depth m n b)
    else depth m n x, ?_⟩
  intro p hp q hq
  rw [swapMem_up] at hq
  by_cases hxa : p = a
  · subst hxa
    simp only [if_true] at hq
    cases hq
    simp only [Anc.refl, true_or, if_true, npb, if_false]
    omega
  · by_cases hxb : p = b
    · subst hxb
      simp only [hxa, if_false, if_true] at hq
      cases hq
      simp only [Anc.refl, or_true, if_true, npa, if_false]
      omega
    · simp only [hxa, hxb, if_false] at hq
      have hd := hT.depth_up hp hq
      by_cases hin : Anc m p a ∨ Anc m p b
      · have hin' : Anc m q a ∨ Anc m q b := by
          rcases hin with x | x
          · rcases x.cases_up with e | ⟨q', hq', x'⟩
            · exact absurd e hxa
            · rw [hq] at hq'; cases hq'; exact Or.inl x'
          · rcases x.cases_up with e | ⟨q', hq', x'⟩
            · exact absurd e hxb
            · rw [hq] at hq'; cases hq'; exact Or.inr x'
        simp only [hin, hin', if_true]
        omega
      · have hin' : ¬ (Anc m q a ∨ Anc m q b) := by
          rintro (x | x)
          · exact hin (Or.inl (Anc.step hq x))
          · exact hin (Or.inr (Anc.step hq x))
        simp only [hin, hin', if_false]
        omega

theorem swap_treeOK (hT : TreeOK n m root) (ha : a < n) (hb : b < n)
    (h : PairOK m true a b pa pb) : TreeOK n (swapMem m a b pa pb) root := by
  obtain ⟨e1, e2, e3, e4, e5, e6⟩ := h.pairNe hT ha hb
  have hpa := hT.up_lt a ha pa h.up_a
  have hpb := hT.up_lt b hb pb h.up_b
  have hra : root ≠ a := by
    rintro rfl; have := h.up_a; rw [hT.root_up] at this; cases this
  have hrb : root ≠ b := by
    rintro rfl; have := h.up_b; rw [hT.root_up] at this; cases this
  have hup : ∀ p < n, ∀ q ∈ (swapMem m a b pa pb p).up, q < n := by
    intro p hp q hq
    rw [swapMem_up] at hq
    split_ifs at hq with h1 h2
    · cases hq; exact hpb
    · cases hq; exact hpa
    · exact hT.up_lt p hp q hq
  obtain ⟨r, hr⟩ := swap_rank hT ha hb h
  refine
    { root_lt := hT.root_lt
      root_up := by rw [swapMem_up]; simp [hra, hrb, hT.root_up]
      one_root := ?_
      up_lt := hup
      left_lt := fun p hp q hq => (swap_child_up hT ha hb h hp (Or.inl hq)).1
      right_lt := fun p hp q hq => (swap_child_up hT ha hb h hp (Or.inr hq)).1
      two := ?_
      lr_ne := fun p hp q hq => swap_lr_ne hT ha hb h hp hq
      left_up := fun p hp q hq => (swap_child_up hT ha hb h hp (Or.inl hq)).2
      right_up := fun p hp q hq => (swap_child_up hT ha hb h hp (Or.inr hq)).2
      up_child := fun p hp q hq => swap_up_child hT ha hb h hp hq
      acyclic := acyclic_of_rank hup r hr }
  · intro p hp hnone
    rw [swapMem_up] at hnone
    split_ifs at hnone with h1 h2
    exact hT.one_root p hp hnone
  · intro p hp
    rw [swapMem_left, swapMem_right]
    split_ifs
    · simp only [subst_child_none]; exact hT.two p hp
    · simp only [subst_child_none]; exact hT.two p hp
    · exact hT.two p hp

end swap

/-! ## The regraft keeps the tree well-formed -/

section regraft
variable {n : Nat} {m : Mem} {root : Nat} {a b P s G Bp : Nat}

theorem regraftMem_up (x : Nat) : (regraftMem m a b P s G Bp x).up =
    if x = P then some Bp else if x = b then some P
    else if x = s then some G else (m x).up := rfl

theorem regraftMem_id (x : Nat) : (regraftMem m a b P s G Bp x).id = (m x).id := rfl

theorem regraftMem_left (x : Nat) : (regraftMem m a b P s G Bp x).left =
    if x = P then some b else regraftSlot b P s G Bp x (m x).left := rfl

theorem regraftMem_right (x : Nat) : (regraftMem m a b P s G Bp x).right =
    if x = P then some a else regraftSlot b P s G Bp x (m x).right := rfl

theorem regraftSlot_none (x : Nat) (o : Option Nat) :
    regraftSlot b P s G Bp x o = none ↔ o = none := by
  unfold regraftSlot
  split_ifs <;> simp only [subst_child_none]

/-- The three ways a slot can hold `q` after the regraft. -/
theorem regraftSlot_some (hbs : b ≠ s) {x q : Nat} {o : Option Nat}
    (h : regraftSlot b P s G Bp x o = some q) :
    (x = Bp ∧ q = P ∧ o = some b) ∨ (x = G ∧ q = s ∧ o = some P) ∨
    (o = some q ∧ (x = G → q ≠ P) ∧ (x = Bp → q ≠ b)) := by
  unfold regraftSlot at h
  by_cases hB : x = Bp <;> by_cases hG : x = G
  · have hBG : Bp = G := hB.symm.trans hG
    simp only [hB, hBG, if_true] at h
    rcases subst_child_some h with ⟨h1, h2⟩ | ⟨h1, h2⟩
    · rcases subst_child_some h1 with ⟨h3, h4⟩ | ⟨h3, h4⟩
      · exact absurd h4 hbs
      · exact Or.inl ⟨hB ▸ rfl, h2, h4⟩
    · rcases subst_child_some h2 with ⟨h3, h4⟩ | ⟨h3, h4⟩
      · exact Or.inr (Or.inl ⟨hG ▸ rfl, h4, h3⟩)
      · refine Or.inr (Or.inr ⟨h4, fun _ e => h3 (e ▸ h4), fun _ e => h1 ?_⟩)
        subst e
        exact h2
  · simp only [hB, hG, if_true, if_false] at h
    have hG' : ¬ Bp = G := fun e => hG (hB.trans e)
    simp only [hG', if_false] at h
    rcases subst_child_some h with ⟨h1, h2⟩ | ⟨h1, h2⟩
    · exact Or.inl ⟨hB, h2, h1⟩
    · exact Or.inr (Or.inr ⟨h2, fun e => absurd e hG, fun _ e => h1 (e ▸ h2)⟩)
  · simp only [hB, hG, if_true, if_false] at h
    have hB' : ¬ G = Bp := fun e => hB (hG.trans e)
    simp only [hB', if_false, if_true] at h
    rcases subst_child_some h with ⟨h1, h2⟩ | ⟨h1, h2⟩
    · exact Or.inr (Or.inl ⟨hG, h2, h1⟩)
    · exact Or.inr (Or.inr ⟨h2, fun _ e => h1 (e ▸ h2), fun e => absurd e hB⟩)
  · simp only [hB, hG, if_false] at h
    exact Or.inr (Or.inr ⟨h, fun e => absurd e hG, fun e => absurd e hB⟩)

theorem regraftSlot_b (hbP : b ≠ P) : regraftSlot b P s G Bp Bp (some b) = some P := by
  unfold regraftSlot subst_child
  by_cases hG : Bp = G <;> simp [hG, hbP]

theorem regraftSlot_P (hsb : s ≠ b) : regraftSlot b P s G Bp G (some P) = some s := by
  unfold regraftSlot subst_child
  by_cases hG : G = Bp <;> simp [hG, hsb]

theorem regraftSlot_other {x q : Nat} (hqP : q ≠ P) (hqb : q ≠ b) :
    regraftSlot b P s G Bp x (some q) = some q := by
  unfold regraftSlot subst_child
  by_cases hG : x = G <;> by_cases hB : x = Bp <;> simp [hG, hB, hqP, hqb]

/-- A child of `p` after the regraft is a node whose new parent is `p`. -/
theorem regraft_child_up (hT : TreeOK n m root) (h : RegraftOK n m a b P s G Bp)
    {p q : Nat} (hp : p < n)
    (hq : (regraftMem m a b P s G Bp p).left = some q ∨
      (regraftMem m a b P s G Bp p).right = some q) :
    q < n ∧ (regraftMem m a b P s G Bp q).up = some p := by
  have old : ∀ q, ((m p).left = some q ∨ (m p).right = some q) → q < n ∧ (m q).up = some p := by
    intro q hq
    rcases hq with hq | hq
    · exact ⟨hT.left_lt p hp q hq, hT.left_up p hp q hq⟩
    · exact ⟨hT.right_lt p hp q hq, hT.right_up p hp q hq⟩
  rw [regraftMem_left, regraftMem_right] at hq
  rw [regraftMem_up]
  by_cases hpP : p = P
  · subst hpP
    simp only [if_true, Option.some.injEq] at hq
    rcases hq with rfl | rfl
    · exact ⟨h.b_lt, by simp [h.b_P]⟩
    · exact ⟨h.a_lt, by simp [h.a_P, h.a_b, h.a_s, h.up_a]⟩
  · simp only [hpP, if_false] at hq
    have key : ∃ o, (o = (m p).left ∨ o = (m p).right) ∧
        regraftSlot b P s G Bp p o = some q := by
      rcases hq with hq | hq
      · exact ⟨_, Or.inl rfl, hq⟩
      · exact ⟨_, Or.inr rfl, hq⟩
    obtain ⟨o, ho, hs⟩ := key
    rcases regraftSlot_some h.b_s hs with ⟨h1, h2, _⟩ | ⟨h1, h2, _⟩ | ⟨h1, h2, h3⟩
    · subst h1 h2
      exact ⟨h.P_lt, by simp⟩
    · subst h1 h2
      exact ⟨h.s_lt, by simp [Ne.symm h.P_s, Ne.symm h.b_s]⟩
    · have hc : (m p).left = some q ∨ (m p).right = some q := by
        rcases ho with rfl | rfl
        · exact Or.inl h1
        · exact Or.inr h1
      obtain ⟨o1, o2⟩ := old q hc
      have hqP : q ≠ P := by
        rintro rfl
        rw [h.up_P] at o2
        exact h2 (Option.some.inj o2).symm rfl
      have hqb : q ≠ b := by
        rintro rfl
        rw [h.up_b] at o2
        exact h3 (Option.some.inj o2).symm rfl
      have hqs : q ≠ s := by
        rintro rfl
        rw [h.up_s] at o2
        exact hpP (Option.some.inj o2).symm
      exact ⟨o1, by simp [hqP, hqb, hqs, o2]⟩

/-- A node whose new parent is `p` is a child of `p` after the regraft. -/
theorem regraft_up_child (hT : TreeOK n m root) (h : RegraftOK n m a b P s G Bp)
    {p q : Nat} (hq : q < n) (hup : (regraftMem m a b P s G Bp q).up = some p) :
    (regraftMem m a b P s G Bp p).left = some q ∨
      (regraftMem m a b P s G Bp p).right = some q := by
  rw [regraftMem_left, regraftMem_right]
  rw [regraftMem_up] at hup
  by_cases hqP : q = P
  · subst hqP
    simp only [if_true] at hup
    cases hup
    simp only [Ne.symm h.P_Bp, if_false]
    rcases h.slot_b with ⟨s1, _⟩ | ⟨_, s2⟩
    · left; rw [s1]; exact regraftSlot_b h.b_P
    · right; rw [s2]; exact regraftSlot_b h.b_P
  · by_cases hqb : q = b
    · subst hqb
      simp only [hqP, if_false, if_true] at hup
      cases hup
      simp
    · by_cases hqs : q = s
      · subst hqs
        simp only [hqP, hqb, if_false, if_true] at hup
        cases hup
        simp only [Ne.symm h.P_G, if_false]
        rcases h.slot_P with ⟨s1, _⟩ | ⟨_, s2⟩
        · left; rw [s1]; exact regraftSlot_P (Ne.symm h.b_s)
        · right; rw [s2]; exact regraftSlot_P (Ne.symm h.b_s)
      · simp only [hqP, hqb, hqs, if_false] at hup
        have old := hT.up_child q hq p hup
        by_cases hpP : p = P
        · subst hpP
          have : q = a := by
            rcases h.sib with ⟨s1, s2⟩ | ⟨s1, s2⟩ <;> rcases old with o | o
            · rw [s1] at o; exact (Option.some.inj o).symm
            · rw [s2] at o; exact absurd (Option.some.inj o).symm hqs
            · rw [s1] at o; exact absurd (Option.some.inj o).symm hqs
            · rw [s2] at o; exact (Option.some.inj o).symm
          simp [this]
        · simp only [hpP, if_false]
          rcases old with o | o
          · left; rw [o]; exact regraftSlot_other hqP hqb
          · right; rw [o]; exact regraftSlot_other hqP hqb

theorem regraft_lr_ne (hT : TreeOK n m root) (h : RegraftOK n m a b P s G Bp)
    {p q : Nat} (hp : p < n) (hl : (regraftMem m a b P s G Bp p).left = some q) :
    (regraftMem m a b P s G Bp p).right ≠ some q := by
  intro hr
  rw [regraftMem_left] at hl
  rw [regraftMem_right] at hr
  by_cases hpP : p = P
  · simp only [hpP, if_true, Option.some.injEq] at hl hr
    exact h.a_b (hr.trans hl.symm)
  · simp only [hpP, if_false] at hl hr
    have old := hT.lr_ne p hp
    rcases regraftSlot_some h.b_s hl with ⟨l1, l2, l3⟩ | ⟨l1, l2, l3⟩ | ⟨l1, l2, l3⟩ <;>
      rcases regraftSlot_some h.b_s hr with ⟨r1, r2, r3⟩ | ⟨r1, r2, r3⟩ | ⟨r1, r2, r3⟩
    · exact old b l3 r3
    · exact h.P_s (l2.symm.trans r2)
    · subst l2
      have := hT.right_up p hp q r1
      rw [h.up_P] at this
      exact r2 (Option.some.inj this).symm rfl
    · exact h.P_s (r2.symm.trans l2)
    · exact old P l3 r3
    · subst l2
      have := hT.right_up p hp q r1
      rw [h.up_s] at this
      exact hpP (Option.some.inj this).symm
    · subst r2
      have := hT.left_up p hp q l1
      rw [h.up_P] at this
      exact l2 (Option.some.inj this).symm rfl
    · subst r2
      have := hT.left_up p hp q l1
      rw [h.up_s] at this
      exact hpP (Option.some.inj this).symm
    · exact old q l1 r1

/-- Rank that decreases along the `up` links after the regraft. -/
theorem regraft_rank (hT : TreeOK n m root) (h : RegraftOK n m a b P s G Bp) :
    ∃ r : Nat → Nat, ∀ p < n, ∀ q ∈ (regraftMem m a b P s G Bp p).up, r q < r p := by
  classical
  have dA := hT.depth_up h.a_lt h.up_a
  have dB := hT.depth_up h.b_lt h.up_b
  have dS := hT.depth_up h.s_lt h.up_s
  have dP := hT.depth_up h.P_lt h.up_P
  have nBp : ¬ Anc m Bp a := fun x => h.not_anc_ba (Anc.step h.up_b x)
  have nG : ¬ Anc m G a := fun x => hT.not_anc_up h.a_lt h.up_a (Anc.step h.up_P x)
  have nb : ¬ Anc m b a := h.not_anc_ba
  have ns : ¬ Anc m s a := by
    intro x
    rcases x.cases_up with e | ⟨q, hq, x'⟩
    · exact h.a_s e.symm
    · rw [h.up_s] at hq; cases hq
      exact hT.not_anc_up h.a_lt h.up_a x'
  refine ⟨fun x => if x = P then 2 * depth m n Bp + 1
    else if Anc m x a then 2 * depth m n x + 2 * depth m n b else 2 * depth m n x, ?_⟩
  intro p hp q hq
  rw [regraftMem_up] at hq
  by_cases hpP : p = P
  · subst hpP
    simp only [if_true] at hq
    cases hq
    simp only [Ne.symm h.P_Bp, nBp, if_true, if_false]
    omega
  · by_cases hpb : p = b
    · subst hpb
      simp only [hpP, if_false, if_true] at hq
      cases hq
      simp only [hpP, nb, if_true, if_false]
      omega
    · by_cases hps : p = s
      · subst hps
        simp only [hpP, hpb, if_false, if_true] at hq
        cases hq
        simp only [hpP, Ne.symm h.P_G, ns, nG, if_false]
        omega
      · simp only [hpP, hpb, hps, if_false] at hq
        have hd := hT.depth_up hp hq
        by_cases hin : Anc m p a
        · simp only [hpP, hin, if_true, if_false]
          rcases hin.cases_up with e | ⟨q', hq', x'⟩
          · subst e
            rw [h.up_a] at hq; cases hq
            simp only [if_true]
            omega
          · rw [hq] at hq'; cases hq'
            have hqP : q ≠ P := by
              rintro rfl
              exact hT.not_anc_up h.a_lt h.up_a x'
            simp only [hqP, x', if_true, if_false]
            omega
        · have hin' : ¬ Anc m q a := fun x => hin (Anc.step hq x)
          have hqP : q ≠ P := by
            rintro rfl
            rcases hT.child_slot hp hq with ⟨c1, _⟩ | ⟨_, c2⟩ <;>
              rcases h.sib with ⟨s1, s2⟩ | ⟨s1, s2⟩
            · rw [s1] at c1; exact hin ((Option.some.inj c1) ▸ Anc.refl _)
            · rw [s1] at c1; exact hps (Option.some.inj c1).symm
            · rw [s2] at c2; exact hps (Option.some.inj c2).symm
            · rw [s2] at c2; exact hin ((Option.some.inj c2) ▸ Anc.refl _)
          simp only [hpP, hqP, hin, hin', if_false]
          omega

theorem regraft_treeOK (hT : TreeOK n m root) (h : RegraftOK n m a b P s G Bp) :
    TreeOK n (regraftMem m a b P s G Bp) root := by
  have hrP : root ≠ P := by
    rintro rfl; have := h.up_P; rw [hT.root_up] at this; cases this
  have hrb : root ≠ b := by
    rintro rfl; have := h.up_b; rw [hT.root_up] at this; cases this
  have hrs : root ≠ s := by
    rintro rfl; have := h.up_s; rw [hT.root_up] at this; cases this
  have hup : ∀ p < n, ∀ q ∈ (regraftMem m a b P s G Bp p).up, q < n := by
    intro p hp q hq
    rw [regraftMem_up] at hq
    split_ifs at hq with h1 h2 h3
    · cases hq; exact h.Bp_lt
    · cases hq; exact h.P_lt
    · cases hq; exact h.G_lt
    · exact hT.up_lt p hp q hq
  obtain ⟨r, hr⟩ := regraft_rank hT h
  refine
    { root_lt := hT.root_lt
      root_up := by rw [regraftMem_up]; simp [hrP, hrb, hrs, hT.root_up]
      one_root := ?_
      up_lt := hup
      left_lt := fun p hp q hq => (regraft_child_up hT h hp (Or.inl hq)).1
      right_lt := fun p hp q hq => (regraft_child_up hT h hp (Or.inr hq)).1
      two := ?_
      lr_ne := fun p hp q hq => regraft_lr_ne hT h hp hq
      left_up := fun p hp q hq => (regraft_child_up hT h hp (Or.inl hq)).2
      right_up := fun p hp q hq => (regraft_child_up hT h hp (Or.inr hq)).2
      up_child := fun p hp q hq => regraft_up_child hT h hp hq
      acyclic := acyclic_of_rank hup r hr }
  · intro p hp hnone
    rw [regraftMem_up] at hnone
    split_ifs at hnone with h1 h2 h3
    exact hT.one_root p hp hnone
  · intro p hp
    rw [regraftMem_left, regraftMem_right]
    split_ifs
    · simp
    · simp only [regraftSlot_none]; exact hT.two p hp

end regraft

/-! ## The edits on admitted pairs -/

/-- The memory after `do_mutate_tree` on an admitted pair, in closed form. -/
theorem mutate_form {n : Nat} {m : Mem} {root : Nat} {alt : Bool} {a b : Nat}
    (hT : TreeOK n m root) (hadm : Admitted n m alt a b) :
    ∃ pa pb, PairOK m alt a b pa pb ∧
      ((alt = true ∧ do_mutate_tree alt m root a b = some (swapMem m a b pa pb, root)) ∨
       (alt = false ∧ ∃ s G, RegraftOK n m a b pa s G pb ∧
          do_mutate_tree alt m root a b = some (regraftMem m a b pa s G pb, root))) := by
  obtain ⟨pa, pb, hp⟩ := hadm.pair
  refine ⟨pa, pb, hp, ?_⟩
  cases alt with
  | true =>
    left
    refine ⟨rfl, ?_⟩
    unfold do_mutate_tree
    simp [swap_form hT hadm.1 hadm.2.1 hp]
  | false =>
    right
    obtain ⟨s, G, hr⟩ := hp.regraft hT hadm.1 hadm.2.1
    refine ⟨rfl, s, G, hr, ?_⟩
    unfold do_mutate_tree
    simp [regraft_form hr.toRegraftPre root]

/-- C6: on a well-formed binary tree, `do_mutate_tree` applied to a pair admitted by
`prep_mutate_tree` (swap and regraft alike) returns, keeps the root, every id and the set of
leaves, and yields a well-formed binary tree over the same `n` nodes: links mutually consistent,
no child or two children per node, one parentless node, no cycle. -/
theorem do_mutate_tree_wellformed (n : Nat) (m : Mem) (root : Nat) (alt : Bool) (a b : Nat)
    (hT : TreeOK n m root) (hadm : Admitted n m alt a b) :
    ∃ m1, do_mutate_tree alt m root a b = some (m1, root) ∧ TreeOK n m1 root ∧
      (∀ x, (m1 x).id = (m x).id) ∧
      (∀ x, (m1 x).left = none ↔ (m x).left = none) ∧
      (∀ x, (m1 x).right = none ↔ (m x).right = none) ∧
      (∀ x < n, (m1 x).up = none ↔ x = root) := by
  obtain ⟨pa, pb, hp, h | h⟩ := mutate_form hT hadm
  · obtain ⟨rfl, he⟩ := h
    have hT1 := swap_treeOK hT hadm.1 hadm.2.1 hp
    refine ⟨_, he, hT1, fun x => rfl, ?_, ?_,
      fun x hx => ⟨hT1.one_root x hx, fun e => e ▸ hT1.root_up⟩⟩
    · intro x
      rw [swapMem_left]
      split_ifs <;> simp only [subst_child_none]
    · intro x
      rw [swapMem_right]
      split_ifs <;> simp only [subst_child_none]
  · obtain ⟨rfl, s, G, hr, he⟩ := h
    have hT1 := regraft_treeOK hT hr
    refine ⟨_, he, hT1, fun x => rfl, ?_, ?_,
      fun x hx => ⟨hT1.one_root x hx, fun e => e ▸ hT1.root_up⟩⟩
    · intro x
      rw [regraftMem_left]
      split_ifs with hx
      · subst hx
        rcases hr.sib with ⟨s1, _⟩ | ⟨s1, _⟩ <;> simp [s1]
      · simp only [regraftSlot_none]
    · intro x
      rw [regraftMem_right]
      split_ifs with hx
      · subst hx
        rcases hr.sib with ⟨_, s1⟩ | ⟨_, s1⟩ <;> simp [s1]
      · simp only [regraftSlot_none]

theorem do_mutate_tree_wellformed_witness :
    ∃ m1, do_mutate_tree false exMem 6 0 2 = some (m1, 6) ∧ TreeOK 7 m1 6 ∧
      (∀ x, (m1 x).id = (exMem x).id) ∧
      (∀ x, (m1 x).left = none ↔ (exMem x).left = none) ∧
      (∀ x, (m1 x).right = none ↔ (exMem x).right = none) ∧
      (∀ x < 7, (m1 x).up = none ↔ x = 6) :=
  do_mutate_tree_wellformed 7 exMem 6 false 0 2 (by decide) (by decide)

/-! ## A regraft followed by its inverse -/

section inverse
variable {n : Nat} {m : Mem} {root : Nat} {a b P s G Bp : Nat}

/-- After the regraft of `a` next to `b`, the pair `(a, s)` meets what the edit needs for the
move back. -/
theorem regraft_inverse_pre (hT : TreeOK n m root) (h : RegraftOK n m a b P s G Bp) :
    RegraftPre n (regraftMem m a b P s G Bp) a s P b Bp G := by
  have hT1 := regraft_treeOK hT h
  have upP : (regraftMem m a b P s G Bp P).up = some Bp := by rw [regraftMem_up]; simp
  have ups : (regraftMem m a b P s G Bp s).up = some G := by
    rw [regraftMem_up]; simp [Ne.symm h.P_s, Ne.symm h.b_s]
  exact
    { a_lt := h.a_lt, b_lt := h.s_lt, P_lt := h.P_lt, s_lt := h.b_lt, G_lt := h.Bp_lt
      Bp_lt := h.G_lt
      up_a := by rw [regraftMem_up]; simp [h.a_P, h.a_b, h.a_s, h.up_a]
      up_b := ups
      up_s := by rw [regraftMem_up]; simp [h.b_P]
      up_P := upP
      sib := Or.inr ⟨by rw [regraftMem_left]; simp, by rw [regraftMem_right]; simp⟩
      a_b := h.a_s, a_P := h.a_P, a_s := h.a_b, a_G := h.a_Bp, a_Bp := h.a_G
      b_P := Ne.symm h.P_s, b_s := Ne.symm h.b_s, b_Bp := h.s_G
      P_s := Ne.symm h.b_P, P_G := h.P_Bp, P_Bp := h.P_G, s_G := h.b_Bp
      slot_P := hT1.child_slot h.P_lt upP
      slot_b := hT1.child_slot h.s_lt ups }

/-- The slot edits of the regraft and of the move back cancel on every slot of the original
tree. -/
theorem regraftSlot_inverse (hT : TreeOK n m root) (h : RegraftOK n m a b P s G Bp)
    {x : Nat} (hx : x < n) (hxP : x ≠ P) {o : Option Nat}
    (ho : o = (m x).left ∨ o = (m x).right) :
    regraftSlot s P b Bp G x (regraftSlot b P s G Bp x o) = o := by
  cases ho' : o with
  | none =>
    rw [(regraftSlot_none x _).mpr ((regraftSlot_none x none).mpr rfl)]
  | some q =>
    have hup : (m q).up = some x := by
      rcases ho with e | e
      · exact hT.left_up x hx q (by rw [← e, ho']; rfl)
      · exact hT.right_up x hx q (by rw [← e, ho']; rfl)
    by_cases hqb : q = b
    · subst hqb
      rw [h.up_b] at hup
      cases hup
      rw [regraftSlot_b h.b_P]
      exact regraftSlot_P h.b_s
    · by_cases hqP : q = P
      · subst hqP
        rw [h.up_P] at hup
        cases hup
        rw [regraftSlot_P (Ne.symm h.b_s)]
        exact regraftSlot_b (Ne.symm h.P_s)
      · have hqs : q ≠ s := by
          rintro rfl
          rw [h.up_s] at hup
          exact hxP (Option.some.inj hup).symm
        rw [regraftSlot_other hqP hqb]
        exact regraftSlot_other hqP hqs

/-- The memory after a regraft and the move back: only the two child slots of the parent of
`a` can differ from the original. -/
theorem regraft_inverse_mem (hT : TreeOK n m root) (h : RegraftOK n m a b P s G Bp) (x : Nat)
    (hx : x < n) :
    regraftMem (regraftMem m a b P s G Bp) a s P b Bp G x =
      if x = P then { m P with left := some s, right := some a } else m x := by
  apply node_ext
  · rw [regraftMem_id, regraftMem_id]; split_ifs with e <;> simp [e]
  · rw [regraftMem_left]
    split_ifs with e
    · rfl
    · rw [regraftMem_left, if_neg e]
      exact regraftSlot_inverse hT h hx e (Or.inl rfl)
  · rw [regraftMem_right]
    split_ifs with e
    · rfl
    · rw [regraftMem_right, if_neg e]
      exact regraftSlot_inverse hT h hx e (Or.inr rfl)
  · rw [regraftMem_up, regraftMem_up]
    by_cases e1 : x = P
    · simp [e1, h.up_P]
    · by_cases e2 : x = s
      · simp [e2, Ne.symm h.P_s, h.up_s]
      · by_cases e3 : x = b
        · simp [e3, h.b_P, h.b_s, h.up_b]
        · simp [e1, e2, e3]

end inverse

/-- C5 (as the code has it): on a well-formed tree and a regraft-admissible pair `(a, b)`, with
`P` the parent and `s` the sibling of `a`, `do_mutate_tree(tree, a, b)` followed by
`do_mutate_tree(tree, a, s)` (both with `alternate = 0`) returns and restores the whole record
(id, parent, left child, right child) of every node other than `P`; `P` gets its id and parent
back, with `s` as left child and `a` as right child. So the child slots of `P` are restored
exactly when `a` was the right child, and exchanged when `a` was the left child. -/
theorem regraft_then_inverse (n : Nat) (m : Mem) (root a b : Nat)
    (hT : TreeOK n m root) (hadm : Admitted n m false a b) :
    ∃ P s m1 m2, (m a).up = some P ∧ prep_endpoints m false a b = some (a, some s) ∧
      do_mutate_tree false m root a b = some (m1, root) ∧
      do_mutate_tree false m1 root a s = some (m2, root) ∧
      (∀ x < n, x ≠ P → m2 x = m x) ∧
      (m2 P).id = (m P).id ∧ (m2 P).up = (m P).up ∧
      (m2 P).left = some s ∧ (m2 P).right = some a ∧
      ((m P).right = some a → ∀ x < n, m2 x = m x) := by
  obtain ⟨pa, pb, hp, h | h⟩ := mutate_form hT hadm
  · exact absurd h.1 (by simp)
  · obtain ⟨_, s, G, hr, he⟩ := h
    have hinv := regraft_inverse_pre hT hr
    have he2 : do_mutate_tree false (regraftMem m a b pa s G pb) root a s =
        some (regraftMem (regraftMem m a b pa s G pb) a s pa b pb G, root) := by
      unfold do_mutate_tree
      simp [regraft_form hinv root]
    have hmem := regraft_inverse_mem hT hr
    refine ⟨pa, s, _, _, hr.up_a, ?_, he, he2, ?_, ?_, ?_, ?_, ?_, ?_⟩
    · unfold prep_endpoints
      simp [hr.up_a, hr.toRegraftPre.sibling]
    · intro x hx hxP
      rw [hmem x hx, if_neg hxP]
    · rw [hmem pa hr.P_lt]; simp
    · rw [hmem pa hr.P_lt]; simp
    · rw [hmem pa hr.P_lt]; simp
    · rw [hmem pa hr.P_lt]; simp
    · intro hright x hx
      rw [hmem x hx]
      split_ifs with e
      · subst e
        have hleft : (m x).left = some s := by
          rcases hr.sib with ⟨_, s2⟩ | ⟨s1, _⟩
          · rw [hright] at s2
            exact absurd (Option.some.inj s2) hr.a_s
          · exact s1
        apply node_ext <;> simp [hleft, hright]
      · rfl

theorem regraft_then_inverse_witness :
    ∃ P s m1 m2, (exMem 0).up = some P ∧ prep_endpoints exMem false 0 2 = some (0, some s) ∧
      do_mutate_tree false exMem 6 0 2 = some (m1, 6) ∧
      do_mutate_tree false m1 6 0 s = some (m2, 6) ∧
      (∀ x < 7, x ≠ P → m2 x = exMem x) ∧
      (m2 P).id = (exMem P).id ∧ (m2 P).up = (exMem P).up ∧
      (m2 P).left = some s ∧ (m2 P).right = some 0 ∧
      ((exMem P).right = some 0 → ∀ x < 7, m2 x = exMem x) :=
  regraft_then_inverse 7 exMem 6 0 2 (by decide) (by decide)

/-- C5 as stated fails: in the tree `6(4(0,1), 5(2,3))` the pair `(0, 2)` is regraft-admissible,
node 0 is the left child of node 4 with sibling 1, and after `do_mutate_tree(0, 2)` followed by
`do_mutate_tree(0, 1)` node 4 has left child 1 and right child 0: its two slots are
exchanged. -/
theorem regraft_then_inverse_counterexample :
    TreeOK 7 exMem 6 ∧ Admitted 7 exMem false 0 2 ∧
    prep_endpoints exMem false 0 2 = some (0, some 1) ∧
    ((exMem 4).left, (exMem 4).right) = (some 0, some 1) ∧
    (do_mutate_tree false exMem 6 0 2).bind (fun r =>
      (do_mutate_tree false r.1 r.2 0 1).map (fun r2 => ((r2.1 4).left, (r2.1 4).right)))
      = some (some 1, some 0) := by
  decide

/-! ## `init_tree` -/

theorem init_tree_eq (k : Nat) (pi junk : Nat → Nat) : init_tree k pi junk = init_iter k pi junk k :=
  rfl

theorem init_iter_succ (k : Nat) (pi junk : Nat → Nat) (j : Nat) :
    init_iter k pi junk (j + 1) = init_step k pi (init_iter k pi junk j) j := by
  unfold init_iter
  rw [List.range_succ, List.foldl_append]
  rfl

/-- One round of the main loop once the root has a left child: a new leaf and a new root. -/
theorem init_step_grow (k : Nat) (pi : Nat → Nat) (s : InitState) (j t : Nat)
    (ht : s.tree = some t) (hl : (s.mem t).left ≠ none) (htlt : t < s.alloc) :
    (init_step k pi s j).alloc = s.alloc + 2 ∧
    (init_step k pi s j).n = s.n + 1 ∧
    (init_step k pi s j).tree = some (s.alloc + 1) ∧
    (init_step k pi s j).permut = Function.update s.permut (pi j) (s.permut (k - j - 1)) ∧
    (init_step k pi s j).array =
      Function.update (Function.update s.array (s.permut (pi j)) (some s.alloc)) s.n
        (some (s.alloc + 1)) ∧
    (∀ x, (init_step k pi s j).mem x =
      if x = s.alloc then ⟨s.permut (pi j), none, none, some (s.alloc + 1)⟩
      else if x = s.alloc + 1 then ⟨s.n, some s.alloc, some t, none⟩
      else if x = t then { s.mem t with up := some (s.alloc + 1) }
      else s.mem x) := by
  have h1 : t ≠ s.alloc := by omega
  have h2 : t ≠ s.alloc + 1 := by omega
  have hl' : (Function.update s.mem s.alloc ⟨s.permut (pi j), none, none, none⟩ t).left ≠ none := by
    rw [Function.update_noteq h1]; exact hl
  unfold init_step new_node
  simp only [ht, Function.update_same, hl', if_false]
  refine ⟨trivial, trivial, trivial, trivial, ?_, ?_⟩
  · simp only [setUp_id, Function.update_same]
  intro x
  apply node_ext
  · simp only [setUp_id, setRight_id, setLeft_id]
    by_cases e1 : x = s.alloc
    · subst e1; simp
    · by_cases e2 : x = s.alloc + 1
      · subst e2; simp
      · by_cases e3 : x = t
        · subst e3; simp [e1, e2, Function.update_noteq]
        · simp [e1, e2, e3, Function.update_noteq]
  · simp only [setUp_left, setRight_left, setLeft_left]
    by_cases e1 : x = s.alloc
    · subst e1; simp
    · by_cases e2 : x = s.alloc + 1
      · subst e2; simp
      · by_cases e3 : x = t
        · subst e3; simp [e1, e2, Function.update_noteq]
        · simp [e1, e2, e3, Function.update_noteq]
  · simp only [setUp_right, setRight_right, setLeft_right]
    by_cases e1 : x = s.alloc
    · subst e1; simp
    · by_cases e2 : x = s.alloc + 1
      · subst e2; simp
      · by_cases e3 : x = t
        · subst e3; simp [e1, e2, Function.update_noteq]
        · simp [e1, e2, e3, Function.update_noteq]
  · simp only [setUp_up, setRight_up, setLeft_up]
    by_cases e1 : x = s.alloc
    · subst e1; simp [Ne.symm h1]
    · by_cases e2 : x = s.alloc + 1
      · subst e2; simp [Ne.symm h2]
      · by_cases e3 : x = t
        · subst e3; simp [e1, e2, Function.update_noteq]
        · simp [e1, e2, e3, Function.update_noteq]

/-- The first round of the main loop: a leaf under a fresh root that has no left child yet. -/
theorem init_step_first (k : Nat) (pi : Nat → Nat) (s : InitState) (j : Nat)
    (ht : s.tree = none) :
    (init_step k pi s j).alloc = s.alloc + 2 ∧
    (init_step k pi s j).n = s.n + 1 ∧
    (init_step k pi s j).tree = some (s.alloc + 1) ∧
    (init_step k pi s j).permut = Function.update s.permut (pi j) (s.permut (k - j - 1)) ∧
    (init_step k pi s j).array =
      Function.update (Function.update s.array (s.permut (pi j)) (some s.alloc)) s.n
        (some (s.alloc + 1)) ∧
    (∀ x, (init_step k pi s j).mem x =
      if x = s.alloc then ⟨s.permut (pi j), none, none, some (s.alloc + 1)⟩
      else if x = s.alloc + 1 then ⟨s.n, none, some s.alloc, none⟩
      else s.mem x) := by
  unfold init_step new_node
  simp only [ht, Function.update_same]
  refine ⟨trivial, trivial, trivial, trivial, ?_, ?_⟩
  · simp only [setUp_id, Function.update_same]
  intro x
  apply node_ext
  · simp only [setUp_id, setRight_id]
    by_cases e1 : x = s.alloc
    · subst e1; simp
    · by_cases e2 : x = s.alloc + 1
      · subst e2; simp
      · simp [e1, e2, Function.update_noteq]
  · simp only [setUp_left, setRight_left]
    by_cases e1 : x = s.alloc
    · subst e1; simp
    · by_cases e2 : x = s.alloc + 1
      · subst e2; simp
      · simp [e1, e2, Function.update_noteq]
  · simp only [setUp_right, setRight_right]
    by_cases e1 : x = s.alloc
    · subst e1; simp
    · by_cases e2 : x = s.alloc + 1
      · subst e2; simp
      · simp [e1, e2, Function.update_noteq]
  · simp only [setUp_up, setRight_up]
    by_cases e1 : x = s.alloc
    · subst e1; simp
    · by_cases e2 : x = s.alloc + 1
      · subst e2; simp
      · simp [e1, e2, Function.update_noteq]

/-- The second round of the main loop: the new leaf fills the free left slot of the root. -/
theorem init_step_fill (k : Nat) (pi : Nat → Nat) (s : InitState) (j t : Nat)
    (ht : s.tree = some t) (hl : (s.mem t).left = none) (htlt : t < s.alloc) :
    (init_step k pi s j).alloc = s.alloc + 1 ∧
    (init_step k pi s j).n = s.n ∧
    (init_step k pi s j).tree = some t ∧
    (init_step k pi s j).permut = Function.update s.permut (pi j) (s.permut (k - j - 1)) ∧
    (init_step k pi s j).array = Function.update s.array (s.permut (pi j)) (some s.alloc) ∧
    (∀ x, (init_step k pi s j).mem x =
      if x = s.alloc then ⟨s.permut (pi j), none, none, some t⟩
      else if x = t then { s.mem t with left := some s.alloc }
      else s.mem x) := by
  have h1 : t ≠ s.alloc := by omega
  have hl' : (Function.update s.mem s.alloc ⟨s.permut (pi j), none, none, none⟩ t).left = none := by
    rw [Function.update_noteq h1]; exact hl
  unfold init_step new_node
  simp only [ht, Function.update_same, hl', if_true]
  refine ⟨trivial, trivial, trivial, trivial, trivial, ?_⟩
  intro x
  apply node_ext
  · simp only [setUp_id, setLeft_id]
    by_cases e1 : x = s.alloc
    · subst e1; simp
    · by_cases e3 : x = t
      · subst e3; simp [e1, Function.update_noteq]
      · simp [e1, e3, Function.update_noteq]
  · simp only [setUp_left, setLeft_left]
    by_cases e1 : x = s.alloc
    · subst e1; simp [Ne.symm h1]
    · by_cases e3 : x = t
      · subst e3; simp [e1, Function.update_noteq]
      · simp [e1, e3, Function.update_noteq]
  · simp only [setUp_right, setLeft_right]
    by_cases e1 : x = s.alloc
    · subst e1; simp
    · by_cases e3 : x = t
      · subst e3; simp [e1, Function.update_noteq]
      · simp [e1, e3, Function.update_noteq]
  · simp only [setUp_up, setLeft_up]
    by_cases e1 : x = s.alloc
    · subst e1; simp
    · by_cases e3 : x = t
      · subst e3; simp [e1, Function.update_noteq]
      · simp [e1, e3, Function.update_noteq]

theorem countLeaves_congr (m m' : Mem) : ∀ a, (∀ p < a, ((m' p).left = none ↔ (m p).left = none)) →
    countLeaves m' a = countLeaves m a := by
  intro a
  induction a with
  | zero => intro _; rfl
  | succ a ih =>
    intro h
    unfold countLeaves
    rw [ih (fun p hp => h p (Nat.lt_succ_of_lt hp))]
    have := h a (Nat.lt_succ_self a)
    by_cases e : (m a).left = none
    · simp [e, this.mpr e]
    · have e' : (m' a).left ≠ none := fun x => e (this.mp x)
      simp [e, e']

theorem init_iter_zero (k : Nat) (pi junk : Nat → Nat) :
    (init_iter k pi junk 0).alloc = 0 ∧ (init_iter k pi junk 0).n = k ∧
    (init_iter k pi junk 0).tree = none ∧
    (init_iter k pi junk 0).permut = (fun j => if j < k then j else junk j) ∧
    (init_iter k pi junk 0).array = (fun _ => none) :=
  ⟨rfl, rfl, rfl, rfl, rfl⟩

/-- The state after the first round. -/
theorem init_iter_one (k : Nat) (pi junk : Nat → Nat) :
    (init_iter k pi junk 1).alloc = 2 ∧ (init_iter k pi junk 1).n = k + 1 ∧
    (init_iter k pi junk 1).tree = some 1 ∧
    (∀ x, (init_iter k pi junk 1).mem x =
      if x = 0 then ⟨(init_iter k pi junk 0).permut (pi 0), none, none, some 1⟩
      else if x = 1 then ⟨k, none, some 0, none⟩
      else ⟨0, none, none, none⟩) := by
  obtain ⟨h1, h2, h3, _, _, h6⟩ := init_step_first k pi (init_iter k pi junk 0) 0 rfl
  rw [init_iter_succ]
  exact ⟨h1, h2, h3, h6⟩

/-- The state after the first two rounds: two leaves under the first internal node. -/
theorem init_iter_two (k : Nat) (pi junk : Nat → Nat) :
    (init_iter k pi junk 2).alloc = 3 ∧ (init_iter k pi junk 2).n = k + 1 ∧
    (init_iter k pi junk 2).tree = some 1 ∧
    (init_iter k pi junk 2).mem 0 =
      ⟨(init_iter k pi junk 0).permut (pi 0), none, none, some 1⟩ ∧
    (init_iter k pi junk 2).mem 1 = ⟨k, some 2, some 0, none⟩ ∧
    (init_iter k pi junk 2).mem 2 =
      ⟨(init_iter k pi junk 1).permut (pi 1), none, none, some 1⟩ := by
  obtain ⟨a1, a2, a3, a4⟩ := init_iter_one k pi junk
  have hl : ((init_iter k pi junk 1).mem 1).left = none := by rw [a4]; simp
  obtain ⟨h1, h2, h3, _, _, h6⟩ := init_step_fill k pi (init_iter k pi junk 1) 1 1 a3 hl
    (by omega)
  rw [init_iter_succ]
  refine ⟨by omega, by omega, h3, ?_, ?_, ?_⟩
  · simp [h6, a1, a4]
  · simp [h6, a1, a4]
  · simp [h6, a1]

theorem initShape_two (k : Nat) (pi junk : Nat → Nat) : InitShape k 2 (init_iter k pi junk 2) := by
  obtain ⟨a1, a2, a3, m0, m1, m2⟩ := init_iter_two k pi junk
  have cases3 : ∀ p < 3, p = 0 ∨ p = 1 ∨ p = 2 := by intro p hp; omega
  refine ⟨by omega, by omega, ⟨1, a3, by omega, by rw [m1], by rw [m1]; simp, ?_⟩, ?_, ?_⟩
  · intro p hp hup
    rw [a1] at hp
    rcases cases3 p hp with rfl | rfl | rfl
    · rw [m0] at hup; cases hup
    · rfl
    · rw [m2] at hup; cases hup
  · intro p hp
    rw [a1] at hp
    rcases cases3 p hp with rfl | rfl | rfl
    · rw [m0]
    · rw [m1]; simp
    · rw [m2]
  · rw [a1]
    simp [countLeaves, m0, m1, m2]

theorem initShape_step (k : Nat) (pi : Nat → Nat) (s : InitState) (j : Nat) (hj : 2 ≤ j)
    (h : InitShape k j s) : InitShape k (j + 1) (init_step k pi s j) := by
  obtain ⟨r, hr1, hr2, hr3, hr4, hr5⟩ := h.root
  obtain ⟨g1, g2, g3, _, _, g6⟩ := init_step_grow k pi s j r hr1 hr4 hr2
  have ha := h.alloc_eq
  have hn := h.n_eq
  have hleft : ∀ p < s.alloc, (((init_step k pi s j).mem p).left = (s.mem p).left ∧
      ((init_step k pi s j).mem p).right = (s.mem p).right) := by
    intro p hp
    rw [g6]
    have e1 : p ≠ s.alloc := by omega
    have e2 : p ≠ s.alloc + 1 := by omega
    simp only [e1, e2, if_false]
    split_ifs with e3
    · rw [e3]; exact ⟨rfl, rfl⟩
    · exact ⟨rfl, rfl⟩
  refine ⟨by omega, by omega, ⟨s.alloc + 1, g3, by omega, by rw [g6]; simp, by rw [g6]; simp, ?_⟩,
    ?_, ?_⟩
  · intro p hp hup
    rw [g6] at hup
    by_cases e1 : p = s.alloc
    · simp [e1] at hup
    · by_cases e2 : p = s.alloc + 1
      · exact e2
      · by_cases e3 : p = r
        · have f1 : r ≠ s.alloc := by omega
          have f2 : r ≠ s.alloc + 1 := by omega
          rw [e3] at hup
          simp only [f1, f2, if_false, if_true] at hup
          cases hup
        · simp only [e1, e2, e3, if_false] at hup
          exact absurd (hr5 p (by omega) hup) e3
  · intro p hp
    by_cases e1 : p = s.alloc
    · rw [g6]; simp [e1]
    · by_cases e2 : p = s.alloc + 1
      · rw [g6]; simp [e2]
      · have hp' : p < s.alloc := by omega
        rw [(hleft p hp').1, (hleft p hp').2]
        exact h.two p hp'
  · rw [g1]
    show countLeaves _ (s.alloc + 1) + _ = _
    have c1 : countLeaves (init_step k pi s j).mem s.alloc = j := by
      rw [countLeaves_congr s.mem _ s.alloc (fun p hp => by rw [(hleft p hp).1])]
      exact h.leaves
    have c2 : ((init_step k pi s j).mem s.alloc).left = none := by rw [g6]; simp
    have c3 : ((init_step k pi s j).mem (s.alloc + 1)).left ≠ none := by rw [g6]; simp
    unfold countLeaves
    rw [c1]
    simp [c2, c3]

theorem initShape_iter (k : Nat) (pi junk : Nat → Nat) :
    ∀ j, 2 ≤ j → InitShape k j (init_iter k pi junk j) := by
  intro j hj
  induction j with
  | zero => omega
  | succ i ih =>
    by_cases e : i = 1
    · subst e; exact initShape_two k pi junk
    · rw [init_iter_succ]
      exact initShape_step k pi _ i (by omega) (ih (by omega))

/-- For at least two witnesses and any draws, `init_tree` creates `2k-1` nodes (and leaves the
counter `n` at `2k-1`), `k` of them leaves; every node has no child or two children, and the
root is the only parentless node. -/
theorem init_tree_shape (k : Nat) (pi junk : Nat → Nat) (hk : 2 ≤ k) :
    (init_tree k pi junk).alloc = 2 * k - 1 ∧ (init_tree k pi junk).n = 2 * k - 1 ∧
    countLeaves (init_tree k pi junk).mem (2 * k - 1) = k ∧
    (∀ p < 2 * k - 1, (((init_tree k pi junk).mem p).left = none ↔
      ((init_tree k pi junk).mem p).right = none)) ∧
    (∃ r, (init_tree k pi junk).tree = some r ∧ r < 2 * k - 1 ∧
      ∀ p < 2 * k - 1, (((init_tree k pi junk).mem p).up = none ↔ p = r)) := by
  have h := initShape_iter k pi junk k hk
  rw [← init_tree_eq] at h
  obtain ⟨r, hr1, hr2, hr3, _, hr5⟩ := h.root
  have ha := h.alloc_eq
  refine ⟨ha, by rw [h.n_eq]; omega, by rw [← ha]; exact h.leaves, by rw [← ha]; exact h.two,
    r, hr1, by omega, ?_⟩
  intro p hp
  exact ⟨hr5 p (by omega), fun e => e ▸ hr3⟩

/-- C7 fails for a single witness: whatever the draw, `init_tree` with `leafs = 1` creates two
nodes (`n = 2`, not `2*1-1 = 1`), the root is an internal node with the only leaf as right
child and no left child, and the root is entered in the lookup array at index 1, outside the
`2*leafs-1 = 1` slots that were allocated for it. -/
theorem init_tree_one_leaf (pi junk : Nat → Nat) :
    (init_tree 1 pi junk).alloc = 2 ∧ (init_tree 1 pi junk).n = 2 ∧
    (init_tree 1 pi junk).tree = some 1 ∧
    ((init_tree 1 pi junk).mem 1).left = none ∧
    ((init_tree 1 pi junk).mem 1).right = some 0 ∧
    (init_tree 1 pi junk).array 1 = some 1 := by
  obtain ⟨a1, a2, a3, a4⟩ := init_iter_one 1 pi junk
  obtain ⟨_, _, _, _, h5, _⟩ := init_step_first 1 pi (init_iter 1 pi junk 0) 0 rfl
  rw [init_tree_eq]
  refine ⟨a1, a2, a3, by rw [a4]; simp, by rw [a4]; simp, ?_⟩
  rw [init_iter_succ, h5, (init_iter_zero 1 pi junk).2.1]
  exact Function.update_same _ _ _

/-! ## Ids handed out by `init_tree` -/

theorem permInv_step {k j : Nat} {perm : Nat → Nat} {used : Nat → Prop} {d : Nat}
    (h : PermInv k j perm used) (hd : d < k - j) :
    PermInv k (j + 1) (Function.update perm d (perm (k - j - 1)))
      (fun id => used id ∨ id = perm d) := by
  have hlast : k - j - 1 < k - j := by omega
  have val : ∀ x < k - (j + 1), Function.update perm d (perm (k - j - 1)) x =
      if x = d then perm (k - j - 1) else perm x := by
    intro x _
    rw [Function.update_apply]
  refine ⟨?_, ?_, ?_, ?_, ?_⟩
  · intro x hx
    rw [val x hx]
    split_ifs
    · exact h.lt _ hlast
    · exact h.lt x (by omega)
  · intro x hx y hy hxy
    rw [val x hx, val y hy] at hxy
    split_ifs at hxy with e1 e2 e2
    · rw [e1, e2]
    · have := h.inj _ hlast y (by omega) hxy
      omega
    · have := h.inj x (by omega) _ hlast hxy
      omega
    · exact h.inj x (by omega) y (by omega) hxy
  · intro x hx hu
    rw [val x hx] at hu
    split_ifs at hu with e1
    · rcases hu with hu | hu
      · exact h.fresh _ hlast hu
      · have := h.inj _ hlast d hd hu
        omega
    · rcases hu with hu | hu
      · exact h.fresh x (by omega) hu
      · exact e1 (h.inj x (by omega) d hd hu)
  · intro id hid
    rcases hid with hid | hid
    · exact h.used_lt id hid
    · rw [hid]; exact h.lt d hd
  · intro id hid
    rcases h.cover id hid with hu | ⟨x, hx, hxid⟩
    · exact Or.inl (Or.inl hu)
    · by_cases e1 : x = d
      · subst e1; exact Or.inl (Or.inr hxid.symm)
      · by_cases e2 : x = k - j - 1
        · refine Or.inr ⟨d, by omega, ?_⟩
          rw [Function.update_same, ← e2, hxid]
        · refine Or.inr ⟨x, by omega, ?_⟩
          rw [Function.update_noteq e1, hxid]

theorem init_step_permut (k : Nat) (pi : Nat → Nat) (s : InitState) (j : Nat) :
    (init_step k pi s j).permut = Function.update s.permut (pi j) (s.permut (k - j - 1)) := by
  unfold init_step new_node
  cases s.tree with
  | none => rfl
  | some t =>
    simp only
    split_ifs <;> rfl

/-- The permutation buffer after `j` rounds of in-range draws. -/
theorem permInv_iter (k : Nat) (pi junk : Nat → Nat) (hpi : ∀ i < k, pi i < k - i) :
    ∀ j ≤ k, PermInv k j (init_iter k pi junk j).permut
      (fun id => ∃ i < j, leaf_id_of_round k pi junk i = id) := by
  intro j
  induction j with
  | zero =>
    intro _
    refine ⟨?_, ?_, ?_, ?_, ?_⟩
    · intro x hx
      have hx' : x < k := by omega
      simp [init_iter, hx']
    · intro x hx y hy hxy
      have hx' : x < k := by omega
      have hy' : y < k := by omega
      simpa [init_iter, hx', hy'] using hxy
    · rintro x _ ⟨i, hi, _⟩
      omega
    · rintro id ⟨i, hi, _⟩
      omega
    · intro id hid
      exact Or.inr ⟨id, by omega, by simp [init_iter, hid]⟩
  | succ j ih =>
    intro hj
    have h := permInv_step (ih (by omega)) (hpi j (by omega))
    rw [init_iter_succ, init_step_permut]
    refine ⟨h.lt, h.inj, ?_, ?_, ?_⟩
    · intro x hx hu
      refine h.fresh x hx ?_
      obtain ⟨i, hi, hu⟩ := hu
      rcases Nat.lt_succ_iff_lt_or_eq.mp hi with hlt | rfl
      · exact Or.inl ⟨i, hlt, hu⟩
      · exact Or.inr hu.symm
    · rintro id ⟨i, hi, hu⟩
      refine h.used_lt id ?_
      rcases Nat.lt_succ_iff_lt_or_eq.mp hi with hlt | rfl
      · exact Or.inl ⟨i, hlt, hu⟩
      · exact Or.inr hu.symm
    · intro id hid
      rcases h.cover id hid with (⟨i, hi, hu⟩ | hu) | hx
      · exact Or.inl ⟨i, by omega, hu⟩
      · exact Or.inl ⟨j, by omega, hu.symm⟩
      · exact Or.inr hx

theorem init_iter_two_array (k : Nat) (pi junk : Nat → Nat) :
    (init_iter k pi junk 2).array =
      Function.update (Function.update (Function.update (fun _ => none)
        (leaf_id_of_round k pi junk 0) (some 0)) k (some 1))
        (leaf_id_of_round k pi junk 1) (some 2) := by
  obtain ⟨a1, _, a3, a4⟩ := init_iter_one k pi junk
  have hl : ((init_iter k pi junk 1).mem 1).left = none := by rw [a4]; simp
  obtain ⟨_, _, _, _, h5, _⟩ := init_step_fill k pi (init_iter k pi junk 1) 1 1 a3 hl
    (by omega)
  obtain ⟨_, _, _, _, g5, _⟩ := init_step_first k pi (init_iter k pi junk 0) 0 rfl
  rw [init_iter_succ, h5, a1]
  rw [init_iter_succ, g5]
  rfl

theorem leaf_id_lt (k : Nat) (pi junk : Nat → Nat) (hpi : ∀ i < k, pi i < k - i) {i : Nat}
    (hi : i < k) : leaf_id_of_round k pi junk i < k :=
  (permInv_iter k pi junk hpi i (by omega)).lt (pi i) (hpi i hi)

theorem leaf_id_inj (k : Nat) (pi junk : Nat → Nat) (hpi : ∀ i < k, pi i < k - i) {i j : Nat}
    (hij : i < j) (hj : j < k) :
    leaf_id_of_round k pi junk i ≠ leaf_id_of_round k pi junk j := by
  intro e
  exact (permInv_iter k pi junk hpi j (by omega)).fresh (pi j) (hpi j hj) ⟨i, hij, e⟩

theorem initIds_two (k : Nat) (pi junk : Nat → Nat) (hk : 2 ≤ k) (hpi : ∀ i < k, pi i < k - i) :
    InitIds k 2 (leaf_id_of_round k pi junk) (init_iter k pi junk 2) := by
  obtain ⟨a1, a2, a3, m0, m1, m2⟩ := init_iter_two k pi junk
  have arr := init_iter_two_array k pi junk
  have l0 := leaf_id_lt k pi junk hpi (i := 0) (by omega)
  have l1 := leaf_id_lt k pi junk hpi (i := 1) (by omega)
  have l01 := leaf_id_inj k pi junk hpi (i := 0) (j := 1) (by omega) (by omega)
  have cases3 : ∀ p < 3, p = 0 ∨ p = 1 ∨ p = 2 := by intro p hp; omega
  have e0 : ((init_iter k pi junk 2).mem 0).id = leaf_id_of_round k pi junk 0 := by rw [m0]; rfl
  have e2 : ((init_iter k pi junk 2).mem 2).id = leaf_id_of_round k pi junk 1 := by rw [m2]; rfl
  have e1 : ((init_iter k pi junk 2).mem 1).id = k := by rw [m1]
  refine ⟨?_, ?_, ?_, ?_, e1, ?_⟩
  · intro p hp
    rw [a1] at hp
    rcases cases3 p hp with rfl | rfl | rfl
    · rw [e0, arr, Function.update_noteq l01, Function.update_noteq (by omega),
        Function.update_same]
    · rw [e1, arr, Function.update_noteq (by omega), Function.update_same]
    · rw [e2, arr, Function.update_same]
  · intro p hp hleaf
    rw [a1] at hp
    rcases cases3 p hp with rfl | rfl | rfl
    · exact ⟨0, by omega, e0⟩
    · rw [m1] at hleaf; cases hleaf
    · exact ⟨1, by omega, e2⟩
  · intro i hi
    have : i = 0 ∨ i = 1 := by omega
    rcases this with rfl | rfl
    · exact ⟨0, by omega, by rw [m0], e0⟩
    · exact ⟨2, by omega, by rw [m2], e2⟩
  · intro p hp hint
    rw [a1] at hp
    rcases cases3 p hp with rfl | rfl | rfl
    · rw [m0] at hint; exact absurd rfl hint
    · rw [e1, a2]; omega
    · rw [m2] at hint; exact absurd rfl hint
  · intro i h1 h2
    omega

theorem initIds_step (k : Nat) (pi junk : Nat → Nat) (hpi : ∀ i < k, pi i < k - i) (j : Nat)
    (hj : 2 ≤ j) (hjk : j < k)
    (hS : InitShape k j (init_iter k pi junk j))
    (h : InitIds k j (leaf_id_of_round k pi junk) (init_iter k pi junk j)) :
    InitIds k (j + 1) (leaf_id_of_round k pi junk) (init_iter k pi junk (j + 1)) := by
  obtain ⟨r, hr1, hr2, hr3, hr4, hr5⟩ := hS.root
  obtain ⟨g1, g2, g3, _, g5, g6⟩ := init_step_grow k pi (init_iter k pi junk j) j r hr1 hr4 hr2
  have ha := hS.alloc_eq
  have hn := hS.n_eq
  have lj := leaf_id_lt k pi junk hpi hjk
  rw [init_iter_succ]
  generalize hs : init_iter k pi junk j = s at *
  have hl : s.permut (pi j) = leaf_id_of_round k pi junk j := by
    unfold leaf_id_of_round; rw [hs]
  rw [hl] at g5 g6
  have old : ∀ p < s.alloc, ((init_step k pi s j).mem p).id = (s.mem p).id ∧
      ((init_step k pi s j).mem p).left = (s.mem p).left := by
    intro p hp
    rw [g6]
    have e1 : p ≠ s.alloc := by omega
    have e2 : p ≠ s.alloc + 1 := by omega
    simp only [e1, e2, if_false]
    split_ifs with e3
    · rw [e3]; exact ⟨rfl, rfl⟩
    · exact ⟨rfl, rfl⟩
  have newleaf : (init_step k pi s j).mem s.alloc =
      ⟨leaf_id_of_round k pi junk j, none, none, some (s.alloc + 1)⟩ := by
    rw [g6]; simp
  have newint : (init_step k pi s j).mem (s.alloc + 1) = ⟨s.n, some s.alloc, some r, none⟩ := by
    rw [g6]; simp
  have idlt : ∀ p < s.alloc, (s.mem p).id < s.n ∧
      (s.mem p).id ≠ leaf_id_of_round k pi junk j := by
    intro p hp
    by_cases hleaf : (s.mem p).left = none
    · obtain ⟨i, hi, hid⟩ := h.leaf_used p hp hleaf
      have := leaf_id_lt k pi junk hpi (i := i) (by omega)
      rw [hid]
      exact ⟨by omega, leaf_id_inj k pi junk hpi hi hjk⟩
    · have := h.int_id p hp hleaf
      exact ⟨this.2, by omega⟩
  refine ⟨?_, ?_, ?_, ?_, ?_, ?_⟩
  · intro p hp
    rw [g1] at hp
    rw [g5]
    by_cases e1 : p = s.alloc
    · rw [e1, newleaf]
      show Function.update _ _ _ (leaf_id_of_round k pi junk j) = _
      rw [Function.update_noteq (by omega), Function.update_same]
    · by_cases e2 : p = s.alloc + 1
      · rw [e2, newint]
        show Function.update _ _ _ s.n = _
        rw [Function.update_same]
      · have hp' : p < s.alloc := by omega
        rw [(old p hp').1, Function.update_noteq (by have := (idlt p hp').1; omega),
          Function.update_noteq (idlt p hp').2]
        exact h.arr p hp'
  · intro p hp hleaf
    rw [g1] at hp
    by_cases e1 : p = s.alloc
    · exact ⟨j, by omega, by rw [e1, newleaf]⟩
    · by_cases e2 : p = s.alloc + 1
      · rw [e2, newint] at hleaf; cases hleaf
      · have hp' : p < s.alloc := by omega
        rw [(old p hp').2] at hleaf
        obtain ⟨i, hi, hid⟩ := h.leaf_used p hp' hleaf
        exact ⟨i, by omega, by rw [(old p hp').1, hid]⟩
  · intro i hi
    rcases Nat.lt_succ_iff_lt_or_eq.mp hi with hlt | rfl
    · obtain ⟨p, hp, h1, h2⟩ := h.used_leaf i hlt
      exact ⟨p, by omega, by rw [(old p hp).2]; exact h1, by rw [(old p hp).1]; exact h2⟩
    · exact ⟨s.alloc, by omega, by rw [newleaf], by rw [newleaf]⟩
  · intro p hp hint
    rw [g1] at hp
    rw [g2]
    by_cases e1 : p = s.alloc
    · rw [e1, newleaf] at hint; exact absurd rfl hint
    · by_cases e2 : p = s.alloc + 1
      · rw [e2, newint]
        show k ≤ s.n ∧ s.n < s.n + 1
        omega
      · have hp' : p < s.alloc := by omega
        rw [(old p hp').2] at hint
        rw [(old p hp').1]
        have := h.int_id p hp' hint
        omega
  · rw [(old 1 (by omega)).1]; exact h.int1
  · intro i h1 h2
    rcases Nat.lt_succ_iff_lt_or_eq.mp h2 with hlt | rfl
    · rw [(old (2 * i) (by omega)).1]; exact h.ints i h1 hlt
    · have : 2 * i = s.alloc + 1 := by omega
      rw [this, newint]
      show s.n = _
      omega

theorem initIds_iter (k : Nat) (pi junk : Nat → Nat) (hpi : ∀ i < k, pi i < k - i) :
    ∀ j, 2 ≤ j → j ≤ k → InitIds k j (leaf_id_of_round k pi junk) (init_iter k pi junk j) := by
  intro j hj
  induction j with
  | zero => omega
  | succ i ih =>
    intro hik
    by_cases e : i = 1
    · subst e; exact initIds_two k pi junk (by omega) hpi
    · exact initIds_step k pi junk hpi i (by omega) (by omega)
        (initShape_iter k pi junk i (by omega)) (ih (by omega) (by omega))

/-- C8: for at least two witnesses and in-range draws (`pi i < k - i`), `init_tree` creates
`2k-1` nodes whose ids are pairwise different and below `2k-1`; the lookup array sends every id
in `[0, 2k-1)` to the node with that id; the leaves are exactly the nodes with an id below `k`,
one leaf for each such id; and the internal nodes, created at the addresses `1, 4, 6, ...`,
are numbered `k, k+1, ..., 2k-2` in creation order. -/
theorem init_tree_ids (k : Nat) (pi junk : Nat → Nat) (hk : 2 ≤ k)
    (hpi : ∀ i < k, pi i < k - i) :
    (init_tree k pi junk).alloc = 2 * k - 1 ∧
    (∀ p < 2 * k - 1, ((init_tree k pi junk).mem p).id < 2 * k - 1 ∧
      (init_tree k pi junk).array ((init_tree k pi junk).mem p).id = some p) ∧
    (∀ id < 2 * k - 1, ∃ p < 2 * k - 1, (init_tree k pi junk).array id = some p ∧
      ((init_tree k pi junk).mem p).id = id) ∧
    (∀ p < 2 * k - 1, (((init_tree k pi junk).mem p).left = none ↔
      ((init_tree k pi junk).mem p).id < k)) ∧
    (∀ id < k, ∃! p, p < 2 * k - 1 ∧ ((init_tree k pi junk).mem p).left = none ∧
      ((init_tree k pi junk).mem p).id = id) ∧
    ((init_tree k pi junk).mem 1).id = k ∧
    (∀ i, 2 ≤ i → i < k → ((init_tree k pi junk).mem (2 * i)).id = k + i - 1) := by
  have hS := initShape_iter k pi junk k hk
  have hI := initIds_iter k pi junk hpi k hk (Nat.le_refl k)
  have hP := permInv_iter k pi junk hpi k (Nat.le_refl k)
  rw [← init_tree_eq] at hS hI
  generalize init_tree k pi junk = s at *
  have ha := hS.alloc_eq
  have hn := hS.n_eq
  have leaf_iff : ∀ p < 2 * k - 1, ((s.mem p).left = none ↔ (s.mem p).id < k) := by
    intro p hp
    constructor
    · intro hleaf
      obtain ⟨i, hi, hid⟩ := hI.leaf_used p (by omega) hleaf
      rw [hid]; exact leaf_id_lt k pi junk hpi hi
    · intro hlt
      by_contra hne
      have := hI.int_id p (by omega) hne
      omega
  have leaf_ex : ∀ id < k, ∃ p, p < 2 * k - 1 ∧ (s.mem p).left = none ∧ (s.mem p).id = id := by
    intro id hid
    rcases hP.cover id hid with ⟨i, hi, hu⟩ | ⟨x, hx, _⟩
    · obtain ⟨p, hp, h1, h2⟩ := hI.used_leaf i hi
      exact ⟨p, by omega, h1, h2.trans hu⟩
    · omega
  refine ⟨ha, ?_, ?_, leaf_iff, ?_, hI.int1, hI.ints⟩
  · intro p hp
    refine ⟨?_, hI.arr p (by omega)⟩
    by_cases hleaf : (s.mem p).left = none
    · have := (leaf_iff p hp).mp hleaf; omega
    · have := hI.int_id p (by omega) hleaf; omega
  · intro id hid
    by_cases hlt : id < k
    · obtain ⟨p, hp, _, h2⟩ := leaf_ex id hlt
      exact ⟨p, hp, by rw [← h2]; exact hI.arr p (by omega), h2⟩
    · by_cases e : id = k
      · refine ⟨1, by omega, ?_, by rw [hI.int1, e]⟩
        have := hI.arr 1 (by omega)
        rw [hI.int1] at this
        rw [e]; exact this
      · have hid' := hI.ints (id - k + 1) (by omega) (by omega)
        have e2 : k + (id - k + 1) - 1 = id := by omega
        rw [e2] at hid'
        refine ⟨2 * (id - k + 1), by omega, ?_, hid'⟩
        have := hI.arr (2 * (id - k + 1)) (by omega)
        rw [hid'] at this
        exact this
  · intro id hid
    obtain ⟨p, hp, h1, h2⟩ := leaf_ex id hid
    refine ⟨p, ⟨hp, h1, h2⟩, ?_⟩
    rintro q ⟨hq, _, h4⟩
    have a1 := hI.arr p (by omega)
    have a2 := hI.arr q (by omega)
    rw [h2] at a1
    rw [h4, a1] at a2
    exact (Option.some.inj a2).symm

theorem init_tree_ids_witness :
    (init_tree 3 (fun _ => 0) (fun _ => 0)).alloc = 2 * 3 - 1 ∧
    (∀ p < 2 * 3 - 1, ((init_tree 3 (fun _ => 0) (fun _ => 0)).mem p).id < 2 * 3 - 1 ∧
      (init_tree 3 (fun _ => 0) (fun _ => 0)).array
        ((init_tree 3 (fun _ => 0) (fun _ => 0)).mem p).id = some p) ∧
    (∀ id < 2 * 3 - 1, ∃ p < 2 * 3 - 1,
      (init_tree 3 (fun _ => 0) (fun _ => 0)).array id = some p ∧
      ((init_tree 3 (fun _ => 0) (fun _ => 0)).mem p).id = id) ∧
    (∀ p < 2 * 3 - 1, (((init_tree 3 (fun _ => 0) (fun _ => 0)).mem p).left = none ↔
      ((init_tree 3 (fun _ => 0) (fun _ => 0)).mem p).id < 3)) ∧
    (∀ id < 3, ∃! p, p < 2 * 3 - 1 ∧
      ((init_tree 3 (fun _ => 0) (fun _ => 0)).mem p).left = none ∧
      ((init_tree 3 (fun _ => 0) (fun _ => 0)).mem p).id = id) ∧
    ((init_tree 3 (fun _ => 0) (fun _ => 0)).mem 1).id = 3 ∧
    (∀ i, 2 ≤ i → i < 3 → ((init_tree 3 (fun _ => 0) (fun _ => 0)).mem (2 * i)).id = 3 + i - 1) :=
  init_tree_ids 3 (fun _ => 0) (fun _ => 0) (by decide) (by decide)

/-! ## One node of the evaluator -/

theorem min_cost_congr (g : Globals) {c c' : Cache} {id i ch : Nat}
    (h : ∀ j < g.leafs, c (idx g id j ch) = c' (idx g id j ch)) :
    min_cost g c (id * g.leafs * g.chunks) id i ch
      = min_cost g c' (id * g.leafs * g.chunks) id i ch := by
  unfold min_cost
  split_ifs
  · rfl
  · rfl
  · apply List.foldl_ext
    intro mv j hj
    have hj' : j < g.leafs := List.mem_range.mp hj
    unfold min_cost_step
    have e : ∀ c : Cache, c (id * g.leafs * g.chunks + (j * g.chunks + ch)) = c (idx g id j ch) := by
      intro c; unfold idx; rw [Nat.add_assoc]
    rw [e c, e c', h j hj']

theorem node_val_congr (g : Globals) (m : Mem) {c c' : Cache} {p ch : Nat}
    (h : ∀ y, ((m p).left = some y ∨ (m p).right = some y) →
      ∀ j < g.leafs, c (idx g (m y).id j ch) = c' (idx g (m y).id j ch)) (i : Nat) :
    node_val g m c p ch i = node_val g m c' p ch i := by
  unfold node_val
  cases hl : (m p).left with
  | none => rfl
  | some l =>
    cases hr : (m p).right with
    | none => rfl
    | some r =>
      simp only
      rw [min_cost_congr g (h l (Or.inl hl)), min_cost_congr g (h r (Or.inr hr))]

theorem node_min_congr (g : Globals) (m : Mem) {c c' : Cache} {p ch : Nat}
    (h : ∀ y, ((m p).left = some y ∨ (m p).right = some y) →
      ∀ j < g.leafs, c (idx g (m y).id j ch) = c' (idx g (m y).id j ch)) :
    node_min g m c p ch = node_min g m c' p ch := by
  unfold node_min
  have : (fun i => node_val g m c p ch i) = (fun i => node_val g m c' p ch i) :=
    funext (node_val_congr g m h)
  rw [this]

theorem internal_loop_spec (g : Globals) (nid lid rid ch : Nat) (c : Cache)
    (hch : ch < g.chunks) (hl : nid ≠ lid) (hr : nid ≠ rid) :
    (∀ i < g.leafs, (internal_loop g nid lid rid ch c).2 (idx g nid i ch) =
      min_cost g c (lid * g.leafs * g.chunks) lid i ch
        + min_cost g c (rid * g.leafs * g.chunks) rid i ch) ∧
    (∀ k, (∀ i < g.leafs, k ≠ idx g nid i ch) → (internal_loop g nid lid rid ch c).2 k = c k) ∧
    (internal_loop g nid lid rid ch c).1 =
      row_min (fun i => min_cost g c (lid * g.leafs * g.chunks) lid i ch
        + min_cost g c (rid * g.leafs * g.chunks) rid i ch) g.leafs := by
  have key := foldl_range_inv
    (fun j (s : Int × Cache) =>
      (∀ i < j, s.2 (idx g nid i ch) =
        min_cost g c (lid * g.leafs * g.chunks) lid i ch
          + min_cost g c (rid * g.leafs * g.chunks) rid i ch) ∧
      (∀ k, (∀ i < j, k ≠ idx g nid i ch) → s.2 k = c k) ∧
      s.1 = row_min (fun i => min_cost g c (lid * g.leafs * g.chunks) lid i ch
        + min_cost g c (rid * g.leafs * g.chunks) rid i ch) j)
    (internal_step g nid lid rid ch) (0, c) g.leafs
    ⟨fun i h => absurd h (Nat.not_lt_zero _), fun k _ => rfl, rfl⟩
    (by
      intro j hj s ⟨h1, h2, h3⟩
      have same : ∀ id, nid ≠ id → ∀ i,
          min_cost g s.2 (id * g.leafs * g.chunks) id i ch
            = min_cost g c (id * g.leafs * g.chunks) id i ch := by
        intro id hne i
        apply min_cost_congr
        intro j' hj'
        exact h2 _ (fun i' hi' he => hne (idx_inj g hj' (by omega) hch hch he).1.symm)
      unfold internal_step
      simp only [same lid hl, same rid hr]
      refine ⟨?_, ?_, ?_⟩
      · intro i hi
        rcases Nat.lt_succ_iff_lt_or_eq.mp hi with hlt | rfl
        · have hne : idx g nid i ch ≠ idx g nid j ch := by
            intro he
            have := (idx_inj g (by omega) hj hch hch he).2.1
            omega
          show Function.update _ _ _ _ = _
          unfold idx at hne ⊢
          rw [Function.update_noteq hne]
          exact h1 i hlt
        · show Function.update _ _ _ _ = _
          unfold idx
          rw [Function.update_same]
      · intro k hk
        show Function.update _ _ _ _ = _
        have := hk j (Nat.lt_succ_self j)
        unfold idx at this
        rw [Function.update_noteq this]
        exact h2 k (fun i hi => hk i (Nat.lt_succ_of_lt hi))
      · show _ = row_min _ (j + 1)
        unfold row_min
        rw [List.range_succ, List.foldl_append]
        simp only [List.foldl_cons, List.foldl_nil]
        rw [h3]
        rfl)
  exact key

theorem leaf_loop_spec (g : Globals) (nid ch : Nat) (c : Cache) (hch : ch < g.chunks) :
    (∀ i < g.leafs, (leaf_loop g nid ch c).2 (idx g nid i ch) =
      if i = nid then 0 else sentinel g) ∧
    (∀ k, (∀ i < g.leafs, k ≠ idx g nid i ch) → (leaf_loop g nid ch c).2 k = c k) ∧
    (leaf_loop g nid ch c).1 = 0 := by
  have key := foldl_range_inv
    (fun j (s : Cache) =>
      (∀ i < j, s (idx g nid i ch) = if i = nid then 0 else sentinel g) ∧
      (∀ k, (∀ i < j, k ≠ idx g nid i ch) → s k = c k))
    (leaf_step g nid ch) c g.leafs
    ⟨fun i h => absurd h (Nat.not_lt_zero _), fun k _ => rfl⟩
    (by
      intro j hj s ⟨h1, h2⟩
      have upd : ∀ k, leaf_step g nid ch s j k =
          if k = idx g nid j ch then (if j = nid then 0 else sentinel g) else s k := by
        intro k
        unfold leaf_step idx
        split_ifs <;> simp_all [Function.update_apply]
      refine ⟨?_, ?_⟩
      · intro i hi
        rw [upd]
        rcases Nat.lt_succ_iff_lt_or_eq.mp hi with hlt | rfl
        · have hne : idx g nid i ch ≠ idx g nid j ch := by
            intro he
            have := (idx_inj g (by omega) hj hch hch he).2.1
            omega
          rw [if_neg hne]
          exact h1 i hlt
        · rw [if_pos rfl]
      · intro k hk
        rw [upd, if_neg (hk j (Nat.lt_succ_self j))]
        exact h2 k (fun i hi => hk i (Nat.lt_succ_of_lt hi)))
  exact ⟨key.1, key.2, rfl⟩

theorem eval_node_spec {g : Globals} {m : Mem} {root : Nat} (hT : TreeOK g.n m root)
    (hI : IdsOK g.n m) {p ch : Nat} (hp : p < g.n) (hch : ch < g.chunks) (c : Cache) :
    (∀ i < g.leafs, (eval_node g m c p ch).2 (idx g (m p).id i ch) = node_val g m c p ch i) ∧
    (∀ k, (∀ i < g.leafs, k ≠ idx g (m p).id i ch) → (eval_node g m c p ch).2 k = c k) ∧
    (eval_node g m c p ch).1 = node_min g m c p ch := by
  unfold eval_node node_val node_min
  cases hl : (m p).left with
  | none => exact leaf_loop_spec g (m p).id ch c hch
  | some l =>
    cases hr : (m p).right with
    | none => exact leaf_loop_spec g (m p).id ch c hch
    | some r =>
      have hll := hT.left_lt p hp l hl
      have hrl := hT.right_lt p hp r hr
      have n1 : (m p).id ≠ (m l).id := fun e =>
        hT.up_ne hll (hT.left_up p hp l hl) (hI.id_inj p hp l hll e)
      have n2 : (m p).id ≠ (m r).id := fun e =>
        hT.up_ne hrl (hT.right_up p hp r hr) (hI.id_inj p hp r hrl e)
      obtain ⟨s1, s2, s3⟩ := internal_loop_spec g (m p).id (m l).id (m r).id ch c hch n1 n2
      refine ⟨s1, s2, ?_⟩
      rw [s3]
      congr 1
      funext i
      unfold node_val
      simp only [hl, hr]

/-- Consistency of a row depends only on the row itself and on the rows of the children. -/
theorem Cons.congr {g : Globals} {m : Mem} {c c' : Cache} {ch x : Nat}
    (h : Cons g m c ch x)
    (hx : ∀ j < g.leafs, c' (idx g (m x).id j ch) = c (idx g (m x).id j ch))
    (hy : ∀ y, ((m x).left = some y ∨ (m x).right = some y) →
      ∀ j < g.leafs, c' (idx g (m y).id j ch) = c (idx g (m y).id j ch)) :
    Cons g m c' ch x := by
  intro i hi
  rw [hx i hi, h i hi]
  exact (node_val_congr g m hy i).symm

/-- After the evaluator has rewritten the row of `p`, that row is consistent, and so is every
row that was consistent before, apart from the row of the parent of `p`. -/
theorem cons_step {g : Globals} {m : Mem} {root : Nat} (hT : TreeOK g.n m root)
    (hI : IdsOK g.n m) {p ch : Nat} (hp : p < g.n) (hch : ch < g.chunks) (c : Cache) :
    Cons g m (eval_node g m c p ch).2 ch p ∧
    (∀ x < g.n, x ≠ p → (m p).up ≠ some x → Cons g m c ch x →
      Cons g m (eval_node g m c p ch).2 ch x) ∧
    (∀ ch' < g.chunks, ch' ≠ ch → ∀ x, Cons g m c ch' x →
      Cons g m (eval_node g m c p ch).2 ch' x) := by
  obtain ⟨e1, e2, _⟩ := eval_node_spec hT hI hp hch c
  have other : ∀ y < g.n, y ≠ p → ∀ j < g.leafs,
      (eval_node g m c p ch).2 (idx g (m y).id j ch) = c (idx g (m y).id j ch) := by
    intro y hy hne j hj
    refine e2 _ (fun i hi he => hne ?_)
    exact hI.id_inj y hy p hp (idx_inj g hj hi hch hch he).1
  have child_lt : ∀ x < g.n, ∀ y, ((m x).left = some y ∨ (m x).right = some y) →
      y < g.n ∧ (m y).up = some x := by
    intro x hx y hy
    rcases hy with hy | hy
    · exact ⟨hT.left_lt x hx y hy, hT.left_up x hx y hy⟩
    · exact ⟨hT.right_lt x hx y hy, hT.right_up x hx y hy⟩
  refine ⟨?_, ?_, ?_⟩
  · intro i hi
    rw [e1 i hi]
    refine node_val_congr g m (fun y hy j hj => ?_) i
    obtain ⟨hyl, hyu⟩ := child_lt p hp y hy
    exact (other y hyl (fun e => hT.up_ne hyl hyu e.symm) j hj).symm
  · intro x hx hne hup hc
    refine hc.congr (other x hx hne) (fun y hy j hj => ?_)
    obtain ⟨hyl, hyu⟩ := child_lt x hx y hy
    refine other y hyl (fun e => hup ?_) j hj
    rw [← e]; exact hyu
  · intro ch' hch' hne x hc
    have diff : ∀ id j, j < g.leafs →
        (eval_node g m c p ch).2 (idx g id j ch') = c (idx g id j ch') := by
      intro id j hj
      exact e2 _ (fun i hi he => hne (idx_inj g hj hi hch' hch he).2.2)
    exact hc.congr (fun j hj => diff _ j hj) (fun y _ j hj => diff _ j hj)

/-! ## Full evaluation of one segment -/

theorem TreeOK.child_facts {n : Nat} {m : Mem} {root : Nat} (hT : TreeOK n m root) {x y : Nat}
    (hx : x < n) (hy : (m x).left = some y ∨ (m x).right = some y) :
    y < n ∧ (m y).up = some x ∧ y ≠ x := by
  rcases hy with hy | hy
  · have h1 := hT.left_lt x hx y hy
    have h2 := hT.left_up x hx y hy
    exact ⟨h1, h2, fun e => hT.up_ne h1 h2 e.symm⟩
  · have h1 := hT.right_lt x hx y hy
    have h2 := hT.right_up x hx y hy
    exact ⟨h1, h2, fun e => hT.up_ne h1 h2 e.symm⟩

/-- The subtrees below the two children of a node share no node. -/
theorem TreeOK.desc_disjoint {n : Nat} {m : Mem} {root : Nat} (hT : TreeOK n m root)
    {p l r x : Nat} (hl : l < n) (hr : r < n) (hlp : (m l).up = some p) (hrp : (m r).up = some p)
    (hne : l ≠ r) (h1 : Anc m x l) (h2 : Anc m x r) : False := by
  rcases h1.linear h2 with h | h
  · rcases h.cases_up with e | ⟨q, hq, hqr⟩
    · exact hne e
    · rw [hlp] at hq; cases hq
      exact hT.not_anc_up hr hrp hqr
  · rcases h.cases_up with e | ⟨q, hq, hql⟩
    · exact hne e.symm
    · rw [hrp] at hq; cases hq
      exact hT.not_anc_up hl hlp hql

theorem eval_node_min_self {g : Globals} {m : Mem} {root : Nat} (hT : TreeOK g.n m root)
    (hI : IdsOK g.n m) {p ch : Nat} (hp : p < g.n) (hch : ch < g.chunks) (c : Cache) :
    node_min g m (eval_node g m c p ch).2 p ch = node_min g m c p ch := by
  obtain ⟨_, e2, _⟩ := eval_node_spec hT hI hp hch c
  refine node_min_congr g m (fun y hy j hj => ?_)
  obtain ⟨hyl, _, hne⟩ := hT.child_facts hp hy
  refine e2 _ (fun i hi he => hne ?_)
  exact hI.id_inj y hyl p hp (idx_inj g hj hi hch hch he).1

theorem eval_subtree_leaf (g : Globals) (m : Mem) (fuel : Nat) (c : Cache) (p ch : Nat)
    (h : (m p).left = none ∨ (m p).right = none) :
    eval_subtree g m (fuel + 1) c p ch = some (eval_node g m c p ch) := by
  unfold eval_subtree eval_node
  rcases h with h | h
  · simp [h]
  · cases hl : (m p).left <;> simp [h]

theorem eval_subtree_internal (g : Globals) (m : Mem) (fuel : Nat) (c : Cache) (p ch l r : Nat)
    (hl : (m p).left = some l) (hr : (m p).right = some r) :
    eval_subtree g m (fuel + 1) c p ch =
      match eval_subtree g m fuel c l ch with
      | none => none
      | some (_, c1) =>
        match eval_subtree g m fuel c1 r ch with
        | none => none
        | some (_, c2) => some (eval_node g m c2 p ch) := by
  conv_lhs => unfold eval_subtree
  simp only [hl, hr]
  unfold eval_node
  simp only [hl, hr]
  try rfl

/-- `eval_subtree` returns when the fuel covers the height below the node; it returns the
minimum of the node, leaves every row of the subtree consistent, and writes nothing else. -/
theorem eval_subtree_spec {g : Globals} {m : Mem} {root : Nat} (hT : TreeOK g.n m root)
    (hI : IdsOK g.n m) {ch : Nat} (hch : ch < g.chunks) :
    ∀ (fuel p : Nat) (c : Cache), p < g.n → g.n ≤ depth m g.n p + fuel →
      ∃ v c', eval_subtree g m fuel c p ch = some (v, c') ∧ v = node_min g m c' p ch ∧
        (∀ x < g.n, Anc m x p → Cons g m c' ch x) ∧
        (∀ k, (∀ x < g.n, Anc m x p → ∀ i < g.leafs, k ≠ idx g (m x).id i ch) → c' k = c k) := by
  intro fuel
  induction fuel with
  | zero =>
    intro p c hp hf
    have := hT.acyclic p hp
    omega
  | succ fuel ih =>
    intro p c hp hf
    by_cases hleaf : (m p).left = none ∨ (m p).right = none
    · have hnone : (m p).left = none := by
        rcases hleaf with h | h
        · exact h
        · exact (hT.two p hp).mpr h
      have honly : ∀ x < g.n, Anc m x p → x = p := by
        intro x hx hanc
        rcases hanc.through_child with e | ⟨y, hy, hxy⟩
        · exact e
        · rcases hT.up_child y (hxy.lt hT hx) p hy with h | h
          · rw [hnone] at h; cases h
          · rw [(hT.two p hp).mp hnone] at h; cases h
      refine ⟨(eval_node g m c p ch).1, (eval_node g m c p ch).2,
        eval_subtree_leaf g m fuel c p ch hleaf, ?_, ?_, ?_⟩
      · rw [(eval_node_spec hT hI hp hch c).2.2, eval_node_min_self hT hI hp hch]
      · intro x hx hanc
        rw [honly x hx hanc]
        exact (cons_step hT hI hp hch c).1
      · intro k hk
        exact (eval_node_spec hT hI hp hch c).2.1 k (hk p hp (Anc.refl p))
    · push_neg at hleaf
      obtain ⟨l, hl⟩ := Option.ne_none_iff_exists'.mp hleaf.1
      obtain ⟨r, hr⟩ := Option.ne_none_iff_exists'.mp hleaf.2
      obtain ⟨hll, hlu, hlne⟩ := hT.child_facts hp (Or.inl hl)
      obtain ⟨hrl, hru, hrne⟩ := hT.child_facts hp (Or.inr hr)
      have hlr : l ≠ r := fun e => hT.lr_ne p hp l hl (e ▸ hr)
      have dl := hT.depth_up hll hlu
      have dr := hT.depth_up hrl hru
      obtain ⟨v1, c1, r1, _, a1, f1⟩ := ih l c hll (by omega)
      obtain ⟨v2, c2, r2, _, a2, f2⟩ := ih r c1 hrl (by omega)
      refine ⟨(eval_node g m c2 p ch).1, (eval_node g m c2 p ch).2, ?_, ?_, ?_, ?_⟩
      · rw [eval_subtree_internal g m fuel c p ch l r hl hr, r1]
        simp only [r2]
      · rw [(eval_node_spec hT hI hp hch c2).2.2, eval_node_min_self hT hI hp hch]
      · intro x hx hanc
        obtain ⟨s1, s2, _⟩ := cons_step hT hI hp hch c2
        rcases hanc.through_child with e | ⟨y, hy, hxy⟩
        · rw [e]; exact s1
        · have hxp : x ≠ p := by
            rintro rfl
            exact hT.not_anc_up (hxy.lt hT hx) hy hxy
          have hup : (m p).up ≠ some x := fun e => hT.not_anc_up hp e hanc
          refine s2 x hx hxp hup ?_
          rcases hT.child_cases (hxy.lt hT hx) hy hl hr with rfl | rfl
          · refine (a1 x hx hxy).congr ?_ ?_
            · intro j hj
              refine f2 _ (fun z hz hzr i hi he => ?_)
              have := hI.id_inj x hx z hz (idx_inj g hj hi hch hch he).1
              subst this
              exact hT.desc_disjoint hll hrl hlu hru hlr hxy hzr
            · intro w hw j hj
              obtain ⟨hwl, hwu, _⟩ := hT.child_facts hx hw
              refine f2 _ (fun z hz hzr i hi he => ?_)
              have := hI.id_inj w hwl z hz (idx_inj g hj hi hch hch he).1
              subst this
              exact hT.desc_disjoint hll hrl hlu hru hlr (Anc.step hwu hxy) hzr
          · exact a2 x hx hxy
      · intro k hk
        rw [(eval_node_spec hT hI hp hch c2).2.1 k (hk p hp (Anc.refl p)),
          f2 k (fun x hx hxr => hk x hx (hxr.trans (Anc.of_up hru))),
          f1 k (fun x hx hxl => hk x hx (hxl.trans (Anc.of_up hlu)))]

/-- Two caches that are consistent on a set of nodes closed under children, in two memories
with the same ids and the same child links on that set, hold the same rows there. -/
theorem cons_unique {g : Globals} {m : Mem} {root : Nat} (hT : TreeOK g.n m root)
    (m' : Mem) (c c' : Cache) (ch : Nat) (S : Nat → Prop)
    (hS : ∀ x < g.n, S x → ∀ y, ((m x).left = some y ∨ (m x).right = some y) → S y)
    (hid : ∀ y, (m' y).id = (m y).id)
    (hsame : ∀ x < g.n, S x → (m' x).left = (m x).left ∧ (m' x).right = (m x).right)
    (h1 : ∀ x < g.n, S x → Cons g m c ch x) (h2 : ∀ x < g.n, S x → Cons g m' c' ch x) :
    ∀ x < g.n, S x → ∀ i < g.leafs, c (idx g (m x).id i ch) = c' (idx g (m x).id i ch) := by
  apply hT.down_induction
  intro x hx ih hSx i hi
  have e1 := h1 x hx hSx i hi
  have e2 := h2 x hx hSx i hi
  rw [hid x] at e2
  rw [e1, e2]
  unfold node_val
  rw [(hsame x hx hSx).1, (hsame x hx hSx).2, hid x]
  cases hl : (m x).left with
  | none => rfl
  | some l =>
    cases hr : (m x).right with
    | none => rfl
    | some r =>
      obtain ⟨hll, hlu, _⟩ := hT.child_facts hx (Or.inl hl)
      obtain ⟨hrl, hru, _⟩ := hT.child_facts hx (Or.inr hr)
      have sl := hS x hx hSx l (Or.inl hl)
      have sr := hS x hx hSx r (Or.inr hr)
      simp only
      rw [hid l, hid r,
        min_cost_congr g (ih l hll hlu sl), min_cost_congr g (ih r hrl hru sr)]

/-! ## Incremental evaluation of one segment -/

theorem eval_uptree_unfold (g : Globals) (m : Mem) (tree fuel : Nat) (c : Cache) (q : Nat)
    (st : Option Nat) (ch : Nat) :
    eval_uptree g m tree (fuel + 1) c (some q) st ch =
      match (m q).up with
      | some u =>
        if some u ≠ st then eval_uptree g m tree fuel (eval_node g m c q ch).2 (some u) st ch
        else some (eval_node g m c q ch)
      | none => some (eval_node g m c q ch) := by
  conv_lhs => unfold eval_uptree
  rfl

/-- `eval_uptree` from `q` returns when the fuel covers the chain above `q`. Every row that was
consistent or lies on that chain is consistent afterwards, unless it lies at or above the
stopper; only rows on the chain are written; without a stopper the walk ends at the root and
returns its minimum. -/
theorem eval_uptree_spec {g : Globals} {m : Mem} {root : Nat} (hT : TreeOK g.n m root)
    (hI : IdsOK g.n m) {ch : Nat} (hch : ch < g.chunks) (st : Option Nat) :
    ∀ q < g.n, ∀ (fuel : Nat) (c : Cache), depth m g.n q < fuel →
      ∃ v c', eval_uptree g m root fuel c (some q) st ch = some (v, c') ∧
        (∀ x < g.n, (Cons g m c ch x ∨ Anc m q x) →
          (Cons g m c' ch x ∨ ∃ s, st = some s ∧ Anc m s x)) ∧
        (∀ k, (∀ x, Anc m q x → ∀ i < g.leafs, k ≠ idx g (m x).id i ch) → c' k = c k) ∧
        (∀ ch' < g.chunks, ch' ≠ ch → ∀ x, Cons g m c ch' x → Cons g m c' ch' x) ∧
        (st = none → v = node_min g m c' root ch) := by
  apply hT.up_induction
  intro q hq ih fuel c hf
  obtain ⟨fuel, rfl⟩ : ∃ f', fuel = f' + 1 := ⟨fuel - 1, by omega⟩
  obtain ⟨e1, e2, e3⟩ := eval_node_spec hT hI hq hch c
  obtain ⟨s1, s2, s3⟩ := cons_step hT hI hq hch c
  have stop : ∀ u : Option Nat, (m q).up = u →
      (∀ x < g.n, Anc m q x → x ≠ q → u = some x ∨ ∃ s, u = some s ∧ Anc m s x) := by
    intro u hu x _ hanc hne
    rcases hanc.cases_up with e | ⟨p, hp, hpx⟩
    · exact absurd e.symm hne
    · rw [hu] at hp
      exact Or.inr ⟨p, hp, hpx⟩
  rw [eval_uptree_unfold]
  cases hup : (m q).up with
  | none =>
    refine ⟨(eval_node g m c q ch).1, (eval_node g m c q ch).2, rfl, ?_, ?_, s3, ?_⟩
    · intro x hx h
      by_cases hxq : x = q
      · rw [hxq]; exact Or.inl s1
      · rcases h with h | h
        · exact Or.inl (s2 x hx hxq (by rw [hup]; simp) h)
        · rw [anc_of_noparent hup h] at hxq
          exact absurd rfl hxq
    · intro k hk
      exact e2 k (hk q (Anc.refl q))
    · intro _
      rw [e3, ← hT.one_root q hq hup, eval_node_min_self hT hI hq hch]
  | some u =>
    have hu := hT.up_lt q hq u hup
    have hd := hT.depth_up hq hup
    by_cases hst : some u ≠ st
    · simp only [hst, if_true, ne_eq, not_false_eq_true]
      obtain ⟨v, c', r1, a1, f1, o1, m1⟩ := ih u hup fuel (eval_node g m c q ch).2 (by omega)
      refine ⟨v, c', r1, ?_, ?_, ?_, m1⟩
      · intro x hx h
        refine a1 x hx ?_
        by_cases hxq : x = q
        · rw [hxq]; exact Or.inl s1
        · by_cases hxu : x = u
          · rw [hxu]; exact Or.inr (Anc.refl u)
          · rcases h with h | h
            · exact Or.inl (s2 x hx hxq (by rw [hup]; exact fun e => hxu (Option.some.inj e).symm) h)
            · rcases h.cases_up with e | ⟨p, hp, hpx⟩
              · exact absurd e.symm hxq
              · rw [hup] at hp; cases hp
                exact Or.inr hpx
      · intro k hk
        rw [f1 k (fun x hx => hk x (Anc.step hup hx))]
        exact e2 k (hk q (Anc.refl q))
      · intro ch' hch' hne x hc
        exact o1 ch' hch' hne x (s3 ch' hch' hne x hc)
    · push_neg at hst
      simp only [hst, ne_eq, not_true_eq_false, if_false]
      refine ⟨(eval_node g m c q ch).1, (eval_node g m c q ch).2, rfl, ?_, ?_, s3, ?_⟩
      · intro x hx h
        by_cases hxq : x = q
        · rw [hxq]; exact Or.inl s1
        · by_cases hxu : x = u
          · rw [hxu]; exact Or.inr ⟨u, hst.symm, Anc.refl u⟩
          · rcases h with h | h
            · exact Or.inl (s2 x hx hxq (by rw [hup]; exact fun e => hxu (Option.some.inj e).symm) h)
            · rcases h.cases_up with e | ⟨p, hp, hpx⟩
              · exact absurd e.symm hxq
              · rw [hup] at hp; cases hp
                exact Or.inr ⟨u, hst.symm, hpx⟩
      · intro k hk
        exact e2 k (hk q (Anc.refl q))
      · intro e
        rw [← hst] at e
        cases e

/-! ## The stopper -/

theorem level_returns {n : Nat} {m : Mem} {root : Nat} (hT : TreeOK n m root) (tree : Nat) :
    ∀ p < n, ∀ fuel, depth m n p < fuel → ∃ lev, level m tree fuel (some p) = some lev := by
  apply hT.up_induction
  intro p hp ih fuel hf
  obtain ⟨fuel, rfl⟩ : ∃ f', fuel = f' + 1 := ⟨fuel - 1, by omega⟩
  rw [level]
  split_ifs
  · exact ⟨0, rfl⟩
  · cases hup : (m p).up with
    | none => exact ⟨1, by cases fuel <;> simp [level]⟩
    | some q =>
      have := hT.depth_up hp hup
      obtain ⟨lev, hl⟩ := ih q hup fuel (by omega)
      exact ⟨lev + 1, by rw [hl]; rfl⟩

theorem raise_anc (m : Mem) (x : Nat) : ∀ (leva levb : Nat) (o : Option Nat),
    (∀ p, o = some p → Anc m x p) → ∀ p, (raise m leva levb o).2 = some p → Anc m x p := by
  intro leva
  induction leva with
  | zero =>
    intro levb o h p hp
    cases o with
    | none => simp [raise] at hp
    | some q => simp only [raise] at hp; exact h p hp
  | succ k ih =>
    intro levb o h p hp
    cases o with
    | none => simp [raise] at hp
    | some q =>
      rw [raise] at hp
      split_ifs at hp
      · exact ih levb (m q).up (fun p' hp' => (h q rfl).trans (Anc.of_up hp')) p hp
      · exact h p hp

theorem lockstep_spec {n : Nat} {m : Mem} {root : Nat} (hT : TreeOK n m root) (xa xb : Nat) :
    ∀ (fuel : Nat) (oa ob : Option Nat),
      (∀ a, oa = some a → a < n ∧ depth m n a < fuel ∧ Anc m xa a) →
      (∀ b, ob = some b → Anc m xb b) →
      ∃ aup bup, lockstep m fuel oa ob = some (aup, bup) ∧
        (∀ s, aup = some s → Anc m xa s) ∧ (∀ s, bup = some s → Anc m xb s) := by
  intro fuel
  induction fuel with
  | zero =>
    intro oa ob ha hb
    cases oa with
    | none => exact ⟨none, ob, (by cases ob <;> rfl), (fun s h => by cases h), hb⟩
    | some a => have := (ha a rfl).2.1; omega
  | succ fuel ih =>
    intro oa ob ha hb
    cases oa with
    | none => exact ⟨none, ob, (by cases ob <;> rfl), (fun s h => by cases h), hb⟩
    | some a =>
      cases ob with
      | none => exact ⟨some a, none, rfl, (fun s h => (ha s h).2.2), (fun s h => by cases h)⟩
      | some b =>
        rw [lockstep]
        split_ifs with e
        · exact ⟨some a, some b, rfl, fun s h => (ha s h).2.2, hb⟩
        · obtain ⟨h1, h2, h3⟩ := ha a rfl
          refine ih (m a).up (m b).up ?_ ?_
          · intro a' ha'
            have := hT.depth_up h1 ha'
            exact ⟨hT.up_lt a h1 a' ha', by omega, h3.trans (Anc.of_up ha')⟩
          · intro b' hb'
            exact (hb b rfl).trans (Anc.of_up hb')

/-- The stopper is found when the fuel covers the chains, and it lies on both chains. -/
theorem find_stopper_spec {n : Nat} {m : Mem} {root : Nat} (hT : TreeOK n m root)
    {ra rb fuel : Nat} (ha : ra < n) (hb : rb < n) (hf : n ≤ fuel) :
    ∃ st, find_stopper m root fuel (some ra) (some rb) = some st ∧
      ∀ s, st = some s → Anc m ra s ∧ Anc m rb s := by
  obtain ⟨leva, hla⟩ := level_returns hT root ra ha fuel (by have := hT.acyclic ra ha; omega)
  obtain ⟨levb, hlb⟩ := level_returns hT root rb hb fuel (by have := hT.acyclic rb hb; omega)
  have r1 := raise_anc m ra leva levb (some ra) (fun p hp => by cases hp; exact Anc.refl _)
  have r2 := raise_anc m rb levb (raise m leva levb (some ra)).1 (some rb)
    (fun p hp => by cases hp; exact Anc.refl _)
  obtain ⟨aup, bup, hl, p1, p2⟩ := lockstep_spec hT ra rb fuel
    (raise m leva levb (some ra)).2 (raise m levb (raise m leva levb (some ra)).1 (some rb)).2
    (fun a hx => by
      have h1 := r1 a hx
      have h2 := h1.lt hT ha
      have h3 := h1.depth_le hT ha
      have h4 := hT.acyclic ra ha
      exact ⟨h2, by omega, h1⟩)
    r2
  refine ⟨if aup = bup then aup else none, ?_, ?_⟩
  · unfold find_stopper
    simp only [hla, hlb, hl]
  · intro s hs
    split_ifs at hs with e
    · exact ⟨p1 s hs, p2 s (e ▸ hs)⟩

/-! ## The loop of `eval_tree` over the segments -/

theorem eval_tree_step_eq (g : Globals) (m : Mem) (tree fuel : Nat) (ra rb : Option Nat) :
    eval_tree_step g m tree fuel ra rb = chunk_step g (chunk_proc g m tree fuel ra rb) := by
  funext s ch
  unfold eval_tree_step chunk_step chunk_proc
  cases s with
  | none => rfl
  | some vc =>
    obtain ⟨value, cost⟩ := vc
    simp only
    by_cases hw : g.bootw ch ≠ 0
    · simp only [hw, if_true, ne_eq, not_false_eq_true]
      by_cases hn : ra = none ∧ rb = none
      · simp only [hn, and_self, if_true]
        try rfl
      · simp only [hn, if_false]
        cases find_stopper m tree fuel ra rb with
        | none => rfl
        | some st =>
          simp only
          cases eval_uptree g m tree fuel cost ra st ch with
          | none => rfl
          | some r => rfl
    · simp only [hw, if_false]

theorem total_upto_congr (g : Globals) (m : Mem) (c c' : Cache) (root : Nat) :
    ∀ j, (∀ ch < j, g.bootw ch ≠ 0 → node_min g m c root ch = node_min g m c' root ch) →
      total_upto g m c root j = total_upto g m c' root j := by
  intro j h
  unfold total_upto
  apply List.foldl_ext
  intro acc ch hch
  have hlt : ch < j := List.mem_range.mp hch
  by_cases hw : g.bootw ch ≠ 0
  · simp only [hw, if_true, ne_eq, not_false_eq_true, h ch hlt hw]
  · simp only [hw, if_false]

theorem total_upto_succ (g : Globals) (m : Mem) (c : Cache) (root j : Nat) :
    total_upto g m c root (j + 1) =
      if g.bootw j ≠ 0 then total_upto g m c root j + g.bootw j * node_min g m c root j
      else total_upto g m c root j := by
  unfold total_upto
  rw [List.range_succ, List.foldl_append]
  rfl

/-- The loop over the segments, for a per-segment step that makes its segment consistent,
returns the minimum of the root and writes only rows of the nodes in `W`. -/
theorem chunk_fold (g : Globals) (m : Mem) (root : Nat)
    (proc : Cache → Nat → Option (Int × Cache)) (W : Nat → Prop) (Pre : Nat → Cache → Prop)
    (hproc : ∀ ch < g.chunks, g.bootw ch ≠ 0 → ∀ c, Pre ch c →
      ∃ v c', proc c ch = some (v, c') ∧ (∀ x < g.n, Cons g m c' ch x) ∧
        v = node_min g m c' root ch ∧
        (∀ k, (∀ x < g.n, W x → ∀ i < g.leafs, k ≠ idx g (m x).id i ch) → c' k = c k))
    (hpre : ∀ ch < g.chunks, ∀ c c', Pre ch c →
      (∀ id i, i < g.leafs → c' (idx g id i ch) = c (idx g id i ch)) → Pre ch c')
    (c0 : Cache) (h0 : ∀ ch < g.chunks, g.bootw ch ≠ 0 → Pre ch c0) :
    ∃ V cF, (List.range g.chunks).foldl (chunk_step g proc) (some (0, c0)) = some (V, cF) ∧
      AllCons g m cF ∧ V = total g m cF root ∧
      (∀ k, (∀ x < g.n, W x → ∀ ch < g.chunks, g.bootw ch ≠ 0 → ∀ i < g.leafs,
        k ≠ idx g (m x).id i ch) → cF k = c0 k) := by
  have key := foldl_range_inv
    (fun j (s : Option (Int × Cache)) => j ≤ g.chunks →
      ∃ V c, s = some (V, c) ∧
        (∀ ch < j, g.bootw ch ≠ 0 → ∀ x < g.n, Cons g m c ch x) ∧
        V = total_upto g m c root j ∧
        (∀ ch < g.chunks, j ≤ ch → g.bootw ch ≠ 0 → Pre ch c) ∧
        (∀ k, (∀ x < g.n, W x → ∀ ch < g.chunks, g.bootw ch ≠ 0 → ∀ i < g.leafs,
          k ≠ idx g (m x).id i ch) → c k = c0 k))
    (chunk_step g proc) (some (0, c0)) g.chunks
    (fun _ => ⟨0, c0, rfl, fun ch h => absurd h (Nat.not_lt_zero _), rfl,
      fun ch hch _ hw => h0 ch hch hw, fun k _ => rfl⟩)
    (by
      intro j hj s ih _
      obtain ⟨V, c, rfl, i1, i2, i3, i4⟩ := ih (by omega)
      by_cases hw : g.bootw j ≠ 0
      · obtain ⟨v, c', hp, p1, p2, p3⟩ := hproc j hj hw c (i3 j hj (Nat.le_refl j) hw)
        have other : ∀ ch < g.chunks, ch ≠ j → ∀ id i, i < g.leafs →
            c' (idx g id i ch) = c (idx g id i ch) := by
          intro ch hch hne id i hi
          exact p3 _ (fun x _ _ i' hi' he => hne (idx_inj g hi hi' hch hj he).2.2)
        refine ⟨V + g.bootw j * v, c', ?_, ?_, ?_, ?_, ?_⟩
        · unfold chunk_step
          simp only [hw, if_true, ne_eq, not_false_eq_true, hp]
        · intro ch hch hwc x hx
          rcases Nat.lt_succ_iff_lt_or_eq.mp hch with hlt | rfl
          · exact (i1 ch hlt hwc x hx).congr
              (fun i hi => other ch (by omega) (by omega) _ i hi)
              (fun y _ i hi => other ch (by omega) (by omega) _ i hi)
          · exact p1 x hx
        · rw [total_upto_succ, if_pos hw, ← p2, i2]
          congr 1
          refine total_upto_congr g m c c' root j (fun ch hch _ => ?_)
          exact node_min_congr g m (fun y _ i hi => (other ch (by omega) (by omega) _ i hi).symm)
        · intro ch hch hle hwc
          exact hpre ch hch c c' (i3 ch hch (by omega) hwc)
            (fun id i hi => other ch hch (by omega) id i hi)
        · intro k hk
          rw [p3 k (fun x hx hWx i hi => hk x hx hWx j hj hw i hi)]
          exact i4 k hk
      · refine ⟨V, c, ?_, ?_, ?_, ?_, i4⟩
        · unfold chunk_step
          simp only [hw, if_false]
        · intro ch hch hwc x hx
          rcases Nat.lt_succ_iff_lt_or_eq.mp hch with hlt | rfl
          · exact i1 ch hlt hwc x hx
          · exact absurd hwc hw
        · rw [total_upto_succ, if_neg hw]; exact i2
        · intro ch hch hle hwc
          exact i3 ch hch (by omega) hwc)
  obtain ⟨V, c, e, k1, k2, _, k4⟩ := key (Nat.le_refl _)
  exact ⟨V, c, e, k1, k2, k4⟩

/-! ## Full and incremental `eval_tree` -/

theorem eval_tree_eq_fold (g : Globals) (m : Mem) (fresh : Cache) (fuel tree : Nat)
    (c0 : Cache) (ra rb : Option Nat) :
    eval_tree g m fresh fuel tree (some c0) ra rb =
      (List.range g.chunks).foldl (chunk_step g (chunk_proc g m tree fuel ra rb))
        (some (0, c0)) := by
  unfold eval_tree
  simp only [eval_tree_step_eq]

theorem eval_tree_none_eq_fold (g : Globals) (m : Mem) (fresh : Cache) (fuel tree : Nat)
    (ra rb : Option Nat) :
    eval_tree g m fresh fuel tree none ra rb =
      (List.range g.chunks).foldl (chunk_step g (chunk_proc g m tree fuel none none))
        (some (0, fresh)) := by
  unfold eval_tree
  simp only [eval_tree_step_eq]

/-- The full evaluation (`eval_tree` without endpoints) returns when the fuel covers the
height of the tree; it leaves every row of every weighted segment consistent and returns the
weighted sum of the minima of the root; it writes only rows of nodes in weighted segments. -/
theorem eval_tree_full_spec {g : Globals} {m : Mem} {root : Nat} (hT : TreeOK g.n m root)
    (hI : IdsOK g.n m) (fresh : Cache) {fuel : Nat} (hf : g.n ≤ fuel) (c0 : Cache) :
    ∃ V cF, eval_tree g m fresh fuel root (some c0) none none = some (V, cF) ∧
      AllCons g m cF ∧ V = total g m cF root ∧
      (∀ k, (∀ x < g.n, ∀ ch < g.chunks, g.bootw ch ≠ 0 → ∀ i < g.leafs,
        k ≠ idx g (m x).id i ch) → cF k = c0 k) := by
  rw [eval_tree_eq_fold]
  obtain ⟨V, cF, e, k1, k2, k3⟩ := chunk_fold g m root
    (chunk_proc g m root fuel none none) (fun _ => True) (fun _ _ => True)
    (by
      intro ch hch _ c _
      obtain ⟨v, c', r, hv, a, f⟩ := eval_subtree_spec hT hI hch fuel root c hT.root_lt (by omega)
      refine ⟨v, c', ?_, fun x hx => a x hx (hT.anc_root x hx), hv, ?_⟩
      · unfold chunk_proc; simp only [and_self, if_true]; exact r
      · intro k hk
        exact f k (fun x hx _ i hi => hk x hx trivial i hi))
    (fun _ _ _ _ _ _ => trivial) c0 (fun _ _ _ => trivial)
  exact ⟨V, cF, e, k1, k2, fun k hk => k3 k (fun x hx _ ch hch hw i hi => hk x hx ch hch hw i hi)⟩

/-- The incremental evaluation from the endpoints `ra` and `rb` returns when the fuel covers
the chains. If every row that is not consistent lies on the chain above `ra` or `rb`, it
leaves every row of every weighted segment consistent and returns the weighted sum of the
minima of the root; it writes only rows of nodes on the two chains. -/
theorem eval_tree_incr_spec {g : Globals} {m : Mem} {root : Nat} (hT : TreeOK g.n m root)
    (hI : IdsOK g.n m) (fresh : Cache) {fuel : Nat} (hf : g.n ≤ fuel) {ra rb : Nat}
    (ha : ra < g.n) (hb : rb < g.n) (c0 : Cache)
    (h0 : ∀ ch < g.chunks, g.bootw ch ≠ 0 → ∀ x < g.n,
      Cons g m c0 ch x ∨ Anc m ra x ∨ Anc m rb x) :
    ∃ V cF, eval_tree g m fresh fuel root (some c0) (some ra) (some rb) = some (V, cF) ∧
      AllCons g m cF ∧ V = total g m cF root ∧
      (∀ k, (∀ x < g.n, (Anc m ra x ∨ Anc m rb x) → ∀ ch < g.chunks, g.bootw ch ≠ 0 →
        ∀ i < g.leafs, k ≠ idx g (m x).id i ch) → cF k = c0 k) := by
  rw [eval_tree_eq_fold]
  obtain ⟨st, hst, hanc⟩ := find_stopper_spec hT ha hb hf
  have da := hT.acyclic ra ha
  have db := hT.acyclic rb hb
  exact chunk_fold g m root
    (chunk_proc g m root fuel (some ra) (some rb)) (fun x => Anc m ra x ∨ Anc m rb x)
    (fun ch c => ∀ x < g.n, Cons g m c ch x ∨ Anc m ra x ∨ Anc m rb x)
    (by
      intro ch hch _ c hpre
      obtain ⟨v1, c1, r1, a1, f1, _, _⟩ := eval_uptree_spec hT hI hch st ra ha fuel c (by omega)
      obtain ⟨v2, c2, r2, a2, f2, _, m2⟩ :=
        eval_uptree_spec hT hI hch none rb hb fuel c1 (by omega)
      refine ⟨v2, c2, ?_, ?_, m2 rfl, ?_⟩
      · unfold chunk_proc
        simp only [reduceCtorEq, false_and, if_false, hst, r1, r2]
      · intro x hx
        have step1 : Cons g m c1 ch x ∨ Anc m rb x := by
          rcases hpre x hx with h | h | h
          · rcases a1 x hx (Or.inl h) with h' | ⟨s, hs, hsx⟩
            · exact Or.inl h'
            · exact Or.inr ((hanc s hs).2.trans hsx)
          · rcases a1 x hx (Or.inr h) with h' | ⟨s, hs, hsx⟩
            · exact Or.inl h'
            · exact Or.inr ((hanc s hs).2.trans hsx)
          · exact Or.inr h
        rcases a2 x hx step1 with h | ⟨s, hs, _⟩
        · exact h
        · cases hs
      · intro k hk
        rw [f2 k (fun x hx i hi => hk x (hx.lt hT hb) (Or.inr hx) i hi),
          f1 k (fun x hx i hi => hk x (hx.lt hT ha) (Or.inl hx) i hi)])
    (by
      intro ch _ c c' hpre hsame x hx
      rcases hpre x hx with h | h
      · exact Or.inl (h.congr (fun i hi => hsame _ i hi) (fun y _ i hi => hsame _ i hi))
      · exact Or.inr h)
    c0 h0

/-- Two caches that are consistent everywhere hold the same rows and the same total. -/
theorem AllCons.unique {g : Globals} {m : Mem} {root : Nat} (hT : TreeOK g.n m root)
    {c c' : Cache} (h : AllCons g m c) (h' : AllCons g m c') :
    (∀ ch < g.chunks, g.bootw ch ≠ 0 → ∀ x < g.n, ∀ i < g.leafs,
      c (idx g (m x).id i ch) = c' (idx g (m x).id i ch)) ∧
    total g m c root = total g m c' root := by
  have rows : ∀ ch < g.chunks, g.bootw ch ≠ 0 → ∀ x < g.n, ∀ i < g.leafs,
      c (idx g (m x).id i ch) = c' (idx g (m x).id i ch) := by
    intro ch hch hw x hx
    exact cons_unique hT m c c' ch (fun _ => True) (fun _ _ _ _ _ => trivial)
      (fun _ => rfl) (fun _ _ _ => ⟨rfl, rfl⟩) (fun x hx _ => h ch hch hw x hx) (fun x hx _ => h' ch hch hw x hx)
      x hx trivial
  refine ⟨rows, ?_⟩
  unfold total
  refine total_upto_congr g m c c' root g.chunks (fun ch hch hw => ?_)
  refine node_min_congr g m (fun y hy i hi => ?_)
  exact rows ch hch hw y (hT.child_facts hT.root_lt hy).1 i hi

/-! ## The cache across a tree edit -/

/-- Every id below `n` is the id of a node. -/
theorem IdsOK.surj {n : Nat} {m : Mem} (hI : IdsOK n m) : ∀ id < n, ∃ x < n, (m x).id = id := by
  intro id hid
  let f : Fin n → Fin n := fun x => ⟨(m x.1).id, hI.id_lt x.1 x.2⟩
  have hinj : Function.Injective f := by
    intro x y hxy
    have : (m x.1).id = (m y.1).id := congrArg Fin.val hxy
    exact Fin.ext (hI.id_inj x.1 x.2 y.1 y.2 this)
  obtain ⟨x, hx⟩ := (Finite.injective_iff_surjective.mp hinj) ⟨id, hid⟩
  exact ⟨x.1, x.2, congrArg Fin.val hx⟩

theorem FullAgrees.allCons {g : Globals} {m : Mem} {root : Nat} (hT : TreeOK g.n m root)
    (hI : IdsOK g.n m) {c0 : Cache} (h : FullAgrees g m root c0) : AllCons g m c0 := by
  obtain ⟨V, cF, e, hc, _, _⟩ := eval_tree_full_spec hT hI c0 (Nat.le_refl g.n) c0
  unfold FullAgrees at h
  rw [e] at h
  intro ch hch hw x hx
  have hchild : ∀ y, ((m x).left = some y ∨ (m x).right = some y) → (m y).id < g.n :=
    fun y hy => hI.id_lt y (hT.child_facts hx hy).1
  exact (hc ch hch hw x hx).congr
    (fun i hi => (h ch hch hw _ (hI.id_lt x hx) i hi).symm)
    (fun y hy i hi => (h ch hch hw _ (hchild y hy) i hi).symm)

/-- The value stored at a node depends on the memory only through the child links of the node
and the ids. -/
theorem node_val_mem_congr (g : Globals) {m m' : Mem} (c : Cache) {x : Nat}
    (hl : (m' x).left = (m x).left) (hr : (m' x).right = (m x).right)
    (hid : ∀ y, (m' y).id = (m y).id) (ch i : Nat) :
    node_val g m' c x ch i = node_val g m c x ch i := by
  unfold node_val
  rw [hl, hr, hid x]
  cases (m x).left with
  | none => rfl
  | some l =>
    cases (m x).right with
    | none => rfl
    | some r => simp only [hid l, hid r]

theorem Cons.mem_congr {g : Globals} {m m' : Mem} {c : Cache} {ch x : Nat}
    (h : Cons g m c ch x) (hl : (m' x).left = (m x).left) (hr : (m' x).right = (m x).right)
    (hid : ∀ y, (m' y).id = (m y).id) : Cons g m' c ch x := by
  intro i hi
  rw [hid x, h i hi, node_val_mem_congr g c hl hr hid]

/-- Exchanging the two children of a node does not change the value stored at it. -/
theorem node_val_flip (g : Globals) {m m' : Mem} (c : Cache) {x : Nat}
    (hl : (m' x).left = (m x).right) (hr : (m' x).right = (m x).left)
    (hid : ∀ y, (m' y).id = (m y).id) (ch i : Nat) :
    node_val g m' c x ch i = node_val g m c x ch i := by
  unfold node_val
  rw [hl, hr, hid x]
  cases (m x).left with
  | none =>
    cases (m x).right with
    | none => rfl
    | some r => rfl
  | some l =>
    cases (m x).right with
    | none => rfl
    | some r => simp only [hid l, hid r]; exact Int.add_comm _ _

/-- After an edit on an admitted pair, every node whose child links have changed lies on the
chain above one of the scoring endpoints. -/
theorem mutate_changed {n : Nat} {m : Mem} {root : Nat} {alt : Bool} {a b : Nat}
    (hT : TreeOK n m root) (hadm : Admitted n m alt a b) :
    ∃ m1 ra rb, do_mutate_tree alt m root a b = some (m1, root) ∧
      prep_endpoints m alt a b = some (ra, some rb) ∧ ra < n ∧ rb < n ∧
      TreeOK n m1 root ∧ (∀ y, (m1 y).id = (m y).id) ∧
      ∀ x, ((m1 x).left = (m x).left ∧ (m1 x).right = (m x).right) ∨
        Anc m1 ra x ∨ Anc m1 rb x := by
  obtain ⟨pa, pb, hp, h | h⟩ := mutate_form hT hadm
  · obtain ⟨rfl, he⟩ := h
    refine ⟨_, a, b, he, rfl, hadm.1, hadm.2.1, swap_treeOK hT hadm.1 hadm.2.1 hp,
      fun _ => rfl, ?_⟩
    intro x
    have e6 := (hp.pairNe hT hadm.1 hadm.2.1).pa_pb
    by_cases e1 : x = pa
    · right; right
      rw [e1]
      exact Anc.of_up (by rw [swapMem_up]; simp [Ne.symm hp.ne])
    · by_cases e2 : x = pb
      · right; left
        rw [e2]
        exact Anc.of_up (by rw [swapMem_up]; simp)
      · left
        rw [swapMem_left, swapMem_right]
        simp [e1, e2]
  · obtain ⟨rfl, s, G, hr, he⟩ := h
    have ua : (regraftMem m a b pa s G pb a).up = some pa := by
      rw [regraftMem_up]; simp [hr.a_P, hr.a_b, hr.a_s, hr.up_a]
    have uP : (regraftMem m a b pa s G pb pa).up = some pb := by
      rw [regraftMem_up]; simp
    have us : (regraftMem m a b pa s G pb s).up = some G := by
      rw [regraftMem_up]; simp [Ne.symm hr.P_s, Ne.symm hr.b_s]
    refine ⟨_, a, s, he, ?_, hadm.1, hr.s_lt, regraft_treeOK hT hr, fun _ => rfl, ?_⟩
    · unfold prep_endpoints
      simp [hr.up_a, hr.toRegraftPre.sibling]
    · intro x
      by_cases e1 : x = pa
      · right; left; rw [e1]; exact Anc.of_up ua
      · by_cases e2 : x = pb
        · right; left; rw [e2]; exact Anc.step ua (Anc.of_up uP)
        · by_cases e3 : x = G
          · right; right; rw [e3]; exact Anc.of_up us
          · left
            rw [regraftMem_left, regraftMem_right]
            simp [e1, e2, e3, regraftSlot]

/-! ## Incremental evaluation after an edit -/

/-- The cache after the incremental evaluation that follows an edit on an admitted pair. -/
theorem incr_after_mutate {g : Globals} {m : Mem} {root : Nat} {alt : Bool} {a b : Nat}
    (hT : TreeOK g.n m root) (hI : IdsOK g.n m) (hadm : Admitted g.n m alt a b)
    {c0 : Cache} (hc : AllCons g m c0) (fresh : Cache) {fuel : Nat} (hf : g.n ≤ fuel) :
    ∃ m1 ra rb V c1, do_mutate_tree alt m root a b = some (m1, root) ∧
      prep_endpoints m alt a b = some (ra, some rb) ∧ ra < g.n ∧ rb < g.n ∧
      TreeOK g.n m1 root ∧ IdsOK g.n m1 ∧ (∀ y, (m1 y).id = (m y).id) ∧
      eval_tree g m1 fresh fuel root (some c0) (some ra) (some rb) = some (V, c1) ∧
      AllCons g m1 c1 ∧ V = total g m1 c1 root ∧
      (∀ k, (∀ x < g.n, (Anc m1 ra x ∨ Anc m1 rb x) → ∀ ch < g.chunks, g.bootw ch ≠ 0 →
        ∀ i < g.leafs, k ≠ idx g (m x).id i ch) → c1 k = c0 k) := by
  obtain ⟨m1, ra, rb, he, hep, hra, hrb, hT1, hid, hch⟩ := mutate_changed hT hadm
  have hI1 : IdsOK g.n m1 :=
    ⟨fun p hp => by rw [hid]; exact hI.id_lt p hp,
     fun p hp q hq e => hI.id_inj p hp q hq (by rw [← hid p, ← hid q]; exact e)⟩
  obtain ⟨V, c1, e1, a1, v1, f1⟩ := eval_tree_incr_spec hT1 hI1 fresh hf hra hrb c0
    (by
      intro ch hch' hw x hx
      rcases hch x with ⟨hl, hr⟩ | h
      · exact Or.inl ((hc ch hch' hw x hx).mem_congr hl hr hid)
      · exact Or.inr h)
  refine ⟨m1, ra, rb, V, c1, he, hep, hra, hrb, hT1, hI1, hid, e1, a1, v1, ?_⟩
  intro k hk
  exact f1 k (fun x hx hanc ch hch' hw i hi => by rw [hid]; exact hk x hx hanc ch hch' hw i hi)

/-- C1: on a well-formed tree whose live cache agrees with the full evaluation in every
segment of non-zero weight, and for every pair admitted by `prep_mutate_tree` (swap or
regraft): after `do_mutate_tree(a, b)` the incremental `eval_tree(tree, ra, rb)` and the full
`eval_tree` without endpoints (started from any cache `cx`) both return, with the same total,
and leave the same live rows in every segment of non-zero weight. -/
theorem incremental_eval_matches_full (g : Globals) (m : Mem) (root : Nat) (alt : Bool)
    (a b : Nat) (c0 fresh cx : Cache) (fuel : Nat)
    (hT : TreeOK g.n m root) (hI : IdsOK g.n m) (hadm : Admitted g.n m alt a b)
    (hc : FullAgrees g m root c0) (hf : g.n ≤ fuel) :
    ∃ m1 ra rb V c1 cf, do_mutate_tree alt m root a b = some (m1, root) ∧
      prep_endpoints m alt a b = some (ra, some rb) ∧
      eval_tree g m1 fresh fuel root (some c0) (some ra) (some rb) = some (V, c1) ∧
      eval_tree g m1 fresh fuel root (some cx) none none = some (V, cf) ∧
      ∀ ch < g.chunks, g.bootw ch ≠ 0 → ∀ id < g.n, ∀ i < g.leafs,
        c1 (idx g id i ch) = cf (idx g id i ch) := by
  obtain ⟨m1, ra, rb, V, c1, he, hep, _, _, hT1, hI1, _, e1, a1, v1, _⟩ :=
    incr_after_mutate hT hI hadm (hc.allCons hT hI) fresh hf
  obtain ⟨Vf, cf, e2, a2, v2, _⟩ := eval_tree_full_spec hT1 hI1 fresh hf cx
  obtain ⟨rows, tot⟩ := a1.unique hT1 a2
  have hV : Vf = V := by rw [v1, v2, tot]
  refine ⟨m1, ra, rb, V, c1, cf, he, hep, e1, hV ▸ e2, ?_⟩
  intro ch hch hw id hid i hi
  obtain ⟨x, hx, rfl⟩ := hI1.surj id hid
  exact rows ch hch hw x hx i hi

set_option maxRecDepth 100000 in
theorem incremental_eval_matches_full_witness :
    ∃ m1 ra rb V c1 cf, do_mutate_tree false exMem 6 0 2 = some (m1, 6) ∧
      prep_endpoints exMem false 0 2 = some (ra, some rb) ∧
      eval_tree exGlobals m1 (fun _ => 0) 7 6 (some exCache) (some ra) (some rb)
        = some (V, c1) ∧
      eval_tree exGlobals m1 (fun _ => 0) 7 6 (some (fun _ => 0)) none none = some (V, cf) ∧
      ∀ ch < exGlobals.chunks, exGlobals.bootw ch ≠ 0 → ∀ id < exGlobals.n,
        ∀ i < exGlobals.leafs, c1 (idx exGlobals id i ch) = cf (idx exGlobals id i ch) :=
  incremental_eval_matches_full exGlobals exMem 6 false 0 2 exCache (fun _ => 0) (fun _ => 0) 7
    (by decide) (by decide) (by decide) (by decide) (by decide)

/-! ## Memories with the same links up to an exchange of children -/

section shape
variable {n : Nat} {m m2 : Mem} {root : Nat}

theorem SameShape.depth_eq (h : SameShape n m m2) (hT : TreeOK n m root) :
    ∀ f, ∀ p < n, depth m2 f p = depth m f p := by
  intro f
  induction f with
  | zero => intro p _; rfl
  | succ f ih =>
    intro p hp
    rw [depth, depth, h.up_eq p hp]
    cases hup : (m p).up with
    | none => rfl
    | some q => simp only; rw [ih q (hT.up_lt p hp q hup)]

theorem SameShape.child_iff (h : SameShape n m m2) {x : Nat} (hx : x < n) (q : Nat) :
    ((m2 x).left = some q ∨ (m2 x).right = some q) ↔
      ((m x).left = some q ∨ (m x).right = some q) := by
  rcases h.kids x hx with ⟨e1, e2⟩ | ⟨e1, e2⟩ <;> rw [e1, e2]
  exact or_comm

theorem SameShape.treeOK (h : SameShape n m m2) (hT : TreeOK n m root) : TreeOK n m2 root where
  root_lt := hT.root_lt
  root_up := by rw [h.up_eq _ hT.root_lt]; exact hT.root_up
  one_root := fun p hp e => hT.one_root p hp (by rw [← h.up_eq p hp]; exact e)
  up_lt := fun p hp q hq => hT.up_lt p hp q (by rw [← h.up_eq p hp]; exact hq)
  left_lt := fun p hp q hq => (hT.child_facts hp ((h.child_iff hp q).mp (Or.inl hq))).1
  right_lt := fun p hp q hq => (hT.child_facts hp ((h.child_iff hp q).mp (Or.inr hq))).1
  two := fun p hp => by
    rcases h.kids p hp with ⟨e1, e2⟩ | ⟨e1, e2⟩ <;> rw [e1, e2]
    · exact hT.two p hp
    · exact (hT.two p hp).symm
  lr_ne := fun p hp q hq e => by
    have hq' : (m2 p).left = some q := hq
    rcases h.kids p hp with ⟨e1, e2⟩ | ⟨e1, e2⟩
    · exact hT.lr_ne p hp q (e1 ▸ hq') (e2 ▸ e)
    · exact hT.lr_ne p hp q (e2 ▸ e) (e1 ▸ hq')
  left_up := fun p hp q hq => by
    have := hT.child_facts hp ((h.child_iff hp q).mp (Or.inl hq))
    rw [h.up_eq q this.1]; exact this.2.1
  right_up := fun p hp q hq => by
    have := hT.child_facts hp ((h.child_iff hp q).mp (Or.inr hq))
    rw [h.up_eq q this.1]; exact this.2.1
  up_child := fun p hp q hq => by
    have hq' : (m p).up = some q := by rw [← h.up_eq p hp]; exact hq
    exact (h.child_iff (hT.up_lt p hp q hq') p).mpr (hT.up_child p hp q hq')
  acyclic := fun p hp => by rw [h.depth_eq hT n p hp]; exact hT.acyclic p hp

theorem SameShape.idsOK (h : SameShape n m m2) (hI : IdsOK n m) : IdsOK n m2 :=
  ⟨fun p hp => by rw [h.id_eq]; exact hI.id_lt p hp,
   fun p hp q hq e => hI.id_inj p hp q hq (by rw [← h.id_eq p, ← h.id_eq q]; exact e)⟩

theorem SameShape.anc_of (h : SameShape n m m2) (hT : TreeOK n m root) {x y : Nat}
    (ha : Anc m x y) (hx : x < n) : Anc m2 x y := by
  induction ha with
  | refl _ => exact Anc.refl _
  | step hup _ ih =>
    exact Anc.step (by rw [h.up_eq _ hx]; exact hup) (ih (hT.up_lt _ hx _ hup))

theorem SameShape.anc_to (h : SameShape n m m2) (hT : TreeOK n m root) {x y : Nat}
    (ha : Anc m2 x y) (hx : x < n) : Anc m x y := by
  induction ha with
  | refl _ => exact Anc.refl _
  | step hup _ ih =>
    have hup' := hup
    rw [h.up_eq _ hx] at hup'
    exact Anc.step hup' (ih (hT.up_lt _ hx _ hup'))

end shape

/-- The value stored at a node is the same in two memories of the same shape. -/
theorem SameShape.node_val_eq {g : Globals} {m m2 : Mem} (h : SameShape g.n m m2) (c : Cache)
    {x : Nat} (hx : x < g.n) (ch i : Nat) : node_val g m2 c x ch i = node_val g m c x ch i := by
  rcases h.kids x hx with ⟨e1, e2⟩ | ⟨e1, e2⟩
  · exact node_val_mem_congr g c e1 e2 h.id_eq ch i
  · exact node_val_flip g c e1 e2 h.id_eq ch i

theorem SameShape.cons {g : Globals} {m m2 : Mem} (h : SameShape g.n m m2) {c : Cache}
    {ch x : Nat} (hx : x < g.n) (hc : Cons g m c ch x) : Cons g m2 c ch x := by
  intro i hi
  rw [h.id_eq x, hc i hi, h.node_val_eq c hx]

theorem SameShape.node_min_eq {g : Globals} {m m2 : Mem} (h : SameShape g.n m m2) (c : Cache)
    {x : Nat} (hx : x < g.n) (ch : Nat) : node_min g m2 c x ch = node_min g m c x ch := by
  have hv : (fun i => node_val g m2 c x ch i) = (fun i => node_val g m c x ch i) :=
    funext (fun i => h.node_val_eq c hx ch i)
  unfold node_min
  rw [hv]
  rcases h.kids x hx with ⟨e1, e2⟩ | ⟨e1, e2⟩ <;> rw [e1, e2]
  cases (m x).left <;> cases (m x).right <;> rfl

theorem SameShape.total_eq {g : Globals} {m m2 : Mem} (h : SameShape g.n m m2) (c : Cache)
    {root : Nat} (hr : root < g.n) : total g m2 c root = total g m c root := by
  unfold total total_upto
  apply List.foldl_ext
  intro acc ch _
  rw [h.node_min_eq c hr]

/-! ## An edit followed by the edit back -/

theorem subst_child_cancel {a b : Nat} {o : Option Nat} (h : o ≠ some a) :
    subst_child a b (subst_child b a o) = o := by
  unfold subst_child
  by_cases e : o = some b
  · simp [e]
  · simp [e, h]

/-- After `do_mutate_tree(a, b)` on an admitted pair, `do_mutate_tree(ra, rb)` on the scoring
endpoints returns, and the tree it leaves has the shape of the original one. -/
theorem mutate_revert {n : Nat} {m : Mem} {root : Nat} {alt : Bool} {a b : Nat}
    (hT : TreeOK n m root) (hadm : Admitted n m alt a b) :
    ∃ m1 ra rb m2, do_mutate_tree alt m root a b = some (m1, root) ∧
      prep_endpoints m alt a b = some (ra, some rb) ∧ ra < n ∧ rb < n ∧
      do_mutate_tree alt m1 root ra rb = some (m2, root) ∧ SameShape n m m2 := by
  obtain ⟨pa, pb, hp, h | h⟩ := mutate_form hT hadm
  · obtain ⟨rfl, he⟩ := h
    have hne := hp.pairNe hT hadm.1 hadm.2.1
    have hT1 := swap_treeOK hT hadm.1 hadm.2.1 hp
    have ua : (swapMem m a b pa pb a).up = some pb := by rw [swapMem_up]; simp
    have ub : (swapMem m a b pa pb b).up = some pa := by
      rw [swapMem_up]; simp [Ne.symm hne.a_b]
    have hback := swap_form_raw ua ub
      ⟨hne.a_b, hne.a_pb, hne.a_pa, hne.b_pb, hne.b_pa, Ne.symm hne.pa_pb⟩
      (hT1.child_slot hadm.1 ua) (hT1.child_slot hadm.2.1 ub)
    have hpa := hT.up_lt a hadm.1 pa hp.up_a
    have hpb := hT.up_lt b hadm.2.1 pb hp.up_b
    have la : (m pb).left ≠ some a := fun e => by
      have := hT.left_up pb hpb a e
      rw [hp.up_a] at this
      exact hne.pa_pb (Option.some.inj this)
    have ra : (m pb).right ≠ some a := fun e => by
      have := hT.right_up pb hpb a e
      rw [hp.up_a] at this
      exact hne.pa_pb (Option.some.inj this)
    have lb : (m pa).left ≠ some b := fun e => by
      have := hT.left_up pa hpa b e
      rw [hp.up_b] at this
      exact hne.pa_pb (Option.some.inj this).symm
    have rb : (m pa).right ≠ some b := fun e => by
      have := hT.right_up pa hpa b e
      rw [hp.up_b] at this
      exact hne.pa_pb (Option.some.inj this).symm
    refine ⟨_, a, b, swapMem (swapMem m a b pa pb) a b pb pa, he, rfl, hadm.1, hadm.2.1, ?_,
      fun _ => rfl, ?_, ?_⟩
    · unfold do_mutate_tree
      simp [hback]
    · intro x _
      rw [swapMem_up, swapMem_up]
      by_cases e1 : x = a
      · simp [e1, hp.up_a]
      · by_cases e2 : x = b
        · simp [e2, Ne.symm hne.a_b, hp.up_b]
        · simp [e1, e2]
    · intro x _
      left
      rw [swapMem_left, swapMem_right, swapMem_left, swapMem_right]
      by_cases e1 : x = pa
      · subst e1
        simp only [hne.pa_pb, if_false, if_true]
        exact ⟨subst_child_cancel lb, subst_child_cancel rb⟩
      · by_cases e2 : x = pb
        · subst e2
          simp only [Ne.symm hne.pa_pb, if_false, if_true]
          exact ⟨subst_child_cancel la, subst_child_cancel ra⟩
        · simp [e1, e2]
  · obtain ⟨rfl, s, G, hr, he⟩ := h
    have hpre := regraft_inverse_pre hT hr
    refine ⟨_, a, s, regraftMem (regraftMem m a b pa s G pb) a s pa b pb G, he, ?_, hadm.1,
      hr.s_lt, ?_, fun _ => rfl, ?_, ?_⟩
    · unfold prep_endpoints
      simp [hr.up_a, hr.toRegraftPre.sibling]
    · unfold do_mutate_tree
      simp [regraft_form hpre root]
    · intro x hx
      rw [regraft_inverse_mem hT hr x hx]
      split_ifs with e
      · rw [e]
      · rfl
    · intro x hx
      rw [regraft_inverse_mem hT hr x hx]
      split_ifs with e
      · subst e
        rcases hr.sib with ⟨s1, s2⟩ | ⟨s1, s2⟩
        · right; exact ⟨s2.symm, s1.symm⟩
        · left; exact ⟨s1.symm, s2.symm⟩
      · left; exact ⟨rfl, rfl⟩

/-! ## The total after an edit and the edit back -/

/-- C9: on a well-formed tree and for every pair admitted by `prep_mutate_tree` (swap or
regraft), the full `eval_tree` returns a total `v0` and a cache `c0`; `do_mutate_tree(a, b)`
and then `do_mutate_tree(ra, rb)` with the same move kind both return; and the incremental
`eval_tree(tree, ra, rb)` run on `c0` in the resulting tree returns exactly `v0`. -/
theorem mutate_revert_same_total (g : Globals) (m : Mem) (root : Nat) (alt : Bool) (a b : Nat)
    (cache : Option Cache) (fresh : Cache) (fuel : Nat)
    (hT : TreeOK g.n m root) (hI : IdsOK g.n m) (hadm : Admitted g.n m alt a b)
    (hf : g.n ≤ fuel) :
    ∃ v0 c0 m1 ra rb m2 c2, eval_tree g m fresh fuel root cache none none = some (v0, c0) ∧
      do_mutate_tree alt m root a b = some (m1, root) ∧
      prep_endpoints m alt a b = some (ra, some rb) ∧
      do_mutate_tree alt m1 root ra rb = some (m2, root) ∧
      eval_tree g m2 fresh fuel root (some c0) (some ra) (some rb) = some (v0, c2) := by
  obtain ⟨m1, ra, rb, m2, he, hep, hra, hrb, hback, hS⟩ := mutate_revert hT hadm
  obtain ⟨v0, c0, e0, a0, hv0, _⟩ := eval_tree_full_spec hT hI fresh hf (cache.getD fresh)
  have e0' : eval_tree g m fresh fuel root cache none none = some (v0, c0) := by
    cases cache with
    | none =>
      rw [eval_tree_none_eq_fold]
      rw [eval_tree_eq_fold] at e0
      exact e0
    | some c => exact e0
  have hT2 := hS.treeOK hT
  have hI2 := hS.idsOK hI
  have a02 : AllCons g m2 c0 := fun ch hch hw x hx => hS.cons hx (a0 ch hch hw x hx)
  obtain ⟨V, c2, e2, a2, hv2, _⟩ := eval_tree_incr_spec hT2 hI2 fresh hf hra hrb c0
    (fun ch hch hw x hx => Or.inl (a02 ch hch hw x hx))
  have hV : V = v0 := by
    rw [hv2, hv0, (a2.unique hT2 a02).2]
    exact hS.total_eq c0 hT.root_lt
  exact ⟨v0, c0, m1, ra, rb, m2, c2, e0', he, hep, hback, hV ▸ e2⟩

set_option maxRecDepth 100000 in
theorem mutate_revert_same_total_witness :
    ∃ v0 c0 m1 ra rb m2 c2,
      eval_tree exGlobals exMem (fun _ => 0) 7 6 none none none = some (v0, c0) ∧
      do_mutate_tree true exMem 6 1 3 = some (m1, 6) ∧
      prep_endpoints exMem true 1 3 = some (ra, some rb) ∧
      do_mutate_tree true m1 6 ra rb = some (m2, 6) ∧
      eval_tree exGlobals m2 (fun _ => 0) 7 6 (some c0) (some ra) (some rb) = some (v0, c2) :=
  mutate_revert_same_total exGlobals exMem 6 true 1 3 none (fun _ => 0) 7
    (by decide) (by decide) (by decide) (by decide)

/-! ## The chains above the scoring endpoints after an edit -/

/-- A property kept by every `up` step holds all along an `up` chain. -/
theorem anc_invariant {m1 : Mem} (Good : Nat → Prop)
    (hstep : ∀ z p, Good z → (m1 z).up = some p → Good p) {y x : Nat}
    (h : Anc m1 y x) (hy : Good y) : Good x := by
  induction h with
  | refl _ => exact hy
  | step hup _ ih => exact ih (hstep _ _ hy hup)

/-- After a swap, the chains above `a` and `b` run through nodes that were above `a` or `b`
before. -/
theorem swap_chain {n : Nat} {m : Mem} {root a b pa pb : Nat} (hT : TreeOK n m root)
    (ha : a < n) (hb : b < n) (hp : PairOK m true a b pa pb) {x : Nat}
    (h : Anc (swapMem m a b pa pb) a x ∨ Anc (swapMem m a b pa pb) b x) :
    Anc m a x ∨ Anc m b x := by
  have hne := hp.pairNe hT ha hb
  rcases h with h | h
  · rcases h.cases_up with e | ⟨p, hup, hpx⟩
    · exact Or.inl (e ▸ Anc.refl a)
    · rw [swapMem_up] at hup
      simp only [if_true] at hup
      cases hup
      right
      refine Anc.step hp.up_b (anc_invariant (fun z => Anc m pb z) ?_ hpx (Anc.refl pb))
      intro z p hz hup
      rw [swapMem_up] at hup
      by_cases e1 : z = a
      · exact absurd (Anc.step hp.up_b (e1 ▸ hz)) hp.not_anc_ba
      · by_cases e2 : z = b
        · exact absurd (e2 ▸ hz) (hT.not_anc_up hb hp.up_b)
        · simp only [e1, e2, if_false] at hup
          exact hz.trans (Anc.of_up hup)
  · rcases h.cases_up with e | ⟨p, hup, hpx⟩
    · exact Or.inr (e ▸ Anc.refl b)
    · rw [swapMem_up] at hup
      simp only [Ne.symm hne.a_b, if_false, if_true] at hup
      cases hup
      left
      refine Anc.step hp.up_a (anc_invariant (fun z => Anc m pa z) ?_ hpx (Anc.refl pa))
      intro z p hz hup
      rw [swapMem_up] at hup
      by_cases e1 : z = a
      · exact absurd (e1 ▸ hz) (hT.not_anc_up ha hp.up_a)
      · by_cases e2 : z = b
        · exact absurd (Anc.step hp.up_a (e2 ▸ hz)) hp.not_anc_ab
        · simp only [e1, e2, if_false] at hup
          exact hz.trans (Anc.of_up hup)

/-- After a regraft, the chains above `a` and the old sibling `s` run through nodes that were
above `a` or `b` before, except possibly `s` itself, and then no node below `s` has changed
its children. -/
theorem regraft_chain {n : Nat} {m : Mem} {root a b P s G Bp : Nat} (hT : TreeOK n m root)
    (h : RegraftOK n m a b P s G Bp) {x : Nat}
    (hx : Anc (regraftMem m a b P s G Bp) a x ∨ Anc (regraftMem m a b P s G Bp) s x) :
    Anc m a x ∨ Anc m b x ∨
      ∀ y < n, Anc m y x → (regraftMem m a b P s G Bp y).left = (m y).left ∧
        (regraftMem m a b P s G Bp y).right = (m y).right := by
  have nGP : ¬ Anc m G P := hT.not_anc_up h.P_lt h.up_P
  have nPs : ¬ Anc m P s := hT.not_anc_up h.s_lt h.up_s
  have nGs : ¬ Anc m G s := fun e => nPs (Anc.step h.up_P e)
  have nGb : ¬ Anc m G b := fun e => h.not_anc_ab (Anc.step h.up_a (Anc.step h.up_P e))
  have nBb : ¬ Anc m Bp b := hT.not_anc_up h.b_lt h.up_b
  have nBa : ¬ Anc m Bp a := fun e => h.not_anc_ba (Anc.step h.up_b e)
  have aG : Anc m a G := Anc.step h.up_a (Anc.of_up h.up_P)
  rcases hx with hx | hx
  · rcases hx.cases_up with e | ⟨p, hup, hpx⟩
    · exact Or.inl (e ▸ Anc.refl a)
    · rw [regraftMem_up] at hup
      simp only [h.a_P, h.a_b, h.a_s, if_false, h.up_a] at hup
      cases hup
      rcases hpx.cases_up with e | ⟨p, hup, hpx⟩
      · exact Or.inl (e ▸ Anc.of_up h.up_a)
      · rw [regraftMem_up] at hup
        simp only [if_true] at hup
        cases hup
        right; left
        have key := anc_invariant (fun z => Anc m Bp z ∧ z ≠ P) ?_ hpx
          ⟨Anc.refl Bp, Ne.symm h.P_Bp⟩
        · exact Anc.step h.up_b key.1
        · intro z p ⟨hz, hzP⟩ hup
          have hzb : z ≠ b := fun e => nBb (e ▸ hz)
          rw [regraftMem_up] at hup
          simp only [hzP, hzb, if_false] at hup
          by_cases e3 : z = s
          · simp only [e3, if_true] at hup
            cases hup
            exact ⟨hz.trans (e3 ▸ Anc.step h.up_s (Anc.of_up h.up_P)), Ne.symm h.P_G⟩
          · simp only [e3, if_false] at hup
            refine ⟨hz.trans (Anc.of_up hup), ?_⟩
            rintro rfl
            have hzn : z < n := hz.lt hT h.Bp_lt
            rcases h.sib with ⟨s1, s2⟩ | ⟨s1, s2⟩
            · rcases hT.child_cases hzn hup s1 s2 with e | e
              · exact nBa (e ▸ hz)
              · exact e3 e
            · rcases hT.child_cases hzn hup s1 s2 with e | e
              · exact e3 e
              · exact nBa (e ▸ hz)
  · rcases hx.cases_up with e | ⟨p, hup, hpx⟩
    · subst e
      by_cases hbs : Anc m b s
      · exact Or.inr (Or.inl hbs)
      · right; right
        intro y _ hy
        have e1 : y ≠ P := fun e => nPs (e ▸ hy)
        have e2 : y ≠ G := fun e => nGs (e ▸ hy)
        have e3 : y ≠ Bp := fun e => hbs (Anc.step h.up_b (e ▸ hy))
        rw [regraftMem_left, regraftMem_right]
        simp [e1, e2, e3, regraftSlot]
    · rw [regraftMem_up] at hup
      simp only [Ne.symm h.P_s, Ne.symm h.b_s, if_false, if_true] at hup
      cases hup
      left
      refine aG.trans (anc_invariant (fun z => Anc m G z) ?_ hpx (Anc.refl G))
      intro z p hz hup
      have e1 : z ≠ P := fun e => nGP (e ▸ hz)
      have e2 : z ≠ s := fun e => nGs (e ▸ hz)
      have e3 : z ≠ b := fun e => nGb (e ▸ hz)
      rw [regraftMem_up] at hup
      simp only [e1, e2, e3, if_false] at hup
      exact hz.trans (Anc.of_up hup)

/-- After an edit on an admitted pair, a node on the chain above a scoring endpoint was above
`a` or `b` before the edit, or no node below it has changed its children. -/
theorem mutate_chains {n : Nat} {m : Mem} {root : Nat} {alt : Bool} {a b : Nat}
    (hT : TreeOK n m root) (hadm : Admitted n m alt a b) {m1 : Mem} {ra rb : Nat}
    (he : do_mutate_tree alt m root a b = some (m1, root))
    (hep : prep_endpoints m alt a b = some (ra, some rb)) {x : Nat}
    (hx : Anc m1 ra x ∨ Anc m1 rb x) :
    Anc m a x ∨ Anc m b x ∨
      ∀ y < n, Anc m y x → (m1 y).left = (m y).left ∧ (m1 y).right = (m y).right := by
  obtain ⟨pa, pb, hp, h | h⟩ := mutate_form hT hadm
  · obtain ⟨rfl, he'⟩ := h
    rw [he'] at he
    simp only [Option.some.injEq, Prod.mk.injEq, and_true] at he
    subst he
    simp only [prep_endpoints, if_true, Option.some.injEq, Prod.mk.injEq] at hep
    obtain ⟨rfl, rfl⟩ := hep
    rcases swap_chain hT hadm.1 hadm.2.1 hp hx with h | h
    · exact Or.inl h
    · exact Or.inr (Or.inl h)
  · obtain ⟨rfl, s, G, hr, he'⟩ := h
    rw [he'] at he
    simp only [Option.some.injEq, Prod.mk.injEq, and_true] at he
    subst he
    unfold prep_endpoints at hep
    simp only [hr.up_a, hr.toRegraftPre.sibling, Bool.false_eq_true, if_false,
      Option.some.injEq, Prod.mk.injEq] at hep
    obtain ⟨rfl, rfl⟩ := hep
    exact regraft_chain hT hr hx

/-! ## A rejected iteration leaves the live cache as it was -/

/-- Cells of a segment of weight zero differ from every cell of a weighted segment. -/
theorem idx_zero_ne (g : Globals) {id i ch : Nat} (hi : i < g.leafs) (hch : ch < g.chunks)
    (hw : g.bootw ch = 0) {id1 i1 ch1 : Nat} (hi1 : i1 < g.leafs) (hch1 : ch1 < g.chunks)
    (hw1 : g.bootw ch1 ≠ 0) : idx g id i ch ≠ idx g id1 i1 ch1 := by
  intro e
  obtain ⟨_, _, e3⟩ := idx_inj g hi hi1 hch hch1 e
  exact hw1 (e3 ▸ hw)

/-- The live cell of a node differs from every live cell of the nodes of a set that does not
hold it. -/
theorem idx_row_ne (g : Globals) {m : Mem} (hI : IdsOK g.n m) {x y : Nat} (hx : x < g.n)
    (hy : y < g.n) (hxy : x ≠ y) {i ch i1 ch1 : Nat} (hi : i < g.leafs) (hch : ch < g.chunks)
    (hi1 : i1 < g.leafs) (hch1 : ch1 < g.chunks) :
    idx g (m x).id i ch ≠ idx g (m y).id i1 ch1 := by
  intro e
  obtain ⟨e1, _, _⟩ := idx_inj g hi hi1 hch hch1 e
  exact hxy (hI.id_inj x hx y hy e1)

/-- The steps of one iteration of `optimize_tree` on a consistent cache and an admitted pair:
the proposal returns a well-formed tree with a consistent cache and its total; the rejection
returns a tree of the shape of the original one and a cache whose live cells are those before
the proposal. -/
theorem rejected_iteration_spec {g : Globals} {m : Mem} {root : Nat} {alt : Bool}
    {a b : Nat} {c0 : Cache} (fresh : Cache) {fuel : Nat}
    (hT : TreeOK g.n m root) (hI : IdsOK g.n m) (hadm : Admitted g.n m alt a b)
    (hA : AllCons g m c0) (hf : g.n ≤ fuel) :
    ∃ ra rb m1 v c1 m2 t2, prep_endpoints m alt a b = some (ra, some rb) ∧
      optimize_propose g m fresh fuel root alt a b ra (some rb) c0 = some (m1, v, c1) ∧
      optimize_reject g m1 fuel root alt a b ra (some rb) c1 = some (m2, t2) ∧
      (∀ id < g.n, ∀ i < g.leafs, ∀ ch < g.chunks,
        t2 (idx g id i ch) = c0 (idx g id i ch)) ∧
      (∀ x < g.n, (Anc m1 ra x ∨ Anc m1 rb x) → (Anc m a x ∨ Anc m b x) ∨
        ∀ i < g.leafs, ∀ ch < g.chunks,
          c1 (idx g (m x).id i ch) = c0 (idx g (m x).id i ch)) ∧
      TreeOK g.n m1 root ∧ IdsOK g.n m1 ∧ AllCons g m1 c1 ∧ v = total g m1 c1 root ∧
      SameShape g.n m m2 := by
  have ha := hadm.1
  have hb := hadm.2.1
  -- the two snapshots
  obtain ⟨s1, es1, sf1, ss1⟩ := store_walk hT hI a ha fuel c0
    (Nat.lt_of_lt_of_le (hT.acyclic a ha) hf)
  obtain ⟨s2, es2, sf2, ss2⟩ := store_walk hT hI b hb fuel s1
    (Nat.lt_of_lt_of_le (hT.acyclic b hb) hf)
  have live1 : ∀ id < g.n, ∀ i < g.leafs, ∀ ch < g.chunks,
      s1 (idx g id i ch) = c0 (idx g id i ch) := fun id hid i hi ch hch =>
    sf1 _ (fun _ _ _ _ _ _ _ => idx_live_ne_scratch g hid hi hch)
  have live2 : ∀ id < g.n, ∀ i < g.leafs, ∀ ch < g.chunks,
      s2 (idx g id i ch) = c0 (idx g id i ch) := fun id hid i hi ch hch =>
    (sf2 _ (fun _ _ _ _ _ _ _ => idx_live_ne_scratch g hid hi hch)).trans
      (live1 id hid i hi ch hch)
  have snap : ∀ x < g.n, (Anc m a x ∨ Anc m b x) → ∀ ch < g.chunks, g.bootw ch ≠ 0 →
      ∀ i < g.leafs, s2 (idx g (g.n + (m x).id) i ch) = c0 (idx g (m x).id i ch) := by
    intro x hx hax ch hch hw i hi
    by_cases hbx : Anc m b x
    · rw [ss2 x hbx ch hch hw i hi]
      exact live1 _ (hI.id_lt x hx) i hi ch hch
    · have hax' : Anc m a x := hax.resolve_right hbx
      rw [sf2 _ (fun y hy ch1 hch1 _ i1 hi1 e => by
        obtain ⟨e1, _, _⟩ := idx_inj g hi hi1 hch hch1 e
        have : x = y := hI.id_inj x hx y (hy.lt hT hb) (Nat.add_left_cancel e1)
        exact hbx (this ▸ hy))]
      exact ss1 x hax' ch hch hw i hi
  have hA2 : AllCons g m s2 := by
    intro ch hch hw x hx
    exact (hA ch hch hw x hx).congr
      (fun j hj => live2 _ (hI.id_lt x hx) j hj ch hch)
      (fun y hy j hj => live2 _ (hI.id_lt y (hT.child_facts hx hy).1) j hj ch hch)
  -- the edit and the incremental evaluation
  obtain ⟨m1, ra, rb, V, c1, he, hep, hra, hrb, hT1, hI1, hid1, e1, a1, hV, f1⟩ :=
    incr_after_mutate hT hI hadm hA2 fresh hf
  have scr1 : ∀ id i ch, i < g.leafs → ch < g.chunks →
      c1 (idx g (g.n + id) i ch) = s2 (idx g (g.n + id) i ch) := fun id i ch _ _ =>
    f1 _ (fun x hx _ ch1 hch1 _ i1 hi1 =>
      (idx_live_ne_scratch g (hI.id_lt x hx) hi1 hch1).symm)
  have off1 : ∀ x < g.n, ¬ (Anc m1 ra x ∨ Anc m1 rb x) → ∀ i < g.leafs, ∀ ch < g.chunks,
      c1 (idx g (m x).id i ch) = c0 (idx g (m x).id i ch) := by
    intro x hx hnot i hi ch hch
    rw [f1 _ (fun y hy hanc ch1 hch1 _ i1 hi1 =>
      idx_row_ne g hI hx hy (fun e => hnot (e ▸ hanc)) hi hch hi1 hch1)]
    exact live2 _ (hI.id_lt x hx) i hi ch hch
  have zero1 : ∀ id < g.n, ∀ i < g.leafs, ∀ ch < g.chunks, g.bootw ch = 0 →
      c1 (idx g id i ch) = c0 (idx g id i ch) := by
    intro id hid i hi ch hch hw
    rw [f1 _ (fun y _ _ ch1 hch1 hw1 i1 hi1 => idx_zero_ne g hi hch hw hi1 hch1 hw1)]
    exact live2 id hid i hi ch hch
  have same1 : ∀ x < g.n,
      (∀ y < g.n, Anc m y x → (m1 y).left = (m y).left ∧ (m1 y).right = (m y).right) →
      ∀ i < g.leafs, ∀ ch < g.chunks,
        c1 (idx g (m x).id i ch) = c0 (idx g (m x).id i ch) := by
    intro x hx hsame i hi ch hch
    by_cases hw : g.bootw ch = 0
    · exact zero1 _ (hI.id_lt x hx) i hi ch hch hw
    · exact (cons_unique hT m1 c0 c1 ch (fun y => Anc m y x)
        (fun y hy hyx z hz => Anc.step (hT.child_facts hy hz).2.1 hyx)
        hid1 hsame (fun y hy _ => hA ch hch hw y hy) (fun y hy _ => a1 ch hch hw y hy)
        x hx (Anc.refl x) i hi).symm
  have rewritten : ∀ x < g.n, (Anc m1 ra x ∨ Anc m1 rb x) → (Anc m a x ∨ Anc m b x) ∨
      ∀ i < g.leafs, ∀ ch < g.chunks,
        c1 (idx g (m x).id i ch) = c0 (idx g (m x).id i ch) := by
    intro x hx hanc
    rcases mutate_chains hT hadm he hep hanc with h | h | h
    · exact Or.inl (Or.inl h)
    · exact Or.inl (Or.inr h)
    · exact Or.inr (same1 x hx h)
  -- the edit back and the two restores
  obtain ⟨m1', ra', rb', m2, he', hep', _, _, hback, hS⟩ := mutate_revert hT hadm
  have em : m1' = m1 := by
    have := he'.symm.trans he
    simpa using this
  have er : ra' = ra ∧ rb' = rb := by
    have := hep'.symm.trans hep
    simpa using this
  rw [em, er.1, er.2] at hback
  have hT2 := hS.treeOK hT
  have hI2 := hS.idsOK hI
  obtain ⟨t1, et1, rf1, rr1⟩ := restore_walk hT2 hI2 a ha fuel c1
    (Nat.lt_of_lt_of_le (hT2.acyclic a ha) hf)
  obtain ⟨t2, et2, rf2, rr2⟩ := restore_walk hT2 hI2 b hb fuel t1
    (Nat.lt_of_lt_of_le (hT2.acyclic b hb) hf)
  have tscr : ∀ id i ch, i < g.leafs → ch < g.chunks →
      t1 (idx g (g.n + id) i ch) = c1 (idx g (g.n + id) i ch) := fun id i ch _ _ =>
    rf1 _ (fun y hy ch1 hch1 _ i1 hi1 =>
      (idx_live_ne_scratch g (hI2.id_lt y (hy.lt hT2 ha)) hi1 hch1).symm)
  refine ⟨ra, rb, m1, V, c1, m2, t2, hep, ?_, ?_, ?_, rewritten, hT1, hI1, a1, hV, hS⟩
  · unfold optimize_propose
    simp [es1, es2, he, e1]
  · unfold optimize_reject
    simp [hback, et1, et2]
  · intro id hid i hi ch hch
    obtain ⟨x, hx, rfl⟩ := hI.surj id hid
    by_cases hw : g.bootw ch = 0
    · rw [rf2 _ (fun y _ ch1 hch1 hw1 i1 hi1 => idx_zero_ne g hi hch hw hi1 hch1 hw1),
        rf1 _ (fun y _ ch1 hch1 hw1 i1 hi1 => idx_zero_ne g hi hch hw hi1 hch1 hw1)]
      exact zero1 _ (hI.id_lt x hx) i hi ch hch hw
    · by_cases hbx : Anc m b x
      · have r := rr2 x (hS.anc_of hT hbx hb) ch hch hw i hi
        rw [hS.id_eq x] at r
        rw [r, tscr _ i ch hi hch, scr1 _ i ch hi hch]
        exact snap x hx (Or.inr hbx) ch hch hw i hi
      · have k2 : t2 (idx g (m x).id i ch) = t1 (idx g (m x).id i ch) :=
          rf2 _ (fun y hy ch1 hch1 _ i1 hi1 => by
            have hyn := hy.lt hT2 hb
            rw [hS.id_eq y]
            exact idx_row_ne g hI hx hyn (fun e => hbx (e ▸ hS.anc_to hT hy hb))
              hi hch hi1 hch1)
        rw [k2]
        by_cases hax : Anc m a x
        · have r := rr1 x (hS.anc_of hT hax ha) ch hch hw i hi
          rw [hS.id_eq x] at r
          rw [r, scr1 _ i ch hi hch]
          exact snap x hx (Or.inl hax) ch hch hw i hi
        · have k1 : t1 (idx g (m x).id i ch) = c1 (idx g (m x).id i ch) :=
            rf1 _ (fun y hy ch1 hch1 _ i1 hi1 => by
              have hyn := hy.lt hT2 ha
              rw [hS.id_eq y]
              exact idx_row_ne g hI hx hyn (fun e => hax (e ▸ hS.anc_to hT hy ha))
                hi hch hi1 hch1)
          rw [k1]
          by_cases hanc : Anc m1 ra x ∨ Anc m1 rb x
          · rcases rewritten x hx hanc with h | h
            · exact absurd h (fun h => h.elim hax hbx)
            · exact h i hi ch hch
          · exact off1 x hx hanc i hi ch hch

/-- C4: on a well-formed tree whose live cache agrees with the full evaluation, and for every
pair admitted by `prep_mutate_tree` (swap or regraft), the steps of a rejected iteration of
`optimize_tree` all return: `store_cost_uptree` on `a` and `b`, `do_mutate_tree(a, b)`, the
incremental `eval_tree(ra, rb)`, `do_mutate_tree(ra, rb)` and `restore_cost_uptree` on `a` and
`b`. Afterwards every live cell of the cache (every node, witness and segment, of weight zero
or not) holds the value it had before the proposal. Moreover every node on a chain that the
incremental evaluation rewrote was on the chain above `a` or `b` before the edit, so that its
row was snapshotted, or its row after the evaluation equals its row before the proposal. -/
theorem rejected_iteration_restores_cache (g : Globals) (m : Mem) (root : Nat) (alt : Bool)
    (a b : Nat) (c0 fresh : Cache) (fuel : Nat)
    (hT : TreeOK g.n m root) (hI : IdsOK g.n m) (hadm : Admitted g.n m alt a b)
    (hc : FullAgrees g m root c0) (hf : g.n ≤ fuel) :
    ∃ ra rb m1 v c1 m2 t2, prep_endpoints m alt a b = some (ra, some rb) ∧
      optimize_propose g m fresh fuel root alt a b ra (some rb) c0 = some (m1, v, c1) ∧
      optimize_reject g m1 fuel root alt a b ra (some rb) c1 = some (m2, t2) ∧
      (∀ id < g.n, ∀ i < g.leafs, ∀ ch < g.chunks,
        t2 (idx g id i ch) = c0 (idx g id i ch)) ∧
      (∀ x < g.n, (Anc m1 ra x ∨ Anc m1 rb x) → (Anc m a x ∨ Anc m b x) ∨
        ∀ i < g.leafs, ∀ ch < g.chunks,
          c1 (idx g (m x).id i ch) = c0 (idx g (m x).id i ch)) := by
  obtain ⟨ra, rb, m1, v, c1, m2, t2, h1, h2, h3, h4, h5, _⟩ :=
    rejected_iteration_spec fresh hT hI hadm (hc.allCons hT hI) hf
  exact ⟨ra, rb, m1, v, c1, m2, t2, h1, h2, h3, h4, h5⟩

set_option maxRecDepth 100000 in
theorem rejected_iteration_restores_cache_witness :
    ∃ ra rb m1 v c1 m2 t2, prep_endpoints exMem false 0 2 = some (ra, some rb) ∧
      optimize_propose exGlobals exMem (fun _ => 0) 7 6 false 0 2 ra (some rb) exCache
        = some (m1, v, c1) ∧
      optimize_reject exGlobals m1 7 6 false 0 2 ra (some rb) c1 = some (m2, t2) ∧
      (∀ id < exGlobals.n, ∀ i < exGlobals.leafs, ∀ ch < exGlobals.chunks,
        t2 (idx exGlobals id i ch) = exCache (idx exGlobals id i ch)) ∧
      (∀ x < exGlobals.n, (Anc m1 ra x ∨ Anc m1 rb x) → (Anc exMem 0 x ∨ Anc exMem 2 x) ∨
        ∀ i < exGlobals.leafs, ∀ ch < exGlobals.chunks,
          c1 (idx exGlobals (exMem x).id i ch) = exCache (idx exGlobals (exMem x).id i ch)) :=
  rejected_iteration_restores_cache exGlobals exMem 6 false 0 2 exCache (fun _ => 0) 7
    (by decide) (by decide) (by decide) (by decide) (by decide)

/-! ## The minimum that `min_cost` computes -/

theorem least_upto_succ (g : Globals) (s : Nat) (v : Nat → Int) (L : Nat) :
    least_upto g s v (L + 1) =
      if g.unique (L * g.chunks + s) ≠ 0 then
        (match least_upto g s v L with
         | none => some (v L)
         | some a => some (min a (v L)))
      else least_upto g s v L := by
  unfold least_upto
  rw [List.range_succ, List.foldl_append]
  rfl

/-- The value of `least_upto` is attained at a Unique witness and is a lower bound of the
values at the Unique witnesses; it is `none` only when there is no Unique witness. -/
theorem least_upto_spec (g : Globals) (s : Nat) (v : Nat → Int) : ∀ L,
    (least_upto g s v L = none → ∀ j < L, g.unique (j * g.chunks + s) = 0) ∧
    (∀ M, least_upto g s v L = some M →
      (∃ j < L, g.unique (j * g.chunks + s) ≠ 0 ∧ M = v j) ∧
      ∀ j < L, g.unique (j * g.chunks + s) ≠ 0 → M ≤ v j) := by
  intro L
  induction L with
  | zero =>
    refine ⟨fun _ j hj => absurd hj (Nat.not_lt_zero j), fun M h => ?_⟩
    simp [least_upto] at h
  | succ L ih =>
    obtain ⟨ih1, ih2⟩ := ih
    rw [least_upto_succ]
    by_cases hU : g.unique (L * g.chunks + s) ≠ 0
    · rw [if_pos hU]
      cases hprev : least_upto g s v L with
      | none =>
        refine ⟨fun h => by simp at h, fun M h => ?_⟩
        simp only [Option.some.injEq] at h
        subst h
        refine ⟨⟨L, Nat.lt_succ_self L, hU, rfl⟩, fun j hj hUj => ?_⟩
        rcases Nat.lt_succ_iff_lt_or_eq.mp hj with h | h
        · exact absurd (ih1 hprev j h) hUj
        · rw [h]
      | some a =>
        obtain ⟨⟨j0, hj0, hU0, e0⟩, lb⟩ := ih2 a hprev
        refine ⟨fun h => by simp at h, fun M h => ?_⟩
        simp only [Option.some.injEq] at h
        subst h
        refine ⟨?_, fun j hj hUj => ?_⟩
        · by_cases hle : a ≤ v L
          · exact ⟨j0, Nat.lt_succ_of_lt hj0, hU0, by rw [min_eq_left hle, e0]⟩
          · exact ⟨L, Nat.lt_succ_self L, hU, min_eq_right (le_of_not_le hle)⟩
        · rcases Nat.lt_succ_iff_lt_or_eq.mp hj with h | h
          · exact le_trans (min_le_left _ _) (lb j h hUj)
          · rw [h]; exact min_le_right _ _
    · rw [if_neg hU]
      have hU0 : g.unique (L * g.chunks + s) = 0 := not_not.mp hU
      refine ⟨fun h j hj => ?_, fun M h => ?_⟩
      · rcases Nat.lt_succ_iff_lt_or_eq.mp hj with h' | h'
        · exact ih1 h j h'
        · rw [h']; exact hU0
      · obtain ⟨⟨j0, hj0, hU0', e0⟩, lb⟩ := ih2 M h
        refine ⟨⟨j0, Nat.lt_succ_of_lt hj0, hU0', e0⟩, fun j hj hUj => ?_⟩
        rcases Nat.lt_succ_iff_lt_or_eq.mp hj with h' | h'
        · exact lb j h' hUj
        · exact absurd (h' ▸ hU0) hUj

/-- The loop of `min_cost` computes the least candidate when no candidate is negative; its
start value `-1` is what it returns when no witness is Unique. -/
theorem min_cost_fold (g : Globals) (cost : Cache) (base i ch : Nat) : ∀ L,
    (∀ j < L, g.unique (j * g.chunks + ch) ≠ 0 →
      0 ≤ cost (base + (j * g.chunks + ch)) + PairCost g i j ch) →
    (List.range L).foldl (min_cost_step g cost base i ch) (-1) =
      (least_upto g ch (fun j => cost (base + (j * g.chunks + ch)) + PairCost g i j ch)
        L).getD (-1) := by
  intro L
  induction L with
  | zero => intro _; rfl
  | succ L ih =>
    intro hpos
    have ih' := ih (fun j hj => hpos j (Nat.lt_succ_of_lt hj))
    rw [List.range_succ, List.foldl_append, List.foldl_cons, List.foldl_nil, ih',
      least_upto_succ]
    unfold min_cost_step
    by_cases hU : g.unique (L * g.chunks + ch) ≠ 0
    · rw [if_pos hU, if_pos hU]
      cases hprev : least_upto g ch
          (fun j => cost (base + (j * g.chunks + ch)) + PairCost g i j ch) L with
      | none => simp [PairCost]
      | some a =>
        obtain ⟨⟨j0, hj0, hU0, e0⟩, _⟩ := (least_upto_spec g ch _ L).2 a hprev
        have ha : 0 ≤ a := e0 ▸ hpos j0 (Nat.lt_succ_of_lt hj0) hU0
        have ha1 : a ≠ -1 := by omega
        simp only [Option.getD_some, PairCost, ha1, or_false]
        by_cases hlt : cost (base + (L * g.chunks + ch))
            + g.Kyx (i * g.leafs * g.chunks + L * g.chunks + ch) < a
        · rw [if_pos hlt, min_eq_right (le_of_lt hlt)]
        · rw [if_neg hlt, min_eq_left (not_lt.mp hlt)]
    · rw [if_neg hU, if_neg hU]

/-- The three cases of `min_cost`, with the loop replaced by the least candidate. -/
theorem min_cost_eq (g : Globals) (c : Cache) (id i ch : Nat)
    (hpos : ∀ j < g.leafs, g.unique (j * g.chunks + ch) ≠ 0 →
      0 ≤ c (idx g id j ch) + PairCost g i j ch) :
    min_cost g c (id * g.leafs * g.chunks) id i ch =
      if g.unique (i * g.chunks + ch) = 0 then sentinel g
      else if id < g.leafs then PairCost g i id ch
      else (least_upto g ch (fun j => c (idx g id j ch) + PairCost g i j ch)
        g.leafs).getD (-1) := by
  have e : ∀ j, c (id * g.leafs * g.chunks + (j * g.chunks + ch)) = c (idx g id j ch) := by
    intro j; unfold idx; rw [Nat.add_assoc]
  unfold min_cost
  split_ifs with h1 h2
  · rfl
  · rfl
  · rw [min_cost_fold g c (id * g.leafs * g.chunks) i ch g.leafs
      (fun j hj hU => by rw [e j]; exact hpos j hj hU)]
    simp only [e]

/-- With non-negative table entries, `min_cost` is non-negative for every witness
`i < leafs`. -/
theorem min_cost_nonneg (g : Globals) (c : Cache) (id i ch : Nat) (hi : i < g.leafs)
    (hK : ∀ j < g.leafs, 0 ≤ PairCost g i j ch)
    (hrow : ∀ j < g.leafs, 0 ≤ c (idx g id j ch)) :
    0 ≤ min_cost g c (id * g.leafs * g.chunks) id i ch := by
  have hpos : ∀ j < g.leafs, g.unique (j * g.chunks + ch) ≠ 0 →
      0 ≤ c (idx g id j ch) + PairCost g i j ch :=
    fun j hj _ => Int.add_nonneg (hrow j hj) (hK j hj)
  rw [min_cost_eq g c id i ch hpos]
  split_ifs with h1 h2
  · exact Int.ofNat_nonneg _
  · exact hK id h2
  · cases hl : least_upto g ch (fun j => c (idx g id j ch) + PairCost g i j ch) g.leafs with
    | none => exact absurd ((least_upto_spec g ch _ g.leafs).1 hl i hi) h1
    | some M =>
      obtain ⟨⟨j0, hj0, hU0, e0⟩, _⟩ := (least_upto_spec g ch _ g.leafs).2 M hl
      rw [Option.getD_some, e0]
      exact hpos j0 hj0 hU0

/-- With a non-negative table, every row of a consistent cache is non-negative. -/
theorem cons_nonneg {g : Globals} {m : Mem} {root : Nat} (hT : TreeOK g.n m root)
    {ch : Nat} (hK : ∀ i < g.leafs, ∀ j < g.leafs, 0 ≤ PairCost g i j ch) {c : Cache}
    (hc : ∀ x < g.n, Cons g m c ch x) :
    ∀ x < g.n, ∀ i < g.leafs, 0 ≤ c (idx g (m x).id i ch) := by
  apply hT.down_induction
  intro x hx ih i hi
  rw [hc x hx i hi]
  unfold node_val
  cases hl : (m x).left with
  | none =>
    simp only
    split_ifs
    · exact le_refl _
    · exact Int.ofNat_nonneg _
  | some l =>
    cases hr : (m x).right with
    | none =>
      simp only
      split_ifs
      · exact le_refl _
      · exact Int.ofNat_nonneg _
    | some r =>
      obtain ⟨hll, hlu, _⟩ := hT.child_facts hx (Or.inl hl)
      obtain ⟨hrl, hru, _⟩ := hT.child_facts hx (Or.inr hr)
      exact Int.add_nonneg (min_cost_nonneg g c _ i ch hi (hK i hi) (ih l hll hlu))
        (min_cost_nonneg g c _ i ch hi (hK i hi) (ih r hrl hru))

/-! ## The recurrence behind the rows of the full evaluation -/

/-- What `min_cost` returns for a child of a node, in the terms of the recurrence. -/
theorem recurrence_term_eq {g : Globals} {m : Mem} (hL : LeafIds g m) (c : Cache)
    {child i ch : Nat} (hc : child < g.n) (hi : i < g.leafs)
    (hK : ∀ j < g.leafs, 0 ≤ PairCost g i j ch)
    (hrow : ∀ j < g.leafs, 0 ≤ c (idx g (m child).id j ch)) :
    recurrence_term g m c child i ch =
      some (min_cost g c ((m child).id * g.leafs * g.chunks) (m child).id i ch) := by
  have hpos : ∀ j < g.leafs, g.unique (j * g.chunks + ch) ≠ 0 →
      0 ≤ c (idx g (m child).id j ch) + PairCost g i j ch :=
    fun j hj _ => Int.add_nonneg (hrow j hj) (hK j hj)
  rw [min_cost_eq g c _ i ch hpos]
  unfold recurrence_term
  by_cases h1 : g.unique (i * g.chunks + ch) = 0
  · rw [if_pos h1, if_pos h1]
  · rw [if_neg h1, if_neg h1]
    by_cases h2 : (m child).left = none
    · rw [if_pos h2, if_pos ((hL child hc).mp h2)]
    · rw [if_neg h2, if_neg (fun h => h2 ((hL child hc).mpr h))]
      cases hl : least_upto g ch
          (fun j => c (idx g (m child).id j ch) + PairCost g i j ch) g.leafs with
      | none => exact absurd ((least_upto_spec g ch _ g.leafs).1 hl i hi) h1
      | some M => rfl

/-- In a consistent cache every row entry is what the recurrence gives. -/
theorem recurrence_row_eq {g : Globals} {m : Mem} {root : Nat} (hT : TreeOK g.n m root)
    (hL : LeafIds g m) {ch : Nat} (hK : ∀ i < g.leafs, ∀ j < g.leafs, 0 ≤ PairCost g i j ch)
    {c : Cache} (hc : ∀ x < g.n, Cons g m c ch x) {x i : Nat} (hx : x < g.n)
    (hi : i < g.leafs) :
    recurrence_row g m c x i ch = some (c (idx g (m x).id i ch)) := by
  have hpos := cons_nonneg hT hK hc
  rw [hc x hx i hi]
  unfold recurrence_row node_val
  cases hl : (m x).left with
  | none => rfl
  | some l =>
    cases hr : (m x).right with
    | none => rfl
    | some r =>
      obtain ⟨hll, _, _⟩ := hT.child_facts hx (Or.inl hl)
      obtain ⟨hrl, _, _⟩ := hT.child_facts hx (Or.inr hr)
      simp only [recurrence_term_eq hL c hll hi (hK i hi) (hpos l hll),
        recurrence_term_eq hL c hrl hi (hK i hi) (hpos r hrl)]

/-- C3 (as the code has it): on a well-formed tree whose leaves carry the ids below `leafs`,
with non-negative table entries, the full evaluation (`eval_tree` without endpoints, on a
given or a fresh cache) returns, and afterwards in every segment `s` of non-zero weight, for
every node `x` and witness `i`: a leaf row is `0` at `i = x` and the sentinel elsewhere, and
for an internal node `cost[x][i] = t(left, i) + t(right, i)`, where `t(c, i)` is the sentinel
when `i` is not Unique, `PairCost[i][c]` when the child `c` is a leaf, and otherwise the least
of `cost[c][j] + PairCost[i][j]` over the Unique witnesses `j`. The table is read with the
witness of the parent first. -/
theorem full_eval_recurrence (g : Globals) (m : Mem) (root : Nat) (cache : Option Cache)
    (fresh : Cache) (fuel : Nat)
    (hT : TreeOK g.n m root) (hI : IdsOK g.n m) (hL : LeafIds g m)
    (hK : ∀ s < g.chunks, ∀ i < g.leafs, ∀ j < g.leafs, 0 ≤ PairCost g i j s)
    (hf : g.n ≤ fuel) :
    ∃ V cF, eval_tree g m fresh fuel root cache none none = some (V, cF) ∧
      ∀ s < g.chunks, g.bootw s ≠ 0 → ∀ x < g.n, ∀ i < g.leafs,
        recurrence_row g m cF x i s = some (cF (idx g (m x).id i s)) := by
  obtain ⟨V, cF, e0, a0, _, _⟩ := eval_tree_full_spec hT hI fresh hf (cache.getD fresh)
  have e0' : eval_tree g m fresh fuel root cache none none = some (V, cF) := by
    cases cache with
    | none =>
      rw [eval_tree_none_eq_fold]
      rw [eval_tree_eq_fold] at e0
      exact e0
    | some c => exact e0
  exact ⟨V, cF, e0', fun s hs hw x hx i hi =>
    recurrence_row_eq hT hL (hK s hs) (a0 s hs hw) hx hi⟩

set_option maxRecDepth 100000 in
theorem full_eval_recurrence_witness :
    ∃ V cF, eval_tree exGlobals exMem (fun _ => 0) 7 6 none none none = some (V, cF) ∧
      ∀ s < exGlobals.chunks, exGlobals.bootw s ≠ 0 → ∀ x < exGlobals.n,
        ∀ i < exGlobals.leafs,
          recurrence_row exGlobals exMem cF x i s = some (cF (idx exGlobals (exMem x).id i s)) :=
  full_eval_recurrence exGlobals exMem 6 none (fun _ => 0) 7
    (by decide) (by decide) (by decide) (by decide) (by decide)

set_option maxRecDepth 100000 in
/-- C3 as worded fails: on two leaves under a root, every witness Unique, with
`PairCost[0][1] = 1` and `PairCost[1][0] = 5`, the full evaluation stores
`cost[root][0] = PairCost[0][0] + PairCost[0][1] = 1`, whereas the recurrence of the
description, `min_j (cost[c][j] + PairCost[j][0])` for both children, gives `0 + 5 = 5`. And
with a symmetric table (`PairCost[0][1] = PairCost[1][0] = 1`) and witness `1` not Unique, the
evaluation stores `cost[root][0] = 1` again (the term of a leaf child is the table entry
itself), whereas the minimum over the Unique witnesses of the description is the sentinel
`8388607` for the leaf `1`. -/
theorem claimed_row_counterexample :
    TreeOK cxGlobals.n cxMem 2 ∧ IdsOK cxGlobals.n cxMem ∧ LeafIds cxGlobals cxMem ∧
    (∀ s < cxGlobals.chunks, ∀ i < cxGlobals.leafs, ∀ j < cxGlobals.leafs,
      0 ≤ PairCost cxGlobals i j s) ∧
    (eval_tree cxGlobals cxMem (fun _ => 0) 3 2 none none none).map
      (fun r => (r.2 (idx cxGlobals 2 0 0), claimed_row cxGlobals cxMem r.2 2 0 0,
        recurrence_row cxGlobals cxMem r.2 2 0 0)) = some (1, some 5, some 1) ∧
    (eval_tree cxGlobals2 cxMem (fun _ => 0) 3 2 none none none).map
      (fun r => (r.2 (idx cxGlobals2 2 0 0), claimed_row cxGlobals2 cxMem r.2 2 0 0,
        recurrence_row cxGlobals2 cxMem r.2 2 0 0)) = some (1, some 8388607, some 1) := by
  decide

/-! ## Assignments of witnesses and their edge sums -/

theorem row_min_succ (v : Nat → Int) (L : Nat) :
    row_min v (L + 1) = if L = 0 ∨ v L < row_min v L then v L else row_min v L := by
  unfold row_min
  rw [List.range_succ, List.foldl_append]
  rfl

/-- The running minimum of the evaluator is the least value of the row. -/
theorem row_min_spec (v : Nat → Int) : ∀ L, 0 < L →
    (∃ i < L, row_min v L = v i) ∧ ∀ i < L, row_min v L ≤ v i := by
  intro L
  induction L with
  | zero => intro h; exact absurd h (Nat.lt_irrefl 0)
  | succ L ih =>
    intro _
    rw [row_min_succ]
    by_cases h0 : L = 0
    · subst h0
      simp only [true_or, if_true]
      refine ⟨⟨0, Nat.zero_lt_one, rfl⟩, fun i hi => ?_⟩
      have : i = 0 := by omega
      rw [this]
    · obtain ⟨⟨i0, hi0, e0⟩, lb⟩ := ih (Nat.pos_of_ne_zero h0)
      by_cases hlt : v L < row_min v L
      · rw [if_pos (Or.inr hlt)]
        refine ⟨⟨L, Nat.lt_succ_self L, rfl⟩, fun i hi => ?_⟩
        rcases Nat.lt_succ_iff_lt_or_eq.mp hi with h | h
        · exact le_of_lt (lt_of_lt_of_le hlt (lb i h))
        · rw [h]
      · rw [if_neg (fun h => h.elim h0 hlt)]
        refine ⟨⟨i0, Nat.lt_succ_of_lt hi0, e0⟩, fun i hi => ?_⟩
        rcases Nat.lt_succ_iff_lt_or_eq.mp hi with h | h
        · exact lb i h
        · rw [h]; exact not_lt.mp hlt

section below
variable {g : Globals} {m : Mem} {root : Nat}

theorem below_sum_leaf (s : Nat) (α : Nat → Nat) {x : Nat}
    (h : (m x).left = none ∨ (m x).right = none) : below_sum g m s α x = 0 := by
  unfold below_sum
  cases g.n - depth m g.n x with
  | zero => rfl
  | succ f =>
    unfold sub_sum
    rcases h with h | h
    · simp [h]
    · cases hl : (m x).left <;> simp [h]

theorem below_sum_node (hT : TreeOK g.n m root) (s : Nat) (α : Nat → Nat) {x l r : Nat}
    (hx : x < g.n) (hl : (m x).left = some l) (hr : (m x).right = some r) :
    below_sum g m s α x =
      (PairCost g (α x) (α l) s + below_sum g m s α l)
        + (PairCost g (α x) (α r) s + below_sum g m s α r) := by
  obtain ⟨hll, hlu, _⟩ := hT.child_facts hx (Or.inl hl)
  obtain ⟨hrl, hru, _⟩ := hT.child_facts hx (Or.inr hr)
  have dl := hT.depth_up hll hlu
  have dr := hT.depth_up hrl hru
  have al := hT.acyclic l hll
  have e1 : g.n - depth m g.n x = (g.n - depth m g.n l) + 1 := by omega
  have e2 : g.n - depth m g.n r = g.n - depth m g.n l := by omega
  unfold below_sum
  rw [e1, e2]
  conv_lhs => unfold sub_sum
  simp only [hl, hr]

/-- The sum below a node depends on the assignment only through the nodes at or below it. -/
theorem below_sum_congr (hT : TreeOK g.n m root) (s : Nat) (α β : Nat → Nat) :
    ∀ x < g.n, (∀ y < g.n, Anc m y x → α y = β y) →
      below_sum g m s α x = below_sum g m s β x := by
  apply hT.down_induction
  intro x hx ih hag
  by_cases hleaf : (m x).left = none ∨ (m x).right = none
  · rw [below_sum_leaf s α hleaf, below_sum_leaf s β hleaf]
  · push_neg at hleaf
    obtain ⟨l, hl⟩ := Option.ne_none_iff_exists'.mp hleaf.1
    obtain ⟨r, hr⟩ := Option.ne_none_iff_exists'.mp hleaf.2
    obtain ⟨hll, hlu, _⟩ := hT.child_facts hx (Or.inl hl)
    obtain ⟨hrl, hru, _⟩ := hT.child_facts hx (Or.inr hr)
    rw [below_sum_node hT s α hx hl hr, below_sum_node hT s β hx hl hr,
      hag x hx (Anc.refl x), hag l hll (Anc.of_up hlu), hag r hrl (Anc.of_up hru),
      ih l hll hlu (fun y hy hyl => hag y hy (hyl.trans (Anc.of_up hlu))),
      ih r hrl hru (fun y hy hyr => hag y hy (hyr.trans (Anc.of_up hru)))]

/-- A node without children has nothing below it. -/
theorem TreeOK.leaf_only (hT : TreeOK g.n m root) {x : Nat} (hx : x < g.n)
    (hnone : (m x).left = none) : ∀ y < g.n, Anc m y x → y = x := by
  intro y hy hanc
  rcases hanc.through_child with e | ⟨c, hc, hyc⟩
  · exact e
  · rcases hT.up_child c (hyc.lt hT hy) x hc with h | h
    · rw [hnone] at h; cases h
    · rw [(hT.two x hx).mp hnone] at h; cases h

end below

/-! ## The rows of a consistent cache are optimal sums -/

section dp
variable {g : Globals} {m : Mem} {root : Nat}

/-- Some admissible assignment exists as soon as one witness is Unique. -/
theorem validAssign_exists (s w : Nat) (hw : w < g.leafs)
    (hU : g.unique (w * g.chunks + s) ≠ 0) :
    ValidAssign g m s (fun y => if (m y).left = none then (m y).id else w) := by
  intro x _
  by_cases h : (m x).left = none
  · simp [h]
  · simp [h, hw, hU]

/-- The term that `min_cost` contributes for a child `c` under the witness `i` of the parent
is the least cost of the edge to `c` plus the sum below `c`, given that the rows of `c` are
optimal sums. -/
theorem dp_child (hT : TreeOK g.n m root) (hL : LeafIds g m) {s : Nat}
    (hK : ∀ i < g.leafs, ∀ j < g.leafs, 0 ≤ PairCost g i j s)
    {c : Cache} (hc : ∀ x < g.n, Cons g m c s x) {w : Nat} (hw : w < g.leafs)
    (hUw : g.unique (w * g.chunks + s) ≠ 0) {y : Nat} (hy : y < g.n)
    (ih : (m y).left ≠ none → ∀ j < g.leafs, g.unique (j * g.chunks + s) ≠ 0 →
      (∃ α, ValidAssign g m s α ∧ α y = j ∧ below_sum g m s α y = c (idx g (m y).id j s)) ∧
      (∀ α, ValidAssign g m s α → α y = j → c (idx g (m y).id j s) ≤ below_sum g m s α y))
    {i : Nat} (hi : i < g.leafs) (hUi : g.unique (i * g.chunks + s) ≠ 0) :
    (∃ α, ValidAssign g m s α ∧ PairCost g i (α y) s + below_sum g m s α y =
      min_cost g c ((m y).id * g.leafs * g.chunks) (m y).id i s) ∧
    (∀ α, ValidAssign g m s α →
      min_cost g c ((m y).id * g.leafs * g.chunks) (m y).id i s
        ≤ PairCost g i (α y) s + below_sum g m s α y) := by
  have hrow := cons_nonneg hT hK hc y hy
  have hpos : ∀ j < g.leafs, g.unique (j * g.chunks + s) ≠ 0 →
      0 ≤ c (idx g (m y).id j s) + PairCost g i j s :=
    fun j hj _ => Int.add_nonneg (hrow j hj) (hK i hi j hj)
  rw [min_cost_eq g c _ i s hpos, if_neg hUi]
  by_cases hleaf : (m y).left = none
  · rw [if_pos ((hL y hy).mp hleaf)]
    have hval : ∀ α, ValidAssign g m s α → α y = (m y).id := by
      intro α hα
      have := hα y hy
      rwa [if_pos hleaf] at this
    refine ⟨⟨_, validAssign_exists s w hw hUw, ?_⟩, fun α hα => ?_⟩
    · rw [below_sum_leaf s _ (Or.inl hleaf)]
      simp [hleaf]
    · rw [below_sum_leaf s _ (Or.inl hleaf), hval α hα]
      simp
  · rw [if_neg (fun h => hleaf ((hL y hy).mpr h))]
    cases hl : least_upto g s (fun j => c (idx g (m y).id j s) + PairCost g i j s) g.leafs with
    | none => exact absurd ((least_upto_spec g s _ g.leafs).1 hl i hi) hUi
    | some M =>
      obtain ⟨⟨j0, hj0, hU0, e0⟩, lb⟩ := (least_upto_spec g s _ g.leafs).2 M hl
      rw [Option.getD_some]
      refine ⟨?_, fun α hα => ?_⟩
      · obtain ⟨⟨α, hα, hαy, hsum⟩, _⟩ := ih hleaf j0 hj0 hU0
        refine ⟨α, hα, ?_⟩
        rw [hαy, hsum, e0]
        exact Int.add_comm _ _
      · have hv := hα y hy
        rw [if_neg hleaf] at hv
        have h1 := lb (α y) hv.1 hv.2
        have h2 := (ih hleaf (α y) hv.1 hv.2).2 α hα rfl
        simp only at h1
        omega

/-- Every row entry of an internal node at a Unique witness `i` is the least sum of the edge
costs below the node over the admissible assignments that give the node the witness `i`. -/
theorem dp_row (hT : TreeOK g.n m root) (hL : LeafIds g m) {s : Nat}
    (hK : ∀ i < g.leafs, ∀ j < g.leafs, 0 ≤ PairCost g i j s)
    {c : Cache} (hc : ∀ x < g.n, Cons g m c s x) {w : Nat} (hw : w < g.leafs)
    (hUw : g.unique (w * g.chunks + s) ≠ 0) :
    ∀ x < g.n, (m x).left ≠ none → ∀ i < g.leafs, g.unique (i * g.chunks + s) ≠ 0 →
      (∃ α, ValidAssign g m s α ∧ α x = i ∧ below_sum g m s α x = c (idx g (m x).id i s)) ∧
      (∀ α, ValidAssign g m s α → α x = i → c (idx g (m x).id i s) ≤ below_sum g m s α x) := by
  apply hT.down_induction
  intro x hx ih hint i hi hUi
  obtain ⟨l, hl⟩ := Option.ne_none_iff_exists'.mp hint
  have hrn : (m x).right ≠ none := fun h => hint ((hT.two x hx).mpr h)
  obtain ⟨r, hr⟩ := Option.ne_none_iff_exists'.mp hrn
  obtain ⟨hll, hlu, hlx⟩ := hT.child_facts hx (Or.inl hl)
  obtain ⟨hrl, hru, hrx⟩ := hT.child_facts hx (Or.inr hr)
  have hlr : l ≠ r := fun e => hT.lr_ne x hx l hl (e ▸ hr)
  obtain ⟨⟨αl, hαl, el⟩, lbl⟩ := dp_child hT hL hK hc hw hUw hll (ih l hll hlu) hi hUi
  obtain ⟨⟨αr, hαr, er⟩, lbr⟩ := dp_child hT hL hK hc hw hUw hrl (ih r hrl hru) hi hUi
  have hval : c (idx g (m x).id i s) =
      min_cost g c ((m l).id * g.leafs * g.chunks) (m l).id i s
        + min_cost g c ((m r).id * g.leafs * g.chunks) (m r).id i s := by
    rw [hc x hx i hi]
    unfold node_val
    simp only [hl, hr]
  rw [hval]
  refine ⟨?_, fun α hα hαx => ?_⟩
  · classical
    let α : Nat → Nat := fun y => if y = x then i else if Anc m y l then αl y else αr y
    have ax : α x = i := by simp [α]
    have al : ∀ y < g.n, Anc m y l → α y = αl y := by
      intro y hy hyl
      have : y ≠ x := by
        rintro rfl
        exact hT.not_anc_up hll hlu hyl
      simp [α, this, hyl]
    have ar : ∀ y < g.n, Anc m y r → α y = αr y := by
      intro y hy hyr
      have h1 : y ≠ x := by
        rintro rfl
        exact hT.not_anc_up hrl hru hyr
      have h2 : ¬ Anc m y l := fun h => hT.desc_disjoint hll hrl hlu hru hlr h hyr
      simp [α, h1, h2]
    refine ⟨α, ?_, ax, ?_⟩
    · intro y hy
      by_cases h1 : y = x
      · subst h1
        rw [if_neg hint, ax]
        exact ⟨hi, hUi⟩
      · by_cases h2 : Anc m y l
        · have : α y = αl y := by simp [α, h1, h2]
          rw [this]; exact hαl y hy
        · have : α y = αr y := by simp [α, h1, h2]
          rw [this]; exact hαr y hy
    · rw [below_sum_node hT s α hx hl hr, ax, al l hll (Anc.refl l), ar r hrl (Anc.refl r),
        below_sum_congr hT s α αl l hll al, below_sum_congr hT s α αr r hrl ar, el, er]
  · rw [below_sum_node hT s α hx hl hr, hαx]
    exact Int.add_le_add (lbl α hα) (lbr α hα)

/-- The recursive sum below a node is the flat sum of the edge costs of the nodes strictly
below it. -/
theorem below_sum_flat (hT : TreeOK g.n m root) (s : Nat) (α : Nat → Nat)
    [DecidableRel (Anc m)] :
    ∀ x < g.n, below_sum g m s α x =
      ∑ y ∈ Finset.range g.n, if y ≠ x ∧ Anc m y x then edge_cost g m s α y else 0 := by
  apply hT.down_induction
  intro x hx ih
  by_cases hleaf : (m x).left = none ∨ (m x).right = none
  · have hnone : (m x).left = none := by
      rcases hleaf with h | h
      · exact h
      · exact (hT.two x hx).mpr h
    rw [below_sum_leaf s α hleaf]
    symm
    apply Finset.sum_eq_zero
    intro y hy
    rw [if_neg]
    rintro ⟨h1, h2⟩
    exact h1 (hT.leaf_only hx hnone y (Finset.mem_range.mp hy) h2)
  · push_neg at hleaf
    obtain ⟨l, hl⟩ := Option.ne_none_iff_exists'.mp hleaf.1
    obtain ⟨r, hr⟩ := Option.ne_none_iff_exists'.mp hleaf.2
    obtain ⟨hll, hlu, hlx⟩ := hT.child_facts hx (Or.inl hl)
    obtain ⟨hrl, hru, hrx⟩ := hT.child_facts hx (Or.inr hr)
    have hlr : l ≠ r := fun e => hT.lr_ne x hx l hl (e ▸ hr)
    have el : PairCost g (α x) (α l) s = edge_cost g m s α l := by
      unfold edge_cost; rw [hlu]
    have er : PairCost g (α x) (α r) s = edge_cost g m s α r := by
      unfold edge_cost; rw [hru]
    have sl : edge_cost g m s α l =
        ∑ y ∈ Finset.range g.n, if y = l then edge_cost g m s α y else 0 := by
      rw [Finset.sum_ite_eq' (Finset.range g.n) l, if_pos (Finset.mem_range.mpr hll)]
    have sr : edge_cost g m s α r =
        ∑ y ∈ Finset.range g.n, if y = r then edge_cost g m s α y else 0 := by
      rw [Finset.sum_ite_eq' (Finset.range g.n) r, if_pos (Finset.mem_range.mpr hrl)]
    rw [below_sum_node hT s α hx hl hr, ih l hll hlu, ih r hrl hru, el, er, sl, sr,
      ← Finset.sum_add_distrib, ← Finset.sum_add_distrib, ← Finset.sum_add_distrib]
    apply Finset.sum_congr rfl
    intro y hy
    have hyn := Finset.mem_range.mp hy
    have hdis : ¬ (Anc m y l ∧ Anc m y r) := fun h =>
      hT.desc_disjoint hll hrl hlu hru hlr h.1 h.2
    have hll' : Anc m l x := Anc.of_up hlu
    have hrr' : Anc m r x := Anc.of_up hru
    by_cases h1 : Anc m y l
    · have h2 : ¬ Anc m y r := fun h => hdis ⟨h1, h⟩
      have h3 : y ≠ x := by
        rintro rfl
        exact hT.not_anc_up hll hlu h1
      have h4 : y ≠ r := fun e => h2 (by rw [e]; exact Anc.refl r)
      have h5 : Anc m y x := h1.trans hll'
      by_cases h6 : y = l
      · subst h6
        simp [hlr, hlx, hll', h2]
      · simp [h1, h2, h3, h4, h5, h6]
    · by_cases h2 : Anc m y r
      · have h3 : y ≠ x := by
          rintro rfl
          exact hT.not_anc_up hrl hru h2
        have h4 : y ≠ l := fun e => h1 (by rw [e]; exact Anc.refl l)
        have h5 : Anc m y x := h2.trans hrr'
        by_cases h6 : y = r
        · subst h6
          simp [Ne.symm hlr, hrx, hrr', h1]
        · simp [h1, h2, h3, h4, h5, h6]
      · have h4 : y ≠ l := fun e => h1 (by rw [e]; exact Anc.refl l)
        have h5 : y ≠ r := fun e => h2 (by rw [e]; exact Anc.refl r)
        have h6 : ¬ (y ≠ x ∧ Anc m y x) := by
          rintro ⟨hne, hanc⟩
          rcases hanc.through_child with e | ⟨c, hc, hyc⟩
          · exact hne e
          · rcases hT.child_cases (hyc.lt hT hyn) hc hl hr with rfl | rfl
            · exact h1 hyc
            · exact h2 hyc
        simp [h1, h2, h4, h5, h6]

/-- The sum below the root is the sum over all edges. -/
theorem below_sum_root (hT : TreeOK g.n m root) (s : Nat) (α : Nat → Nat) :
    below_sum g m s α root = edge_sum g m s α := by
  classical
  rw [below_sum_flat hT s α root hT.root_lt]
  unfold edge_sum
  apply Finset.sum_congr rfl
  intro y hy
  have hyn := Finset.mem_range.mp hy
  by_cases h : y = root
  · subst h
    simp [edge_cost, hT.root_up]
  · simp [h, hT.anc_root y hyn]

end dp

/-! ## The value at the root is the least edge sum -/

/-- Under an admissible assignment every node carries a witness below `leafs`. -/
theorem validAssign_lt {g : Globals} {m : Mem} {s : Nat} {α : Nat → Nat}
    (hα : ValidAssign g m s α) (hL : LeafIds g m) {x : Nat} (hx : x < g.n) :
    α x < g.leafs := by
  have h := hα x hx
  by_cases hleaf : (m x).left = none
  · rw [if_pos hleaf] at h
    rw [h]
    exact (hL x hx).mp hleaf
  · rw [if_neg hleaf] at h
    exact h.1

/-- A bound on the table entries bounds every edge sum. -/
theorem edge_sum_le {g : Globals} {m : Mem} {root : Nat} (hT : TreeOK g.n m root)
    (hL : LeafIds g m) {s : Nat} {α : Nat → Nat}
    (hα : ValidAssign g m s α) {B : Int} (hB0 : 0 ≤ B)
    (hB : ∀ i < g.leafs, ∀ j < g.leafs, PairCost g i j s ≤ B) :
    edge_sum g m s α ≤ g.n * B := by
  unfold edge_sum
  have h : ∀ x ∈ Finset.range g.n, edge_cost g m s α x ≤ B := by
    intro x hx
    have hxn := Finset.mem_range.mp hx
    unfold edge_cost
    cases hup : (m x).up with
    | none => exact hB0
    | some p => exact hB _ (validAssign_lt hα hL (hT.up_lt x hxn p hup)) _ (validAssign_lt hα hL hxn)
  calc ∑ x ∈ Finset.range g.n, edge_cost g m s α x
      ≤ ∑ _x ∈ Finset.range g.n, B := Finset.sum_le_sum h
    _ = g.n * B := by rw [Finset.sum_const, Finset.card_range, nsmul_eq_mul]

/-- C2: on a well-formed tree whose leaves carry the ids below `leafs`, in a segment `s` with
at least one Unique witness, with non-negative table entries and every admissible edge sum
below the sentinel `RAND_MAX/256`: `eval_subtree` at the root returns, and the value it returns
is the minimum, over the assignments of Unique witnesses to the internal nodes (each leaf
carrying its own id), of the sum over all parent-child edges of
`Kyx[assign(parent)][assign(child)][s]`: some admissible assignment attains it and none goes
below it. -/
theorem eval_subtree_is_minimum (g : Globals) (m : Mem) (root : Nat) (c : Cache)
    (fuel s : Nat)
    (hT : TreeOK g.n m root) (hI : IdsOK g.n m) (hL : LeafIds g m) (hs : s < g.chunks)
    (hU : ∃ w < g.leafs, g.unique (w * g.chunks + s) ≠ 0)
    (hK : ∀ i < g.leafs, ∀ j < g.leafs, 0 ≤ PairCost g i j s)
    (hB : ∀ α, ValidAssign g m s α → edge_sum g m s α < sentinel g)
    (hf : g.n ≤ fuel) :
    ∃ v c', eval_subtree g m fuel c root s = some (v, c') ∧
      (∃ α, ValidAssign g m s α ∧ edge_sum g m s α = v) ∧
      ∀ α, ValidAssign g m s α → v ≤ edge_sum g m s α := by
  obtain ⟨v, c', e, hv, hcons, _⟩ :=
    eval_subtree_spec hT hI hs fuel root c hT.root_lt (by omega)
  have hc : ∀ x < g.n, Cons g m c' s x := fun x hx => hcons x hx (hT.anc_root x hx)
  obtain ⟨w, hw, hUw⟩ := hU
  refine ⟨v, c', e, ?_⟩
  by_cases hleaf : (m root).left = none
  · have hv0 : v = 0 := by
      rw [hv]; unfold node_min; simp [hleaf]
    have hz : ∀ α, edge_sum g m s α = 0 := fun α => by
      rw [← below_sum_root hT s α, below_sum_leaf s α (Or.inl hleaf)]
    exact ⟨⟨_, validAssign_exists s w hw hUw, by rw [hz, hv0]⟩, fun α _ => by rw [hz, hv0]⟩
  · obtain ⟨l, hl⟩ := Option.ne_none_iff_exists'.mp hleaf
    have hrn : (m root).right ≠ none := fun h => hleaf ((hT.two root hT.root_lt).mpr h)
    obtain ⟨r, hr⟩ := Option.ne_none_iff_exists'.mp hrn
    have hvm : v = row_min (fun i => node_val g m c' root s i) g.leafs := by
      rw [hv]; unfold node_min; simp only [hl, hr]
    obtain ⟨⟨i0, hi0, e0⟩, lb⟩ :=
      row_min_spec (fun i => node_val g m c' root s i) g.leafs (Nat.lt_of_le_of_lt (Nat.zero_le w) hw)
    have hrow : ∀ i < g.leafs, node_val g m c' root s i = c' (idx g (m root).id i s) :=
      fun i hi => (hc root hT.root_lt i hi).symm
    have hdp := dp_row hT hL hK hc hw hUw root hT.root_lt hleaf
    have hlow : ∀ α, ValidAssign g m s α → v ≤ edge_sum g m s α := by
      intro α hα
      have hr := hα root hT.root_lt
      rw [if_neg hleaf] at hr
      have h1 := lb (α root) hr.1
      have h2 := (hdp (α root) hr.1 hr.2).2 α hα rfl
      rw [below_sum_root hT s α] at h2
      simp only at h1
      rw [hrow (α root) hr.1] at h1
      rw [hvm]
      exact le_trans h1 h2
    refine ⟨?_, hlow⟩
    by_cases hU0 : g.unique (i0 * g.chunks + s) = 0
    · exfalso
      have h2s : v = sentinel g + sentinel g := by
        rw [hvm, e0]
        unfold node_val
        simp only [hl, hr]
        unfold min_cost
        simp [hU0]
      have hα := validAssign_exists (m := m) s w hw hUw
      have h1 := hlow _ hα
      have h2 := hB _ hα
      have h3 : 0 ≤ sentinel g := Int.ofNat_nonneg _
      omega
    · obtain ⟨⟨α, hα, _, hsum⟩, _⟩ := hdp i0 hi0 hU0
      refine ⟨α, hα, ?_⟩
      rw [← below_sum_root hT s α, hsum, hvm, e0]
      exact (hrow i0 hi0).symm

set_option maxRecDepth 100000 in
theorem eval_subtree_is_minimum_witness :
    ∃ v c', eval_subtree exGlobals exMem 7 (fun _ => 0) 6 0 = some (v, c') ∧
      (∃ α, ValidAssign exGlobals exMem 0 α ∧ edge_sum exGlobals exMem 0 α = v) ∧
      ∀ α, ValidAssign exGlobals exMem 0 α → v ≤ edge_sum exGlobals exMem 0 α :=
  eval_subtree_is_minimum exGlobals exMem 6 (fun _ => 0) 7 0
    (by decide) (by decide) (by decide) (by decide) ⟨0, by decide, by decide⟩ (by decide)
    (fun _ hα => lt_of_le_of_lt
      (edge_sum_le (B := 10) (by decide : TreeOK exGlobals.n exMem 6) (by decide)
        hα (by decide) (by decide))
      (by decide))
    (by decide)

/-! ## The stopper is the lowest common ancestor -/

section lca
variable {n : Nat} {m : Mem} {root : Nat}

/-- A node at positive depth has a parent, one level up. -/
theorem TreeOK.parent_of_depth (hT : TreeOK n m root) {p k : Nat} (hp : p < n)
    (hd : depth m n p = k + 1) : ∃ q, (m p).up = some q ∧ q < n ∧ depth m n q = k := by
  cases hup : (m p).up with
  | none =>
    have := hT.depth_root hup
    omega
  | some q =>
    have := hT.depth_up hp hup
    exact ⟨q, rfl, hT.up_lt p hp q hup, by omega⟩

/-- With the root as first argument, `level` is the depth of the node. -/
theorem level_eq_depth (hT : TreeOK n m root) :
    ∀ p < n, ∀ fuel, depth m n p < fuel → level m root fuel (some p) = some (depth m n p) := by
  apply hT.up_induction
  intro p hp ih fuel hf
  obtain ⟨fuel, rfl⟩ : ∃ f', fuel = f' + 1 := ⟨fuel - 1, by omega⟩
  rw [level]
  by_cases hr : p = root
  · rw [if_pos hr, hr, hT.depth_root hT.root_up]
  · rw [if_neg hr]
    cases hup : (m p).up with
    | none => exact absurd (hT.one_root p hp hup) hr
    | some q =>
      have hd := hT.depth_up hp hup
      rw [ih q hup fuel (by omega), hd]
      rfl

/-- The loop that lifts the deeper endpoint stops at the ancestor on the level of the other
one. -/
theorem raise_spec (hT : TreeOK n m root) : ∀ (leva levb p : Nat), p < n →
    depth m n p = leva →
    ∃ q, raise m leva levb (some p) = (min leva levb, some q) ∧ q < n ∧ Anc m p q ∧
      depth m n q = min leva levb := by
  intro leva
  induction leva with
  | zero =>
    intro levb p hp hd
    refine ⟨p, ?_, hp, Anc.refl p, ?_⟩
    · rw [Nat.zero_min]; rfl
    · rw [Nat.zero_min]; exact hd
  | succ k ih =>
    intro levb p hp hd
    rw [raise]
    by_cases hgt : k + 1 > levb
    · rw [if_pos hgt]
      obtain ⟨q, hq, hqn, hqd⟩ := hT.parent_of_depth hp hd
      obtain ⟨q', e, hq'n, hanc, hd'⟩ := ih levb q hqn hqd
      have hmin : min (k + 1) levb = min k levb := by omega
      rw [hq, hmin]
      exact ⟨q', e, hq'n, Anc.step hq hanc, hd'⟩
    · rw [if_neg hgt]
      have hmin : min (k + 1) levb = k + 1 := by omega
      rw [hmin]
      exact ⟨p, rfl, hp, Anc.refl p, hd⟩

/-- Two nodes on the same level, walked up in lockstep, meet at their lowest common
ancestor. -/
theorem lockstep_lca (hT : TreeOK n m root) : ∀ (fuel a b : Nat), a < n → b < n →
    depth m n a = depth m n b → depth m n a < fuel →
    ∃ s, lockstep m fuel (some a) (some b) = some (some s, some s) ∧ Anc m a s ∧ Anc m b s ∧
      ∀ z, Anc m a z → Anc m b z → Anc m s z := by
  intro fuel
  induction fuel with
  | zero => intro a b _ _ _ h; exact absurd h (Nat.not_lt_zero _)
  | succ fuel ih =>
    intro a b ha hb hd hf
    rw [lockstep]
    by_cases hab : a = b
    · rw [if_pos hab]
      subst hab
      exact ⟨a, rfl, Anc.refl a, Anc.refl a, fun z hz _ => hz⟩
    · rw [if_neg hab]
      have hpos : 0 < depth m n a := by
        rcases Nat.eq_zero_or_pos (depth m n a) with h0 | h0
        · exfalso
          have ua : (m a).up = none := by
            cases hup : (m a).up with
            | none => rfl
            | some q => have := hT.depth_up ha hup; omega
          have ub : (m b).up = none := by
            cases hup : (m b).up with
            | none => rfl
            | some q => have := hT.depth_up hb hup; omega
          exact hab ((hT.one_root a ha ua).trans (hT.one_root b hb ub).symm)
        · exact h0
      obtain ⟨k, hk⟩ : ∃ k, depth m n a = k + 1 := ⟨depth m n a - 1, by omega⟩
      obtain ⟨a', ha', ha'n, ha'd⟩ := hT.parent_of_depth ha hk
      obtain ⟨b', hb', hb'n, hb'd⟩ := hT.parent_of_depth hb (hd ▸ hk)
      obtain ⟨s, e, s1, s2, s3⟩ := ih a' b' ha'n hb'n (by omega) (by omega)
      refine ⟨s, ?_, Anc.step ha' s1, Anc.step hb' s2, fun z hza hzb => ?_⟩
      · simp only [ha', hb']
        exact e
      · have hza' : Anc m a' z := by
          rcases hza.cases_up with e' | ⟨p, hp, hpz⟩
          · exfalso
            subst e'
            exact hab (hzb.eq_of_depth hT hb (by omega)).symm
          · rw [ha'] at hp; cases hp; exact hpz
        have hzb' : Anc m b' z := by
          rcases hzb.cases_up with e' | ⟨p, hp, hpz⟩
          · exfalso
            subst e'
            exact hab (hza.eq_of_depth hT ha (by omega))
          · rw [hb'] at hp; cases hp; exact hpz
        exact s3 z hza' hzb'

/-- A common ancestor of `x` lies above every node of the chain of `x` that is at least as
deep. -/
theorem Anc.above_of_depth (hT : TreeOK n m root) {x q z : Nat} (hx : x < n)
    (hq : Anc m x q) (hz : Anc m x z) (hd : depth m n z ≤ depth m n q) : Anc m q z := by
  rcases hq.linear hz with h | h
  · exact h
  · have := h.eq_of_depth hT (hz.lt hT hx) hd
    subst this
    exact Anc.refl _

end lca

/-- C19: on a well-formed tree and for every two nodes `ra`, `rb` of it, the stopper that
`eval_tree` computes (levels equalised, then both pointers walked up in lockstep) is present
and is the lowest common ancestor of `ra` and `rb`: it is an ancestor-or-self of both, and
every node that is an ancestor-or-self of both is an ancestor-or-self of the stopper, and so
is not deeper than it. -/
theorem stopper_is_lca (n : Nat) (m : Mem) (root ra rb fuel : Nat)
    (hT : TreeOK n m root) (ha : ra < n) (hb : rb < n) (hf : n ≤ fuel) :
    ∃ s, find_stopper m root fuel (some ra) (some rb) = some (some s) ∧
      Anc m ra s ∧ Anc m rb s ∧
      ∀ z, Anc m ra z → Anc m rb z → Anc m s z ∧ depth m n z ≤ depth m n s := by
  have da := hT.acyclic ra ha
  have db := hT.acyclic rb hb
  have la := level_eq_depth hT ra ha fuel (by omega)
  have lb := level_eq_depth hT rb hb fuel (by omega)
  obtain ⟨a1, ea, ha1, anc_a, da1⟩ :=
    raise_spec hT (depth m n ra) (depth m n rb) ra ha rfl
  obtain ⟨b1, eb, hb1, anc_b, db1⟩ :=
    raise_spec hT (depth m n rb) (min (depth m n ra) (depth m n rb)) rb hb rfl
  have hmin : min (depth m n rb) (min (depth m n ra) (depth m n rb))
      = min (depth m n ra) (depth m n rb) := by omega
  rw [hmin] at eb db1
  obtain ⟨s, es, s1, s2, s3⟩ := lockstep_lca hT fuel a1 b1 ha1 hb1 (by omega) (by omega)
  refine ⟨s, ?_, anc_a.trans s1, anc_b.trans s2, fun z hza hzb => ?_⟩
  · unfold find_stopper
    simp only [la, lb, ea, eb, es, if_true]
  · have dza := hza.depth_le hT ha
    have dzb := hzb.depth_le hT hb
    have h1 : Anc m a1 z := Anc.above_of_depth hT ha anc_a hza (by omega)
    have h2 : Anc m b1 z := Anc.above_of_depth hT hb anc_b hzb (by omega)
    have h3 := s3 z h1 h2
    exact ⟨h3, h3.depth_le hT ((anc_a.trans s1).lt hT ha)⟩

theorem stopper_is_lca_witness :
    ∃ s, find_stopper exMem 6 7 (some 0) (some 2) = some (some s) ∧
      Anc exMem 0 s ∧ Anc exMem 2 s ∧
      ∀ z, Anc exMem 0 z → Anc exMem 2 z → Anc exMem s z ∧ depth exMem 7 z ≤ depth exMem 7 s :=
  stopper_is_lca 7 exMem 6 0 2 7 (by decide) (by decide) (by decide) (by decide)

/-! ## The total that the full evaluation returns -/

theorem row_min_congr {v v' : Nat → Int} {L : Nat} (h : ∀ i < L, v i = v' i) :
    row_min v L = row_min v' L := by
  unfold row_min
  apply List.foldl_ext
  intro mv i hi
  rw [h i (List.mem_range.mp hi)]

/-- The total that a cache stands for, as a sum over the segments. -/
theorem total_upto_eq_sum (g : Globals) (m : Mem) (c : Cache) (root : Nat) : ∀ j,
    total_upto g m c root j = ∑ s ∈ Finset.range j, g.bootw s * node_min g m c root s := by
  intro j
  induction j with
  | zero => rfl
  | succ j ih =>
    rw [total_upto_succ, Finset.sum_range_succ, ih]
    by_cases hw : g.bootw j ≠ 0
    · rw [if_pos hw]
    · rw [if_neg hw, not_not.mp hw, zero_mul, add_zero]

/-- In a segment where the row of the root is consistent, the minimum that the evaluator
returns at the root is the running minimum of the stored row. -/
theorem node_min_eq_row_min {g : Globals} {m : Mem} {root : Nat} (hT : TreeOK g.n m root)
    (hL : LeafIds g m) (hleafs : 0 < g.leafs) {c : Cache} {s : Nat}
    (hc : Cons g m c s root) :
    node_min g m c root s = row_min (fun i => c (idx g (m root).id i s)) g.leafs := by
  rw [row_min_congr (fun i hi => hc i hi)]
  unfold node_min
  cases hl : (m root).left with
  | none =>
    simp only
    have hid : (m root).id < g.leafs := (hL root hT.root_lt).mp hl
    have hv : ∀ i, node_val g m c root s i = if i = (m root).id then 0 else sentinel g := by
      intro i; unfold node_val; simp only [hl]
    have hfun : node_val g m c root s
        = fun i => if i = (m root).id then (0 : Int) else sentinel g := funext hv
    rw [hfun]
    obtain ⟨⟨i0, _, e0⟩, lb⟩ :=
      row_min_spec (fun i => if i = (m root).id then (0 : Int) else sentinel g) g.leafs hleafs
    have h1 := lb (m root).id hid
    simp only [if_true] at h1
    have h2 : 0 ≤ row_min (fun i => if i = (m root).id then (0 : Int) else sentinel g)
        g.leafs := by
      rw [e0]
      split_ifs
      · exact le_refl _
      · exact Int.ofNat_nonneg _
    omega
  | some l =>
    cases hr : (m root).right with
    | none =>
      exact absurd ((hT.two root hT.root_lt).mpr hr) (by rw [hl]; exact Option.some_ne_none l)
    | some r => rfl

/-- C13: on a well-formed tree (leaves carrying the ids below `leafs`, at least one witness),
`eval_tree` without endpoints, or with an unallocated cache whatever the endpoints, returns
the sum over all segments `s` of `bootw[s]` times the least entry of the row `cost[root][.][s]`
over all witnesses; a segment of weight zero adds nothing, and none of its cache entries, live
or snapshot, is written. -/
theorem eval_tree_weighted_sum (g : Globals) (m : Mem) (root : Nat) (cache : Option Cache)
    (fresh : Cache) (fuel : Nat) (ra rb : Option Nat)
    (hT : TreeOK g.n m root) (hI : IdsOK g.n m) (hL : LeafIds g m) (hleafs : 0 < g.leafs)
    (hf : g.n ≤ fuel) (hmode : (ra = none ∧ rb = none) ∨ cache = none) :
    ∃ V cF, eval_tree g m fresh fuel root cache ra rb = some (V, cF) ∧
      V = ∑ s ∈ Finset.range g.chunks,
        g.bootw s * row_min (fun i => cF (idx g (m root).id i s)) g.leafs ∧
      (∀ s < g.chunks,
        (∃ i < g.leafs, row_min (fun i => cF (idx g (m root).id i s)) g.leafs
          = cF (idx g (m root).id i s)) ∧
        ∀ i < g.leafs, row_min (fun i => cF (idx g (m root).id i s)) g.leafs
          ≤ cF (idx g (m root).id i s)) ∧
      (∀ s < g.chunks, g.bootw s = 0 → ∀ id, ∀ i < g.leafs,
        cF (idx g id i s) = (cache.getD fresh) (idx g id i s)) := by
  obtain ⟨V, cF, e0, a0, hV, fr⟩ := eval_tree_full_spec hT hI fresh hf (cache.getD fresh)
  have e0' : eval_tree g m fresh fuel root cache ra rb = some (V, cF) := by
    cases cache with
    | none =>
      rw [eval_tree_none_eq_fold]
      rw [eval_tree_eq_fold] at e0
      exact e0
    | some c =>
      rcases hmode with ⟨h1, h2⟩ | h
      · rw [h1, h2]; exact e0
      · cases h
  refine ⟨V, cF, e0', ?_, fun s _ => row_min_spec _ g.leafs hleafs, ?_⟩
  · rw [hV]
    unfold total
    rw [total_upto_eq_sum]
    apply Finset.sum_congr rfl
    intro s hs
    by_cases hw : g.bootw s = 0
    · rw [hw, zero_mul, zero_mul]
    · rw [node_min_eq_row_min hT hL hleafs
        (a0 s (Finset.mem_range.mp hs) hw root hT.root_lt)]
  · intro s hs hw id i hi
    exact fr _ (fun x _ ch hch hw1 i1 hi1 => idx_zero_ne g hi hs hw hi1 hch hw1)

set_option maxRecDepth 100000 in
theorem eval_tree_weighted_sum_witness :
    ∃ V cF, eval_tree exGlobals exMem (fun _ => 0) 7 6 none (some 0) (some 2) = some (V, cF) ∧
      V = ∑ s ∈ Finset.range exGlobals.chunks,
        exGlobals.bootw s * row_min (fun i => cF (idx exGlobals (exMem 6).id i s))
          exGlobals.leafs ∧
      (∀ s < exGlobals.chunks,
        (∃ i < exGlobals.leafs,
          row_min (fun i => cF (idx exGlobals (exMem 6).id i s)) exGlobals.leafs
            = cF (idx exGlobals (exMem 6).id i s)) ∧
        ∀ i < exGlobals.leafs,
          row_min (fun i => cF (idx exGlobals (exMem 6).id i s)) exGlobals.leafs
            ≤ cF (idx exGlobals (exMem 6).id i s)) ∧
      (∀ s < exGlobals.chunks, exGlobals.bootw s = 0 → ∀ id, ∀ i < exGlobals.leafs,
        cF (idx exGlobals id i s) = ((none : Option Cache).getD (fun _ => 0))
          (idx exGlobals id i s)) :=
  eval_tree_weighted_sum exGlobals exMem 6 none (fun _ => 0) 7 (some 0) (some 2)
    (by decide) (by decide) (by decide) (by decide) (by decide) (Or.inr rfl)

/-! ## The pair that `prep_mutate_tree` returns -/

/-- C15 (evaluation at the failing input): with `n = 7` nodes and first draw `u = 0`, the two
second draws `v = 0` and `v = 1` select the same pair `(0, 1)`, and no second draw
`v` in `[0, 6)` selects the pair `(0, 6)`: the map from the draws to the pairs is neither
injective nor onto the pairs of distinct ids. -/
theorem select_pair_not_bijective :
    select_pair 0 0 = (0, 1) ∧ select_pair 0 1 = (0, 1) ∧
    ∀ v : Int, 0 ≤ v → v < 6 → select_pair 0 v ≠ (0, 6) := by
  refine ⟨rfl, rfl, ?_⟩
  intro v h0 h6 h
  unfold select_pair at h
  simp only [Prod.mk.injEq, true_and] at h
  split_ifs at h <;> omega

/-- A pair on which the loop of `prep_mutate_tree` ends is admitted by the acceptance test. -/
theorem prep_loop_admitted {m : Mem} {array : Nat → Option Nat} {n : Nat} {alt : Bool}
    {draws : Nat → Int} (hA : ∀ i < n, ∀ p, array i = some p → p < n) :
    ∀ (fuel k : Nat) {a b k1 : Nat},
      prep_loop m array n alt draws fuel k = some (a, b, k1) → Admitted n m alt a b := by
  intro fuel
  induction fuel with
  | zero => intro k a b k1 h; simp [prep_loop] at h
  | succ fuel ih =>
    intro k a b k1 h
    rw [prep_loop] at h
    cases hp : prep_pass m array n alt (draws k) (draws (k + 1)) with
    | none => rw [hp] at h; cases h
    | some r =>
      rw [hp] at h
      cases r with
      | none => exact ih (k + 2) h
      | some ab =>
        obtain ⟨a', b'⟩ := ab
        simp only [Option.some.injEq, Prod.mk.injEq] at h
        obtain ⟨rfl, rfl, _⟩ := h
        unfold prep_pass at hp
        simp only at hp
        by_cases hr : (select_pair (draws k) (draws (k + 1))).1 < 0 ∨
            (select_pair (draws k) (draws (k + 1))).1 ≥ n ∨
            (select_pair (draws k) (draws (k + 1))).2 < 0 ∨
            (select_pair (draws k) (draws (k + 1))).2 ≥ n
        · rw [if_pos hr] at hp
          simp at hp
        rw [if_neg hr] at hp
        simp only [not_or, not_lt, ge_iff_le, not_le] at hr
        have h1 := hr.1
        have h2 := hr.2.1
        have h3 := hr.2.2.1
        have h4 := hr.2.2.2
        cases ha : array (select_pair (draws k) (draws (k + 1))).1.toNat with
        | none => simp [ha] at hp
        | some a0 =>
          cases hb : array (select_pair (draws k) (draws (k + 1))).2.toNat with
          | none => simp [ha, hb] at hp
          | some b0 =>
            simp only [ha, hb] at hp
            cases hf : prep_filter m n alt a0 b0 with
            | none => simp [hf] at hp
            | some t =>
              cases t with
              | false => simp [hf] at hp
              | true =>
                simp only [hf, Option.some.injEq, Prod.mk.injEq] at hp
                obtain ⟨rfl, rfl⟩ := hp
                exact ⟨hA _ (by omega) _ ha, hA _ (by omega) _ hb, hf⟩

/-- C16: on a well-formed tree whose lookup array holds nodes of the tree, every pair
`(a, b)` that `prep_mutate_tree` returns consists of two different nodes of the tree, neither
of them the root, neither an ancestor of the other, with different parents, and on a regraft
iteration (`alternate` clear after the toggle) with parents that are not the root; the scoring
endpoints are `ra = a`, `rb = b` on a swap iteration and `ra = a`, `rb` the sibling of `a` on a
regraft iteration. -/
theorem prep_mutate_tree_pair (n : Nat) (m : Mem) (root : Nat) (array : Nat → Option Nat)
    (alternate : Bool) (draws : Nat → Int) (fuel k : Nat) (alt : Bool) (a b ra : Nat)
    (rb : Option Nat) (k1 : Nat)
    (hT : TreeOK n m root) (hA : ∀ i < n, ∀ p, array i = some p → p < n)
    (h : prep_mutate_tree m array n alternate draws fuel k = some ⟨alt, a, b, ra, rb, k1⟩) :
    alt = (!alternate) ∧ a < n ∧ b < n ∧ a ≠ b ∧ a ≠ root ∧ b ≠ root ∧
      ¬ Anc m a b ∧ ¬ Anc m b a ∧ (m a).up ≠ (m b).up ∧
      (alt = false → ∀ p, ((m a).up = some p ∨ (m b).up = some p) → p ≠ root) ∧
      ra = a ∧ (alt = true → rb = some b) ∧
      (alt = false → ∃ P s, (m a).up = some P ∧ rb = some s ∧ s ≠ a ∧ (m s).up = some P ∧
        (((m P).left = some a ∧ (m P).right = some s) ∨
         ((m P).left = some s ∧ (m P).right = some a))) := by
  unfold prep_mutate_tree at h
  cases hl : prep_loop m array n (!alternate) draws fuel k with
  | none => simp [hl] at h
  | some r =>
    obtain ⟨a', b', k'⟩ := r
    simp only [hl] at h
    cases he : prep_endpoints m (!alternate) a' b' with
    | none => simp [he] at h
    | some e =>
      obtain ⟨ra', rb'⟩ := e
      simp only [he, Option.some.injEq, PrepResult.mk.injEq] at h
      obtain ⟨rfl, rfl, rfl, rfl, rfl, rfl⟩ := h
      have hadm := prep_loop_admitted hA fuel k hl
      obtain ⟨pa, pb, hp⟩ := hadm.pair
      have hroot : ∀ x, (m x).up ≠ none → x ≠ root := by
        rintro x hx rfl
        exact hx hT.root_up
      refine ⟨rfl, hadm.1, hadm.2.1, hp.ne, hroot a' (by rw [hp.up_a]; simp),
        hroot b' (by rw [hp.up_b]; simp), hp.not_anc_ab, hp.not_anc_ba, ?_, ?_, ?_, ?_, ?_⟩
      · rw [hp.up_a, hp.up_b]
        exact fun e => hp.up_ne (Option.some.inj e)
      · intro halt p hpp
        have hg := hp.grand halt
        rcases hpp with e | e
        · rw [hp.up_a] at e
          rw [← Option.some.inj e]
          exact hroot pa hg.1
        · rw [hp.up_b] at e
          rw [← Option.some.inj e]
          exact hroot pb hg.2
      · cases halt : (!alternate)
        · rw [halt] at he hp
          obtain ⟨s, G, hr⟩ := hp.regraft hT hadm.1 hadm.2.1
          unfold prep_endpoints at he
          simp [hr.up_a, hr.toRegraftPre.sibling] at he
          exact he.1.symm
        · rw [halt] at he
          simp [prep_endpoints] at he
          exact he.1.symm
      · intro halt
        rw [halt] at he
        simp [prep_endpoints] at he
        exact he.2.symm
      · intro halt
        rw [halt] at he hp
        obtain ⟨s, G, hr⟩ := hp.regraft hT hadm.1 hadm.2.1
        unfold prep_endpoints at he
        simp [hr.up_a, hr.toRegraftPre.sibling] at he
        exact ⟨pa, s, hr.up_a, he.2.symm, Ne.symm hr.a_s, hr.up_s, hr.sib⟩

theorem prep_mutate_tree_pair_witness :
    (!true) = (!true) ∧ 0 < 7 ∧ 2 < 7 ∧ 0 ≠ 2 ∧ 0 ≠ 6 ∧ 2 ≠ 6 ∧
      ¬ Anc exMem 0 2 ∧ ¬ Anc exMem 2 0 ∧ (exMem 0).up ≠ (exMem 2).up ∧
      ((!true) = false → ∀ p, ((exMem 0).up = some p ∨ (exMem 2).up = some p) → p ≠ 6) ∧
      0 = 0 ∧ ((!true) = true → some 1 = some 2) ∧
      ((!true) = false → ∃ P s, (exMem 0).up = some P ∧ some 1 = some s ∧ s ≠ 0 ∧
        (exMem s).up = some P ∧
        (((exMem P).left = some 0 ∧ (exMem P).right = some s) ∨
         ((exMem P).left = some s ∧ (exMem P).right = some 0))) :=
  prep_mutate_tree_pair 7 exMem 6 exArray true (fun k => if k = 2 then 0 else 2) 5 0
    (!true) 0 2 0 (some 1) 4 (by decide) (by decide) (by decide)

/-! ## The weights of a run with one replicate -/

/-- When the file-scope `strap` is `1`, `init_bootstrap` gives every segment the weight `1`
and uses no draw. -/
theorem init_bootstrap_sequential (chunks : Nat) (draws : Nat → Int) (fuel k : Nat) :
    ∃ w, init_bootstrap chunks 1 draws fuel k = some (w, k) ∧ ∀ ch < chunks, w ch = 1 := by
  have key := foldl_range_inv
    (fun j (s : Option ((Nat → Int) × Nat)) =>
      ∃ w, s = some (w, k) ∧ (∀ ch < j, w ch = 1) ∧ ∀ ch, j ≤ ch → w ch = 0)
    (bootstrap_step chunks 1 draws fuel) (some (fun _ => 0, k)) chunks
    ⟨fun _ => 0, rfl, fun ch h => absurd h (Nat.not_lt_zero ch), fun _ _ => rfl⟩
    (by
      rintro j _ s ⟨w, rfl, h1, h2⟩
      refine ⟨Function.update w j (w j + 1), by simp [bootstrap_step], ?_, ?_⟩
      · intro ch hch
        by_cases e : ch = j
        · subst e; simp [h2 ch (Nat.le_refl ch)]
        · rw [Function.update_noteq e]; exact h1 ch (by omega)
      · intro ch hch
        rw [Function.update_noteq (by omega)]
        exact h2 ch (by omega))
  obtain ⟨w, e, h1, _⟩ := key
  exact ⟨w, e, h1⟩

/-- C12 (evaluation at the failing input): `compute` called with `strap = 1` on a corpus of
two segments, with scaled draws that are all `0`: the weights of the replicate are `2` for
segment `0` and `0` for segment `1`, and two draws are used; `init_bootstrap` tests the
file-scope `strap`, which is `0`, not the argument of `compute`. -/
theorem compute_strap_one_resamples :
    (compute_first_weights 2 1 (fun _ => 0) 5).map (fun r => (r.1 0, r.1 1, r.2))
      = some (2, 0, 2) := by
  decide

/-! ## What `fill_subtree` assigns -/

/-- The value for a witness depends on the fill arrays only through the entry of the
parent. -/
theorem fill_val_congr (g : Globals) (m : Mem) (cost : Cache) {f f' : Fill} {x s : Nat}
    (h : ∀ p, (m x).up = some p → f' p s = f p s) (i : Nat) :
    fill_val g m cost f' x s i = fill_val g m cost f x s i := by
  unfold fill_val
  cases hup : (m x).up with
  | none => rfl
  | some p => simp only [h p hup]

theorem fillMin_congr {g : Globals} {m : Mem} {cost : Cache} {f f' : Fill} {x s : Nat}
    (h : FillMin g m cost f x s) (hx : f' x s = f x s)
    (hp : ∀ p, (m x).up = some p → f' p s = f p s) : FillMin g m cost f' x s := by
  unfold FillMin
  simp only [fill_val_congr g m cost hp, hx]
  exact h

/-- The loop over the witnesses leaves the lowest minimiser in `fill[ch]` of the node and
touches nothing else. -/
theorem fill_chunk_spec (g : Globals) (m : Mem) (cost : Cache) {node ch : Nat}
    (hne : (m node).up ≠ some node) (hw : g.bootw ch ≠ 0) (hleafs : 0 < g.leafs)
    (mv : Int) (fill : Fill) :
    ∃ i0 < g.leafs, fill_chunk g m cost node (mv, fill) ch =
        (fill_val g m cost fill node ch i0,
          Function.update fill node (Function.update (fill node) ch i0)) ∧
      (∀ i < g.leafs, fill_val g m cost fill node ch i0 ≤ fill_val g m cost fill node ch i) ∧
      (∀ i < i0, fill_val g m cost fill node ch i0 < fill_val g m cost fill node ch i) := by
  have hval : ∀ (i0 i : Nat), fill_val g m cost
      (Function.update fill node (Function.update (fill node) ch i0)) node ch i
        = fill_val g m cost fill node ch i := by
    intro i0 i
    refine fill_val_congr g m cost (fun p hp => ?_) i
    have : p ≠ node := fun e => hne (e ▸ hp)
    rw [Function.update_noteq this]
  have hupd : ∀ i0 i : Nat,
      Function.update (Function.update fill node (Function.update (fill node) ch i0)) node
        (Function.update
          ((Function.update fill node (Function.update (fill node) ch i0)) node) ch i)
        = Function.update fill node (Function.update (fill node) ch i) := by
    intro i0 i
    rw [Function.update_same, Function.update_idem, Function.update_idem]
  have key := foldl_range_inv
    (fun j (s : Int × Fill) => (j = 0 ∧ s = (mv, fill)) ∨
      ∃ i0 < j, s = (fill_val g m cost fill node ch i0,
          Function.update fill node (Function.update (fill node) ch i0)) ∧
        (∀ i < j, fill_val g m cost fill node ch i0 ≤ fill_val g m cost fill node ch i) ∧
        (∀ i < i0, fill_val g m cost fill node ch i0 < fill_val g m cost fill node ch i))
    (fill_step g m cost node ch) (mv, fill) g.leafs (Or.inl ⟨rfl, rfl⟩)
    (by
      intro j _ s hs
      right
      rcases hs with ⟨rfl, rfl⟩ | ⟨i0, hi0, rfl, lb, lo⟩
      · refine ⟨0, Nat.zero_lt_one, ?_, fun i hi => ?_, fun i hi => absurd hi (Nat.not_lt_zero i)⟩
        · simp [fill_step]
        · have : i = 0 := by omega
          rw [this]
      · unfold fill_step
        simp only [hval, hupd]
        by_cases h0 : j = 0
        · omega
        · by_cases hlt : fill_val g m cost fill node ch j < fill_val g m cost fill node ch i0
          · rw [if_pos (Or.inr hlt)]
            refine ⟨j, Nat.lt_succ_self j, rfl, fun i hi => ?_, fun i hi => ?_⟩
            · rcases Nat.lt_succ_iff_lt_or_eq.mp hi with h | h
              · exact le_of_lt (lt_of_lt_of_le hlt (lb i h))
              · rw [h]
            · exact lt_of_lt_of_le hlt (lb i hi)
          · rw [if_neg (fun h => h.elim h0 hlt)]
            refine ⟨i0, Nat.lt_succ_of_lt hi0, rfl, fun i hi => ?_, lo⟩
            rcases Nat.lt_succ_iff_lt_or_eq.mp hi with h | h
            · exact lb i h
            · rw [h]; exact not_lt.mp hlt)
  unfold fill_chunk
  rw [if_pos hw]
  rcases key with ⟨h0, _⟩ | ⟨i0, hi0, e, lb, lo⟩
  · omega
  · exact ⟨i0, hi0, e, lb, lo⟩

/-- The two loops at one node: in every segment of non-zero weight the fill of the node
becomes the lowest minimiser; no other entry changes. -/
theorem fill_node_spec (g : Globals) (m : Mem) (cost : Cache) {node : Nat}
    (hne : (m node).up ≠ some node) (hleafs : 0 < g.leafs) (fill : Fill) :
    (∀ x, x ≠ node → fill_node g m cost node fill x = fill x) ∧
    (∀ s, (s < g.chunks ∧ g.bootw s ≠ 0) → FillMin g m cost (fill_node g m cost node fill) node s) ∧
    (∀ s, ¬ (s < g.chunks ∧ g.bootw s ≠ 0) → fill_node g m cost node fill node s = fill node s) := by
  have hcongr : ∀ (f : Fill), (∀ x, x ≠ node → f x = fill x) → ∀ s i,
      fill_val g m cost f node s i = fill_val g m cost fill node s i := by
    intro f hf s i
    refine fill_val_congr g m cost (fun p hp => ?_) i
    have : p ≠ node := fun e => hne (e ▸ hp)
    rw [hf p this]
  have key := foldl_range_inv
    (fun j (s : Int × Fill) => (∀ x, x ≠ node → s.2 x = fill x) ∧
      (∀ ch, (ch < j ∧ g.bootw ch ≠ 0) → FillMin g m cost s.2 node ch) ∧
      (∀ ch, ¬ (ch < j ∧ g.bootw ch ≠ 0) → s.2 node ch = fill node ch))
    (fill_chunk g m cost node) (0, fill) g.chunks
    ⟨fun _ _ => rfl, fun ch h => absurd h.1 (Nat.not_lt_zero ch), fun _ _ => rfl⟩
    (by
      rintro j _ ⟨mv, f⟩ ⟨h1, h2, h3⟩
      simp only at h1 h2 h3
      by_cases hw : g.bootw j ≠ 0
      · obtain ⟨i0, hi0, e, lb, lo⟩ := fill_chunk_spec g m cost hne hw hleafs mv f
        rw [e]
        simp only
        refine ⟨fun x hx => ?_, fun ch hch => ?_, fun ch hch => ?_⟩
        · rw [Function.update_noteq hx]; exact h1 x hx
        · by_cases ej : ch = j
          · subst ej
            have hf' : ∀ x, x ≠ node →
                Function.update f node (Function.update (f node) ch i0) x = fill x :=
              fun x hx => by rw [Function.update_noteq hx]; exact h1 x hx
            simp only [hcongr f h1] at lb lo
            unfold FillMin
            simp only [hcongr _ hf', Function.update_same]
            exact ⟨hi0, lb, lo⟩
          · have hlt : ch < j ∧ g.bootw ch ≠ 0 := ⟨by omega, hch.2⟩
            refine fillMin_congr (h2 ch hlt) ?_ (fun p hp => ?_)
            · simp only [Function.update_same, Function.update_noteq ej]
            · have : p ≠ node := fun e => hne (e ▸ hp)
              rw [Function.update_noteq this]
        · have ej : ch ≠ j := fun e => hch ⟨by omega, e ▸ hw⟩
          simp only [Function.update_same, Function.update_noteq ej]
          exact h3 ch (fun h => hch ⟨by omega, h.2⟩)
      · unfold fill_chunk
        rw [if_neg hw]
        refine ⟨h1, fun ch hch => ?_, fun ch hch => ?_⟩
        · have : ch ≠ j := fun e => hw (e ▸ hch.2)
          exact h2 ch ⟨by omega, hch.2⟩
        · exact h3 ch (fun h => hch ⟨by omega, h.2⟩))
  exact key

/-- `fill_subtree` returns when the fuel covers the height below the node; afterwards every
node at or below it carries the lowest minimiser in every segment of non-zero weight, and
nothing else has changed. -/
theorem fill_subtree_spec {g : Globals} {m : Mem} {root : Nat} (hT : TreeOK g.n m root)
    (cost : Cache) (hleafs : 0 < g.leafs) :
    ∀ (fuel p : Nat) (fill : Fill), p < g.n → g.n ≤ depth m g.n p + fuel →
      ∃ fill', fill_subtree g m cost fuel (some p) fill = some fill' ∧
        (∀ x, ¬ Anc m x p → fill' x = fill x) ∧
        (∀ x < g.n, Anc m x p → ∀ s, (s < g.chunks ∧ g.bootw s ≠ 0) →
          FillMin g m cost fill' x s) ∧
        (∀ x s, ¬ (s < g.chunks ∧ g.bootw s ≠ 0) → fill' x s = fill x s) := by
  intro fuel
  induction fuel with
  | zero =>
    intro p fill hp hf
    have := hT.acyclic p hp
    omega
  | succ fuel ih =>
    intro p fill hp hf
    have hne : (m p).up ≠ some p := fun e => hT.up_ne hp e rfl
    obtain ⟨n1, n2, n3⟩ := fill_node_spec g m cost hne hleafs fill
    have hpar : ∀ q, (m p).up = some q → ¬ Anc m q p := fun q hq => hT.not_anc_up hp hq
    -- the step for one child
    have child : ∀ (c : Option Nat) (f : Fill), (∀ y, c = some y → y < g.n ∧ (m y).up = some p) →
        ∃ f', fill_subtree g m cost fuel c f = some f' ∧
          (∀ x, (∀ y, c = some y → ¬ Anc m x y) → f' x = f x) ∧
          (∀ x < g.n, (∃ y, c = some y ∧ Anc m x y) → ∀ s, (s < g.chunks ∧ g.bootw s ≠ 0) →
            FillMin g m cost f' x s) ∧
          (∀ x s, ¬ (s < g.chunks ∧ g.bootw s ≠ 0) → f' x s = f x s) := by
      intro c f hc
      cases c with
      | none =>
        refine ⟨f, by cases fuel <;> rfl, fun _ _ => rfl, ?_, fun _ _ _ => rfl⟩
        rintro x _ ⟨y, hy, _⟩
        cases hy
      | some y =>
        obtain ⟨hy, hyu⟩ := hc y rfl
        have hd := hT.depth_up hy hyu
        obtain ⟨f', e, a1, a2, a3⟩ := ih y f hy (by omega)
        refine ⟨f', e, fun x hx => a1 x (hx y rfl), ?_, a3⟩
        rintro x hx ⟨y', hy', hanc⟩
        cases hy'
        exact a2 x hx hanc
    obtain ⟨f1, e1, a1, b1, c1⟩ := child (m p).left (fill_node g m cost p fill)
      (fun y hy => ⟨hT.left_lt p hp y hy, hT.left_up p hp y hy⟩)
    obtain ⟨f2, e2, a2, b2, c2⟩ := child (m p).right f1
      (fun y hy => ⟨hT.right_lt p hp y hy, hT.right_up p hp y hy⟩)
    have notl : ∀ x, ¬ Anc m x p → ∀ y, (m p).left = some y → ¬ Anc m x y :=
      fun x hx y hy h => hx (h.trans (Anc.of_up (hT.left_up p hp y hy)))
    have notr : ∀ x, ¬ Anc m x p → ∀ y, (m p).right = some y → ¬ Anc m x y :=
      fun x hx y hy h => hx (h.trans (Anc.of_up (hT.right_up p hp y hy)))
    have pl : ∀ y, (m p).left = some y → ¬ Anc m p y := fun y hy h =>
      hT.not_anc_up (hT.left_lt p hp y hy) (hT.left_up p hp y hy) h
    have pr : ∀ y, (m p).right = some y → ¬ Anc m p y := fun y hy h =>
      hT.not_anc_up (hT.right_lt p hp y hy) (hT.right_up p hp y hy) h
    refine ⟨f2, ?_, ?_, ?_, ?_⟩
    · rw [fill_subtree, e1]
      exact e2
    · intro x hx
      have hxp : x ≠ p := fun e => hx (by rw [e]; exact Anc.refl p)
      rw [a2 x (notr x hx), a1 x (notl x hx), n1 x hxp]
    · intro x hx hanc s hs
      by_cases hxr : ∃ y, (m p).right = some y ∧ Anc m x y
      · exact b2 x hx hxr s hs
      · have hxr' : ∀ y, (m p).right = some y → ¬ Anc m x y := fun y hy h => hxr ⟨y, hy, h⟩
        have keep : ∀ z, (∀ y, (m p).right = some y → ¬ Anc m z y) → f2 z = f1 z := a2
        have parent_keep : ∀ q, (m x).up = some q → f2 q s = f1 q s := by
          intro q hq
          rw [keep q (fun y hy h => hxr' y hy (Anc.step hq h))]
        by_cases hxl : ∃ y, (m p).left = some y ∧ Anc m x y
        · refine fillMin_congr (b1 x hx hxl s hs) (by rw [keep x hxr']) parent_keep
        · have hxl' : ∀ y, (m p).left = some y → ¬ Anc m x y := fun y hy h => hxl ⟨y, hy, h⟩
          have hxp : x = p := by
            rcases hanc.through_child with e | ⟨c, hc, hxc⟩
            · exact e
            · exfalso
              rcases hT.up_child c (hxc.lt hT hx) p hc with h | h
              · exact hxl' c h hxc
              · exact hxr' c h hxc
          subst hxp
          have parent1 : ∀ q, (m x).up = some q → f1 q s = fill_node g m cost x fill q s := by
            intro q hq
            rw [a1 q (fun y hy h => pl y hy (Anc.step hq h))]
          refine fillMin_congr (fillMin_congr (n2 s hs) (by rw [a1 x pl]) parent1) (by rw [keep x hxr'])
            parent_keep
    · intro x s hs
      rw [c2 x s hs, c1 x s hs]
      by_cases hxp : x = p
      · rw [hxp]; exact n3 s hs
      · rw [n1 x hxp]

/-- C18: on a well-formed tree with at least one witness, `fill_subtree(cost, root)` returns
and then, for every node `x` and every segment `s` of non-zero weight, `fill[s]` of `x` is a
witness `i` in `[0, leafs)` that minimises `base(i) + cost[x][i][s]`, where `base(i)` is
`Kyx[parent.fill[s]][i][s]` for a node with a parent (with the fill assigned to the parent) and
`Kx[i][s]` for the root, and it is the lowest such witness; the fills of the segments of weight
zero are untouched. The function has no write to `cost`. -/
theorem fill_subtree_argmin (g : Globals) (m : Mem) (root : Nat) (cost : Cache) (fill0 : Fill)
    (fuel : Nat)
    (hT : TreeOK g.n m root) (hleafs : 0 < g.leafs) (hf : g.n ≤ fuel) :
    ∃ fill, fill_subtree g m cost fuel (some root) fill0 = some fill ∧
      (∀ x < g.n, ∀ s < g.chunks, g.bootw s ≠ 0 →
        fill x s < g.leafs ∧
        (∀ i < g.leafs, fill_val g m cost fill x s (fill x s) ≤ fill_val g m cost fill x s i) ∧
        (∀ i < fill x s, fill_val g m cost fill x s (fill x s) < fill_val g m cost fill x s i)) ∧
      (∀ x, ∀ s < g.chunks, g.bootw s = 0 → fill x s = fill0 x s) := by
  obtain ⟨fill, e, _, a2, a3⟩ :=
    fill_subtree_spec hT cost hleafs fuel root fill0 hT.root_lt (by omega)
  exact ⟨fill, e, fun x hx s hs hw => a2 x hx (hT.anc_root x hx) s ⟨hs, hw⟩,
    fun x s _ hw => a3 x s (fun h => h.2 hw)⟩

set_option maxRecDepth 100000 in
theorem fill_subtree_argmin_witness :
    ∃ fill, fill_subtree exGlobals exMem exCache 7 (some 6) (fun _ _ => 0) = some fill ∧
      (∀ x < exGlobals.n, ∀ s < exGlobals.chunks, exGlobals.bootw s ≠ 0 →
        fill x s < exGlobals.leafs ∧
        (∀ i < exGlobals.leafs, fill_val exGlobals exMem exCache fill x s (fill x s)
          ≤ fill_val exGlobals exMem exCache fill x s i) ∧
        (∀ i < fill x s, fill_val exGlobals exMem exCache fill x s (fill x s)
          < fill_val exGlobals exMem exCache fill x s i)) ∧
      (∀ x, ∀ s < exGlobals.chunks, exGlobals.bootw s = 0 → fill x s = (fun _ _ => 0) x s) :=
  fill_subtree_argmin exGlobals exMem 6 exCache (fun _ _ => 0) 7
    (by decide) (by decide) (by decide)

/-! ## Best value and acceptance -/

/-- One pass of the loop never raises `bestval`. -/
theorem optimize_iter_bestval {g : Globals} {array : Nat → Option Nat} {tree : Nat}
    {fresh : Cache} {fuel : Nat} {draws : Nat → Int} {tpos lucky : Bool} {s s' : OptState}
    (h : optimize_iter g array tree fresh fuel draws tpos lucky s = some s') :
    s'.bestval ≤ s.bestval := by
  unfold optimize_iter at h
  cases hp : prep_mutate_tree s.m array g.n s.alternate draws fuel s.k with
  | none => simp [hp] at h
  | some r =>
    simp only [hp] at h
    cases hq : optimize_propose g s.m fresh fuel tree r.alternate r.a r.b r.ra r.rb s.cost with
    | none => simp [hq] at h
    | some q =>
      obtain ⟨m1, newval, c1⟩ := q
      simp only [hq] at h
      split_ifs at h with h1 h2
      · cases hf : fill_subtree g m1 c1 fuel (some tree) s.fill with
        | none => simp [hf] at h
        | some f =>
          simp only [hf, Option.some.injEq] at h
          rw [← h]
          exact le_of_lt h2
      · simp only [Option.some.injEq] at h
        rw [← h]
      · cases hr : optimize_reject g m1 fuel tree r.alternate r.a r.b r.ra r.rb c1 with
        | none => simp [hr] at h
        | some q2 =>
          obtain ⟨m2, t2⟩ := q2
          simp only [hr, Option.some.injEq] at h
          rw [← h]

/-- C14: in a run of `optimize_tree`, `bestval` after pass `t+1` of the loop is never greater
than `bestval` after pass `t`, and it is never greater than the cost `v0` that the initial
`eval_tree(tree, NULL, NULL)` returns; `optimize_tree` stopped after that pass returns this
`bestval`. -/
theorem bestval_nonincreasing (g : Globals) (array : Nat → Option Nat) (m : Mem) (tree : Nat)
    (fresh : Cache) (fuel : Nat) (cache : Option Cache) (fill : Fill) (alternate : Bool)
    (draws : Nat → Int) (tpos lucky : Nat → Bool) (t : Nat) (s s' : OptState) (v0 : Int)
    (c0 : Cache)
    (h0 : eval_tree g m fresh fuel tree cache none none = some (v0, c0))
    (h : optimize_after g array tree fresh fuel draws tpos lucky
      (optimize_start g m tree fresh fuel cache fill alternate 0) t = some s)
    (h' : optimize_after g array tree fresh fuel draws tpos lucky
      (optimize_start g m tree fresh fuel cache fill alternate 0) (t + 1) = some s') :
    s'.bestval ≤ s.bestval ∧ s.bestval ≤ v0 ∧ s'.bestval ≤ v0 ∧
      optimize_tree g array m tree fresh fuel cache fill alternate draws tpos lucky (t + 1)
        = some (s'.bestval, s') := by
  have step : s'.bestval ≤ s.bestval := by
    rw [optimize_after, h] at h'
    exact optimize_iter_bestval h'
  have init : ∀ (t : Nat) (s : OptState),
      optimize_after g array tree fresh fuel draws tpos lucky
        (optimize_start g m tree fresh fuel cache fill alternate 0) t = some s →
      s.bestval ≤ v0 := by
    intro t
    induction t with
    | zero =>
      intro s hs
      rw [optimize_after] at hs
      unfold optimize_start at hs
      simp only [h0] at hs
      cases hf : fill_subtree g m c0 fuel (some tree) fill with
      | none => simp [hf] at hs
      | some f =>
        simp only [hf, Option.some.injEq] at hs
        rw [← hs]
    | succ t ih =>
      intro s hs
      rw [optimize_after] at hs
      cases hprev : optimize_after g array tree fresh fuel draws tpos lucky
          (optimize_start g m tree fresh fuel cache fill alternate 0) t with
      | none => simp [hprev] at hs
      | some sp =>
        simp only [hprev] at hs
        exact le_trans (optimize_iter_bestval hs) (ih sp hprev)
  refine ⟨step, init t s h, init (t + 1) s' h', ?_⟩
  unfold optimize_tree
  rw [h']
  rfl

/-- C17 (as the code has it): in a pass of the loop of `optimize_tree` with `T = 0` (the
floating-point test `T > 0.0` false), the proposed move is accepted exactly when its new cost
is at most `minval`, the cost of the tree held at that moment: then the edited tree and the new
cache are kept and `minval` becomes the new cost; otherwise the edit is reverted with
`do_mutate_tree(ra, rb)` and the two restores, and `minval` and `bestval` stay. -/
theorem frozen_accept_iff (g : Globals) (array : Nat → Option Nat) (tree : Nat)
    (fresh : Cache) (fuel : Nat) (draws : Nat → Int) (lucky : Bool) (s s' : OptState)
    (h : optimize_iter g array tree fresh fuel draws false lucky s = some s') :
    ∃ r m1 newval c1, prep_mutate_tree s.m array g.n s.alternate draws fuel s.k = some r ∧
      optimize_propose g s.m fresh fuel tree r.alternate r.a r.b r.ra r.rb s.cost
        = some (m1, newval, c1) ∧
      ((newval ≤ s.minval ∧ s'.m = m1 ∧ s'.cost = c1 ∧ s'.minval = newval) ∨
       (s.minval < newval ∧ ∃ m2 t2,
          optimize_reject g m1 fuel tree r.alternate r.a r.b r.ra r.rb c1 = some (m2, t2) ∧
          s'.m = m2 ∧ s'.cost = t2 ∧ s'.minval = s.minval ∧ s'.bestval = s.bestval)) := by
  unfold optimize_iter at h
  cases hp : prep_mutate_tree s.m array g.n s.alternate draws fuel s.k with
  | none => simp [hp] at h
  | some r =>
    simp only [hp] at h
    cases hq : optimize_propose g s.m fresh fuel tree r.alternate r.a r.b r.ra r.rb s.cost with
    | none => simp [hq] at h
    | some q =>
      obtain ⟨m1, newval, c1⟩ := q
      simp only [hq] at h
      refine ⟨r, m1, newval, c1, rfl, hq, ?_⟩
      by_cases hle : newval ≤ s.minval
      · left
        have hc : newval ≤ s.minval ∨ (false = true ∧ lucky = true) := Or.inl hle
        rw [if_pos hc] at h
        split_ifs at h with h2
        · cases hf : fill_subtree g m1 c1 fuel (some tree) s.fill with
          | none => simp [hf] at h
          | some f =>
            simp only [hf, Option.some.injEq] at h
            rw [← h]
            exact ⟨hle, rfl, rfl, rfl⟩
        · simp only [Option.some.injEq] at h
          rw [← h]
          exact ⟨hle, rfl, rfl, rfl⟩
      · right
        have hc : ¬ (newval ≤ s.minval ∨ (false = true ∧ lucky = true)) := by
          rintro (h1 | ⟨h1, _⟩)
          · exact hle h1
          · cases h1
        rw [if_neg hc] at h
        cases hr : optimize_reject g m1 fuel tree r.alternate r.a r.b r.ra r.rb c1 with
        | none => simp [hr] at h
        | some q2 =>
          obtain ⟨m2, t2⟩ := q2
          simp only [hr, Option.some.injEq] at h
          rw [← h]
          exact ⟨not_le.mp hle, m2, t2, rfl, rfl, rfl, rfl, rfl⟩

/-! ## The example run -/

set_option maxRecDepth 1000000 in
theorem exRun_zero_isSome : (exRun 0).isSome = true := by decide

set_option maxRecDepth 1000000 in
theorem exRun_one_isSome : (exRun 1).isSome = true := by decide

set_option maxRecDepth 1000000 in
theorem exRun_two_isSome : (exRun 2).isSome = true := by decide

set_option maxRecDepth 1000000 in
theorem exEval_isSome :
    (eval_tree exGlobals exMem (fun _ => 0) 7 6 none none none).isSome = true := by decide

set_option maxRecDepth 1000000 in
theorem exEval_value :
    (eval_tree exGlobals exMem (fun _ => 0) 7 6 none none none).map (fun r => r.1) = some 16 := by
  decide

/-- A pass of the loop is `optimize_iter` on the state that the passes before it left. -/
theorem optimize_after_succ {g : Globals} {array : Nat → Option Nat} {tree : Nat}
    {fresh : Cache} {fuel : Nat} {draws : Nat → Int} {tpos lucky : Nat → Bool}
    {s0 : Option OptState} {t : Nat} {s : OptState}
    (h : optimize_after g array tree fresh fuel draws tpos lucky s0 t = some s) :
    optimize_after g array tree fresh fuel draws tpos lucky s0 (t + 1)
      = optimize_iter g array tree fresh fuel draws (tpos (t + 1)) (lucky (t + 1)) s := by
  rw [optimize_after, h]

theorem bestval_nonincreasing_witness :
    ∃ (s s' : OptState) (c0 : Cache),
      eval_tree exGlobals exMem (fun _ => 0) 7 6 none none none = some (16, c0) ∧
      exRun 1 = some s ∧ exRun 2 = some s' ∧
      s'.bestval ≤ s.bestval ∧ s.bestval ≤ 16 ∧ s'.bestval ≤ 16 ∧
      optimize_tree exGlobals exArray exMem 6 (fun _ => 0) 7 none (fun _ _ => 0) false exDraws
        (fun iter => decide (iter < 2)) (fun _ => true) (1 + 1) = some (s'.bestval, s') := by
  have h0 : eval_tree exGlobals exMem (fun _ => 0) 7 6 none none none
      = some (16, ((eval_tree exGlobals exMem (fun _ => 0) 7 6 none none none).get
          exEval_isSome).2) := by
    have e := (Option.some_get exEval_isSome).symm
    have v := exEval_value
    rw [e] at v
    simp only [Option.map_some', Option.some.injEq] at v
    rw [← v]
    exact e
  have h1 : exRun 1 = some ((exRun 1).get exRun_one_isSome) := (Option.some_get _).symm
  have h2 : exRun 2 = some ((exRun 2).get exRun_two_isSome) := (Option.some_get _).symm
  exact ⟨_, _, _, h0, h1, h2,
    bestval_nonincreasing exGlobals exArray exMem 6 (fun _ => 0) 7 none (fun _ _ => 0) false
      exDraws (fun iter => decide (iter < 2)) (fun _ => true) 1 _ _ 16 _ h0 h1 h2⟩

set_option maxRecDepth 1000000 in
/-- C17 (the claim fails): in the example run, pass 1 takes the cost of the held tree from 16
to 18 (accepted by the random test, `T > 0`), so `bestval = 16` and `minval = 18`; pass 2, with
`T = 0`, proposes the regraft of node 1 next to node 2, of cost 18, which is greater than
`bestval`, and the move is kept (node 4, the old parent of node 1, hangs under node 5 after it
and `minval` is 18), not reverted. -/
theorem frozen_accept_counterexample :
    (exRun 1).map (fun s => (s.bestval, s.minval, (s.m 4).up, (s.m 1).up))
      = some (16, 18, some 6, some 4) ∧
    ((exRun 1).bind (fun s =>
      (prep_mutate_tree s.m exArray 7 s.alternate exDraws 7 s.k).bind (fun r =>
        (optimize_propose exGlobals s.m (fun _ => 0) 7 6 r.alternate r.a r.b r.ra r.rb
          s.cost).map (fun q => (r.alternate, r.a, r.b, q.2.1))))) = some (false, 1, 2, 18) ∧
    (exRun 2).map (fun s => (s.bestval, s.minval, (s.m 4).up, (s.m 1).up))
      = some (16, 18, some 5, some 4) := by
  decide

theorem frozen_accept_iff_witness :
    ∃ (s s' : OptState), exRun 1 = some s ∧ exRun 2 = some s' ∧
      ∃ r m1 newval c1, prep_mutate_tree s.m exArray exGlobals.n s.alternate exDraws 7 s.k
          = some r ∧
        optimize_propose exGlobals s.m (fun _ => 0) 7 6 r.alternate r.a r.b r.ra r.rb s.cost
          = some (m1, newval, c1) ∧
        ((newval ≤ s.minval ∧ s'.m = m1 ∧ s'.cost = c1 ∧ s'.minval = newval) ∨
         (s.minval < newval ∧ ∃ m2 t2,
            optimize_reject exGlobals m1 7 6 r.alternate r.a r.b r.ra r.rb c1 = some (m2, t2) ∧
            s'.m = m2 ∧ s'.cost = t2 ∧ s'.minval = s.minval ∧ s'.bestval = s.bestval)) := by
  have h1 : exRun 1 = some ((exRun 1).get exRun_one_isSome) := (Option.some_get _).symm
  have h2 : exRun 2 = some ((exRun 2).get exRun_two_isSome) := (Option.some_get _).symm
  have h : optimize_iter exGlobals exArray 6 (fun _ => 0) 7 exDraws false true
      ((exRun 1).get exRun_one_isSome) = some ((exRun 2).get exRun_two_isSome) := by
    rw [← h2]
    exact (optimize_after_succ h1).symm
  exact ⟨_, _, h1, h2,
    frozen_accept_iff exGlobals exArray 6 (fun _ => 0) 7 exDraws true _ _ h⟩

/-! ## Files, segments and their texts -/

theorem file_bytes_append (a b : List (List Nat)) :
    file_bytes (a ++ b) = file_bytes a ++ file_bytes b := by
  induction a with
  | nil => rfl
  | cons l a ih => simp [file_bytes, ih]

theorem file_bytes_length_ge (ls : List (List Nat)) : ls.length ≤ (file_bytes ls).length := by
  induction ls with
  | nil => simp [file_bytes]
  | cons l ls ih => simp [file_bytes]; omega

theorem seg_text_length (ls : List (List Nat)) :
    (seg_text ls).length = (file_bytes ls).length := by
  induction ls with
  | nil => rfl
  | cons l ls ih =>
    cases ls with
    | nil => simp [seg_text, file_bytes]
    | cons l' ls =>
      rw [seg_text, file_bytes]
      simp only [List.length_append, List.length_cons]
      rw [ih]

/-- The text of a segment ends with a newline, and one more line is added after a space put
in the place of that newline. -/
theorem seg_text_snoc (done : List (List Nat)) (h : done ≠ []) :
    ∃ X, seg_text done = X ++ [10] ∧ ∀ l, seg_text (done ++ [l]) = X ++ 32 :: (l ++ [10]) := by
  induction done with
  | nil => exact absurd rfl h
  | cons l0 done ih =>
    cases done with
    | nil => exact ⟨l0, rfl, fun l => rfl⟩
    | cons l1 done =>
      obtain ⟨X, e1, e2⟩ := ih (by simp)
      refine ⟨l0 ++ 32 :: X, ?_, fun l => ?_⟩
      · rw [seg_text, e1]; simp
      · have := e2 l
        rw [List.cons_append, List.cons_append, seg_text, ← List.cons_append, this]
        simp

theorem seg_text_nil_append (l : List Nat) : seg_text ([] ++ [l]) = l ++ [10] := rfl

/-- The text of a segment of lines has no terminator byte when its lines have none. -/
theorem seg_text_no_zero (ls : List (List Nat)) (h : ∀ l ∈ ls, 0 ∉ l) : 0 ∉ seg_text ls := by
  induction ls with
  | nil => simp [seg_text]
  | cons l ls ih =>
    have hl := h l (List.mem_cons_self _ _)
    have ih' := ih (fun x hx => h x (List.mem_cons_of_mem _ hx))
    cases ls with
    | nil => simp [seg_text, hl]
    | cons l' ls =>
      rw [seg_text]
      simp only [List.mem_append, List.mem_cons, not_or]
      exact ⟨hl, by decide, ih'⟩

/-- The text of a segment of lines without newlines has its only newline at the end. -/
theorem seg_text_newline (ls : List (List Nat)) (hne : ls ≠ []) (h : ∀ l ∈ ls, 10 ∉ l) :
    ∃ X, seg_text ls = X ++ [10] ∧ 10 ∉ X := by
  induction ls with
  | nil => exact absurd rfl hne
  | cons l ls ih =>
    have hl := h l (List.mem_cons_self _ _)
    cases ls with
    | nil => exact ⟨l, rfl, hl⟩
    | cons l' ls =>
      obtain ⟨X, e, hX⟩ := ih (by simp) (fun x hx => h x (List.mem_cons_of_mem _ hx))
      refine ⟨l ++ 32 :: X, ?_, ?_⟩
      · rw [seg_text, e]; simp
      · simp only [List.mem_append, List.mem_cons, not_or]
        exact ⟨hl, by decide, hX⟩

/-- Two lists that agree up to a first separator agree part by part. -/
theorem split_at_sep {P : Nat → Prop} :
    ∀ (l l' : List Nat) (x x' : Nat) (A A' : List Nat),
      (∀ y ∈ l, ¬ P y) → (∀ y ∈ l', ¬ P y) → P x → P x' →
      l ++ x :: A = l' ++ x' :: A' → l = l' ∧ x = x' ∧ A = A' := by
  intro l
  induction l with
  | nil =>
    intro l' x x' A A' _ h2 px _ e
    cases l' with
    | nil => simp at e; exact ⟨rfl, e.1, e.2⟩
    | cons y l' =>
      simp at e
      exact absurd (e.1 ▸ px) (h2 y (List.mem_cons_self _ _))
  | cons y l ih =>
    intro l' x x' A A' h1 h2 px px' e
    cases l' with
    | nil =>
      simp at e
      exact absurd (e.1 ▸ px') (h1 y (List.mem_cons_self _ _))
    | cons y' l' =>
      simp only [List.cons_append, List.cons.injEq] at e
      obtain ⟨r1, r2, r3⟩ := ih l' x x' A A' (fun z hz => h1 z (List.mem_cons_of_mem _ hz))
        (fun z hz => h2 z (List.mem_cons_of_mem _ hz)) px px' e.2
      exact ⟨by rw [e.1, r1], r2, r3⟩

/-- The bytes of a file determine its lines. -/
theorem file_bytes_injective : ∀ (a b : List (List Nat)),
    (∀ l ∈ a, 10 ∉ l) → (∀ l ∈ b, 10 ∉ l) → file_bytes a = file_bytes b → a = b := by
  intro a
  induction a with
  | nil =>
    intro b _ _ e
    cases b with
    | nil => rfl
    | cons l b => simp [file_bytes] at e
  | cons l a ih =>
    intro b ha hb e
    cases b with
    | nil => simp [file_bytes] at e
    | cons l' b =>
      rw [file_bytes, file_bytes] at e
      obtain ⟨r1, _, r3⟩ := split_at_sep (P := fun y => y = 10) l l' 10 10 _ _
        (fun y hy e' => ha l (List.mem_cons_self _ _) (e' ▸ hy))
        (fun y hy e' => hb l' (List.mem_cons_self _ _) (e' ▸ hy)) rfl rfl e
      rw [r1, ih b (fun x hx => ha x (List.mem_cons_of_mem _ hx))
        (fun x hx => hb x (List.mem_cons_of_mem _ hx)) r3]

/-- The text of a segment determines its lines when no line holds a space or a newline. -/
theorem seg_text_injective : ∀ (a b : List (List Nat)),
    (∀ l ∈ a, 10 ∉ l ∧ 32 ∉ l) → (∀ l ∈ b, 10 ∉ l ∧ 32 ∉ l) →
    seg_text a = seg_text b → a = b := by
  have sep : ∀ (l : List Nat), 10 ∉ l ∧ 32 ∉ l → ∀ y ∈ l, ¬ (y = 10 ∨ y = 32) := by
    rintro l ⟨h1, h2⟩ y hy (e | e)
    · exact h1 (e ▸ hy)
    · exact h2 (e ▸ hy)
  intro a
  induction a with
  | nil =>
    intro b _ _ e
    cases b with
    | nil => rfl
    | cons l b =>
      cases b with
      | nil => simp [seg_text] at e
      | cons l' b => simp [seg_text] at e
  | cons l a ih =>
    intro b ha hb e
    have hl := sep l (ha l (List.mem_cons_self _ _))
    cases b with
    | nil =>
      cases a with
      | nil => simp [seg_text] at e
      | cons l' a => simp [seg_text] at e
    | cons k b =>
      have hk := sep k (hb k (List.mem_cons_self _ _))
      have ha' : ∀ x ∈ a, 10 ∉ x ∧ 32 ∉ x := fun x hx => ha x (List.mem_cons_of_mem _ hx)
      have hb' : ∀ x ∈ b, 10 ∉ x ∧ 32 ∉ x := fun x hx => hb x (List.mem_cons_of_mem _ hx)
      cases a with
      | nil =>
        cases b with
        | nil =>
          simp only [seg_text] at e
          rw [List.append_cancel_right e]
        | cons k' b =>
          exfalso
          simp only [seg_text] at e
          have := split_at_sep (P := fun y => y = 10 ∨ y = 32) l k 10 32 [] _ hl hk
            (Or.inl rfl) (Or.inr rfl) e
          exact absurd this.2.1 (by decide)
      | cons l' a =>
        cases b with
        | nil =>
          exfalso
          simp only [seg_text] at e
          have := split_at_sep (P := fun y => y = 10 ∨ y = 32) l k 32 10 _ [] hl hk
            (Or.inr rfl) (Or.inl rfl) e
          exact absurd this.2.1 (by decide)
        | cons k' b =>
          rw [seg_text, seg_text] at e
          obtain ⟨r1, _, r3⟩ := split_at_sep (P := fun y => y = 10 ∨ y = 32) l k 32 32 _ _ hl hk
            (Or.inr rfl) (Or.inr rfl) e
          rw [r1, ih (k' :: b) ha' hb' r3]

/-- The segments of a file are consecutive runs of its lines. -/
theorem drop_segment (c : Nat) (ls : List (List Nat)) (s : Nat) :
    ls.drop (s * c) = segment c ls s ++ ls.drop ((s + 1) * c) := by
  unfold segment
  rw [Nat.add_mul, Nat.one_mul, ← List.drop_drop]
  exact (List.take_append_drop c _).symm

theorem segment_length (c : Nat) (ls : List (List Nat)) (s : Nat) :
    (segment c ls s).length = min c (ls.length - s * c) := by
  unfold segment
  rw [List.length_take, List.length_drop]

/-- Every segment of a file of `L` lines, `L` at least one, holds a line. -/
theorem segment_ne_nil {c L : Nat} {ls : List (List Nat)} (hc : 0 < c) (hL : 0 < L)
    (h : ls.length = L) {s : Nat} (hs : s < seg_count c L) : segment c ls s ≠ [] := by
  intro e
  have hlen := segment_length c ls s
  rw [e, h] at hlen
  unfold seg_count at hs
  have := (Nat.le_div_iff_mul_le hc).mp (show s ≤ (L - 1) / c by omega)
  simp only [List.length_nil] at hlen
  omega

/-- Every segment but the last one holds `c` lines. -/
theorem segment_full {c L : Nat} {ls : List (List Nat)} (hc : 0 < c) (h : ls.length = L)
    {s : Nat} (hs : s + 1 < seg_count c L) : (segment c ls s).length = c := by
  rw [segment_length, h]
  unfold seg_count at hs
  have := (Nat.le_div_iff_mul_le hc).mp (show s + 1 ≤ (L - 1) / c by omega)
  rw [Nat.succ_mul] at this
  omega

/-- A segment of fewer than `c` lines ends the file. -/
theorem segment_short_end {c : Nat} {ls : List (List Nat)} {s : Nat}
    (h : (segment c ls s).length < c) : ls.drop ((s + 1) * c) = [] := by
  rw [segment_length] at h
  apply List.drop_eq_nil_of_le
  rw [Nat.succ_mul]
  omega

theorem segment_mem {c : Nat} {ls : List (List Nat)} {s : Nat} {l : List Nat}
    (h : l ∈ segment c ls s) : l ∈ ls :=
  List.mem_of_mem_drop (List.mem_of_mem_take h)

/-! ## What the readings keep of a line -/

theorem kept_cases (l : List Nat) :
    (l ≠ [80, 85, 85, 84] ∧ l ≠ [80, 79, 73, 83] ∧ kept l = l ∧ residue l = []) ∨
    (l = [80, 85, 85, 84] ∧ kept l = [] ∧ residue l = [85, 85, 84, 10]) ∨
    (l = [80, 79, 73, 83] ∧ kept l = [] ∧ residue l = [79, 73, 83, 10]) := by
  by_cases h1 : l = [80, 85, 85, 84]
  · subst h1
    exact Or.inr (Or.inl ⟨rfl, rfl, rfl⟩)
  · by_cases h2 : l = [80, 79, 73, 83]
    · subst h2
      exact Or.inr (Or.inr ⟨rfl, rfl, rfl⟩)
    · refine Or.inl ⟨h1, h2, ?_, ?_⟩
      · unfold kept
        rw [if_neg (by simp [h1, h2])]
      · unfold residue
        rw [if_neg h1, if_neg h2]

theorem kept_clean {l : List Nat} (h : 10 ∉ l ∧ 0 ∉ l) : 10 ∉ kept l ∧ 0 ∉ kept l := by
  rcases kept_cases l with ⟨_, _, e, _⟩ | ⟨_, e, _⟩ | ⟨_, e, _⟩
  · rw [e]; exact h
  · rw [e]; simp
  · rw [e]; simp

theorem amp_clean {l : List Nat} (h : 10 ∉ l ∧ 0 ∉ l) : 10 ∉ amp l ∧ 0 ∉ amp l := by
  unfold amp
  split_ifs
  · exact ⟨by decide, by decide⟩
  · exact h

theorem kept_length (l : List Nat) : (kept l).length + (residue l).length ≤ l.length := by
  rcases kept_cases l with ⟨_, _, e, r⟩ | ⟨e0, e, r⟩ | ⟨e0, e, r⟩
  · rw [e, r]; simp
  · rw [e, r, e0]; simp
  · rw [e, r, e0]; simp

theorem amp_length (l : List Nat) :
    (amp l).length = l.length + (if l = [38] then 1 else 0) := by
  unfold amp
  split_ifs with h
  · rw [h]; rfl
  · rfl

theorem plain_kept {l : List Nat} (h : PlainLine l) :
    kept l = l ∧ amp l = l ∧ residue l = [] := by
  obtain ⟨_, _, h1, h2, h3⟩ := h
  refine ⟨?_, ?_, ?_⟩
  · unfold kept
    rw [if_neg (by simp [h2, h3])]
  · unfold amp
    rw [if_neg h1]
  · unfold residue
    rw [if_neg h2, if_neg h3]

theorem residue_cases (l : List Nat) :
    residue l = [] ∨ residue l = [85, 85, 84, 10] ∨ residue l = [79, 73, 83, 10] := by
  rcases kept_cases l with ⟨_, _, _, r⟩ | ⟨_, _, r⟩ | ⟨_, _, r⟩
  · exact Or.inl r
  · exact Or.inr (Or.inl r)
  · exact Or.inr (Or.inr r)

theorem last_residue_concat (init : List (List Nat)) (l : List Nat) :
    last_residue (init ++ [l]) = residue l := by
  unfold last_residue
  rw [List.getLast?_concat]

theorem seg_text_concat_length (D : List (List Nat)) (x : List Nat) :
    (seg_text (D ++ [x])).length = (seg_text D).length + (x.length + 1) := by
  rw [seg_text_length, seg_text_length, file_bytes_append]
  simp [file_bytes]

theorem file_bytes_kept (seg : List (List Nat)) :
    (file_bytes (seg.map kept)).length ≤ (file_bytes seg).length := by
  induction seg with
  | nil => exact Nat.le_refl _
  | cons l seg ih =>
    have := kept_length l
    simp only [List.map_cons, file_bytes, List.length_append, List.length_cons]
    omega

theorem file_bytes_amp (seg : List (List Nat)) :
    (file_bytes (seg.map amp)).length = (file_bytes seg).length + seg.count [38] := by
  induction seg with
  | nil => rfl
  | cons l seg ih =>
    simp only [List.map_cons, file_bytes, List.length_append, List.length_cons, ih,
      amp_length, List.count_cons, beq_iff_eq]
    omega

/-- What a reading leaves in the buffer for a segment ends with its only newline and has no
terminator byte. -/
theorem stored_shape (c : Nat) (seg : List (List Nat)) (hne : seg ≠ [])
    (h : ∀ l ∈ seg, 10 ∉ l ∧ 0 ∉ l) : ∃ Z, stored c seg = Z ++ [10] ∧ 10 ∉ Z ∧ 0 ∉ Z := by
  have hM : ∀ l ∈ seg.map kept, 10 ∉ l ∧ 0 ∉ l := by
    intro l hl
    obtain ⟨x, hx, rfl⟩ := List.mem_map.mp hl
    exact kept_clean (h x hx)
  obtain ⟨X, eX, hX⟩ := seg_text_newline (seg.map kept) (by simpa using hne)
    (fun l hl => (hM l hl).1)
  have h0 := seg_text_no_zero (seg.map kept) (fun l hl => (hM l hl).2)
  rw [eX] at h0
  have hX0 : 0 ∉ X := fun hm => h0 (List.mem_append_left _ hm)
  obtain ⟨init, l, rfl⟩ : ∃ init l, seg = init ++ [l] := by
    rcases List.eq_nil_or_concat seg with e | ⟨init, l, e⟩
    · exact absurd e hne
    · exact ⟨init, l, by simpa using e⟩
  unfold stored
  rw [eX, List.dropLast_concat, last_residue_concat]
  by_cases hs : (init ++ [l]).length < c
  · rw [if_pos hs]
    rcases residue_cases l with r | r | r
    · rw [r, if_pos rfl]
      refine ⟨X ++ [32], by simp, ?_, ?_⟩
      · simp only [List.mem_append, List.mem_singleton, not_or]
        exact ⟨hX, by decide⟩
      · simp only [List.mem_append, List.mem_singleton, not_or]
        exact ⟨hX0, by decide⟩
    · rw [r, if_neg (by simp)]
      refine ⟨X ++ [32, 85, 85, 84], by simp, ?_, ?_⟩
      · simp only [List.mem_append, not_or]
        exact ⟨hX, by decide⟩
      · simp only [List.mem_append, not_or]
        exact ⟨hX0, by decide⟩
    · rw [r, if_neg (by simp)]
      refine ⟨X ++ [32, 79, 73, 83], by simp, ?_, ?_⟩
      · simp only [List.mem_append, not_or]
        exact ⟨hX, by decide⟩
      · simp only [List.mem_append, not_or]
        exact ⟨hX0, by decide⟩
  · rw [if_neg hs]
    exact ⟨X, rfl, hX, hX0⟩

/-- The text left in the buffer is not longer than the segment, but for the space that a
last segment of fewer than `c` lines gets. -/
theorem stored_length (c : Nat) (seg : List (List Nat)) (hne : seg ≠ []) :
    (stored c seg).length ≤ (file_bytes seg).length + (if seg.length < c then 1 else 0) := by
  obtain ⟨init, l, rfl⟩ : ∃ init l, seg = init ++ [l] := by
    rcases List.eq_nil_or_concat seg with e | ⟨init, l, e⟩
    · exact absurd e hne
    · exact ⟨init, l, by simpa using e⟩
  have h1 := file_bytes_kept init
  have h2 := kept_length l
  have h3 : (seg_text ((init ++ [l]).map kept)).length
      = (file_bytes (init.map kept)).length + ((kept l).length + 1) := by
    rw [List.map_append, List.map_singleton, seg_text_concat_length, seg_text_length]
  have h4 : (file_bytes (init ++ [l])).length = (file_bytes init).length + (l.length + 1) := by
    rw [file_bytes_append]
    simp [file_bytes]
  unfold stored
  rw [last_residue_concat]
  by_cases hs : (init ++ [l]).length < c
  · rw [if_pos hs, if_pos hs, List.length_append, List.length_dropLast, List.length_cons, h3, h4]
    by_cases hr : residue l = []
    · rw [if_pos hr]
      simp only [List.length_singleton]
      omega
    · rw [if_neg hr]
      omega
  · rw [if_neg hs, if_neg hs, h3, h4]
    omega

/-- On plain lines the readings leave the same text in the buffer exactly when the texts of
the segments are the same. -/
theorem stored_plain (c : Nat) (seg1 seg2 : List (List Nat)) (hne1 : seg1 ≠ [])
    (hne2 : seg2 ≠ []) (hlen : seg1.length = seg2.length) (hp1 : ∀ l ∈ seg1, PlainLine l)
    (hp2 : ∀ l ∈ seg2, PlainLine l) :
    stored c seg1 = stored c (seg2.map amp) ↔ seg_text seg1 = seg_text seg2 := by
  have m1 : seg1.map kept = seg1 := by
    conv_rhs => rw [← List.map_id seg1]
    exact List.map_congr_left (fun l hl => (plain_kept (hp1 l hl)).1)
  have m2 : seg2.map amp = seg2 := by
    conv_rhs => rw [← List.map_id seg2]
    exact List.map_congr_left (fun l hl => (plain_kept (hp2 l hl)).2.1)
  have m3 : seg2.map kept = seg2 := by
    conv_rhs => rw [← List.map_id seg2]
    exact List.map_congr_left (fun l hl => (plain_kept (hp2 l hl)).1)
  have r : ∀ seg : List (List Nat), seg ≠ [] → (∀ l ∈ seg, PlainLine l) →
      last_residue seg = [] := by
    intro seg hne hp
    rcases List.eq_nil_or_concat seg with e | ⟨init, l, e⟩
    · exact absurd e hne
    · have e' : seg = init ++ [l] := by simpa using e
      rw [e', last_residue_concat]
      exact (plain_kept (hp l (by rw [e']; simp))).2.2
  obtain ⟨X, eX, _⟩ := seg_text_newline seg1 hne1 (fun l hl => (hp1 l hl).1)
  obtain ⟨Y, eY, _⟩ := seg_text_newline seg2 hne2 (fun l hl => (hp2 l hl).1)
  unfold stored
  rw [m2, m1, m3, r seg1 hne1 hp1, r seg2 hne2 hp2, ← hlen, eX, eY]
  by_cases hs : seg1.length < c
  · simp only [if_pos hs, if_true, List.dropLast_concat]
    constructor
    · intro e
      rw [List.append_cancel_right e]
    · intro e
      rw [List.append_cancel_right e]
  · simp only [if_neg hs]

/-! ## Strings in the buffer -/

theorem holds_nil (buf : Buf) (off : Nat) : Holds buf off [] := by
  intro i hi
  simp at hi

theorem holds_cons {buf : Buf} {off a : Nat} {A : List Nat} :
    Holds buf off (a :: A) ↔ buf off = a ∧ Holds buf (off + 1) A := by
  constructor
  · intro h
    refine ⟨by simpa using h 0 (by simp), fun i hi => ?_⟩
    have := h (i + 1) (by simp; omega)
    simp only [List.getD_cons_succ] at this
    rw [← this]
    congr 1
    omega
  · rintro ⟨h0, h1⟩ i hi
    cases i with
    | zero => simpa using h0
    | succ i =>
      have := h1 i (by simp at hi; omega)
      simp only [List.getD_cons_succ]
      rw [← this]
      congr 1
      omega

theorem holds_append {buf : Buf} {off : Nat} {A B : List Nat} :
    Holds buf off (A ++ B) ↔ Holds buf off A ∧ Holds buf (off + A.length) B := by
  induction A generalizing off with
  | nil => simp [holds_nil]
  | cons a A ih =>
    rw [List.cons_append, holds_cons, holds_cons, ih, List.length_cons]
    have e : off + 1 + A.length = off + (A.length + 1) := by omega
    rw [e]
    exact and_assoc.symm

theorem Holds.frame {buf buf1 : Buf} {off : Nat} {A : List Nat} (h : Holds buf off A)
    (hf : ∀ i, off ≤ i → i < off + A.length → buf1 i = buf i) : Holds buf1 off A := by
  intro i hi
  rw [hf (off + i) (by omega) (by omega)]
  exact h i hi

theorem write_at_outside (buf : Buf) (off : Nat) (B : List Nat) {i : Nat}
    (h : i < off ∨ off + B.length ≤ i) : write_at buf off B i = buf i := by
  unfold write_at
  rw [if_neg]
  omega

theorem holds_write_at (buf : Buf) (off : Nat) (B : List Nat) :
    Holds (write_at buf off B) off B := by
  intro i hi
  unfold write_at
  rw [if_pos ⟨by omega, by omega⟩]
  congr 1
  omega

/-- Bytes stored right behind a text extend the text. -/
theorem holds_write_behind {buf : Buf} {off : Nat} {A : List Nat} (h : Holds buf off A)
    (B : List Nat) : Holds (write_at buf (off + A.length) B) off (A ++ B) := by
  rw [holds_append]
  exact ⟨h.frame (fun i _ h2 => write_at_outside buf _ B (Or.inl h2)), holds_write_at _ _ _⟩

theorem strlen_from_holds {buf : Buf} : ∀ (A : List Nat) (off fuel : Nat),
    Holds buf off (A ++ [0]) → 0 ∉ A → A.length < fuel →
    strlen_from buf fuel off = some A.length := by
  intro A
  induction A with
  | nil =>
    intro off fuel h _ hf
    obtain ⟨fuel, rfl⟩ : ∃ f, fuel = f + 1 := ⟨fuel - 1, by omega⟩
    rw [List.nil_append, holds_cons] at h
    rw [strlen_from, if_pos h.1]
    rfl
  | cons a A ih =>
    intro off fuel h h0 hf
    rw [List.length_cons] at hf
    obtain ⟨fuel, rfl⟩ : ∃ f, fuel = f + 1 := ⟨fuel - 1, by omega⟩
    rw [List.cons_append, holds_cons] at h
    have ha : a ≠ 0 := fun e => h0 (e ▸ List.mem_cons_self _ _)
    rw [strlen_from, if_neg (by rw [h.1]; exact ha),
      ih (off + 1) fuel h.2 (fun hm => h0 (List.mem_cons_of_mem _ hm)) (by omega)]
    rfl

/-- The length that `strlen` finds for a text without terminator bytes that is followed by
one. -/
theorem strlen_holds {buf : Buf} {A : List Nat} {off : Nat} (h : Holds buf off (A ++ [0]))
    (h0 : 0 ∉ A) (hb : off + A.length < 4096) : strlen buf off = some A.length :=
  strlen_from_holds A off (4096 - off) h h0 (by omega)

/-- The comparison of `strcmp` with a literal, on a text followed by a terminator. -/
theorem str_is_holds {buf : Buf} : ∀ (lit A : List Nat) (off : Nat),
    Holds buf off (A ++ [0]) → 0 ∉ A → 0 ∉ lit → str_is buf off lit = decide (A = lit) := by
  intro lit
  induction lit with
  | nil =>
    intro A off h h0 _
    cases A with
    | nil =>
      rw [List.nil_append, holds_cons] at h
      simp [str_is, h.1]
    | cons a A =>
      rw [List.cons_append, holds_cons] at h
      have ha : a ≠ 0 := fun e => h0 (e ▸ List.mem_cons_self _ _)
      simp [str_is, h.1, ha]
  | cons c lit ih =>
    intro A off h h0 hl
    have hc : c ≠ 0 := fun e => hl (e ▸ List.mem_cons_self _ _)
    cases A with
    | nil =>
      rw [List.nil_append, holds_cons] at h
      simp [str_is, h.1, Ne.symm hc]
    | cons a A =>
      rw [List.cons_append, holds_cons] at h
      rw [str_is, ih A (off + 1) h.2 (fun hm => h0 (List.mem_cons_of_mem _ hm))
        (fun hm => hl (List.mem_cons_of_mem _ hm)), h.1]
      by_cases e1 : a = c
      · by_cases e2 : A = lit
        · simp [e1, e2]
        · simp [e1, e2]
      · simp [e1]

theorem strncmp_eq_of_agree {buf : Buf} : ∀ (k a b : Nat),
    (∀ i < k, buf (a + i) = buf (b + i)) → strncmp_eq buf k a b = true := by
  intro k
  induction k with
  | zero => intro a b _; rfl
  | succ k ih =>
    intro a b h
    rw [strncmp_eq, if_neg (not_not.mpr (by simpa using h 0 (Nat.succ_pos k)))]
    split_ifs
    · rfl
    · apply ih
      intro i hi
      have := h (i + 1) (by omega)
      rw [show a + 1 + i = a + (i + 1) by omega, show b + 1 + i = b + (i + 1) by omega]
      exact this

theorem strncmp_ne_of_mismatch {buf : Buf} : ∀ (k a b i : Nat), i < k →
    buf (a + i) ≠ buf (b + i) → (∀ j < i, buf (a + j) ≠ 0) → strncmp_eq buf k a b = false := by
  intro k
  induction k with
  | zero => intro a b i hi; exact absurd hi (Nat.not_lt_zero _)
  | succ k ih =>
    intro a b i hi hne hz
    rw [strncmp_eq]
    by_cases h0 : buf a ≠ buf b
    · rw [if_pos h0]
    · rw [if_neg h0]
      cases i with
      | zero => exact absurd (by simpa using hne) h0
      | succ i =>
        have hz0 := hz 0 (Nat.succ_pos i)
        rw [if_neg (by simpa using hz0)]
        apply ih (a + 1) (b + 1) i (by omega)
        · rw [show a + 1 + i = a + (i + 1) by omega, show b + 1 + i = b + (i + 1) by omega]
          exact hne
        · intro j hj
          rw [show a + 1 + j = a + (j + 1) by omega]
          exact hz (j + 1) (by omega)

theorem getD_append_left (A B : List Nat) {i : Nat} (h : i < A.length) :
    (A ++ B).getD i 0 = A.getD i 0 := by
  rw [List.getD_eq_getElem _ _ (by simp; omega), List.getD_eq_getElem _ _ h,
    List.getElem_append_left h]

theorem getD_mem (A : List Nat) {i : Nat} (h : i < A.length) : A.getD i 0 ∈ A := by
  rw [List.getD_eq_getElem _ _ h]
  exact List.getElem_mem h

theorem getD_last (X : List Nat) (a : Nat) : (X ++ [a]).getD X.length 0 = a := by
  rw [List.getD_eq_getElem _ _ (by simp)]
  simp

/-- The comparison of the builder: two texts, each with its only newline at the end and free
of terminator bytes, stored one behind the other, compare equal over half of their joint
length exactly when they are the same text. -/
theorem compare_texts {buf : Buf} {X Y : List Nat} (hA : Holds buf 0 (X ++ [10]))
    (hB : Holds buf (X ++ [10]).length (Y ++ [10]))
    (hX : 10 ∉ X) (hY : 10 ∉ Y) (hX0 : 0 ∉ X) :
    strncmp_eq buf (((X ++ [10]).length + (Y ++ [10]).length) / 2) 0 (X ++ [10]).length
      = decide (X ++ [10] = Y ++ [10]) := by
  have lenA : (X ++ [10]).length = X.length + 1 := by simp
  have lenB : (Y ++ [10]).length = Y.length + 1 := by simp
  have hz : ∀ j < X.length + 1, buf (0 + j) ≠ 0 := by
    intro j hj
    rw [hA j (by omega)]
    by_cases e : j < X.length
    · rw [getD_append_left X [10] e]
      exact fun e0 => hX0 (e0 ▸ getD_mem X e)
    · have : j = X.length := by omega
      rw [this, getD_last]
      decide
  by_cases e : X ++ [10] = Y ++ [10]
  · rw [decide_eq_true e]
    apply strncmp_eq_of_agree
    intro i hi
    have hlen : (X ++ [10]).length = (Y ++ [10]).length := by rw [e]
    have hi' : i < (X ++ [10]).length := by omega
    rw [hA i hi', hB i (by omega), e]
  · rw [decide_eq_false e]
    have hXY : X ≠ Y := fun h => e (by rw [h])
    rcases Nat.lt_trichotomy X.length Y.length with hlt | heq | hgt
    · refine strncmp_ne_of_mismatch _ 0 _ X.length (by rw [lenA, lenB]; omega) ?_
        (fun j hj => hz j (by omega))
      rw [hA X.length (by omega), getD_last, hB X.length (by omega),
        getD_append_left Y [10] hlt]
      exact fun e0 => hY (e0 ▸ getD_mem Y hlt)
    · obtain ⟨i, hi, hne⟩ : ∃ i, i < X.length ∧ X.getD i 0 ≠ Y.getD i 0 := by
        by_contra hcon
        push_neg at hcon
        apply hXY
        apply List.ext_getElem heq
        intro i h1 h2
        have := hcon i h1
        rwa [List.getD_eq_getElem _ _ h1, List.getD_eq_getElem _ _ h2] at this
      refine strncmp_ne_of_mismatch _ 0 _ i (by rw [lenA, lenB]; omega) ?_
        (fun j hj => hz j (by omega))
      rw [hA i (by omega), hB i (by omega), getD_append_left X [10] hi,
        getD_append_left Y [10] (by omega)]
      exact hne
    · refine strncmp_ne_of_mismatch _ 0 _ Y.length (by rw [lenA, lenB]; omega) ?_
        (fun j hj => hz j (by omega))
      rw [hA Y.length (by omega), getD_append_left X [10] hgt, hB Y.length (by omega),
        getD_last]
      exact fun e0 => hX (e0 ▸ getD_mem X hgt)

/-- A byte stored inside a text. -/
theorem holds_update {buf : Buf} {b : Nat} {P Q : List Nat} {a : Nat} (v : Nat)
    (h : Holds buf b (P ++ a :: Q)) :
    Holds (Function.update buf (b + P.length) v) b (P ++ v :: Q) := by
  rw [holds_append, holds_cons] at h ⊢
  exact ⟨h.1.frame (fun i _ h2 => Function.update_noteq (by omega) _ _),
    Function.update_same _ _ _,
    h.2.2.frame (fun i h1 _ => Function.update_noteq (by omega) _ _)⟩

/-- The start of a pass of a line loop: the newline that ends the text read so far becomes a
space, and the text of one more line is that prefix followed by the line and a newline. -/
theorem line_prefix (b : Nat) (D : List (List Nat)) (buf : Buf)
    (hH : Holds buf b (seg_text D)) :
    ∃ P, P.length = (seg_text D).length ∧ (∀ x, seg_text (D ++ [x]) = P ++ (x ++ [10])) ∧
      Holds (if b < b + (seg_text D).length ∧ buf (b + (seg_text D).length - 1) = 10
          then Function.update buf (b + (seg_text D).length - 1) 32 else buf) b P ∧
      ∀ i < b, (if b < b + (seg_text D).length ∧ buf (b + (seg_text D).length - 1) = 10
          then Function.update buf (b + (seg_text D).length - 1) 32 else buf) i = buf i := by
  cases hd : D with
  | nil =>
    refine ⟨[], rfl, fun x => rfl, holds_nil _ _, fun i _ => ?_⟩
    simp only [seg_text, List.length_nil, Nat.add_zero, Nat.lt_irrefl, false_and, if_false]
  | cons l0 d =>
    rw [← hd]
    obtain ⟨X, e1, e2⟩ := seg_text_snoc D (by rw [hd]; simp)
    rw [e1] at hH ⊢
    have hlen : (X ++ [10]).length = X.length + 1 := by simp
    have hidx : b + (X ++ [10]).length - 1 = b + X.length := by rw [hlen]; omega
    have hlast : buf (b + (X ++ [10]).length - 1) = 10 := by
      have := hH X.length (by simp)
      rw [getD_last] at this
      rw [hidx]
      exact this
    rw [if_pos ⟨by rw [hlen]; omega, hlast⟩, hidx]
    refine ⟨X ++ [32], by simp, fun x => ?_, ?_, fun i hi => ?_⟩
    · rw [e2 x]
      simp
    · exact holds_update 32 hH
    · exact Function.update_noteq (by omega) _ _

/-! ## Reading lines -/

theorem take_line_spec : ∀ (l : List Nat) (k : Nat) (rest : List Nat), 10 ∉ l → l.length < k →
    take_line k (l ++ 10 :: rest) = l ++ [10] := by
  intro l
  induction l with
  | nil =>
    intro k rest _ hk
    obtain ⟨k, rfl⟩ : ∃ j, k = j + 1 := ⟨k - 1, by simp at hk; omega⟩
    simp [take_line]
  | cons a l ih =>
    intro k rest h hk
    obtain ⟨k, rfl⟩ : ∃ j, k = j + 1 := ⟨k - 1, by simp at hk; omega⟩
    have ha : a ≠ 10 := fun e => h (e ▸ List.mem_cons_self _ _)
    rw [List.cons_append, take_line, if_neg ha,
      ih k rest (fun hm => h (List.mem_cons_of_mem _ hm)) (by simp at hk; omega)]
    rfl

/-- What `fgets` does when a whole line fits: the line with its newline and a terminator
is stored, the position moves behind the newline, the end-of-file indicator stays. -/
theorem fgets_line (buf : Buf) (off : Nat) (size : Int) (f : Stream) (l rest : List Nat)
    (hd : f.data.drop f.pos = l ++ 10 :: rest) (hl : 10 ∉ l)
    (hs : (l.length : Int) + 1 < size) :
    fgets buf off size f = some (write_at buf off ((l ++ [10]) ++ [0]),
      ⟨f.data, f.pos + (l.length + 1), f.eof⟩) := by
  unfold fgets
  rw [if_neg (by omega)]
  have hk : l.length < (size - 1).toNat := by omega
  simp only [hd, take_line_spec l _ rest hl hk]
  rw [if_neg (by simp)]
  simp

/-- What `fgets` does at the end of the file: nothing is stored and the indicator is set. -/
theorem fgets_end (buf : Buf) (off : Nat) (size : Int) (f : Stream)
    (hd : f.data.drop f.pos = []) (hs : 1 < size) :
    fgets buf off size f = some (buf, ⟨f.data, f.pos, true⟩) := by
  unfold fgets
  rw [if_neg (by omega)]
  have hk : (size - 1).toNat ≠ 0 := by omega
  simp only [hd]
  obtain ⟨k, hk'⟩ : ∃ j, (size - 1).toNat = j + 1 := ⟨(size - 1).toNat - 1, by omega⟩
  rw [hk']
  simp [take_line]

theorem drop_line (data : List Nat) (pos : Nat) (l rest : List Nat)
    (hd : data.drop pos = l ++ 10 :: rest) : data.drop (pos + (l.length + 1)) = rest := by
  rw [← List.drop_drop, hd]
  have : l ++ 10 :: rest = (l ++ [10]) ++ rest := by simp
  rw [this]
  exact List.drop_left' (by simp)

theorem drop_bytes (data : List Nat) (pos : Nat) (A rest : List Nat)
    (hd : data.drop pos = A ++ rest) : data.drop (pos + A.length) = rest := by
  rw [← List.drop_drop, hd]
  exact List.drop_left' rfl

theorem store_lt (buf : Buf) {i : Nat} (v : Nat) (h : i < 4096) :
    store buf i v = some (Function.update buf i v) := by
  unfold store
  rw [if_pos h]

/-- What the tests of the line loops find at a line stored in the buffer. -/
theorem line_readouts {buf : Buf} {bp : Nat} {x : List Nat}
    (h : Holds buf bp ((x ++ [10]) ++ [0])) (hx : 10 ∉ x ∧ 0 ∉ x)
    (hb : bp + x.length + 1 < 4096) :
    ((buf bp ≠ 0 ∧ buf bp ≠ 10) ↔ x ≠ []) ∧
      ((str_is buf bp lit_PUUT = false ∧ str_is buf bp lit_POIS = false) ↔
        ¬ (x = [80, 85, 85, 84] ∨ x = [80, 79, 73, 83])) ∧
      (str_is buf bp [38, 10] = true ↔ x = [38]) ∧
      strlen buf bp = some (x.length + 1) := by
  obtain ⟨h10, h0⟩ := hx
  have h0' : 0 ∉ x ++ [10] := by
    simp only [List.mem_append, List.mem_singleton, not_or]
    exact ⟨h0, by decide⟩
  have cancel : ∀ y : List Nat, x ++ [10] = y ++ [10] ↔ x = y :=
    fun y => ⟨fun e => List.append_cancel_right e, fun e => by rw [e]⟩
  refine ⟨?_, ?_, ?_, ?_⟩
  · cases x with
    | nil =>
      have := h 0 (by simp)
      simp at this
      simp [this]
    | cons a x =>
      have := h 0 (by simp)
      simp at this
      have ha0 : a ≠ 0 := fun e => h0 (e ▸ List.mem_cons_self _ _)
      have ha10 : a ≠ 10 := fun e => h10 (e ▸ List.mem_cons_self _ _)
      simp [this, ha0, ha10]
  · rw [str_is_holds lit_PUUT (x ++ [10]) bp h h0' (by decide),
      str_is_holds lit_POIS (x ++ [10]) bp h h0' (by decide)]
    simp only [decide_eq_false_iff_not, not_or]
    exact and_congr (not_congr (cancel [80, 85, 85, 84])) (not_congr (cancel [80, 79, 73, 83]))
  · rw [str_is_holds [38, 10] (x ++ [10]) bp h h0' (by decide)]
    simp only [decide_eq_true_eq]
    exact cancel [38]
  · have := strlen_holds h h0' (by simp; omega)
    simpa using this

/-- What the tests of the line loops find when `fgets` has met the end of the file: the
bytes that the line before has left in the buffer. -/
theorem residue_readouts {buf : Buf} {bp : Nat} {R : List Nat} (h : Holds buf bp (R ++ [0]))
    (hR : R = [] ∨ R = [85, 85, 84, 10] ∨ R = [79, 73, 83, 10]) (hb : bp + R.length < 4096) :
    ((buf bp ≠ 0 ∧ buf bp ≠ 10) ↔ R ≠ []) ∧ str_is buf bp lit_PUUT = false ∧
      str_is buf bp lit_POIS = false ∧ str_is buf bp [38, 10] = false ∧
      strlen buf bp = some R.length := by
  have h0 : 0 ∉ R := by
    rcases hR with e | e | e <;> rw [e] <;> decide
  have hfirst := h 0 (by simp)
  refine ⟨?_, ?_, ?_, ?_, strlen_holds h h0 hb⟩
  · rcases hR with e | e | e <;> subst e <;> simp at hfirst <;> simp [hfirst]
  · rw [str_is_holds lit_PUUT R bp h h0 (by decide)]
    rcases hR with e | e | e <;> rw [e] <;> decide
  · rw [str_is_holds lit_POIS R bp h h0 (by decide)]
    rcases hR with e | e | e <;> rw [e] <;> decide
  · rw [str_is_holds [38, 10] R bp h h0 (by decide)]
    rcases hR with e | e | e <;> rw [e] <;> decide

/-- The end of a pass of a line loop: of a line `PUUT` or `POIS` a newline is kept, and the
rest of the line stays behind it. -/
theorem line_kept {buf : Buf} {b : Nat} {P x : List Nat}
    (h : Holds buf b (P ++ ((x ++ [10]) ++ [0]))) :
    Holds (if x = [80, 85, 85, 84] ∨ x = [80, 79, 73, 83]
        then Function.update buf (b + P.length) 10 else buf) b
      (P ++ (kept x ++ [10]) ++ residue x ++ [0]) := by
  rcases kept_cases x with ⟨n1, n2, e, r⟩ | ⟨e0, e, r⟩ | ⟨e0, e, r⟩
  · rw [if_neg (by simp [n1, n2]), e, r]
    simpa using h
  · rw [if_pos (Or.inl e0), e, r]
    subst e0
    have := holds_update 10 (show Holds buf b (P ++ 80 :: [85, 85, 84, 10, 0]) by simpa using h)
    simpa using this
  · rw [if_pos (Or.inr e0), e, r]
    subst e0
    have := holds_update 10 (show Holds buf b (P ++ 80 :: [79, 73, 83, 10, 0]) by simpa using h)
    simpa using this

/-- One pass of the first line loop on a line of the file. -/
theorem read_line1_spec (e : Nat) (D : List (List Nat)) (l rest : List Nat) (buf : Buf)
    (f : Stream) (empty : Nat → Int) (hl : 10 ∉ l ∧ 0 ∉ l)
    (hd : f.data.drop f.pos = l ++ 10 :: rest) (hH : Holds buf 0 (seg_text D))
    (hb : (seg_text D).length + (l.length + 1) ≤ 2047) :
    ∃ buf1, read_line1 e buf (seg_text D).length f empty
        = some (buf1, (seg_text (D ++ [kept l])).length,
            ⟨f.data, f.pos + (l.length + 1), f.eof⟩,
            if l = [] then empty else Function.update empty e 0) ∧
      Holds buf1 0 (seg_text (D ++ [kept l]) ++ residue l ++ [0]) := by
  obtain ⟨P, hPl, hPx, hP, _⟩ := line_prefix 0 D buf hH
  simp only [Nat.zero_add] at hP
  have hw := holds_write_behind hP ((l ++ [10]) ++ [0])
  rw [hPl, Nat.zero_add] at hw
  have hat : Holds (write_at
      (if 0 < (seg_text D).length ∧ buf ((seg_text D).length - 1) = 10
        then Function.update buf ((seg_text D).length - 1) 32 else buf)
      (seg_text D).length ((l ++ [10]) ++ [0])) (seg_text D).length
      ((l ++ [10]) ++ [0]) := holds_write_at _ _ _
  obtain ⟨r1, r2, _, r4⟩ := line_readouts hat hl (by omega)
  have hk := line_kept hw
  rw [Nat.zero_add, hPl, ← hPx (kept l)] at hk
  have hlen := seg_text_concat_length D (kept l)
  have hemp : (if write_at
        (if 0 < (seg_text D).length ∧ buf ((seg_text D).length - 1) = 10
          then Function.update buf ((seg_text D).length - 1) 32 else buf)
        (seg_text D).length ((l ++ [10]) ++ [0]) (seg_text D).length ≠ 0 ∧
      write_at
        (if 0 < (seg_text D).length ∧ buf ((seg_text D).length - 1) = 10
          then Function.update buf ((seg_text D).length - 1) 32 else buf)
        (seg_text D).length ((l ++ [10]) ++ [0]) (seg_text D).length ≠ 10
      then Function.update empty e 0 else empty)
      = if l = [] then empty else Function.update empty e 0 := by
    by_cases hl0 : l = []
    · rw [if_pos hl0, if_neg (fun hc => (r1.mp hc) hl0)]
    · rw [if_neg hl0, if_pos (r1.mpr hl0)]
  unfold read_line1
  simp only []
  rw [fgets_line _ _ _ f l rest hd hl.1 (by omega)]
  simp only [hemp]
  by_cases hsp : l = [80, 85, 85, 84] ∨ l = [80, 79, 73, 83]
  · rw [if_pos hsp] at hk
    have hkl : kept l = [] := by
      rcases kept_cases l with ⟨n1, n2, _, _⟩ | ⟨_, e, _⟩ | ⟨_, e, _⟩
      · exact absurd hsp (by simp [n1, n2])
      · exact e
      · exact e
    rw [if_neg (fun h => (r2.mp h) hsp), store_lt _ _ (show (seg_text D).length < 4096 by omega)]
    refine ⟨_, ?_, hk⟩
    rw [hlen, hkl]
    rfl
  · rw [if_neg hsp] at hk
    have hkl : kept l = l := by
      rcases kept_cases l with ⟨_, _, e, _⟩ | ⟨e0, _, _⟩ | ⟨e0, _, _⟩
      · exact e
      · exact absurd (Or.inl e0) hsp
      · exact absurd (Or.inr e0) hsp
    rw [if_pos (r2.mpr hsp), r4]
    refine ⟨_, ?_, hk⟩
    rw [hlen, hkl]

/-- One pass of the first line loop at the end of the file: nothing is read, the newline at
the end of the text becomes a space, and what the line before has left in the buffer joins
the text. -/
theorem read_line1_end (e : Nat) (D : List (List Nat)) (R : List Nat) (buf : Buf) (f : Stream)
    (empty : Nat → Int) (hD : D ≠ []) (hH : Holds buf 0 (seg_text D ++ R ++ [0]))
    (hR : R = [] ∨ R = [85, 85, 84, 10] ∨ R = [79, 73, 83, 10])
    (hd : f.data.drop f.pos = []) (hb : (seg_text D).length ≤ 2046) :
    ∃ buf1, read_line1 e buf (seg_text D).length f empty
        = some (buf1, (seg_text D).length + R.length, ⟨f.data, f.pos, true⟩,
            if R = [] then empty else Function.update empty e 0) ∧
      Holds buf1 0 ((seg_text D).dropLast ++ 32 :: R ++ [0]) := by
  obtain ⟨X, eX, _⟩ := seg_text_snoc D hD
  rw [eX] at hH hb ⊢
  have hlen : (X ++ [10]).length = X.length + 1 := by simp
  rw [hlen] at hb ⊢
  have hH' : Holds buf 0 (X ++ 10 :: (R ++ [0])) := by simpa using hH
  have hlast : buf (X.length + 1 - 1) = 10 := by
    have := (holds_cons.mp (holds_append.mp hH').2).1
    simpa using this
  have hu := holds_update 32 hH'
  simp only [Nat.zero_add] at hu
  have hat : Holds (Function.update buf X.length 32) (X.length + 1) (R ++ [0]) := by
    have := (holds_cons.mp (holds_append.mp hu).2).2
    simpa using this
  have hRl : R.length ≤ 4 := by
    rcases hR with e | e | e <;> rw [e] <;> decide
  obtain ⟨r1, r2, r3, _, r5⟩ := residue_readouts hat hR (by omega)
  refine ⟨Function.update buf X.length 32, ?_, ?_⟩
  · unfold read_line1
    simp only []
    rw [if_pos ⟨by omega, hlast⟩, show X.length + 1 - 1 = X.length by omega,
      fgets_end _ _ _ f hd (by push_cast; omega)]
    simp only [r2, r3, r5, and_self, if_true]
    by_cases hR0 : R = []
    · rw [if_pos hR0, if_neg (fun hc => (r1.mp hc) hR0)]
    · rw [if_neg hR0, if_pos (r1.mpr hR0)]
  · rw [List.dropLast_concat]
    simpa using hu

/-- The first line loop stops when the end of the file has been met. -/
theorem read_lines1_eof (e k : Nat) (buf : Buf) (bp : Nat) (f : Stream) (empty : Nat → Int)
    (h : f.eof = true) : read_lines1 e k buf bp f empty = some (buf, bp, f, empty) := by
  cases k with
  | zero => rfl
  | succ k => rw [read_lines1, if_pos h]

theorem blank_cons (l : List Nat) (seg : List (List Nat)) :
    Blank (l :: seg) ↔ l = [] ∧ Blank seg := by
  unfold Blank
  simp

theorem blank_single (l : List Nat) : Blank [l] ↔ l = [] := by
  unfold Blank
  simp

/-- The first line loop on a run of lines of the file: the text of the lines read so far
grows by what is kept of the run, the stream moves behind it, and the flag `empty` is cleared
unless every line of the run is empty. -/
theorem read_lines1_spec (e : Nat) : ∀ (init D : List (List Nat)) (l : List Nat) (buf : Buf)
    (f : Stream) (empty : Nat → Int) (rest : List Nat) (extra : Nat),
    (∀ x ∈ init ++ [l], 10 ∉ x ∧ 0 ∉ x) → f.eof = false →
    f.data.drop f.pos = file_bytes (init ++ [l]) ++ rest → Holds buf 0 (seg_text D) →
    (seg_text D).length + (file_bytes (init ++ [l])).length ≤ 2047 →
    ∃ buf1, read_lines1 e ((init ++ [l]).length + extra) buf (seg_text D).length f empty
        = read_lines1 e extra buf1 (seg_text (D ++ (init ++ [l]).map kept)).length
            ⟨f.data, f.pos + (file_bytes (init ++ [l])).length, false⟩
            (if Blank (init ++ [l]) then empty else Function.update empty e 0) ∧
      Holds buf1 0 (seg_text (D ++ (init ++ [l]).map kept) ++ residue l ++ [0]) := by
  intro init
  induction init with
  | nil =>
    intro D l buf f empty rest extra hp he hd hH hb
    have hd' : f.data.drop f.pos = l ++ 10 :: rest := by
      rw [hd]
      simp [file_bytes]
    have hbl : (file_bytes [l]).length = l.length + 1 := by simp [file_bytes]
    have hb' : (seg_text D).length + (file_bytes [l]).length ≤ 2047 := hb
    obtain ⟨buf1, e1, H1⟩ := read_line1_spec e D l _ buf f empty (hp l (by simp)) hd' hH
      (by omega)
    simp only [he] at e1
    refine ⟨buf1, ?_, H1⟩
    rw [show ([] ++ [l] : List (List Nat)).length + extra = extra + 1 by simp; omega,
      read_lines1, he]
    simp only [Bool.false_eq_true, if_false, e1, hbl, List.nil_append, blank_single,
      List.map_cons, List.map_nil]
  | cons a init ih =>
    intro D l buf f empty rest extra hp he hd hH hb
    simp only [List.cons_append] at hp hd hb ⊢
    have hpa := hp a (by simp)
    rw [file_bytes, List.append_assoc, List.cons_append] at hd
    have hlen : (file_bytes (a :: (init ++ [l]))).length
        = (a.length + 1) + (file_bytes (init ++ [l])).length := by
      simp [file_bytes]; omega
    obtain ⟨buf1, e1, H1⟩ := read_line1_spec e D a _ buf f empty hpa hd hH (by omega)
    simp only [he] at e1
    have H1' : Holds buf1 0 (seg_text (D ++ [kept a])) := by
      rw [List.append_assoc] at H1
      exact (holds_append.mp H1).1
    have L1 := seg_text_concat_length D (kept a)
    have K1 := kept_length a
    obtain ⟨buf2, e2, H2⟩ := ih (D ++ [kept a]) l buf1
      ⟨f.data, f.pos + (a.length + 1), false⟩
      (if a = [] then empty else Function.update empty e 0) rest extra
      (fun x hx => hp x (List.mem_cons_of_mem _ hx)) rfl
      (drop_line f.data f.pos a _ hd) H1' (by omega)
    have eapp : D ++ [kept a] ++ (init ++ [l]).map kept
        = D ++ (a :: (init ++ [l])).map kept := by
      simp
    rw [eapp] at e2 H2
    have hemp : (if Blank (init ++ [l]) then (if a = [] then empty else Function.update empty e 0)
        else Function.update (if a = [] then empty else Function.update empty e 0) e 0)
        = if Blank (a :: (init ++ [l])) then empty else Function.update empty e 0 := by
      simp only [blank_cons]
      by_cases ha : a = []
      · simp only [ha, if_true, true_and]
      · simp only [ha, if_false, false_and]
        split_ifs
        · rfl
        · exact Function.update_idem _ _ _
    refine ⟨buf2, ?_, H2⟩
    rw [List.length_cons,
      show (init ++ [l]).length + 1 + extra = ((init ++ [l]).length + extra) + 1 by omega,
      read_lines1, he]
    simp only [Bool.false_eq_true, if_false, e1]
    rw [e2, hemp, hlen]
    simp only [Nat.add_assoc]

theorem exists_concat {α : Type} (seg : List α) (hne : seg ≠ []) :
    ∃ init l, seg = init ++ [l] := by
  rcases List.eq_nil_or_concat seg with e | ⟨init, l, e⟩
  · exact absurd e hne
  · exact ⟨init, l, by simpa using e⟩

theorem unclosed_length (c : Nat) (seg : List (List Nat)) (hne : seg ≠ []) :
    (unclosed c seg).length = (seg_text (seg.map kept)).length
      + (if seg.length < c then (last_residue seg).length else 0) := by
  have hpos : 0 < (seg_text (seg.map kept)).length := by
    obtain ⟨X, eX, _⟩ := seg_text_snoc (seg.map kept) (by simpa using hne)
    rw [eX]
    simp
  unfold unclosed
  split_ifs
  · rw [List.length_append, List.length_dropLast, List.length_cons]
    omega
  · rfl

/-- The first line loop on a segment of the file: the lines of the segment are read, and at
the end of the file, met in a segment of fewer than `c` lines, one more pass joins to the
text what the last line has left in the buffer. -/
theorem read_lines1_all (e c : Nat) (seg : List (List Nat)) (buf : Buf) (f : Stream)
    (empty : Nat → Int) (rest : List Nat) (hne : seg ≠ []) (hlen : seg.length ≤ c)
    (hp : ∀ l ∈ seg, 10 ∉ l ∧ 0 ∉ l) (he : f.eof = false)
    (hd : f.data.drop f.pos = file_bytes seg ++ rest) (hend : seg.length < c → rest = [])
    (hb : (file_bytes seg).length + (if seg.length < c then 1 else 0) ≤ 2047) :
    ∃ buf1, read_lines1 e c buf 0 f empty
        = some (buf1, (unclosed c seg).length,
            ⟨f.data, f.pos + (file_bytes seg).length, decide (seg.length < c)⟩,
            if Blank seg then empty else Function.update empty e 0) ∧
      Holds buf1 0 (unclosed c seg) := by
  obtain ⟨init, l, rfl⟩ := exists_concat seg hne
  obtain ⟨extra, rfl⟩ : ∃ extra, c = (init ++ [l]).length + extra :=
    ⟨c - (init ++ [l]).length, by omega⟩
  have hbb : (file_bytes (init ++ [l])).length ≤ 2047 := by omega
  obtain ⟨buf1, e1, H1⟩ := read_lines1_spec e init [] l buf f empty rest extra hp he hd
    (holds_nil _ _) (by simp only [seg_text, List.length_nil]; omega)
  simp only [seg_text, List.length_nil, List.nil_append] at e1 H1
  have hM := seg_text_length ((init ++ [l]).map kept)
  have hK := file_bytes_kept (init ++ [l])
  have hUL := unclosed_length ((init ++ [l]).length + extra) (init ++ [l]) hne
  rw [last_residue_concat] at hUL
  rw [e1]
  by_cases hs : (init ++ [l]).length < (init ++ [l]).length + extra
  · obtain ⟨k, rfl⟩ : ∃ k, extra = k + 1 := ⟨extra - 1, by omega⟩
    rw [if_pos hs] at hb hUL
    obtain ⟨buf2, e2, H2⟩ := read_line1_end e ((init ++ [l]).map kept) (residue l) buf1
      ⟨f.data, f.pos + (file_bytes (init ++ [l])).length, false⟩
      (if Blank (init ++ [l]) then empty else Function.update empty e 0)
      (by simp) H1 (residue_cases l)
      (by rw [hend hs] at hd; exact drop_bytes _ _ _ _ (by simpa using hd)) (by omega)
    have hemp : (if residue l = []
        then (if Blank (init ++ [l]) then empty else Function.update empty e 0)
        else Function.update (if Blank (init ++ [l]) then empty else Function.update empty e 0)
          e 0) = if Blank (init ++ [l]) then empty else Function.update empty e 0 := by
      by_cases hr : residue l = []
      · rw [if_pos hr]
      · have hnb : ¬ Blank (init ++ [l]) := by
          intro hB
          have hl0 : l = [] := hB l (by simp)
          rw [hl0] at hr
          exact hr rfl
        rw [if_neg hr, if_neg hnb]
        exact Function.update_idem _ _ _
    refine ⟨buf2, ?_, ?_⟩
    · rw [read_lines1]
      simp only [Bool.false_eq_true, if_false, e2]
      rw [read_lines1_eof _ _ _ _ _ _ rfl, hemp, hUL, decide_eq_true hs]
    · unfold unclosed
      rw [if_pos hs, last_residue_concat]
      exact (holds_append.mp H2).1
  · have hex : extra = 0 := by omega
    subst hex
    rw [if_neg hs] at hUL
    refine ⟨buf1, ?_, ?_⟩
    · rw [read_lines1, hUL, decide_eq_false hs]
      rfl
    · unfold unclosed
      rw [if_neg hs]
      rw [List.append_assoc] at H1
      exact (holds_append.mp H1).1

/-! ## Reading a segment -/

/-- A byte stored behind a text. -/
theorem holds_stored {buf : Buf} {b : Nat} {A : List Nat} (v : Nat) (h : Holds buf b A) :
    Holds (Function.update buf (b + A.length) v) b (A ++ [v]) := by
  rw [holds_append]
  refine ⟨h.frame (fun i _ h2 => Function.update_noteq (by omega) _ _), ?_⟩
  rw [holds_cons]
  exact ⟨Function.update_same _ _ _, holds_nil _ _⟩

/-- A terminator stored behind a text. -/
theorem holds_terminated {buf : Buf} {b : Nat} {A : List Nat} (h : Holds buf b A) :
    Holds (Function.update buf (b + A.length) 0) b (A ++ [0]) :=
  holds_stored 0 h

/-- The statements after a line loop: a text that does not end with a newline gets one, and
the terminator is stored behind the text. -/
theorem terminate_spec {buf : Buf} {b : Nat} {A F : List Nat} (hA : A ≠ [])
    (h : Holds buf b A) (hF : F = if A.getLast? = some 10 then A else A ++ [10])
    (hb : b + F.length < 4096) :
    ∃ buf1, terminate buf b (b + A.length) = some (buf1, b + F.length) ∧
      Holds buf1 b (F ++ [0]) ∧ ∀ i < b, buf1 i = buf i := by
  obtain ⟨Z, a, rfl⟩ := exists_concat A hA
  rw [List.getLast?_concat] at hF
  have hlen : (Z ++ [a]).length = Z.length + 1 := by simp
  have hlast : buf (b + (Z ++ [a]).length - 1) = a := by
    have := h Z.length (by omega)
    rw [getD_last] at this
    rw [show b + (Z ++ [a]).length - 1 = b + Z.length by omega]
    exact this
  unfold terminate
  by_cases ha : a = 10
  · rw [if_pos (by rw [ha])] at hF
    subst hF
    have hcond : ¬ (b + (Z ++ [a]).length = b ∨ buf (b + (Z ++ [a]).length - 1) ≠ 10) := by
      rintro (h1 | h1)
      · omega
      · exact h1 (by rw [hlast, ha])
    rw [if_neg hcond, store_lt _ _ hb]
    exact ⟨_, rfl, holds_terminated h, fun i hi => Function.update_noteq (by omega) _ _⟩
  · rw [if_neg (by simpa using ha)] at hF
    subst hF
    have hFl : (Z ++ [a] ++ [10]).length = (Z ++ [a]).length + 1 := by simp
    rw [hFl] at hb
    have hcond : b + (Z ++ [a]).length = b ∨ buf (b + (Z ++ [a]).length - 1) ≠ 10 :=
      Or.inr (by rw [hlast]; exact ha)
    rw [if_pos hcond, store_lt _ _ (show b + (Z ++ [a]).length < 4096 by omega)]
    simp only []
    rw [store_lt _ _ (show b + (Z ++ [a]).length + 1 < 4096 by omega)]
    refine ⟨_, by rw [hFl]; rfl, ?_, fun i hi => ?_⟩
    · have := holds_terminated (holds_stored 10 h)
      rw [hFl] at this
      exact this
    · rw [Function.update_noteq (by omega), Function.update_noteq (by omega)]

/-- The text that a reading leaves in the buffer for a segment is the text at the end of the
line loop, closed by a newline unless it ends with one. -/
theorem stored_closes (c : Nat) (seg : List (List Nat)) (hne : seg ≠ []) :
    stored c seg = if (unclosed c seg).getLast? = some 10 then unclosed c seg
      else unclosed c seg ++ [10] := by
  obtain ⟨init, l, rfl⟩ := exists_concat seg hne
  obtain ⟨X, eX, _⟩ := seg_text_snoc ((init ++ [l]).map kept) (by simp)
  unfold stored unclosed
  rw [last_residue_concat, eX, List.dropLast_concat]
  by_cases hs : (init ++ [l]).length < c
  · simp only [if_pos hs]
    rcases residue_cases l with r | r | r
    · rw [r]
      simp
    · rw [r]
      simp
    · rw [r]
      simp
  · simp only [if_neg hs]
    rw [List.getLast?_concat, if_pos rfl]

/-- The text at the end of a line loop holds a byte and no terminator byte. -/
theorem unclosed_shape (c : Nat) (seg : List (List Nat)) (hne : seg ≠ [])
    (h : ∀ l ∈ seg, 10 ∉ l ∧ 0 ∉ l) : unclosed c seg ≠ [] ∧ 0 ∉ unclosed c seg := by
  have hM : ∀ l ∈ seg.map kept, 0 ∉ l := by
    intro l hl
    obtain ⟨x, hx, rfl⟩ := List.mem_map.mp hl
    exact (kept_clean (h x hx)).2
  obtain ⟨X, eX, _⟩ := seg_text_snoc (seg.map kept) (by simpa using hne)
  have h0 := seg_text_no_zero (seg.map kept) hM
  rw [eX] at h0
  have hX0 : 0 ∉ X := fun hm => h0 (List.mem_append_left _ hm)
  obtain ⟨init, l, rfl⟩ := exists_concat seg hne
  unfold unclosed
  rw [last_residue_concat, eX, List.dropLast_concat]
  by_cases hs : (init ++ [l]).length < c
  · rw [if_pos hs]
    refine ⟨by simp, ?_⟩
    simp only [List.mem_append, List.mem_cons, not_or]
    refine ⟨hX0, by decide, ?_⟩
    rcases residue_cases l with r | r | r <;> rw [r] <;> decide
  · rw [if_neg hs]
    exact ⟨by simp, by rw [← eX]; exact seg_text_no_zero _ hM⟩

theorem stored_ge_unclosed (c : Nat) (seg : List (List Nat)) (hne : seg ≠ []) :
    (unclosed c seg).length ≤ (stored c seg).length := by
  rw [stored_closes c seg hne]
  split_ifs
  · exact Nat.le_refl _
  · simp

theorem clean_amp {seg : List (List Nat)} (h : ∀ l ∈ seg, 10 ∉ l ∧ 0 ∉ l) :
    ∀ l ∈ seg.map amp, 10 ∉ l ∧ 0 ∉ l := by
  intro l hl
  obtain ⟨x, hx, rfl⟩ := List.mem_map.mp hl
  exact amp_clean (h x hx)

/-- The first half of the reading, on a segment of the file. -/
theorem read_chunk1_spec (e c : Nat) (seg : List (List Nat)) (buf : Buf) (f : Stream)
    (empty : Nat → Int) (rest : List Nat) (hne : seg ≠ []) (hlen : seg.length ≤ c)
    (hp : ∀ l ∈ seg, 10 ∉ l ∧ 0 ∉ l) (he : f.eof = false)
    (hd : f.data.drop f.pos = file_bytes seg ++ rest) (hend : seg.length < c → rest = [])
    (hb : (file_bytes seg).length + (if seg.length < c then 1 else 0) ≤ 2047) :
    ∃ buf1, read_chunk1 (c : Int) e buf f empty
        = some (buf1, (stored c seg).length,
            ⟨f.data, f.pos + (file_bytes seg).length, decide (seg.length < c)⟩,
            if Blank seg then empty else Function.update empty e 0) ∧
      Holds buf1 0 (stored c seg ++ [0]) := by
  obtain ⟨buf1, e1, H1⟩ := read_lines1_all e c seg buf f empty rest hne hlen hp he hd hend hb
  obtain ⟨hU, hU0⟩ := unclosed_shape c seg hne hp
  have hSL := stored_length c seg hne
  have hGE := stored_ge_unclosed c seg hne
  have H2 := holds_terminated H1
  simp only [Nat.zero_add] at H2
  obtain ⟨buf3, T, H3, _⟩ := terminate_spec hU ((holds_append.mp H2).1)
    (stored_closes c seg hne) (by omega)
  simp only [Nat.zero_add] at T
  refine ⟨buf3, ?_, H3⟩
  unfold read_chunk1
  simp only [Int.toNat_ofNat, e1, store_lt _ _ (show (unclosed c seg).length < 4096 by omega),
    strlen_holds H2 hU0 (by omega), T]

/-- One pass of the second line loop on a line of the file. -/
theorem read_line2_spec (b : Nat) (D : List (List Nat)) (l rest : List Nat) (buf : Buf)
    (f : Stream) (hl : 10 ∉ l ∧ 0 ∉ l)
    (hd : f.data.drop f.pos = l ++ 10 :: rest) (hH : Holds buf b (seg_text D))
    (hb : b + (seg_text D).length + (l.length + 1) + (if l = [38] then 1 else 0) ≤ 4095) :
    ∃ buf1, read_line2 buf b (b + (seg_text D).length) f
        = some (buf1, b + (seg_text (D ++ [kept (amp l)])).length,
            ⟨f.data, f.pos + (l.length + 1), f.eof⟩) ∧
      Holds buf1 b (seg_text (D ++ [kept (amp l)]) ++ residue (amp l) ++ [0]) ∧
      ∀ i < b, buf1 i = buf i := by
  obtain ⟨P, hPl, hPx, hP, hFr⟩ := line_prefix b D buf hH
  have hw := holds_write_behind hP ((l ++ [10]) ++ [0])
  rw [hPl] at hw
  have hat : Holds (write_at
      (if b < b + (seg_text D).length ∧ buf (b + (seg_text D).length - 1) = 10
        then Function.update buf (b + (seg_text D).length - 1) 32 else buf)
      (b + (seg_text D).length) ((l ++ [10]) ++ [0])) (b + (seg_text D).length)
      ((l ++ [10]) ++ [0]) := holds_write_at _ _ _
  obtain ⟨_, _, q3, _⟩ := line_readouts hat hl (by omega)
  have hFw : ∀ i < b, write_at
      (if b < b + (seg_text D).length ∧ buf (b + (seg_text D).length - 1) = 10
        then Function.update buf (b + (seg_text D).length - 1) 32 else buf)
      (b + (seg_text D).length) ((l ++ [10]) ++ [0]) i = buf i := by
    intro i hi
    rw [write_at_outside _ _ _ (Or.inl (by omega)), hFr i hi]
  -- the line after the rewriting of `&`
  have h3 : ∃ buf3, (if str_is (write_at
        (if b < b + (seg_text D).length ∧ buf (b + (seg_text D).length - 1) = 10
          then Function.update buf (b + (seg_text D).length - 1) 32 else buf)
        (b + (seg_text D).length) ((l ++ [10]) ++ [0])) (b + (seg_text D).length) [38, 10] = true
      then strcpy (write_at
        (if b < b + (seg_text D).length ∧ buf (b + (seg_text D).length - 1) = 10
          then Function.update buf (b + (seg_text D).length - 1) 32 else buf)
        (b + (seg_text D).length) ((l ++ [10]) ++ [0])) (b + (seg_text D).length) [101, 116, 10]
      else some (write_at
        (if b < b + (seg_text D).length ∧ buf (b + (seg_text D).length - 1) = 10
          then Function.update buf (b + (seg_text D).length - 1) 32 else buf)
        (b + (seg_text D).length) ((l ++ [10]) ++ [0]))) = some buf3 ∧
      Holds buf3 b (P ++ ((amp l ++ [10]) ++ [0])) ∧ ∀ i < b, buf3 i = buf i := by
    by_cases ha : l = [38]
    · rw [if_pos (q3.mpr ha)]
      rw [if_pos ha] at hb
      have hl1 : l.length = 1 := by rw [ha]; rfl
      have ea : amp l = [101, 116] := by rw [ha]; rfl
      unfold strcpy
      rw [if_pos (by simp only [List.length_cons, List.length_nil]; omega)]
      refine ⟨_, rfl, ?_, fun i hi => ?_⟩
      · have hpre := (holds_append.mp hw).1
        have := holds_write_behind hpre ([101, 116, 10] ++ [0])
        rw [hPl] at this
        rw [ea]
        exact this
      · rw [write_at_outside _ _ _ (Or.inl (by omega)), hFw i hi]
    · rw [if_neg (fun hc => ha (q3.mp hc))]
      refine ⟨_, rfl, ?_, hFw⟩
      unfold amp
      rw [if_neg ha]
      exact hw
  obtain ⟨buf3, e3, H3, F3⟩ := h3
  have hal := amp_length l
  have hat3 : Holds buf3 (b + (seg_text D).length) ((amp l ++ [10]) ++ [0]) := by
    have := (holds_append.mp H3).2
    rw [hPl] at this
    exact this
  obtain ⟨_, r2, _, r4⟩ := line_readouts hat3 (amp_clean hl) (by omega)
  have hk := line_kept H3
  rw [hPl, ← hPx (kept (amp l))] at hk
  have hlen := seg_text_concat_length D (kept (amp l))
  unfold read_line2
  simp only []
  rw [fgets_line _ _ _ f l rest hd hl.1 (by push_cast; omega)]
  simp only [e3]
  by_cases hsp : amp l = [80, 85, 85, 84] ∨ amp l = [80, 79, 73, 83]
  · rw [if_pos hsp] at hk
    have hkl : kept (amp l) = [] := by
      rcases kept_cases (amp l) with ⟨n1, n2, _, _⟩ | ⟨_, e, _⟩ | ⟨_, e, _⟩
      · exact absurd hsp (by simp [n1, n2])
      · exact e
      · exact e
    rw [if_neg (fun h => (r2.mp h) hsp),
      store_lt _ _ (show b + (seg_text D).length < 4096 by omega)]
    refine ⟨_, ?_, hk, fun i hi => ?_⟩
    · rw [hlen, hkl]
      rfl
    · rw [Function.update_noteq (by omega), F3 i hi]
  · rw [if_neg hsp] at hk
    have hkl : kept (amp l) = amp l := by
      rcases kept_cases (amp l) with ⟨_, _, e, _⟩ | ⟨e0, _, _⟩ | ⟨e0, _, _⟩
      · exact e
      · exact absurd (Or.inl e0) hsp
      · exact absurd (Or.inr e0) hsp
    rw [if_pos (r2.mpr hsp), r4]
    refine ⟨_, ?_, hk, F3⟩
    rw [hlen, hkl]
    simp only [Nat.add_assoc]

/-- One pass of the second line loop at the end of the file. -/
theorem read_line2_end (b : Nat) (D : List (List Nat)) (R : List Nat) (buf : Buf) (f : Stream)
    (hD : D ≠ []) (hH : Holds buf b (seg_text D ++ R ++ [0]))
    (hR : R = [] ∨ R = [85, 85, 84, 10] ∨ R = [79, 73, 83, 10])
    (hd : f.data.drop f.pos = []) (hb : b + (seg_text D).length + R.length ≤ 4094) :
    ∃ buf1, read_line2 buf b (b + (seg_text D).length) f
        = some (buf1, b + (seg_text D).length + R.length, ⟨f.data, f.pos, true⟩) ∧
      Holds buf1 b ((seg_text D).dropLast ++ 32 :: R ++ [0]) ∧ ∀ i < b, buf1 i = buf i := by
  obtain ⟨X, eX, _⟩ := seg_text_snoc D hD
  rw [eX] at hH hb ⊢
  have hlen : (X ++ [10]).length = X.length + 1 := by simp
  rw [hlen] at hb ⊢
  have hH' : Holds buf b (X ++ 10 :: (R ++ [0])) := by simpa using hH
  have hlast : buf (b + (X.length + 1) - 1) = 10 := by
    have := (holds_cons.mp (holds_append.mp hH').2).1
    rw [show b + (X.length + 1) - 1 = b + X.length by omega]
    exact this
  have hu := holds_update 32 hH'
  have hat : Holds (Function.update buf (b + X.length) 32) (b + (X.length + 1)) (R ++ [0]) := by
    have := (holds_cons.mp (holds_append.mp hu).2).2
    rw [show b + (X.length + 1) = b + X.length + 1 by omega]
    exact this
  obtain ⟨_, r2, r3, r4, r5⟩ := residue_readouts hat hR (by omega)
  refine ⟨Function.update buf (b + X.length) 32, ?_, ?_, fun i hi => ?_⟩
  · unfold read_line2
    simp only []
    rw [if_pos ⟨by omega, hlast⟩, show b + (X.length + 1) - 1 = b + X.length by omega,
      fgets_end _ _ _ f hd (by push_cast; omega)]
    simp only [r2, r3, r4, r5, and_self, if_true, Bool.false_eq_true, if_false]
  · rw [List.dropLast_concat]
    simpa using hu
  · exact Function.update_noteq (by omega) _ _

/-- The second line loop stops when the end of the file has been met. -/
theorem read_lines2_eof (b k : Nat) (buf : Buf) (bp : Nat) (f : Stream)
    (h : f.eof = true) : read_lines2 b k buf bp f = some (buf, bp, f) := by
  cases k with
  | zero => rfl
  | succ k => rw [read_lines2, if_pos h]

theorem count_amp_cons (a : List Nat) (seg : List (List Nat)) :
    (a :: seg).count [38] = seg.count [38] + (if a = [38] then 1 else 0) := by
  rw [List.count_cons]
  simp only [beq_iff_eq]

/-- The second line loop on a run of lines of the file. -/
theorem read_lines2_spec (b : Nat) : ∀ (init D : List (List Nat)) (l : List Nat) (buf : Buf)
    (f : Stream) (rest : List Nat) (extra : Nat),
    (∀ x ∈ init ++ [l], 10 ∉ x ∧ 0 ∉ x) → f.eof = false →
    f.data.drop f.pos = file_bytes (init ++ [l]) ++ rest → Holds buf b (seg_text D) →
    b + (seg_text D).length + ((file_bytes (init ++ [l])).length + (init ++ [l]).count [38])
      ≤ 4095 →
    ∃ buf1, read_lines2 b ((init ++ [l]).length + extra) buf (b + (seg_text D).length) f
        = read_lines2 b extra buf1
            (b + (seg_text (D ++ ((init ++ [l]).map amp).map kept)).length)
            ⟨f.data, f.pos + (file_bytes (init ++ [l])).length, false⟩ ∧
      Holds buf1 b (seg_text (D ++ ((init ++ [l]).map amp).map kept) ++ residue (amp l) ++ [0]) ∧
      ∀ i < b, buf1 i = buf i := by
  intro init
  induction init with
  | nil =>
    intro D l buf f rest extra hp he hd hH hb
    have hd' : f.data.drop f.pos = l ++ 10 :: rest := by
      rw [hd]
      simp [file_bytes]
    have hbl : (file_bytes [l]).length = l.length + 1 := by simp [file_bytes]
    have hcl : ([l] : List (List Nat)).count [38] = if l = [38] then 1 else 0 := by
      rw [count_amp_cons]
      simp
    have hb' : b + (seg_text D).length + ((file_bytes [l]).length
        + ([l] : List (List Nat)).count [38]) ≤ 4095 := hb
    obtain ⟨buf1, e1, H1, F1⟩ := read_line2_spec b D l _ buf f (hp l (by simp)) hd' hH
      (by omega)
    simp only [he] at e1
    refine ⟨buf1, ?_, H1, F1⟩
    rw [show ([] ++ [l] : List (List Nat)).length + extra = extra + 1 by simp; omega,
      read_lines2, he]
    simp only [Bool.false_eq_true, if_false, e1, hbl, List.nil_append, List.map_cons,
      List.map_nil]
  | cons a init ih =>
    intro D l buf f rest extra hp he hd hH hb
    simp only [List.cons_append] at hp hd hb ⊢
    have hpa := hp a (by simp)
    rw [file_bytes, List.append_assoc, List.cons_append] at hd
    have hlen : (file_bytes (a :: (init ++ [l]))).length
        = (a.length + 1) + (file_bytes (init ++ [l])).length := by
      simp [file_bytes]; omega
    have hcnt := count_amp_cons a (init ++ [l])
    obtain ⟨buf1, e1, H1, F1⟩ := read_line2_spec b D a _ buf f hpa hd hH (by omega)
    simp only [he] at e1
    have H1' : Holds buf1 b (seg_text (D ++ [kept (amp a)])) := by
      rw [List.append_assoc] at H1
      exact (holds_append.mp H1).1
    have L1 := seg_text_concat_length D (kept (amp a))
    have K1 := kept_length (amp a)
    have A1 := amp_length a
    obtain ⟨buf2, e2, H2, F2⟩ := ih (D ++ [kept (amp a)]) l buf1
      ⟨f.data, f.pos + (a.length + 1), false⟩ rest extra
      (fun x hx => hp x (List.mem_cons_of_mem _ hx)) rfl
      (drop_line f.data f.pos a _ hd) H1' (by omega)
    have eapp : D ++ [kept (amp a)] ++ ((init ++ [l]).map amp).map kept
        = D ++ ((a :: (init ++ [l])).map amp).map kept := by
      simp
    rw [eapp] at e2 H2
    refine ⟨buf2, ?_, H2, fun i hi => by rw [F2 i hi, F1 i hi]⟩
    rw [List.length_cons,
      show (init ++ [l]).length + 1 + extra = ((init ++ [l]).length + extra) + 1 by omega,
      read_lines2, he]
    simp only [Bool.false_eq_true, if_false, e1]
    rw [e2, hlen]
    simp only [Nat.add_assoc]

/-- What is kept of a segment, with what its last line leaves in the buffer, is not longer
than the segment. -/
theorem kept_text_length (seg : List (List Nat)) (hne : seg ≠ []) :
    (seg_text (seg.map kept)).length + (last_residue seg).length ≤ (file_bytes seg).length := by
  obtain ⟨init, l, rfl⟩ := exists_concat seg hne
  have h1 := file_bytes_kept init
  have h2 := kept_length l
  rw [last_residue_concat, List.map_append, List.map_singleton, seg_text_concat_length,
    seg_text_length, file_bytes_append]
  simp only [file_bytes, List.length_append, List.length_cons, List.length_nil]
  omega

/-- The second line loop on a segment of the file. -/
theorem read_lines2_all (b c : Nat) (seg : List (List Nat)) (buf : Buf) (f : Stream)
    (rest : List Nat) (hne : seg ≠ []) (hlen : seg.length ≤ c)
    (hp : ∀ l ∈ seg, 10 ∉ l ∧ 0 ∉ l) (he : f.eof = false)
    (hd : f.data.drop f.pos = file_bytes seg ++ rest) (hend : seg.length < c → rest = [])
    (hb : b + ((file_bytes seg).length + seg.count [38] + (if seg.length < c then 1 else 0))
      ≤ 4094) :
    ∃ buf1, read_lines2 b c buf b f
        = some (buf1, b + (unclosed c (seg.map amp)).length,
            ⟨f.data, f.pos + (file_bytes seg).length, decide (seg.length < c)⟩) ∧
      Holds buf1 b (unclosed c (seg.map amp)) ∧ ∀ i < b, buf1 i = buf i := by
  obtain ⟨init, l, rfl⟩ := exists_concat seg hne
  obtain ⟨extra, rfl⟩ : ∃ extra, c = (init ++ [l]).length + extra :=
    ⟨c - (init ++ [l]).length, by omega⟩
  obtain ⟨buf1, e1, H1, F1⟩ := read_lines2_spec b init [] l buf f rest extra hp he hd
    (holds_nil _ _) (by simp only [seg_text, List.length_nil]; omega)
  simp only [seg_text, List.length_nil, List.nil_append, Nat.add_zero] at e1 H1
  have hmap : (init ++ [l]).map amp = init.map amp ++ [amp l] := by simp
  have hM := seg_text_length (((init ++ [l]).map amp).map kept)
  have hK := file_bytes_kept ((init ++ [l]).map amp)
  have hA := file_bytes_amp (init ++ [l])
  have hLR : last_residue ((init ++ [l]).map amp) = residue (amp l) := by
    rw [hmap, last_residue_concat]
  have hKT := kept_text_length ((init ++ [l]).map amp) (by simp)
  rw [hLR] at hKT
  have hUL := unclosed_length ((init ++ [l]).length + extra) ((init ++ [l]).map amp)
    (by simp)
  rw [List.length_map, hLR] at hUL
  rw [e1]
  by_cases hs : (init ++ [l]).length < (init ++ [l]).length + extra
  · obtain ⟨k, rfl⟩ : ∃ k, extra = k + 1 := ⟨extra - 1, by omega⟩
    rw [if_pos hs] at hb hUL
    obtain ⟨buf2, e2, H2, F2⟩ := read_line2_end b (((init ++ [l]).map amp).map kept)
      (residue (amp l)) buf1
      ⟨f.data, f.pos + (file_bytes (init ++ [l])).length, false⟩
      (by simp) H1 (residue_cases (amp l))
      (by rw [hend hs] at hd; exact drop_bytes _ _ _ _ (by simpa using hd)) (by omega)
    refine ⟨buf2, ?_, ?_, fun i hi => by rw [F2 i hi, F1 i hi]⟩
    · rw [read_lines2]
      simp only [Bool.false_eq_true, if_false, e2]
      rw [read_lines2_eof _ _ _ _ _ rfl, hUL, decide_eq_true hs, Nat.add_assoc]
    · unfold unclosed
      rw [List.length_map, if_pos hs, hLR]
      exact (holds_append.mp H2).1
  · have hex : extra = 0 := by omega
    subst hex
    rw [if_neg hs] at hUL
    refine ⟨buf1, ?_, ?_, F1⟩
    · rw [read_lines2, hUL, decide_eq_false hs, Nat.add_zero]
    · unfold unclosed
      rw [List.length_map, if_neg hs]
      rw [List.append_assoc] at H1
      exact (holds_append.mp H1).1

/-- The second half of the reading, on a segment of the file. -/
theorem read_chunk2_spec (b c : Nat) (seg : List (List Nat)) (buf : Buf) (f : Stream)
    (rest : List Nat) (hne : seg ≠ []) (hlen : seg.length ≤ c)
    (hp : ∀ l ∈ seg, 10 ∉ l ∧ 0 ∉ l) (he : f.eof = false)
    (hd : f.data.drop f.pos = file_bytes seg ++ rest) (hend : seg.length < c → rest = [])
    (hb : b + ((file_bytes seg).length + seg.count [38] + (if seg.length < c then 1 else 0))
      ≤ 4094) :
    ∃ buf1, read_chunk2 (c : Int) buf b f
        = some (buf1, b + (stored c (seg.map amp)).length,
            ⟨f.data, f.pos + (file_bytes seg).length, decide (seg.length < c)⟩) ∧
      Holds buf1 b (stored c (seg.map amp) ++ [0]) ∧ ∀ i < b, buf1 i = buf i := by
  have hne' : seg.map amp ≠ [] := by simpa using hne
  obtain ⟨buf1, e1, H1, F1⟩ := read_lines2_all b c seg buf f rest hne hlen hp he hd hend
    (by omega)
  obtain ⟨hU, _⟩ := unclosed_shape c (seg.map amp) hne' (clean_amp hp)
  obtain ⟨Z, eZ, _, hZ0⟩ := stored_shape c (seg.map amp) hne' (clean_amp hp)
  have hSL := stored_length c (seg.map amp) hne'
  rw [List.length_map, file_bytes_amp] at hSL
  obtain ⟨buf2, T, H2, F2⟩ := terminate_spec hU H1 (stored_closes c (seg.map amp) hne')
    (by omega)
  have h0 : 0 ∉ stored c (seg.map amp) := by
    rw [eZ]
    simp only [List.mem_append, List.mem_singleton, not_or]
    exact ⟨hZ0, by decide⟩
  refine ⟨buf2, ?_, H2, fun i hi => by rw [F2 i hi, F1 i hi]⟩
  unfold read_chunk2
  simp only [Int.toNat_ofNat, e1, T, strlen_holds H2 h0 (by omega)]

/-! ## One pass of the segment loop -/

theorem at_line_drop (ls : List (List Nat)) (j : Nat) :
    (at_line ls j).data.drop (at_line ls j).pos = file_bytes (ls.drop j) := by
  unfold at_line
  simp only
  conv_lhs => rw [← List.take_append_drop j ls, file_bytes_append]
  rw [List.take_append_drop]
  exact List.drop_left' rfl

theorem at_line_segment {c : Nat} {ls : List (List Nat)} (s : Nat) :
    (at_line ls (s * c)).data.drop (at_line ls (s * c)).pos
      = file_bytes (segment c ls s) ++ file_bytes (ls.drop ((s + 1) * c)) := by
  rw [at_line_drop, drop_segment c ls s, file_bytes_append]

theorem at_line_next (c : Nat) (ls : List (List Nat)) (s : Nat) :
    (⟨(at_line ls (s * c)).data,
      (at_line ls (s * c)).pos + (file_bytes (segment c ls s)).length, false⟩ : Stream)
      = at_line ls ((s + 1) * c) := by
  unfold at_line
  simp only [Stream.mk.injEq, true_and, and_true]
  rw [← List.length_append, ← file_bytes_append]
  congr 2
  unfold segment
  rw [Nat.add_mul, Nat.one_mul, List.take_add]

theorem segment_le (c : Nat) (ls : List (List Nat)) (s : Nat) : (segment c ls s).length ≤ c := by
  rw [segment_length]
  exact Nat.min_le_left _ _

theorem fits_bound {c : Nat} {seg : List (List Nat)} (h : Fits c seg) :
    (file_bytes seg).length + (if seg.length < c then 1 else 0) ≤ 2047 ∧
      (file_bytes seg).length + seg.count [38] + (if seg.length < c then 1 else 0) ≤ 2047 := by
  unfold Fits at h
  exact ⟨by omega, h⟩

/-- One pass of the segment loop on two files of a corpus: the streams move to the next
segment, `unique` of the second file is cleared when the readings leave the same text in the
buffer and the second file comes first, `empty` of the first file is cleared unless every line
of the segment is empty. -/
theorem segment_step_spec (zout : List Nat → Int) {c L : Nat} (leafs chunks f1i f2i ch : Nat)
    (t : Tables) (ls1 ls2 : List (List Nat)) (hc : 0 < c) (hL : 0 < L)
    (h1 : ls1.length = L) (h2 : ls2.length = L)
    (hp1 : ∀ l ∈ ls1, 10 ∉ l ∧ 0 ∉ l) (hp2 : ∀ l ∈ ls2, 10 ∉ l ∧ 0 ∉ l)
    (hs1 : ∀ s < seg_count c L, Fits c (segment c ls1 s))
    (hs2 : ∀ s < seg_count c L, Fits c (segment c ls2 s))
    (hch : ch < seg_count c L) (heq : f2i = f1i → ls2 = ls1) :
    ∃ t1 f1a f2a, segment_step zout (c : Int) leafs chunks f1i f2i ch t (at_line ls1 (ch * c))
        (at_line ls2 (ch * c)) = some (t1, f1a, f2a) ∧
      f1a.data = file_bytes ls1 ∧
      (ch + 1 < seg_count c L →
        f1a = at_line ls1 ((ch + 1) * c) ∧ f2a = at_line ls2 ((ch + 1) * c)) ∧
      t1.unique = (if stored c (segment c ls1 ch) = stored c ((segment c ls2 ch).map amp) ∧
          f2i < f1i
        then Function.update t.unique (f2i * chunks + ch) 0 else t.unique) ∧
      t1.empty = (if Blank (segment c ls1 ch) then t.empty
        else Function.update t.empty (f1i * chunks + ch) 0) := by
  have ne1 : segment c ls1 ch ≠ [] := segment_ne_nil hc hL h1 hch
  have ne2 : segment c ls2 ch ≠ [] := segment_ne_nil hc hL h2 hch
  have ne2' : (segment c ls2 ch).map amp ≠ [] := by simpa using ne2
  have le1 := segment_le c ls1 ch
  have le2 := segment_le c ls2 ch
  have p1 : ∀ l ∈ segment c ls1 ch, 10 ∉ l ∧ 0 ∉ l := fun l hl => hp1 l (segment_mem hl)
  have p2 : ∀ l ∈ segment c ls2 ch, 10 ∉ l ∧ 0 ∉ l := fun l hl => hp2 l (segment_mem hl)
  have end1 : (segment c ls1 ch).length < c → file_bytes (ls1.drop ((ch + 1) * c)) = [] := by
    intro h
    rw [segment_short_end h]
    rfl
  have end2 : (segment c ls2 ch).length < c → file_bytes (ls2.drop ((ch + 1) * c)) = [] := by
    intro h
    rw [segment_short_end h]
    rfl
  obtain ⟨b1, _⟩ := fits_bound (hs1 ch hch)
  obtain ⟨_, b2⟩ := fits_bound (hs2 ch hch)
  have sl1 := stored_length c (segment c ls1 ch) ne1
  obtain ⟨buf1, e1, H1⟩ := read_chunk1_spec (f1i * chunks + ch) c (segment c ls1 ch) t.buf
    (at_line ls1 (ch * c)) t.empty _ ne1 le1 p1 rfl (at_line_segment ch) end1 b1
  have hg : (if f2i = f1i
      then fseek (⟨(at_line ls1 (ch * c)).data,
          (at_line ls1 (ch * c)).pos + (file_bytes (segment c ls1 ch)).length,
          decide ((segment c ls1 ch).length < c)⟩ : Stream) (at_line ls1 (ch * c)).pos
      else at_line ls2 (ch * c)) = at_line ls2 (ch * c) := by
    by_cases e : f2i = f1i
    · rw [if_pos e, heq e]
      rfl
    · rw [if_neg e]
  obtain ⟨buf2, e2, H2, F2⟩ := read_chunk2_spec (stored c (segment c ls1 ch)).length c
    (segment c ls2 ch) buf1 (at_line ls2 (ch * c)) _ ne2 le2 p2 rfl
    (at_line_segment ch) end2 (by omega)
  obtain ⟨X, eX, hX, hX0⟩ := stored_shape c (segment c ls1 ch) ne1 p1
  obtain ⟨Y, eY, hY, _⟩ := stored_shape c ((segment c ls2 ch).map amp) ne2' (clean_amp p2)
  have HA : Holds buf2 0 (X ++ [10]) := by
    rw [← eX]
    exact ((holds_append.mp H1).1).frame (fun i _ hi => F2 i (by omega))
  have HB : Holds buf2 (X ++ [10]).length (Y ++ [10]) := by
    rw [← eX, ← eY]
    exact (holds_append.mp H2).1
  have cmp := compare_texts HA HB hX hY hX0
  rw [← eX, ← eY] at cmp
  have hfin : (if f2i = f1i
      then (⟨(at_line ls2 (ch * c)).data,
          (at_line ls2 (ch * c)).pos + (file_bytes (segment c ls2 ch)).length,
          decide ((segment c ls2 ch).length < c)⟩ : Stream)
      else ⟨(at_line ls1 (ch * c)).data,
          (at_line ls1 (ch * c)).pos + (file_bytes (segment c ls1 ch)).length,
          decide ((segment c ls1 ch).length < c)⟩)
      = ⟨(at_line ls1 (ch * c)).data,
          (at_line ls1 (ch * c)).pos + (file_bytes (segment c ls1 ch)).length,
          decide ((segment c ls1 ch).length < c)⟩ := by
    by_cases e : f2i = f1i
    · rw [if_pos e, heq e]
    · rw [if_neg e]
  unfold segment_step
  simp only [e1, hg, e2, hfin]
  refine ⟨_, _, _, rfl, rfl, fun hnext => ?_, ?_, rfl⟩
  · have f1 := segment_full hc h1 hnext
    have f2 := segment_full hc h2 hnext
    rw [f1, f2, decide_eq_false (Nat.lt_irrefl c), ← f1, at_line_next, f1, ← f2, at_line_next]
    exact ⟨rfl, rfl⟩
  · simp only [cmp, decide_eq_true_eq]

/-! ## The loops of the builder -/

theorem at_line_zero (ls : List (List Nat)) : at_line ls 0 = ⟨file_bytes ls, 0, false⟩ := by
  unfold at_line
  simp [file_bytes]

/-- The segment loop for a pair of files of a corpus, after `k` passes. -/
theorem segment_loop_spec (zout : List Nat → Int) {c L : Nat} (leafs f1i f2i : Nat)
    (t : Tables) (ls1 ls2 : List (List Nat)) (hc : 0 < c) (hL : 0 < L)
    (h1 : ls1.length = L) (h2 : ls2.length = L)
    (hp1 : ∀ l ∈ ls1, 10 ∉ l ∧ 0 ∉ l) (hp2 : ∀ l ∈ ls2, 10 ∉ l ∧ 0 ∉ l)
    (hs1 : ∀ s < seg_count c L, Fits c (segment c ls1 s))
    (hs2 : ∀ s < seg_count c L, Fits c (segment c ls2 s))
    (heq : f2i = f1i → ls2 = ls1) : ∀ k ≤ seg_count c L,
    ∃ t1 f1a f2a, segment_loop zout (c : Int) leafs (seg_count c L) f1i f2i t (at_line ls1 0)
        (at_line ls2 0) k = some (t1, f1a, f2a) ∧
      f1a.data = file_bytes ls1 ∧
      (k < seg_count c L → f1a = at_line ls1 (k * c) ∧ f2a = at_line ls2 (k * c)) ∧
      (∀ w s, s < seg_count c L → t1.unique (w * seg_count c L + s)
        = if w = f2i ∧ s < k ∧ f2i < f1i ∧
            stored c (segment c ls1 s) = stored c ((segment c ls2 s).map amp)
          then 0 else t.unique (w * seg_count c L + s)) ∧
      (∀ w s, s < seg_count c L → t1.empty (w * seg_count c L + s)
        = if w = f1i ∧ s < k ∧ ¬ Blank (segment c ls1 s)
          then 0 else t.empty (w * seg_count c L + s)) := by
  intro k
  induction k with
  | zero =>
    intro _
    refine ⟨t, at_line ls1 0, at_line ls2 0, ?_, rfl, fun _ => ?_, fun w s _ => ?_,
      fun w s _ => ?_⟩
    · rw [segment_loop]
    · rw [Nat.zero_mul]
      exact ⟨rfl, rfl⟩
    · rw [if_neg (by omega)]
    · rw [if_neg (by omega)]
  | succ k ih =>
    intro hk
    obtain ⟨t1, f1a, f2a, e1, _, hst, U1, E1⟩ := ih (by omega)
    obtain ⟨rfl, rfl⟩ := hst (by omega)
    obtain ⟨t2, f1b, f2b, e2, d2, n2, U2, E2⟩ := segment_step_spec zout leafs (seg_count c L)
      f1i f2i k t1 ls1 ls2 hc hL h1 h2 hp1 hp2 hs1 hs2 (by omega) heq
    refine ⟨t2, f1b, f2b, ?_, d2, n2, fun w s hs => ?_, fun w s hs => ?_⟩
    · rw [segment_loop, e1]
      exact e2
    · rw [U2]
      by_cases hcell : w = f2i ∧ s = k
      · obtain ⟨rfl, rfl⟩ := hcell
        by_cases hd : stored c (segment c ls1 s) = stored c ((segment c ls2 s).map amp) ∧ w < f1i
        · rw [if_pos hd, Function.update_same, if_pos ⟨rfl, by omega, hd.2, hd.1⟩]
        · rw [if_neg hd, U1 _ _ hs, if_neg (by omega),
            if_neg (fun h => hd ⟨h.2.2.2, h.2.2.1⟩)]
      · have hne : w * seg_count c L + s ≠ f2i * seg_count c L + k :=
          fun e => hcell (cell_inj e hs (by omega))
        have hstep : (if stored c (segment c ls1 k) = stored c ((segment c ls2 k).map amp) ∧
              f2i < f1i
            then Function.update t1.unique (f2i * seg_count c L + k) 0 else t1.unique)
              (w * seg_count c L + s)
            = t1.unique (w * seg_count c L + s) := by
          split_ifs
          · exact Function.update_noteq hne _ _
          · rfl
        rw [hstep, U1 w s hs]
        apply if_congr _ rfl rfl
        constructor
        · rintro ⟨a, b, c1, d⟩
          exact ⟨a, by omega, c1, d⟩
        · rintro ⟨a, b, c1, d⟩
          refine ⟨a, ?_, c1, d⟩
          have : s ≠ k := fun e => hcell ⟨a, e⟩
          omega
    · rw [E2]
      by_cases hcell : w = f1i ∧ s = k
      · obtain ⟨rfl, rfl⟩ := hcell
        by_cases hd : Blank (segment c ls1 s)
        · rw [if_pos hd, E1 _ _ hs, if_neg (by omega), if_neg (fun h => h.2.2 hd)]
        · rw [if_neg hd, Function.update_same, if_pos ⟨rfl, by omega, hd⟩]
      · have hne : w * seg_count c L + s ≠ f1i * seg_count c L + k :=
          fun e => hcell (cell_inj e hs (by omega))
        have hstep : (if Blank (segment c ls1 k) then t1.empty
            else Function.update t1.empty (f1i * seg_count c L + k) 0) (w * seg_count c L + s)
            = t1.empty (w * seg_count c L + s) := by
          split_ifs
          · rfl
          · exact Function.update_noteq hne _ _
        rw [hstep, E1 w s hs]
        apply if_congr _ rfl rfl
        constructor
        · rintro ⟨a, b, d⟩
          exact ⟨a, by omega, d⟩
        · rintro ⟨a, b, d⟩
          refine ⟨a, ?_, d⟩
          have : s ≠ k := fun e => hcell ⟨a, e⟩
          omega

theorem getD_map_file_bytes (lines : List (List (List Nat))) (i : Nat) :
    (lines.map file_bytes).getD i [] = file_bytes (lines.getD i []) := by
  simp only [List.getD_eq_getElem?_getD, List.getElem?_map]
  cases lines[i]? with
  | none => rfl
  | some x => rfl

theorem getD_mem_lines (lines : List (List (List Nat))) {i : Nat} (h : i < lines.length) :
    lines.getD i [] ∈ lines := by
  rw [List.getD_eq_getElem _ _ h]
  exact List.getElem_mem h

/-- The body of the inner file loop on a corpus. -/
theorem pair_step_spec (zout : List Nat → Int) {c L : Nat} (lines : List (List (List Nat)))
    (hP : Corpus c L lines) (f1i f2i : Nat) (hf1 : f1i < lines.length)
    (hf2 : f2i < lines.length) (t : Tables) (f1 : Stream)
    (hdata : f1.data = file_bytes (lines.getD f1i [])) :
    ∃ t1 f1a, pair_step zout (c : Int) (lines.map file_bytes) (seg_count c L) f1i f2i t f1
        = some (t1, f1a) ∧
      f1a.data = file_bytes (lines.getD f1i []) ∧
      (∀ w s, s < seg_count c L → t1.unique (w * seg_count c L + s)
        = if w = f2i ∧ f2i < f1i ∧
            stored c (witness_segment c lines f1i s)
              = stored c ((witness_segment c lines f2i s).map amp)
          then 0 else t.unique (w * seg_count c L + s)) ∧
      (∀ w s, s < seg_count c L → t1.empty (w * seg_count c L + s)
        = if w = f1i ∧ ¬ Blank (witness_segment c lines f1i s)
          then 0 else t.empty (w * seg_count c L + s)) := by
  obtain ⟨hc, hL, _, _, hall⟩ := hP
  obtain ⟨a1, a2, a3⟩ := hall _ (getD_mem_lines lines hf1)
  obtain ⟨b1, b2, b3⟩ := hall _ (getD_mem_lines lines hf2)
  obtain ⟨t1, f1b, _, e1, d1, _, U1, E1⟩ := segment_loop_spec zout lines.length f1i f2i t
    (lines.getD f1i []) (lines.getD f2i []) hc hL a1 b1 a2 b2 a3 b3 (fun e => by rw [e])
    (seg_count c L) (Nat.le_refl (seg_count c L))
  have hseek : fseek f1 0 = at_line (lines.getD f1i []) 0 := by
    rw [at_line_zero, ← hdata]
    rfl
  have hf2s : (if f2i ≠ f1i then fopen ((lines.map file_bytes).getD f2i [])
      else at_line (lines.getD f1i []) 0) = at_line (lines.getD f2i []) 0 := by
    by_cases e : f2i = f1i
    · rw [if_neg (not_not.mpr e), e]
    · rw [if_pos e, getD_map_file_bytes, at_line_zero]
      rfl
  refine ⟨t1, f1b, ?_, d1, fun w s hs => ?_, fun w s hs => ?_⟩
  · unfold pair_step
    simp only [hseek, hf2s, List.length_map, e1]
  · rw [U1 w s hs]
    apply if_congr _ rfl rfl
    unfold witness_segment
    constructor
    · rintro ⟨a, _, b, d⟩; exact ⟨a, b, d⟩
    · rintro ⟨a, b, d⟩; exact ⟨a, hs, b, d⟩
  · rw [E1 w s hs]
    apply if_congr _ rfl rfl
    unfold witness_segment
    constructor
    · rintro ⟨a, _, d⟩; exact ⟨a, d⟩
    · rintro ⟨a, d⟩; exact ⟨a, hs, d⟩

/-- The inner file loop on a corpus, after `k` passes. -/
theorem pair_loop_spec (zout : List Nat → Int) {c L : Nat} (lines : List (List (List Nat)))
    (hP : Corpus c L lines) (f1i : Nat) (hf1 : f1i < lines.length) (t : Tables) (f1 : Stream)
    (hdata : f1.data = file_bytes (lines.getD f1i [])) : ∀ k ≤ lines.length,
    ∃ t1 f1a, pair_loop zout (c : Int) (lines.map file_bytes) (seg_count c L) f1i t f1 k
        = some (t1, f1a) ∧
      f1a.data = file_bytes (lines.getD f1i []) ∧
      (∀ w s, s < seg_count c L → t1.unique (w * seg_count c L + s)
        = if w < k ∧ w < f1i ∧
            stored c (witness_segment c lines f1i s)
              = stored c ((witness_segment c lines w s).map amp)
          then 0 else t.unique (w * seg_count c L + s)) ∧
      (∀ w s, s < seg_count c L → t1.empty (w * seg_count c L + s)
        = if w = f1i ∧ 0 < k ∧ ¬ Blank (witness_segment c lines f1i s)
          then 0 else t.empty (w * seg_count c L + s)) := by
  intro k
  induction k with
  | zero =>
    intro _
    refine ⟨t, f1, rfl, hdata, fun w s _ => ?_, fun w s _ => ?_⟩
    · rw [if_neg (by omega)]
    · rw [if_neg (by omega)]
  | succ k ih =>
    intro hk
    obtain ⟨t1, f1a, e1, d1, U1, E1⟩ := ih (by omega)
    obtain ⟨t2, f1b, e2, d2, U2, E2⟩ := pair_step_spec zout lines hP f1i k hf1 (by omega) t1
      f1a d1
    refine ⟨t2, f1b, ?_, d2, fun w s hs => ?_, fun w s hs => ?_⟩
    · rw [pair_loop, e1]
      exact e2
    · rw [U2 w s hs, U1 w s hs]
      by_cases hw : w = k
      · subst hw
        by_cases hd : w < f1i ∧
            stored c (witness_segment c lines f1i s)
              = stored c ((witness_segment c lines w s).map amp)
        · rw [if_pos ⟨rfl, hd.1, hd.2⟩, if_pos ⟨by omega, hd.1, hd.2⟩]
        · rw [if_neg (fun h => hd ⟨h.2.1, h.2.2⟩), if_neg (by omega),
            if_neg (fun h => hd ⟨h.2.1, h.2.2⟩)]
      · rw [if_neg (fun h => hw h.1)]
        apply if_congr _ rfl rfl
        constructor
        · rintro ⟨a, b⟩; exact ⟨by omega, b⟩
        · rintro ⟨a, b⟩; exact ⟨by omega, b⟩
    · rw [E2 w s hs, E1 w s hs]
      by_cases hd : w = f1i ∧ ¬ Blank (witness_segment c lines f1i s)
      · rw [if_pos hd, if_pos ⟨hd.1, by omega, hd.2⟩]
      · rw [if_neg hd, if_neg (fun h => hd ⟨h.1, h.2.2⟩), if_neg (fun h => hd ⟨h.1, h.2.2⟩)]

theorem init_row_spec (a : Nat → Int) (K f1i : Nat) (v : Int) : ∀ k ≤ K, ∀ w s, s < K →
    init_row a K f1i v k (w * K + s) = if w = f1i ∧ s < k then v else a (w * K + s) := by
  intro k
  induction k with
  | zero =>
    intro _ w s _
    rw [init_row, if_neg (by omega)]
  | succ k ih =>
    intro hk w s hs
    rw [init_row]
    by_cases hcell : w = f1i ∧ s = k
    · obtain ⟨rfl, rfl⟩ := hcell
      rw [Function.update_same, if_pos ⟨rfl, by omega⟩]
    · have hne : w * K + s ≠ f1i * K + k := fun e => hcell (cell_inj e hs (by omega))
      rw [Function.update_noteq hne, ih (by omega) w s hs]
      apply if_congr _ rfl rfl
      constructor
      · rintro ⟨a1, b⟩; exact ⟨a1, by omega⟩
      · rintro ⟨a1, b⟩
        refine ⟨a1, ?_⟩
        have : s ≠ k := fun e => hcell ⟨a1, e⟩
        omega

/-- The body of the outer file loop on a corpus. -/
theorem file_step_spec (zout : List Nat → Int) {c L : Nat} (lines : List (List (List Nat)))
    (hP : Corpus c L lines) (f1i : Nat) (hf1 : f1i < lines.length) (t : Tables) :
    ∃ t1, file_step zout (c : Int) (lines.map file_bytes) (seg_count c L) f1i t = some t1 ∧
      (∀ w s, w < lines.length → s < seg_count c L → t1.unique (w * seg_count c L + s)
        = if w < f1i ∧
            stored c (witness_segment c lines f1i s)
              = stored c ((witness_segment c lines w s).map amp)
          then 0 else if w = f1i then 1 else t.unique (w * seg_count c L + s)) ∧
      (∀ w s, s < seg_count c L → t1.empty (w * seg_count c L + s)
        = if w = f1i then (if Blank (witness_segment c lines f1i s) then 1 else 0)
          else t.empty (w * seg_count c L + s)) := by
  obtain ⟨t1, f1a, e1, _, U1, E1⟩ := pair_loop_spec zout lines hP f1i hf1
    ⟨t.buf, init_row t.Kx (seg_count c L) f1i (-1) (seg_count c L), t.Kyx, init_row t.empty (seg_count c L) f1i 1 (seg_count c L),
      init_row t.unique (seg_count c L) f1i 1 (seg_count c L)⟩
    (fopen ((lines.map file_bytes).getD f1i [])) (by rw [getD_map_file_bytes]; rfl)
    lines.length (Nat.le_refl _)
  refine ⟨t1, ?_, fun w s hw hs => ?_, fun w s hs => ?_⟩
  · unfold file_step
    simp only [List.length_map, e1]
  · rw [U1 w s hs]
    simp only [init_row_spec _ (seg_count c L) f1i _ (seg_count c L) (Nat.le_refl (seg_count c L)) w s hs]
    by_cases hd : w < f1i ∧
        stored c (witness_segment c lines f1i s)
              = stored c ((witness_segment c lines w s).map amp)
    · rw [if_pos ⟨hw, hd.1, hd.2⟩, if_pos hd]
    · rw [if_neg (fun h => hd ⟨h.2.1, h.2.2⟩), if_neg hd]
      apply if_congr _ rfl rfl
      constructor
      · rintro ⟨a, _⟩; exact a
      · intro a; exact ⟨a, hs⟩
  · rw [E1 w s hs]
    simp only [init_row_spec _ (seg_count c L) f1i _ (seg_count c L) (Nat.le_refl (seg_count c L)) w s hs]
    by_cases hw : w = f1i
    · subst hw
      by_cases hb : Blank (witness_segment c lines w s)
      · rw [if_neg (fun h => h.2.2 hb), if_pos ⟨rfl, hs⟩, if_pos rfl, if_pos hb]
      · rw [if_pos ⟨rfl, by omega, hb⟩, if_pos rfl, if_neg hb]
    · rw [if_neg (fun h => hw h.1), if_neg (fun h => hw h.1), if_neg hw]

/-- The outer file loop on a corpus, after `k` passes: every witness below `k` is
Unique in a segment exactly when no later witness below `k` has the same text there, and its
flag `empty` tells whether the segment is blank. -/
theorem file_loop_spec (zout : List Nat → Int) {c L : Nat} (lines : List (List (List Nat)))
    (hP : Corpus c L lines) (t : Tables) : ∀ k ≤ lines.length,
    ∃ t1, file_loop zout (c : Int) (lines.map file_bytes) (seg_count c L) t k = some t1 ∧
      (∀ w s, w < k → s < seg_count c L →
        (t1.unique (w * seg_count c L + s) = 0 ∧ ∃ w1 < k, w < w1 ∧
          stored c (witness_segment c lines w1 s)
            = stored c ((witness_segment c lines w s).map amp)) ∨
        (t1.unique (w * seg_count c L + s) = 1 ∧ ¬ ∃ w1 < k, w < w1 ∧
          stored c (witness_segment c lines w1 s)
            = stored c ((witness_segment c lines w s).map amp))) ∧
      (∀ w s, w < k → s < seg_count c L →
        (t1.empty (w * seg_count c L + s) = 1 ∧ Blank (witness_segment c lines w s)) ∨
        (t1.empty (w * seg_count c L + s) = 0 ∧ ¬ Blank (witness_segment c lines w s))) := by
  intro k
  induction k with
  | zero =>
    intro _
    exact ⟨t, rfl, fun w s hw => absurd hw (Nat.not_lt_zero _),
      fun w s hw => absurd hw (Nat.not_lt_zero _)⟩
  | succ k ih =>
    intro hk
    obtain ⟨t1, e1, U1, E1⟩ := ih (by omega)
    obtain ⟨t2, e2, U2, E2⟩ := file_step_spec zout lines hP k (by omega) t1
    refine ⟨t2, ?_, fun w s hw hs => ?_, fun w s hw hs => ?_⟩
    · rw [file_loop, e1]
      exact e2
    · rw [U2 w s (by omega) hs]
      by_cases hd : w < k ∧
          stored c (witness_segment c lines k s)
            = stored c ((witness_segment c lines w s).map amp)
      · rw [if_pos hd]
        exact Or.inl ⟨rfl, k, by omega, hd.1, hd.2⟩
      · rw [if_neg hd]
        by_cases hwk : w = k
        · rw [if_pos hwk]
          refine Or.inr ⟨rfl, ?_⟩
          rintro ⟨w1, h1, h2, _⟩
          omega
        · rw [if_neg hwk]
          have hwlt : w < k := by omega
          rcases U1 w s hwlt hs with ⟨u0, w1, h1, h2, h3⟩ | ⟨u1, hno⟩
          · exact Or.inl ⟨u0, w1, by omega, h2, h3⟩
          · refine Or.inr ⟨u1, ?_⟩
            rintro ⟨w1, h1, h2, h3⟩
            by_cases hw1 : w1 = k
            · subst hw1
              exact hd ⟨hwlt, h3⟩
            · exact hno ⟨w1, by omega, h2, h3⟩
    · rw [E2 w s hs]
      by_cases hwk : w = k
      · subst hwk
        rw [if_pos rfl]
        by_cases hb : Blank (witness_segment c lines w s)
        · rw [if_pos hb]; exact Or.inl ⟨rfl, hb⟩
        · rw [if_neg hb]; exact Or.inr ⟨rfl, hb⟩
      · rw [if_neg hwk]
        exact E1 w s (by omega) hs

/-! ## The builder on a corpus -/

/-- Every line of a file of at most `n * c` lines lies in one of its first `n` segments. -/
theorem mem_segments_le (c : Nat) : ∀ (n : Nat) (ls : List (List Nat)) (l : List Nat),
    ls.length ≤ n * c → l ∈ ls → ∃ s < n, l ∈ segment c ls s := by
  intro n
  induction n with
  | zero =>
    intro ls l h hl
    rw [Nat.zero_mul] at h
    rw [List.length_eq_zero.mp (Nat.le_zero.mp h)] at hl
    simp at hl
  | succ n ih =>
    intro ls l h hl
    rw [← List.take_append_drop c ls, List.mem_append] at hl
    rcases hl with hl | hl
    · refine ⟨0, Nat.succ_pos n, ?_⟩
      unfold segment
      simpa using hl
    · have hlen : (ls.drop c).length ≤ n * c := by
        rw [List.length_drop]
        rw [Nat.succ_mul] at h
        omega
      obtain ⟨s, hs, hm⟩ := ih (ls.drop c) l hlen hl
      refine ⟨s + 1, by omega, ?_⟩
      unfold segment at hm ⊢
      rw [List.drop_drop] at hm
      rw [Nat.succ_mul, Nat.add_comm (s * c) c]
      exact hm

/-- Every line of a file of `L` lines lies in one of its segments. -/
theorem mem_segments {c L : Nat} (hc : 0 < c) (ls : List (List Nat)) (l : List Nat)
    (h : ls.length = L) (hl : l ∈ ls) : ∃ s < seg_count c L, l ∈ segment c ls s := by
  apply mem_segments_le c (seg_count c L) ls l _ hl
  unfold seg_count
  have h1 := Nat.div_add_mod (L - 1) c
  have h2 := Nat.mod_lt (L - 1) hc
  rw [Nat.succ_mul, Nat.mul_comm ((L - 1) / c) c]
  omega

theorem line_le_file_bytes {l : List Nat} : ∀ {seg : List (List Nat)}, l ∈ seg →
    l.length + 1 ≤ (file_bytes seg).length := by
  intro seg
  induction seg with
  | nil => intro h; simp at h
  | cons x seg ih =>
    intro h
    rw [file_bytes, List.length_append, List.length_cons]
    rcases List.mem_cons.mp h with e | e
    · rw [e]; omega
    · have := ih e
      omega

/-- The loop of `count_lines` on the rest of a file of short lines. -/
theorem count_loop_spec : ∀ (todo : List (List Nat)) (f : Stream) (line fuel : Nat),
    f.eof = false → f.data.drop f.pos = file_bytes todo →
    (∀ l ∈ todo, 10 ∉ l ∧ l.length + 1 ≤ 2047) → todo.length + 2 ≤ fuel →
    count_loop fuel f line = some (line + todo.length + 1) := by
  intro todo
  induction todo with
  | nil =>
    intro f line fuel he hd _ hf
    obtain ⟨fuel, rfl⟩ : ∃ j, fuel = j + 2 := ⟨fuel - 2, by simp at hf; omega⟩
    rw [count_loop, he]
    simp only [Bool.false_eq_true, if_false]
    rw [fgets_end _ _ _ f hd (by decide)]
    simp only [count_loop, if_true, List.length_nil, Nat.add_zero]
  | cons l todo ih =>
    intro f line fuel he hd hl hf
    obtain ⟨fuel, rfl⟩ : ∃ j, fuel = j + 1 := ⟨fuel - 1, by simp at hf; omega⟩
    have hl0 := hl l (List.mem_cons_self _ _)
    rw [file_bytes] at hd
    rw [count_loop, he]
    simp only [Bool.false_eq_true, if_false]
    rw [fgets_line _ _ _ f l _ hd hl0.1 (by omega)]
    simp only
    rw [ih ⟨f.data, f.pos + (l.length + 1), f.eof⟩ (line + 1) fuel he
      (drop_line f.data f.pos l _ hd) (fun x hx => hl x (List.mem_cons_of_mem _ hx))
      (by simp at hf ⊢; omega)]
    simp only [List.length_cons]
    congr 1
    omega

/-- The function `count_lines` on a file of short lines returns the number of lines. -/
theorem count_lines_spec (ls : List (List Nat)) (hne : ls ≠ [])
    (hl : ∀ l ∈ ls, 10 ∉ l ∧ l.length + 1 ≤ 2047) :
    count_lines (file_bytes ls) = some ls.length := by
  cases ls with
  | nil => exact absurd rfl hne
  | cons l ls =>
    have hl0 := hl l (List.mem_cons_self _ _)
    unfold count_lines
    have hd : (fopen (file_bytes (l :: ls))).data.drop (fopen (file_bytes (l :: ls))).pos
        = l ++ 10 :: file_bytes ls := rfl
    rw [fgets_line _ _ _ _ l _ hd hl0.1 (by omega)]
    simp only
    have hge := file_bytes_length_ge (l :: ls)
    rw [count_loop_spec ls _ 0 _ rfl (drop_line _ _ l _ hd)
      (fun x hx => hl x (List.mem_cons_of_mem _ hx)) (by simp at hge ⊢; omega)]
    simp only [List.length_cons]
    congr 1
    omega

/-- The number of segments that the builder computes from the number of lines. -/
theorem chunk_count_lines {c L : Nat} (hL : 0 < L) :
    chunk_count L (c : Int) = (seg_count c L : Int) := by
  unfold chunk_count seg_count
  have e : ((L : Nat) : Int) - 1 = ((L - 1 : Nat) : Int) := by omega
  rw [e, ← Int.ofNat_tdiv]
  push_cast
  rfl

/-- The builder on a corpus returns, with the segments counted from the lines of the first
file; afterwards a witness is Unique in a segment exactly when no later witness is left with
the same text in the buffer as it, and its flag `empty` tells whether every line of the
segment is empty. -/
theorem read_file_spec (zout : List Nat → Int) {c L : Nat} (lines : List (List (List Nat)))
    (t0 : Tables) (hP : Corpus c L lines) :
    ∃ t, read_file zout (c : Int) (lines.map file_bytes) t0
        = some (lines.length, (seg_count c L : Int), t) ∧
      (∀ w s, w < lines.length → s < seg_count c L →
        (t.unique (w * seg_count c L + s) = 0 ∧ ∃ w1 < lines.length, w < w1 ∧
          stored c (witness_segment c lines w1 s)
            = stored c ((witness_segment c lines w s).map amp)) ∨
        (t.unique (w * seg_count c L + s) = 1 ∧ ¬ ∃ w1 < lines.length, w < w1 ∧
          stored c (witness_segment c lines w1 s)
            = stored c ((witness_segment c lines w s).map amp))) ∧
      (∀ w s, w < lines.length → s < seg_count c L →
        (t.empty (w * seg_count c L + s) = 1 ∧ Blank (witness_segment c lines w s)) ∨
        (t.empty (w * seg_count c L + s) = 0 ∧ ¬ Blank (witness_segment c lines w s))) := by
  obtain ⟨t, e, U, E⟩ := file_loop_spec zout lines hP t0 lines.length (Nat.le_refl _)
  obtain ⟨hc, hL, hpos, h256, hall⟩ := hP
  obtain ⟨a1, a2, a3⟩ := hall _ (getD_mem_lines lines hpos)
  have hne : lines.getD 0 [] ≠ [] := by
    intro h0
    rw [h0] at a1
    simp at a1
    omega
  have hshort : ∀ l ∈ lines.getD 0 [], 10 ∉ l ∧ l.length + 1 ≤ 2047 := by
    intro l hl
    obtain ⟨s, hs, hm⟩ := mem_segments hc _ l a1 hl
    have := line_le_file_bytes hm
    have := (fits_bound (a3 s hs)).1
    exact ⟨(a2 l hl).1, by omega⟩
  refine ⟨t, ?_, U, E⟩
  unfold read_file
  have hcond : ¬ ((lines.map file_bytes).length = 0 ∨ 256 < (lines.map file_bytes).length ∨
      (c : Int) = 0) := by
    rw [List.length_map]
    omega
  rw [if_neg hcond, getD_map_file_bytes, count_lines_spec _ hne hshort]
  simp only [a1, chunk_count_lines hL, Int.toNat_ofNat, List.length_map, e]

/-! ## The flags `unique` and `empty` -/

theorem seg_text_single {seg : List (List Nat)} (h : seg.length = 1) :
    seg_text seg = file_bytes seg := by
  cases seg with
  | nil => simp at h
  | cons l seg =>
    cases seg with
    | nil => simp [seg_text, file_bytes]
    | cons l1 seg => simp at h

/-- On a plain corpus whose segments are single lines or whose lines hold no space, two
segments have the same text exactly when they are the same bytes. -/
theorem text_iff_bytes {c L : Nat} {lines : List (List (List Nat))} (hP : Plain c L lines)
    (hS : c = 1 ∨ ∀ ls ∈ lines, ∀ l ∈ ls, 32 ∉ l) {w w1 s : Nat} (hw : w < lines.length)
    (hw1 : w1 < lines.length) (hs : s < seg_count c L) :
    seg_text (witness_segment c lines w1 s) = seg_text (witness_segment c lines w s) ↔
      file_bytes (witness_segment c lines w1 s) = file_bytes (witness_segment c lines w s) := by
  obtain ⟨⟨hc, hL, _, _, hall⟩, hpl⟩ := hP
  obtain ⟨a1, _, _⟩ := hall _ (getD_mem_lines lines hw)
  obtain ⟨b1, _, _⟩ := hall _ (getD_mem_lines lines hw1)
  have a2 := hpl _ (getD_mem_lines lines hw)
  have b2 := hpl _ (getD_mem_lines lines hw1)
  have one : ∀ ls : List (List Nat), ls.length = L → c = 1 → (segment c ls s).length = 1 := by
    intro ls hl h1
    have hne := segment_ne_nil hc hL hl hs
    have hle := segment_le c ls s
    have : 0 < (segment c ls s).length := List.length_pos.mpr hne
    omega
  unfold witness_segment
  constructor
  · intro e
    rcases hS with h1 | hsp
    · rw [← seg_text_single (one _ b1 h1), ← seg_text_single (one _ a1 h1)]
      exact e
    · rw [seg_text_injective _ _
        (fun l hl => ⟨(b2 l (segment_mem hl)).1,
          hsp _ (getD_mem_lines lines hw1) l (segment_mem hl)⟩)
        (fun l hl => ⟨(a2 l (segment_mem hl)).1,
          hsp _ (getD_mem_lines lines hw) l (segment_mem hl)⟩) e]
  · intro e
    rw [file_bytes_injective _ _ (fun l hl => (b2 l (segment_mem hl)).1)
      (fun l hl => (a2 l (segment_mem hl)).1) e]

/-- On a plain corpus the readings of two witnesses leave the same text in the buffer
exactly when the texts of their segments, the lines joined by spaces, are the same. -/
theorem stored_iff_text {c L : Nat} {lines : List (List (List Nat))} (hP : Plain c L lines)
    {w w1 s : Nat} (hw : w < lines.length) (hw1 : w1 < lines.length) (hs : s < seg_count c L) :
    stored c (witness_segment c lines w1 s) = stored c ((witness_segment c lines w s).map amp) ↔
      seg_text (witness_segment c lines w1 s) = seg_text (witness_segment c lines w s) := by
  obtain ⟨⟨hc, hL, _, _, hall⟩, hpl⟩ := hP
  obtain ⟨a1, _, _⟩ := hall _ (getD_mem_lines lines hw)
  obtain ⟨b1, _, _⟩ := hall _ (getD_mem_lines lines hw1)
  have a2 := hpl _ (getD_mem_lines lines hw)
  have b2 := hpl _ (getD_mem_lines lines hw1)
  unfold witness_segment
  exact stored_plain c _ _ (segment_ne_nil hc hL b1 hs) (segment_ne_nil hc hL a1 hs)
    (by rw [segment_length, segment_length, a1, b1])
    (fun l hl => b2 l (segment_mem hl)) (fun l hl => a2 l (segment_mem hl))

/-- C11 (as the code has it): on a corpus in which every file has the same number of
newline-ended lines, at least one, no line holds a terminator byte or is `&`, `PUUT` or
`POIS`, and every segment is at most 2047 bytes long (a last segment of fewer lines than the
segment size at most 2046), `read_file` returns, with `(lines-1)/chunksize+1` segments, and
then, for every witness `w` and every segment `s`: `unique[w][s]` is 1 or 0; it is 1 exactly
when no later witness has the same text in segment `s` (the lines of the segment joined by
spaces); it is 0 whenever a later witness has a byte-identical segment `s`; and when the
segment size is 1 or no line holds a space, it is 1 exactly when `w` is the highest-indexed
witness of the group of witnesses whose segment `s` is byte-identical to that of `w`. -/
theorem unique_marks_highest_duplicate (zout : List Nat → Int) (c L : Nat)
    (lines : List (List (List Nat))) (t0 : Tables) (hP : Plain c L lines) :
    ∃ t, read_file zout (c : Int) (lines.map file_bytes) t0
        = some (lines.length, (seg_count c L : Int), t) ∧
      ∀ w < lines.length, ∀ s < seg_count c L,
        (t.unique (w * seg_count c L + s) = 1 ∨ t.unique (w * seg_count c L + s) = 0) ∧
        (t.unique (w * seg_count c L + s) = 1 ↔ ∀ w1 < lines.length, w < w1 →
          seg_text (witness_segment c lines w1 s) ≠ seg_text (witness_segment c lines w s)) ∧
        (∀ w1 < lines.length, w < w1 →
          file_bytes (witness_segment c lines w1 s) = file_bytes (witness_segment c lines w s) →
          t.unique (w * seg_count c L + s) = 0) ∧
        ((c = 1 ∨ ∀ ls ∈ lines, ∀ l ∈ ls, 32 ∉ l) →
          (t.unique (w * seg_count c L + s) = 1 ↔ ∀ w1 < lines.length,
            file_bytes (witness_segment c lines w1 s)
              = file_bytes (witness_segment c lines w s) → w1 ≤ w)) := by
  obtain ⟨t, e, U, _⟩ := read_file_spec zout lines t0 hP.1
  refine ⟨t, e, fun w hw s hs => ?_⟩
  have bytes_text : ∀ w1 < lines.length,
      file_bytes (witness_segment c lines w1 s) = file_bytes (witness_segment c lines w s) →
      seg_text (witness_segment c lines w1 s) = seg_text (witness_segment c lines w s) := by
    intro w1 hw1 hb
    have a2 := hP.2 _ (getD_mem_lines lines hw)
    have b2 := hP.2 _ (getD_mem_lines lines hw1)
    unfold witness_segment at hb ⊢
    rw [file_bytes_injective _ _ (fun l hl => (b2 l (segment_mem hl)).1)
      (fun l hl => (a2 l (segment_mem hl)).1) hb]
  rcases U w s hw hs with ⟨u0, w1, h1, h2, h3'⟩ | ⟨u1, hno'⟩
  · have h3 := (stored_iff_text hP hw h1 hs).mp h3'
    refine ⟨Or.inr u0, ?_, fun _ _ _ _ => u0, fun hS => ?_⟩
    · rw [u0]
      constructor
      · intro h; exact absurd h (by decide)
      · intro h; exact absurd h3 (h w1 h1 h2)
    · rw [u0]
      constructor
      · intro h; exact absurd h (by decide)
      · intro h
        have := h w1 h1 ((text_iff_bytes hP hS hw h1 hs).mp h3)
        omega
  · have hno : ¬ ∃ w1 < lines.length, w < w1 ∧
        seg_text (witness_segment c lines w1 s) = seg_text (witness_segment c lines w s) := by
      rintro ⟨w1, h1, h2, h3⟩
      exact hno' ⟨w1, h1, h2, (stored_iff_text hP hw h1 hs).mpr h3⟩
    refine ⟨Or.inl u1, ?_, fun w1 hw1 hlt hb => ?_, fun hS => ?_⟩
    · rw [u1]
      exact ⟨fun _ w1 hw1 hlt h3 => hno ⟨w1, hw1, hlt, h3⟩, fun _ => rfl⟩
    · exact absurd ⟨w1, hw1, hlt, bytes_text w1 hw1 hb⟩ hno
    · rw [u1]
      refine ⟨fun _ w1 hw1 hb => ?_, fun _ => rfl⟩
      by_contra hgt
      exact hno ⟨w1, hw1, by omega, bytes_text w1 hw1 hb⟩

set_option maxRecDepth 1000000 in
theorem unique_marks_highest_duplicate_witness :
    ∃ t, read_file exZout ((2 : Nat) : Int) (exLines.map file_bytes) exTables
        = some (exLines.length, (seg_count 2 3 : Int), t) ∧
      ∀ w < exLines.length, ∀ s < seg_count 2 3,
        (t.unique (w * seg_count 2 3 + s) = 1 ∨ t.unique (w * seg_count 2 3 + s) = 0) ∧
        (t.unique (w * seg_count 2 3 + s) = 1 ↔ ∀ w1 < exLines.length, w < w1 →
          seg_text (witness_segment 2 exLines w1 s) ≠ seg_text (witness_segment 2 exLines w s)) ∧
        (∀ w1 < exLines.length, w < w1 →
          file_bytes (witness_segment 2 exLines w1 s)
            = file_bytes (witness_segment 2 exLines w s) →
          t.unique (w * seg_count 2 3 + s) = 0) ∧
        (((2 : Nat) = 1 ∨ ∀ ls ∈ exLines, ∀ l ∈ ls, 32 ∉ l) →
          (t.unique (w * seg_count 2 3 + s) = 1 ↔ ∀ w1 < exLines.length,
            file_bytes (witness_segment 2 exLines w1 s)
              = file_bytes (witness_segment 2 exLines w s) → w1 ≤ w)) :=
  unique_marks_highest_duplicate exZout 2 3 exLines exTables (by decide)

set_option maxRecDepth 1000000 in
/-- C11 as worded fails. With segments of one line: of two witnesses `a`, `a` the first one
(index 0) is marked non-Unique and the second one stays Unique; two witnesses `&`, `&` both
stay Unique, although their segments are byte-identical; of the witnesses `POIS`, `PUUT` the
first is marked non-Unique, although the segments differ. With segments of two lines, of the
witnesses `a` / `b c` and `a b` / `c` the first is marked non-Unique, although the segments
differ. -/
theorem unique_lowest_counterexample :
    (read_file exZout 1 [[97, 10], [97, 10]] exTables).map
      (fun r => (r.1, r.2.1, r.2.2.unique 0, r.2.2.unique 1)) = some (2, 1, 0, 1) ∧
    (read_file exZout 1 [[38, 10], [38, 10]] exTables).map
      (fun r => (r.1, r.2.1, r.2.2.unique 0, r.2.2.unique 1)) = some (2, 1, 1, 1) ∧
    (read_file exZout 1 [[80, 79, 73, 83, 10], [80, 85, 85, 84, 10]] exTables).map
      (fun r => (r.1, r.2.1, r.2.2.unique 0, r.2.2.unique 1)) = some (2, 1, 0, 1) ∧
    (read_file exZout 2 [[97, 10, 98, 32, 99, 10], [97, 32, 98, 10, 99, 10]] exTables).map
      (fun r => (r.1, r.2.1, r.2.2.unique 0, r.2.2.unique 1)) = some (2, 1, 0, 1) := by
  decide

/-- C20 (as the code has it): on a corpus in which every file has the same number of
newline-ended lines, at least one, no line holds a terminator byte, and every segment is at
most 2047 bytes long (a line `&` counted as three bytes, a last segment of fewer lines than
the segment size at most 2046), `read_file` returns, with `(lines-1)/chunksize+1` segments,
and then, for every witness `w` and every segment `s`, `empty[w][s]` is 1 or 0, and it is 1
exactly when every line of the segment is empty, that is, consists of its newline only. The
lines `&`, `PUUT` and `POIS` are lines as any other here. -/
theorem empty_marks_blank_segments (zout : List Nat → Int) (c L : Nat)
    (lines : List (List (List Nat))) (t0 : Tables) (hP : Corpus c L lines) :
    ∃ t, read_file zout (c : Int) (lines.map file_bytes) t0
        = some (lines.length, (seg_count c L : Int), t) ∧
      ∀ w < lines.length, ∀ s < seg_count c L,
        (t.empty (w * seg_count c L + s) = 1 ∨ t.empty (w * seg_count c L + s) = 0) ∧
        (t.empty (w * seg_count c L + s) = 1 ↔ ∀ l ∈ witness_segment c lines w s, l = []) := by
  obtain ⟨t, e, _, E⟩ := read_file_spec zout lines t0 hP
  refine ⟨t, e, fun w hw s hs => ?_⟩
  rcases E w s hw hs with ⟨e1, hb⟩ | ⟨e0, hb⟩
  · exact ⟨Or.inl e1, fun _ => hb, fun _ => e1⟩
  · refine ⟨Or.inr e0, fun h => ?_, fun h => absurd h hb⟩
    rw [e0] at h
    exact absurd h (by decide)

set_option maxRecDepth 1000000 in
theorem empty_marks_blank_segments_witness :
    ∃ t, read_file exZout ((2 : Nat) : Int) (exMarked.map file_bytes) exTables
        = some (exMarked.length, (seg_count 2 3 : Int), t) ∧
      ∀ w < exMarked.length, ∀ s < seg_count 2 3,
        (t.empty (w * seg_count 2 3 + s) = 1 ∨ t.empty (w * seg_count 2 3 + s) = 0) ∧
        (t.empty (w * seg_count 2 3 + s) = 1 ↔ ∀ l ∈ witness_segment 2 exMarked w s, l = []) :=
  empty_marks_blank_segments exZout 2 3 exMarked exTables (by decide)

set_option maxRecDepth 1000000 in
/-- C20 as worded fails: in a witness of three lines, a space, a tab and an empty line, with
segments of one line, `empty` is 0 for the segment that holds only a space and for the one that
holds only a tab, and 1 for the empty line alone. -/
theorem empty_whitespace_counterexample :
    (read_file exZout 1 [[32, 10, 9, 10, 10]] exTables).map
      (fun r => (r.1, r.2.1, r.2.2.empty 0, r.2.2.empty 1, r.2.2.empty 2))
      = some (1, 3, 0, 0, 1) := by
  decide

/-! ## The bootstrap weights -/

/-- The redraw loop of `init_bootstrap` ends only on an index below `chunks`. -/
theorem draw_chunk_range {chunks : Nat} {draws : Nat → Int} : ∀ (fuel k : Nat) {i k1 : Nat},
    draw_chunk chunks draws fuel k = some (i, k1) → i < chunks ∧ k < k1 := by
  intro fuel
  induction fuel with
  | zero => intro k i k1 h; simp [draw_chunk] at h
  | succ fuel ih =>
    intro k i k1 h
    rw [draw_chunk] at h
    split_ifs at h with hr
    · have := ih (k + 1) h
      exact ⟨this.1, by omega⟩
    · simp only [Option.some.injEq, Prod.mk.injEq] at h
      simp only [not_or, not_lt, ge_iff_le, not_le] at hr
      obtain ⟨rfl, rfl⟩ := h
      exact ⟨by omega, by omega⟩

/-- The redraw loop of `init_bootstrap` ends when one of the next `fuel` scaled draws is in
range. -/
theorem draw_chunk_returns {chunks : Nat} {draws : Nat → Int} : ∀ (fuel k : Nat),
    (∃ j < fuel, 0 ≤ draws (k + j) ∧ draws (k + j) < chunks) →
    ∃ i k1, draw_chunk chunks draws fuel k = some (i, k1) := by
  intro fuel
  induction fuel with
  | zero => rintro k ⟨j, hj, _⟩; exact absurd hj (Nat.not_lt_zero _)
  | succ fuel ih =>
    rintro k ⟨j, hj, h1, h2⟩
    rw [draw_chunk]
    by_cases hr : draws k < 0 ∨ draws k ≥ chunks
    · rw [if_pos hr]
      cases j with
      | zero =>
        exfalso
        simp only [Nat.add_zero] at h1 h2
        rcases hr with h | h <;> omega
      | succ j =>
        exact ih (k + 1) ⟨j, by omega, by rw [Nat.add_assoc, Nat.add_comm 1 j]; exact h1,
          by rw [Nat.add_assoc, Nat.add_comm 1 j]; exact h2⟩
    · rw [if_neg hr]
      exact ⟨_, _, rfl⟩

theorem sum_update_succ (w : Nat → Int) {chunks i : Nat} (hi : i < chunks) :
    ∑ s ∈ Finset.range chunks, Function.update w i (w i + 1) s
      = ∑ s ∈ Finset.range chunks, w s + 1 := by
  have hm : i ∈ Finset.range chunks := Finset.mem_range.mpr hi
  rw [Finset.sum_update_of_mem hm, ← Finset.add_sum_erase _ w hm, Finset.sdiff_singleton_eq_erase]
  ring

/-- What one pass of the second loop of `init_bootstrap` keeps: the weights are not negative,
the entries outside the array are untouched, and the weights sum to the number of passes. -/
theorem bootstrap_step_inv {chunks : Nat} {strap : Int} {draws : Nat → Int} {fuel : Nat}
    (hd : strap = 1 ∨ ∀ k0, ∃ j < fuel, 0 ≤ draws (k0 + j) ∧ draws (k0 + j) < chunks)
    (j : Nat) (hj : j < chunks) (s : Option ((Nat → Int) × Nat))
    (h : ∃ w k1, s = some (w, k1) ∧ (∀ x, 0 ≤ w x) ∧
      (∑ x ∈ Finset.range chunks, w x = j) ∧ ∀ x, chunks ≤ x → w x = 0) :
    ∃ w k1, bootstrap_step chunks strap draws fuel s j = some (w, k1) ∧ (∀ x, 0 ≤ w x) ∧
      (∑ x ∈ Finset.range chunks, w x = (j + 1 : Nat)) ∧ ∀ x, chunks ≤ x → w x = 0 := by
  obtain ⟨w, k1, rfl, h1, h2, h3⟩ := h
  have upd : ∀ i < chunks, (∀ x, 0 ≤ Function.update w i (w i + 1) x) ∧
      (∑ x ∈ Finset.range chunks, Function.update w i (w i + 1) x = (j + 1 : Nat)) ∧
      ∀ x, chunks ≤ x → Function.update w i (w i + 1) x = 0 := by
    intro i hi
    refine ⟨fun x => ?_, ?_, fun x hx => ?_⟩
    · by_cases e : x = i
      · rw [e, Function.update_same]
        have := h1 i
        omega
      · rw [Function.update_noteq e]
        exact h1 x
    · rw [sum_update_succ w hi, h2]
      push_cast
      rfl
    · rw [Function.update_noteq (by omega)]
      exact h3 x hx
  unfold bootstrap_step
  by_cases hs : strap = 1
  · simp only [hs, if_true]
    exact ⟨_, _, rfl, upd j hj⟩
  · simp only [hs, if_false]
    have hd' := hd.resolve_left hs
    obtain ⟨i, k2, e⟩ := draw_chunk_returns fuel k1 (hd' k1)
    rw [e]
    exact ⟨_, _, rfl, upd i (draw_chunk_range fuel k1 e).1⟩

/-- C21: `init_bootstrap` returns, in the sequential mode (`strap == 1`) and, when the redraw
loop meets a scaled draw in range within `fuel` draws, in the resampling mode; the weights it
leaves are not negative and sum to `chunks`, and no entry outside `bootw[0 .. chunks-1]` is
touched: every increment goes to an index in `[0, chunks)`. The array is cleared at the start
of every call, so this holds for every replicate. -/
theorem bootstrap_weights_sum (chunks : Nat) (strap : Int) (draws : Nat → Int) (fuel k : Nat)
    (hd : strap = 1 ∨ ∀ k0, ∃ j < fuel, 0 ≤ draws (k0 + j) ∧ draws (k0 + j) < chunks) :
    ∃ w k1, init_bootstrap chunks strap draws fuel k = some (w, k1) ∧ (∀ s, 0 ≤ w s) ∧
      (∑ s ∈ Finset.range chunks, w s = (chunks : Int)) ∧ ∀ s, chunks ≤ s → w s = 0 :=
  foldl_range_inv
    (fun j (s : Option ((Nat → Int) × Nat)) =>
      ∃ w k1, s = some (w, k1) ∧ (∀ x, 0 ≤ w x) ∧
        (∑ x ∈ Finset.range chunks, w x = j) ∧ ∀ x, chunks ≤ x → w x = 0)
    (bootstrap_step chunks strap draws fuel) (some (fun _ => 0, k)) chunks
    ⟨fun _ => 0, k, rfl, fun _ => le_refl _, by simp, fun _ _ => rfl⟩
    (fun j hj s h => bootstrap_step_inv hd j hj s h)

theorem bootstrap_weights_sum_witness :
    ∃ w k1, init_bootstrap 3 0 (fun k => if k = 0 then 3 else 1) 2 0 = some (w, k1) ∧
      (∀ s, 0 ≤ w s) ∧ (∑ s ∈ Finset.range 3, w s = ((3 : Nat) : Int)) ∧
      ∀ s, 3 ≤ s → w s = 0 :=
  bootstrap_weights_sum 3 0 (fun k => if k = 0 then 3 else 1) 2 0
    (Or.inr (fun k0 => by
      by_cases h : k0 = 0
      · exact ⟨1, by decide, by simp [h], by simp [h]⟩
      · exact ⟨0, by decide, by simp [h], by simp [h]⟩))

/-! ## What `eval_uptree` writes -/

/-- The walk of `eval_uptree` from `q`, a node strictly below the stopper (or without a
stopper), returns and changes no cell other than the cells of segment `ch` of the nodes on the
chain from `q` up to, and without, the stopper. -/
theorem eval_uptree_frame {g : Globals} {m : Mem} {root : Nat} (hT : TreeOK g.n m root)
    (hI : IdsOK g.n m) {ch : Nat} (hch : ch < g.chunks) (st : Option Nat) :
    ∀ q < g.n, ∀ (fuel : Nat) (c : Cache), depth m g.n q < fuel →
      (∀ s, st = some s → Anc m q s ∧ q ≠ s) →
      ∃ v c', eval_uptree g m root fuel c (some q) st ch = some (v, c') ∧
        ∀ k, (∀ x, Anc m q x → (∀ s, st = some s → Anc m x s ∧ x ≠ s) →
          ∀ i < g.leafs, k ≠ idx g (m x).id i ch) → c' k = c k := by
  apply hT.up_induction
  intro q hq ih fuel c hf hst
  obtain ⟨fuel, rfl⟩ : ∃ f', fuel = f' + 1 := ⟨fuel - 1, by omega⟩
  obtain ⟨_, e2, _⟩ := eval_node_spec hT hI hq hch c
  rw [eval_uptree_unfold]
  cases hup : (m q).up with
  | none =>
    exact ⟨_, _, rfl, fun k hk => e2 k (hk q (Anc.refl q) hst)⟩
  | some u =>
    have hd := hT.depth_up hq hup
    by_cases hne : some u ≠ st
    · simp only [hne, if_true, ne_eq, not_false_eq_true]
      have hst' : ∀ s, st = some s → Anc m u s ∧ u ≠ s := by
        intro s hs
        obtain ⟨h1, h2⟩ := hst s hs
        rcases h1.cases_up with e | ⟨p, hp, hps⟩
        · exact absurd e h2
        · rw [hup] at hp
          cases hp
          exact ⟨hps, fun e => hne (by rw [hs, e])⟩
      obtain ⟨v, c', r1, f1⟩ := ih u hup fuel (eval_node g m c q ch).2 (by omega) hst'
      refine ⟨v, c', r1, fun k hk => ?_⟩
      rw [f1 k (fun x hx hxs => hk x (Anc.step hup hx) hxs)]
      exact e2 k (hk q (Anc.refl q) hst)
    · push_neg at hne
      simp only [hne, ne_eq, not_true_eq_false, if_false]
      exact ⟨_, _, rfl, fun k hk => e2 k (hk q (Anc.refl q) hst)⟩

/-- C27: on a well-formed tree, `eval_uptree(tree, node, stopper, ch)` called with `node` a
proper descendant of `stopper`, or without a stopper, returns, and the only cells of the cache
it can change are the live cells `cost[x][i][ch]` of the nodes `x` on the parent chain from
`node` up to, but without, the stopper (up to the root when there is no stopper): every cell
of any other node, every cell of any other segment, every cell of the snapshot region, and
every cell that is no cell `cost[x][i][ch]` of a chain node at all, keeps its value. -/
theorem eval_uptree_writes_chain (g : Globals) (m : Mem) (root node : Nat) (st : Option Nat)
    (ch fuel : Nat) (c : Cache)
    (hT : TreeOK g.n m root) (hI : IdsOK g.n m) (hch : ch < g.chunks) (hq : node < g.n)
    (hf : g.n ≤ fuel) (hst : ∀ s, st = some s → Anc m node s ∧ node ≠ s) :
    ∃ v c', eval_uptree g m root fuel c (some node) st ch = some (v, c') ∧
      (∀ k, (∀ x, Anc m node x → (∀ s, st = some s → Anc m x s ∧ x ≠ s) →
        ∀ i < g.leafs, k ≠ idx g (m x).id i ch) → c' k = c k) ∧
      (∀ y < g.n, ¬ (Anc m node y ∧ ∀ s, st = some s → Anc m y s ∧ y ≠ s) →
        ∀ i < g.leafs, ∀ ch' < g.chunks,
          c' (idx g (m y).id i ch') = c (idx g (m y).id i ch')) ∧
      (∀ id, ∀ i < g.leafs, ∀ ch' < g.chunks, ch' ≠ ch →
        c' (idx g id i ch') = c (idx g id i ch')) ∧
      (∀ k, g.n * g.leafs * g.chunks ≤ k → c' k = c k) := by
  obtain ⟨v, c', e, fr⟩ := eval_uptree_frame hT hI hch st node hq fuel c
    (Nat.lt_of_lt_of_le (hT.acyclic node hq) hf) hst
  refine ⟨v, c', e, fr, fun y hy hny i hi ch' hch' => ?_, fun id i hi ch' hch' hne => ?_,
    fun k hk => ?_⟩
  · apply fr
    intro x hx hxs i' hi' e'
    obtain ⟨e1, _, _⟩ := idx_inj g hi hi' hch' hch e'
    have hxn : x < g.n := hx.lt hT hq
    have : y = x := hI.id_inj y hy x hxn e1
    exact hny (this ▸ ⟨hx, hxs⟩)
  · apply fr
    intro x _ _ i' hi' e'
    obtain ⟨_, _, e3⟩ := idx_inj g hi hi' hch' hch e'
    exact hne e3
  · apply fr
    intro x hx _ i' hi' e'
    have hxn : x < g.n := hx.lt hT hq
    have := idx_lt g (hI.id_lt x hxn) hi' hch
    omega

theorem eval_uptree_writes_chain_witness :
    ∃ v c', eval_uptree exGlobals exMem 6 7 exCache (some 0) (some 6) 0 = some (v, c') ∧
      (∀ k, (∀ x, Anc exMem 0 x → (∀ s, some 6 = some s → Anc exMem x s ∧ x ≠ s) →
        ∀ i < exGlobals.leafs, k ≠ idx exGlobals (exMem x).id i 0) → c' k = exCache k) ∧
      (∀ y < exGlobals.n,
        ¬ (Anc exMem 0 y ∧ ∀ s, some 6 = some s → Anc exMem y s ∧ y ≠ s) →
        ∀ i < exGlobals.leafs, ∀ ch' < exGlobals.chunks,
          c' (idx exGlobals (exMem y).id i ch') = exCache (idx exGlobals (exMem y).id i ch')) ∧
      (∀ id, ∀ i < exGlobals.leafs, ∀ ch' < exGlobals.chunks, ch' ≠ 0 →
        c' (idx exGlobals id i ch') = exCache (idx exGlobals id i ch')) ∧
      (∀ k, exGlobals.n * exGlobals.leafs * exGlobals.chunks ≤ k → c' k = exCache k) :=
  eval_uptree_writes_chain exGlobals exMem 6 0 (some 6) 0 7 exCache
    (by decide) (by decide) (by decide) (by decide) (by decide)
    (fun s hs => by
      cases hs
      exact ⟨Anc.step (show (exMem 0).up = some 4 from rfl)
        (Anc.step (show (exMem 4).up = some 6 from rfl) (Anc.refl 6)), by decide⟩)

/-! ## The identity test of the builder -/

/-- C28: for two strings `A = X ++ "\n"` and `B = Y ++ "\n"` with no newline in `X` and `Y`
and no terminator byte in `A`, stored one behind the other from the start of the buffer (the
buffer of `read_file` after the second reading), the test of the builder,
`strncmp(buf, buf + |A|, (|A| + |B|) / 2)` with the division of integers, reports equality
exactly when `A = B`. -/
theorem half_buffer_compare (buf : Buf) (X Y : List Nat) (hX : 10 ∉ X) (hY : 10 ∉ Y)
    (hX0 : 0 ∉ X) (hbuf : Holds buf 0 ((X ++ [10]) ++ (Y ++ [10]))) :
    strncmp_eq buf (((X ++ [10]).length + (Y ++ [10]).length) / 2) 0 (X ++ [10]).length = true
      ↔ X ++ [10] = Y ++ [10] := by
  obtain ⟨hA, hB⟩ := holds_append.mp hbuf
  rw [Nat.zero_add] at hB
  rw [compare_texts hA hB hX hY hX0]
  exact decide_eq_true_iff

theorem half_buffer_compare_witness :
    strncmp_eq (write_at (fun _ => 0) 0 (([97, 32, 98] ++ [10]) ++ ([97] ++ [10])))
        ((([97, 32, 98] ++ [10] : List Nat).length + ([97] ++ [10] : List Nat).length) / 2) 0
        ([97, 32, 98] ++ [10] : List Nat).length = true
      ↔ ([97, 32, 98] ++ [10] : List Nat) = [97] ++ [10] :=
  half_buffer_compare (write_at (fun _ => 0) 0 (([97, 32, 98] ++ [10]) ++ ([97] ++ [10])))
    [97, 32, 98] [97] (by decide) (by decide) (by decide) (holds_write_at _ _ _)

/-! ## The two regions of the cache -/

/-- C29: for a node id below `n`, a witness below `leafs` and a segment below `chunks`, the
live index `id*leafs*chunks + i*chunks + ch` is below `n*leafs*chunks`, the snapshot index
`(n+id)*leafs*chunks + i*chunks + ch` lies in `[n*leafs*chunks, 2*n*leafs*chunks)`, two
triples with the same live index or the same snapshot index are the same triple, and no live
index is a snapshot index; and when `2*n*leafs*chunks` is below `2^31`, so is every product
and sum formed on the way to the snapshot index. -/
theorem cache_regions_disjoint (g : Globals) (id i ch : Nat) (hid : id < g.n)
    (hi : i < g.leafs) (hc : ch < g.chunks) :
    idx g id i ch < g.n * g.leafs * g.chunks ∧
    g.n * g.leafs * g.chunks ≤ idx g (g.n + id) i ch ∧
    idx g (g.n + id) i ch < 2 * g.n * g.leafs * g.chunks ∧
    (∀ id1 i1 ch1, i1 < g.leafs → ch1 < g.chunks →
      idx g id i ch = idx g id1 i1 ch1 → id = id1 ∧ i = i1 ∧ ch = ch1) ∧
    (∀ id1 i1 ch1, i1 < g.leafs → ch1 < g.chunks →
      idx g (g.n + id) i ch = idx g (g.n + id1) i1 ch1 → id = id1 ∧ i = i1 ∧ ch = ch1) ∧
    (∀ id1 i1 ch1, idx g id i ch ≠ idx g (g.n + id1) i1 ch1) ∧
    (2 * g.n * g.leafs * g.chunks < 2 ^ 31 →
      (g.n + id) * g.leafs < 2 ^ 31 ∧ (g.n + id) * g.leafs * g.chunks < 2 ^ 31 ∧
      i * g.chunks < 2 ^ 31 ∧ (g.n + id) * g.leafs * g.chunks + i * g.chunks < 2 ^ 31 ∧
      idx g (g.n + id) i ch < 2 ^ 31) := by
  have hlt : idx g (g.n + id) i ch < 2 * g.n * g.leafs * g.chunks := by
    have h := idx_lt { g with n := 2 * g.n } (show g.n + id < 2 * g.n by omega) hi hc
    exact h
  refine ⟨idx_lt g hid hi hc, idx_scratch_ge g id i ch, hlt,
    fun id1 i1 ch1 hi1 hc1 e => idx_inj g hi hi1 hc hc1 e,
    fun id1 i1 ch1 hi1 hc1 e => ?_, fun id1 i1 ch1 => idx_live_ne_scratch g hid hi hc,
    fun hb => ?_⟩
  · obtain ⟨e1, e2, e3⟩ := idx_inj g hi hi1 hc hc1 e
    exact ⟨by omega, e2, e3⟩
  · have h1 : (g.n + id) * g.leafs * g.chunks + i * g.chunks ≤ idx g (g.n + id) i ch := by
      unfold idx; omega
    have h2 : (g.n + id) * g.leafs ≤ (g.n + id) * g.leafs * g.chunks :=
      Nat.le_mul_of_pos_right _ (by omega)
    refine ⟨by omega, by omega, by omega, by omega, by omega⟩

theorem cache_regions_disjoint_witness :
    idx exGlobals 6 3 0 < exGlobals.n * exGlobals.leafs * exGlobals.chunks ∧
    exGlobals.n * exGlobals.leafs * exGlobals.chunks ≤ idx exGlobals (exGlobals.n + 6) 3 0 ∧
    idx exGlobals (exGlobals.n + 6) 3 0 < 2 * exGlobals.n * exGlobals.leafs * exGlobals.chunks ∧
    (∀ id1 i1 ch1, i1 < exGlobals.leafs → ch1 < exGlobals.chunks →
      idx exGlobals 6 3 0 = idx exGlobals id1 i1 ch1 → 6 = id1 ∧ 3 = i1 ∧ 0 = ch1) ∧
    (∀ id1 i1 ch1, i1 < exGlobals.leafs → ch1 < exGlobals.chunks →
      idx exGlobals (exGlobals.n + 6) 3 0 = idx exGlobals (exGlobals.n + id1) i1 ch1 →
        6 = id1 ∧ 3 = i1 ∧ 0 = ch1) ∧
    (∀ id1 i1 ch1, idx exGlobals 6 3 0 ≠ idx exGlobals (exGlobals.n + id1) i1 ch1) ∧
    (2 * exGlobals.n * exGlobals.leafs * exGlobals.chunks < 2 ^ 31 →
      (exGlobals.n + 6) * exGlobals.leafs < 2 ^ 31 ∧
      (exGlobals.n + 6) * exGlobals.leafs * exGlobals.chunks < 2 ^ 31 ∧
      3 * exGlobals.chunks < 2 ^ 31 ∧
      (exGlobals.n + 6) * exGlobals.leafs * exGlobals.chunks + 3 * exGlobals.chunks < 2 ^ 31 ∧
      idx exGlobals (exGlobals.n + 6) 3 0 < 2 ^ 31) :=
  cache_regions_disjoint exGlobals 6 3 0 (by decide) (by decide) (by decide)

/-! ## The root under the tree edits, and an edit followed by the edit back -/

/-- A swap applied twice to an admitted pair gives the memory back. -/
theorem swap_twice {n : Nat} {m : Mem} {root a b : Nat} (hT : TreeOK n m root)
    (hadm : Admitted n m true a b) :
    ∃ m1, do_mutate_tree true m root a b = some (m1, root) ∧
      do_mutate_tree true m1 root a b = some (m, root) := by
  obtain ⟨pa, pb, hp, h | h⟩ := mutate_form hT hadm
  · obtain ⟨_, he⟩ := h
    have hne := hp.pairNe hT hadm.1 hadm.2.1
    have hT1 := swap_treeOK hT hadm.1 hadm.2.1 hp
    have ua : (swapMem m a b pa pb a).up = some pb := by rw [swapMem_up]; simp
    have ub : (swapMem m a b pa pb b).up = some pa := by
      rw [swapMem_up]; simp [Ne.symm hne.a_b]
    have hback := swap_form_raw ua ub
      ⟨hne.a_b, hne.a_pb, hne.a_pa, hne.b_pb, hne.b_pa, Ne.symm hne.pa_pb⟩
      (hT1.child_slot hadm.1 ua) (hT1.child_slot hadm.2.1 ub)
    have hpa := hT.up_lt a hadm.1 pa hp.up_a
    have hpb := hT.up_lt b hadm.2.1 pb hp.up_b
    have la : (m pb).left ≠ some a := fun e => by
      have := hT.left_up pb hpb a e
      rw [hp.up_a] at this
      exact hne.pa_pb (Option.some.inj this)
    have ra : (m pb).right ≠ some a := fun e => by
      have := hT.right_up pb hpb a e
      rw [hp.up_a] at this
      exact hne.pa_pb (Option.some.inj this)
    have lb : (m pa).left ≠ some b := fun e => by
      have := hT.left_up pa hpa b e
      rw [hp.up_b] at this
      exact hne.pa_pb (Option.some.inj this).symm
    have rb : (m pa).right ≠ some b := fun e => by
      have := hT.right_up pa hpa b e
      rw [hp.up_b] at this
      exact hne.pa_pb (Option.some.inj this).symm
    have hid : swapMem (swapMem m a b pa pb) a b pb pa = m := by
      funext x
      apply node_ext
      · rfl
      · rw [swapMem_left, swapMem_left]
        by_cases e1 : x = pa
        · subst e1
          simp only [hne.pa_pb, if_false, if_true]
          exact subst_child_cancel lb
        · by_cases e2 : x = pb
          · subst e2
            simp only [Ne.symm hne.pa_pb, if_false, if_true]
            exact subst_child_cancel la
          · simp [e1, e2]
      · rw [swapMem_right, swapMem_right]
        by_cases e1 : x = pa
        · subst e1
          simp only [hne.pa_pb, if_false, if_true]
          exact subst_child_cancel rb
        · by_cases e2 : x = pb
          · subst e2
            simp only [Ne.symm hne.pa_pb, if_false, if_true]
            exact subst_child_cancel ra
          · simp [e1, e2]
      · rw [swapMem_up, swapMem_up]
        by_cases e1 : x = a
        · simp [e1, hp.up_a]
        · by_cases e2 : x = b
          · simp [e2, Ne.symm hne.a_b, hp.up_b]
          · simp [e1, e2]
    refine ⟨_, he, ?_⟩
    unfold do_mutate_tree
    simp [hback, hid]
  · exact absurd h.1 (by decide)

/-- A regraft of a child of the root returns the sibling of that child as the new root. -/
theorem regraft_moves_root {n : Nat} {m : Mem} {root a b : Nat} {m1 : Mem} {r : Nat}
    (hT : TreeOK n m root) (ha : a < n) (hup : (m a).up = some root)
    (h : do_mutate_tree false m root a b = some (m1, r)) :
    r ≠ root ∧ r ≠ a ∧ (m r).up = some root := by
  have hroot := hT.root_lt
  have h' : do_regraft m root a b = some (m1, r) := by
    simpa [do_mutate_tree] using h
  have key : ∀ s, s ≠ a → (m s).up = some root →
      ((m root).left = some a ∧ (m root).right = some s ∨
        (m root).left = some s ∧ (m root).right = some a) → r = s := by
    intro s hsa hsu hsl
    have hsr : s ≠ root := fun e => by
      rw [e, hT.root_up] at hsu
      cases hsu
    have e1 : (setUp m s none a).up = some root := by
      rw [setUp_up, if_neg (Ne.symm hsa), hup]
    have e2 : (setUp m s none root).up = none := by
      rw [setUp_up, if_neg (Ne.symm hsr), hT.root_up]
    unfold do_regraft at h'
    rcases hsl with ⟨h1, h2⟩ | ⟨h1, h2⟩
    · simp only [hup, h1, h2, hT.root_up, Option.bind_eq_bind, Option.some_bind, if_true, e1,
        e2] at h'
      simp only [Option.bind_eq_some, Option.pure_def, Option.some.injEq, Prod.mk.injEq] at h'
      obtain ⟨_, _, _, _, _, _, _, _, _, _, _, e⟩ := h'
      exact e.symm
    · simp only [hup, h1, h2, hT.root_up, Option.bind_eq_bind, Option.some_bind,
        Option.some.injEq, hsa, if_false, e1, e2] at h'
      simp only [Option.bind_eq_some, Option.pure_def, Option.some.injEq, Prod.mk.injEq] at h'
      obtain ⟨_, _, _, _, _, _, _, _, _, _, _, e⟩ := h'
      exact e.symm
  rcases hT.child_slot ha hup with ⟨h1, h2⟩ | ⟨h1, h2⟩
  · cases hr : (m root).right with
    | none =>
      have := (hT.two root hroot).mpr hr
      rw [h1] at this
      cases this
    | some s =>
      have hsa : s ≠ a := fun e => h2 (by rw [hr, e])
      have hsu := hT.right_up root hroot s hr
      rw [key s hsa hsu (Or.inl ⟨h1, hr⟩)]
      refine ⟨fun e => ?_, hsa, hsu⟩
      rw [e, hT.root_up] at hsu
      cases hsu
  · cases hl : (m root).left with
    | none =>
      have := (hT.two root hroot).mp hl
      rw [h2] at this
      cases this
    | some s =>
      have hsa : s ≠ a := fun e => h1 (by rw [hl, e])
      have hsu := hT.left_up root hroot s hl
      rw [key s hsa hsu (Or.inr ⟨hl, h2⟩)]
      refine ⟨fun e => ?_, hsa, hsu⟩
      rw [e, hT.root_up] at hsu
      cases hsu

/-- C25: on a well-formed tree and for every pair admitted by `prep_mutate_tree`, in swap mode
and in regraft mode, `do_mutate_tree(tree, a, b)` returns the root it was given, and so does
`do_mutate_tree(tree, ra, rb)`, the move back of a rejected iteration; after either of them
the root is still the one parentless node of a well-formed tree, so the pointer that
`optimize_tree` keeps stays the root. Without the requirement on the parent of `a` this fails
for a regraft: whenever `do_mutate_tree` returns on a regraft of a child `a1` of the root, the
root it returns is another node (the sibling of `a1`). -/
theorem mutate_returns_root (n : Nat) (m : Mem) (root : Nat) (alt : Bool) (a b : Nat)
    (hT : TreeOK n m root) (hadm : Admitted n m alt a b) :
    ∃ m1 ra rb m2, do_mutate_tree alt m root a b = some (m1, root) ∧ TreeOK n m1 root ∧
      prep_endpoints m alt a b = some (ra, some rb) ∧
      do_mutate_tree alt m1 root ra rb = some (m2, root) ∧ TreeOK n m2 root ∧
      ∀ a1 b1 m3 r, a1 < n → (m a1).up = some root →
        do_mutate_tree false m root a1 b1 = some (m3, r) → r ≠ root := by
  obtain ⟨m1, ra, rb, m2, e1, e2, _, _, e3, hS⟩ := mutate_revert hT hadm
  obtain ⟨m1', _, _, e1', _, _, _, hT1, _⟩ := mutate_changed hT hadm
  have em : m1' = m1 := by
    rw [e1'] at e1
    simp only [Option.some.injEq, Prod.mk.injEq, and_true] at e1
    exact e1
  rw [em] at hT1
  exact ⟨m1, ra, rb, m2, e1, hT1, e2, e3, hS.treeOK hT,
    fun a1 b1 m3 r ha1 hup h => (regraft_moves_root hT ha1 hup h).1⟩

theorem mutate_returns_root_witness :
    ∃ m1 ra rb m2, do_mutate_tree false exMem 6 0 2 = some (m1, 6) ∧ TreeOK 7 m1 6 ∧
      prep_endpoints exMem false 0 2 = some (ra, some rb) ∧
      do_mutate_tree false m1 6 ra rb = some (m2, 6) ∧ TreeOK 7 m2 6 ∧
      ∀ a1 b1 m3 r, a1 < 7 → (exMem a1).up = some 6 →
        do_mutate_tree false exMem 6 a1 b1 = some (m3, r) → r ≠ 6 :=
  mutate_returns_root 7 exMem 6 false 0 2 (by decide) (by decide)

/-- C26: on a well-formed tree and for every pair admitted by `prep_mutate_tree`, in swap mode
and in regraft mode, `do_mutate_tree(a, b)` followed by `do_mutate_tree(ra, rb)` with the same
move kind returns and gives every node its id, its parent pointer and its two children back,
the two children possibly in exchanged slots; in swap mode the whole memory is as before, so
that every left and right slot is restored exactly. -/
theorem mutate_then_revert_shape (n : Nat) (m : Mem) (root : Nat) (alt : Bool) (a b : Nat)
    (hT : TreeOK n m root) (hadm : Admitted n m alt a b) :
    ∃ m1 ra rb m2, do_mutate_tree alt m root a b = some (m1, root) ∧
      prep_endpoints m alt a b = some (ra, some rb) ∧
      do_mutate_tree alt m1 root ra rb = some (m2, root) ∧
      (∀ x, (m2 x).id = (m x).id) ∧
      (∀ x < n, (m2 x).up = (m x).up) ∧
      (∀ x < n, ((m2 x).left = (m x).left ∧ (m2 x).right = (m x).right) ∨
        ((m2 x).left = (m x).right ∧ (m2 x).right = (m x).left)) ∧
      (alt = true → m2 = m) := by
  obtain ⟨m1, ra, rb, m2, e1, e2, _, _, e3, hS⟩ := mutate_revert hT hadm
  refine ⟨m1, ra, rb, m2, e1, e2, e3, hS.id_eq, hS.up_eq, hS.kids, fun halt => ?_⟩
  subst halt
  obtain ⟨m1', f1, f2⟩ := swap_twice hT hadm
  have em : m1' = m1 := by
    rw [f1] at e1
    simp only [Option.some.injEq, Prod.mk.injEq, and_true] at e1
    exact e1
  have er : ra = a ∧ rb = b := by
    simp only [prep_endpoints, if_true, Option.some.injEq, Prod.mk.injEq] at e2
    exact ⟨e2.1.symm, e2.2.symm⟩
  rw [em, ← er.1, ← er.2, e3] at f2
  simp only [Option.some.injEq, Prod.mk.injEq, and_true] at f2
  exact f2

theorem mutate_then_revert_shape_witness :
    ∃ m1 ra rb m2, do_mutate_tree true exMem 6 1 5 = some (m1, 6) ∧
      prep_endpoints exMem true 1 5 = some (ra, some rb) ∧
      do_mutate_tree true m1 6 ra rb = some (m2, 6) ∧
      (∀ x, (m2 x).id = (exMem x).id) ∧
      (∀ x < 7, (m2 x).up = (exMem x).up) ∧
      (∀ x < 7, ((m2 x).left = (exMem x).left ∧ (m2 x).right = (exMem x).right) ∨
        ((m2 x).left = (exMem x).right ∧ (m2 x).right = (exMem x).left)) ∧
      (true = true → m2 = exMem) :=
  mutate_then_revert_shape 7 exMem 6 true 1 5 (by decide) (by decide)

/-! ## The cache along the loop of `optimize_tree` -/

/-- What `prep_mutate_tree` returns is an admitted pair together with its scoring endpoints. -/
theorem prep_mutate_tree_admitted {m : Mem} {array : Nat → Option Nat} {n : Nat}
    {alternate : Bool} {draws : Nat → Int} {fuel k : Nat} {r : PrepResult}
    (hA : ∀ i < n, ∀ p, array i = some p → p < n)
    (h : prep_mutate_tree m array n alternate draws fuel k = some r) :
    Admitted n m r.alternate r.a r.b ∧
      prep_endpoints m r.alternate r.a r.b = some (r.ra, r.rb) := by
  unfold prep_mutate_tree at h
  cases hl : prep_loop m array n (!alternate) draws fuel k with
  | none => simp [hl] at h
  | some q =>
    obtain ⟨a, b, k1⟩ := q
    simp only [hl] at h
    cases he : prep_endpoints m (!alternate) a b with
    | none => simp [he] at h
    | some e =>
      obtain ⟨ra, rb⟩ := e
      simp only [he, Option.some.injEq] at h
      rw [← h]
      exact ⟨prep_loop_admitted hA fuel k hl, he⟩

/-- A cache with the live cells of a consistent cache is consistent. -/
theorem allCons_of_live {g : Globals} {m : Mem} {root : Nat} (hT : TreeOK g.n m root)
    (hI : IdsOK g.n m) {c c1 : Cache} (h : AllCons g m c)
    (hl : ∀ id < g.n, ∀ i < g.leafs, ∀ ch < g.chunks, c1 (idx g id i ch) = c (idx g id i ch)) :
    AllCons g m c1 := by
  intro ch hch hw x hx
  exact (h ch hch hw x hx).congr
    (fun j hj => hl _ (hI.id_lt x hx) j hj ch hch)
    (fun y hy j hj => hl _ (hI.id_lt y (hT.child_facts hx hy).1) j hj ch hch)

/-- The statements before the loop establish the invariant. -/
theorem optimize_start_inv {g : Globals} {m : Mem} {tree : Nat} {fresh : Cache} {fuel : Nat}
    {cache : Option Cache} {fill : Fill} {alternate : Bool} {k : Nat} {s : OptState}
    (hT : TreeOK g.n m tree) (hI : IdsOK g.n m) (hf : g.n ≤ fuel)
    (h : optimize_start g m tree fresh fuel cache fill alternate k = some s) :
    LoopInv g tree s := by
  obtain ⟨V, cF, e0, a0, hV, _⟩ := eval_tree_full_spec hT hI fresh hf (cache.getD fresh)
  have e0' : eval_tree g m fresh fuel tree cache none none = some (V, cF) := by
    cases cache with
    | none =>
      rw [eval_tree_none_eq_fold]
      rw [eval_tree_eq_fold] at e0
      exact e0
    | some c => exact e0
  unfold optimize_start at h
  simp only [e0'] at h
  cases hfl : fill_subtree g m cF fuel (some tree) fill with
  | none => simp [hfl] at h
  | some f =>
    simp only [hfl, Option.some.injEq] at h
    rw [← h]
    exact ⟨hT, hI, a0, hV⟩

/-- Both branches of one pass of the loop re-establish the invariant. -/
theorem optimize_iter_inv {g : Globals} {array : Nat → Option Nat} {tree : Nat}
    {fresh : Cache} {fuel : Nat} {draws : Nat → Int} {tpos lucky : Bool} {s s1 : OptState}
    (hA : ∀ i < g.n, ∀ p, array i = some p → p < g.n) (hf : g.n ≤ fuel)
    (hinv : LoopInv g tree s)
    (h : optimize_iter g array tree fresh fuel draws tpos lucky s = some s1) :
    LoopInv g tree s1 := by
  obtain ⟨hT, hI, hC, hmin⟩ := hinv
  unfold optimize_iter at h
  cases hp : prep_mutate_tree s.m array g.n s.alternate draws fuel s.k with
  | none => simp [hp] at h
  | some r =>
    simp only [hp] at h
    obtain ⟨hadm, hep⟩ := prep_mutate_tree_admitted hA hp
    obtain ⟨ra, rb, m1, v, c1, m2, t2, hep', e1, e2, live, _, hT1, hI1, hC1, hv, hS⟩ :=
      rejected_iteration_spec fresh hT hI hadm hC hf
    have er : r.ra = ra ∧ r.rb = some rb := by
      rw [hep] at hep'
      simp only [Option.some.injEq, Prod.mk.injEq] at hep'
      exact hep'
    rw [er.1, er.2, e1] at h
    simp only [e2] at h
    split_ifs at h with h1 h2
    · cases hfl : fill_subtree g m1 c1 fuel (some tree) s.fill with
      | none => simp [hfl] at h
      | some f =>
        simp only [hfl, Option.some.injEq] at h
        rw [← h]
        exact ⟨hT1, hI1, hC1, hv⟩
    · simp only [Option.some.injEq] at h
      rw [← h]
      exact ⟨hT1, hI1, hC1, hv⟩
    · simp only [Option.some.injEq] at h
      rw [← h]
      have hC2 : AllCons g s.m t2 := allCons_of_live hT hI hC live
      refine ⟨hS.treeOK hT, hS.idsOK hI,
        fun ch hch hw x hx => hS.cons hx (hC2 ch hch hw x hx), ?_⟩
      show s.minval = total g m2 t2 tree
      rw [hS.total_eq t2 hT.root_lt, (AllCons.unique hT hC2 hC).2]
      exact hmin

/-- One pass of the loop returns, on the accept branch and on the reject branch, whenever
`prep_mutate_tree` returns a pair. -/
theorem optimize_iter_returns {g : Globals} {array : Nat → Option Nat} {tree : Nat}
    {fresh : Cache} {fuel : Nat} {draws : Nat → Int} (tpos lucky : Bool) {s : OptState}
    {r : PrepResult}
    (hA : ∀ i < g.n, ∀ p, array i = some p → p < g.n) (hf : g.n ≤ fuel)
    (hleafs : 0 < g.leafs) (hinv : LoopInv g tree s)
    (hp : prep_mutate_tree s.m array g.n s.alternate draws fuel s.k = some r) :
    ∃ s1, optimize_iter g array tree fresh fuel draws tpos lucky s = some s1 := by
  obtain ⟨hT, hI, hC, _⟩ := hinv
  obtain ⟨hadm, hep⟩ := prep_mutate_tree_admitted hA hp
  obtain ⟨ra, rb, m1, v, c1, m2, t2, hep', e1, e2, _, _, hT1, _, _, _, _⟩ :=
    rejected_iteration_spec fresh hT hI hadm hC hf
  have er : r.ra = ra ∧ r.rb = some rb := by
    rw [hep] at hep'
    simp only [Option.some.injEq, Prod.mk.injEq] at hep'
    exact hep'
  obtain ⟨f, hfl, _⟩ := fill_subtree_spec hT1 c1 hleafs fuel tree s.fill hT1.root_lt
    (by omega)
  unfold optimize_iter
  simp only [hp, er.1, er.2, e1, e2, hfl]
  split_ifs <;> exact ⟨_, rfl⟩

/-- The invariant holds after every number of passes. -/
theorem optimize_after_inv {g : Globals} {array : Nat → Option Nat} {m : Mem} {tree : Nat}
    {fresh : Cache} {fuel : Nat} {cache : Option Cache} {fill : Fill} {alternate : Bool}
    {draws : Nat → Int} {tpos lucky : Nat → Bool}
    (hT : TreeOK g.n m tree) (hI : IdsOK g.n m)
    (hA : ∀ i < g.n, ∀ p, array i = some p → p < g.n) (hf : g.n ≤ fuel) :
    ∀ (t : Nat) (s : OptState),
      optimize_after g array tree fresh fuel draws tpos lucky
        (optimize_start g m tree fresh fuel cache fill alternate 0) t = some s →
      LoopInv g tree s := by
  intro t
  induction t with
  | zero =>
    intro s h
    rw [optimize_after] at h
    exact optimize_start_inv hT hI hf h
  | succ t ih =>
    intro s h
    rw [optimize_after] at h
    cases hprev : optimize_after g array tree fresh fuel draws tpos lucky
        (optimize_start g m tree fresh fuel cache fill alternate 0) t with
    | none => simp [hprev] at h
    | some sp =>
      simp only [hprev] at h
      exact optimize_iter_inv hA hf (ih sp hprev) h

/-- C23: in a run of `optimize_tree` (in-place build) on a well-formed tree, the state after
any number `t` of passes of the loop, which is the state at the start of pass `t+1`, satisfies:
the tree held is well formed with the same root; in every segment of non-zero weight every
row of the cache is what the evaluator computes from the rows of the current children (for an
internal node the sum of the two `min_cost` terms); `minval` is the total of that cache; the
full `eval_tree` of the current tree returns `minval` and changes no live row of a weighted
segment; and pass `t+1` returns on either branch whenever `prep_mutate_tree` returns a pair, so
that the invariant holds again after it, after an accepted as after a rejected move. -/
theorem optimizer_cache_invariant (g : Globals) (array : Nat → Option Nat) (m : Mem)
    (tree : Nat) (fresh : Cache) (fuel : Nat) (cache : Option Cache) (fill : Fill)
    (alternate : Bool) (draws : Nat → Int) (tpos lucky : Nat → Bool) (t : Nat) (s : OptState)
    (hT : TreeOK g.n m tree) (hI : IdsOK g.n m)
    (hA : ∀ i < g.n, ∀ p, array i = some p → p < g.n) (hf : g.n ≤ fuel)
    (hleafs : 0 < g.leafs)
    (h : optimize_after g array tree fresh fuel draws tpos lucky
      (optimize_start g m tree fresh fuel cache fill alternate 0) t = some s) :
    TreeOK g.n s.m tree ∧ IdsOK g.n s.m ∧ AllCons g s.m s.cost ∧
      s.minval = total g s.m s.cost tree ∧
      (∃ V cF, eval_tree g s.m fresh fuel tree (some s.cost) none none = some (V, cF) ∧
        V = s.minval ∧
        ∀ ch < g.chunks, g.bootw ch ≠ 0 → ∀ id < g.n, ∀ i < g.leafs,
          cF (idx g id i ch) = s.cost (idx g id i ch)) ∧
      (∀ r, prep_mutate_tree s.m array g.n s.alternate draws fuel s.k = some r →
        ∃ s1, optimize_after g array tree fresh fuel draws tpos lucky
            (optimize_start g m tree fresh fuel cache fill alternate 0) (t + 1) = some s1 ∧
          TreeOK g.n s1.m tree ∧ IdsOK g.n s1.m ∧ AllCons g s1.m s1.cost ∧
          s1.minval = total g s1.m s1.cost tree) := by
  have hinv := optimize_after_inv hT hI hA hf t s h
  obtain ⟨hT1, hI1, hC1, hm1⟩ := hinv
  refine ⟨hT1, hI1, hC1, hm1, ?_, fun r hp => ?_⟩
  · obtain ⟨V, cF, e0, a0, hV, _⟩ := eval_tree_full_spec hT1 hI1 fresh hf s.cost
    obtain ⟨u1, u2⟩ := AllCons.unique hT1 a0 hC1
    refine ⟨V, cF, e0, by rw [hV, u2, hm1], fun ch hch hw id hid i hi => ?_⟩
    obtain ⟨x, hx, rfl⟩ := hI1.surj id hid
    exact u1 ch hch hw x hx i hi
  · obtain ⟨s1, e1⟩ := optimize_iter_returns (tpos (t + 1)) (lucky (t + 1)) hA hf hleafs
      ⟨hT1, hI1, hC1, hm1⟩ hp
    have e2 : optimize_after g array tree fresh fuel draws tpos lucky
        (optimize_start g m tree fresh fuel cache fill alternate 0) (t + 1) = some s1 := by
      rw [optimize_after, h]
      exact e1
    exact ⟨s1, e2, optimize_after_inv hT hI hA hf (t + 1) s1 e2⟩

theorem optimizer_cache_invariant_witness :
    ∃ s, exRun 2 = some s ∧
      TreeOK exGlobals.n s.m 6 ∧ IdsOK exGlobals.n s.m ∧ AllCons exGlobals s.m s.cost ∧
      s.minval = total exGlobals s.m s.cost 6 ∧
      (∃ V cF, eval_tree exGlobals s.m (fun _ => 0) 7 6 (some s.cost) none none = some (V, cF) ∧
        V = s.minval ∧
        ∀ ch < exGlobals.chunks, exGlobals.bootw ch ≠ 0 → ∀ id < exGlobals.n,
          ∀ i < exGlobals.leafs, cF (idx exGlobals id i ch) = s.cost (idx exGlobals id i ch)) ∧
      (∀ r, prep_mutate_tree s.m exArray exGlobals.n s.alternate exDraws 7 s.k = some r →
        ∃ s1, exRun (2 + 1) = some s1 ∧
          TreeOK exGlobals.n s1.m 6 ∧ IdsOK exGlobals.n s1.m ∧
          AllCons exGlobals s1.m s1.cost ∧ s1.minval = total exGlobals s1.m s1.cost 6) :=
  ⟨(exRun 2).get exRun_two_isSome, (Option.some_get exRun_two_isSome).symm,
    optimizer_cache_invariant exGlobals exArray exMem 6 (fun _ => 0) 7 none (fun _ _ => 0)
      false exDraws (fun iter => decide (iter < 2)) (fun _ => true) 2
      ((exRun 2).get exRun_two_isSome) (by decide) (by decide) (by decide) (by decide)
      (by decide) (Option.some_get exRun_two_isSome).symm⟩

/-! ## The assignment that `fill_subtree` reads off the cache -/

section fill_opt
variable {g : Globals} {m : Mem} {root : Nat}

theorem sentinel_nonneg (g : Globals) : 0 ≤ sentinel g := Int.ofNat_nonneg _

/-- The row of a node without children in a consistent cache. -/
theorem cons_leaf_val {c : Cache} {s x : Nat} (hc : Cons g m c s x) (hl : (m x).left = none)
    {i : Nat} (hi : i < g.leafs) :
    c (idx g (m x).id i s) = if i = (m x).id then 0 else sentinel g := by
  rw [hc i hi]
  unfold node_val
  rw [hl]

/-- The row of a node with two children in a consistent cache. -/
theorem cons_internal_val {c : Cache} {s x l r : Nat} (hc : Cons g m c s x)
    (hl : (m x).left = some l) (hr : (m x).right = some r) {i : Nat} (hi : i < g.leafs) :
    c (idx g (m x).id i s) =
      min_cost g c ((m l).id * g.leafs * g.chunks) (m l).id i s
        + min_cost g c ((m r).id * g.leafs * g.chunks) (m r).id i s := by
  rw [hc i hi]
  unfold node_val
  rw [hl, hr]

/-- A node with a left child has two children. -/
theorem TreeOK.two_children (hT : TreeOK g.n m root) {x : Nat} (hx : x < g.n)
    (h : (m x).left ≠ none) : ∃ l r, (m x).left = some l ∧ (m x).right = some r := by
  obtain ⟨l, hl⟩ := Option.ne_none_iff_exists'.mp h
  cases hr : (m x).right with
  | none =>
    have := (hT.two x hx).mpr hr
    exact absurd this h
  | some r => exact ⟨l, r, hl, rfl⟩

/-- The sum below a node is at most the sum over all edges, when no edge cost is negative. -/
theorem below_sum_le_edge_sum (hT : TreeOK g.n m root) (hL : LeafIds g m) {s : Nat}
    (hK : ∀ i < g.leafs, ∀ j < g.leafs, 0 ≤ PairCost g i j s) {α : Nat → Nat}
    (hα : ValidAssign g m s α) {x : Nat} (hx : x < g.n) :
    below_sum g m s α x ≤ edge_sum g m s α := by
  classical
  rw [below_sum_flat hT s α x hx]
  unfold edge_sum
  apply Finset.sum_le_sum
  intro y hy
  have hyn : y < g.n := Finset.mem_range.mp hy
  have hnn : 0 ≤ edge_cost g m s α y := by
    unfold edge_cost
    cases hup : (m y).up with
    | none => exact le_refl _
    | some p =>
      exact hK _ (validAssign_lt hα hL (hT.up_lt y hyn p hup)) _ (validAssign_lt hα hL hyn)
  split_ifs
  · exact le_refl _
  · exact hnn

/-- In a consistent cache, under a table without negative entries and with every sum of a
tree below the sentinel, the entries of an internal node at the Unique witnesses are below
the sentinel. -/
theorem cons_lt_sentinel (hT : TreeOK g.n m root) (hL : LeafIds g m) {s : Nat}
    (hK : ∀ i < g.leafs, ∀ j < g.leafs, 0 ≤ PairCost g i j s)
    (hKx : ∀ i < g.leafs, 0 ≤ g.Kx (i * g.chunks + s))
    (hB : ∀ α, ValidAssign g m s α →
      g.Kx (α root * g.chunks + s) + edge_sum g m s α < sentinel g)
    {c : Cache} (hc : ∀ x < g.n, Cons g m c s x) {x : Nat} (hx : x < g.n)
    (hint : (m x).left ≠ none) {i : Nat} (hi : i < g.leafs)
    (hU : g.unique (i * g.chunks + s) ≠ 0) :
    c (idx g (m x).id i s) < sentinel g := by
  obtain ⟨⟨α, hα, _, e⟩, _⟩ := dp_row hT hL hK hc hi hU x hx hint i hi hU
  rw [← e]
  have h1 := below_sum_le_edge_sum hT hL hK hα hx
  have h2 := hB α hα
  have h3 := hKx _ (validAssign_lt hα hL hT.root_lt)
  omega

/-- At a witness that is not Unique, the entry of an internal node is twice the sentinel. -/
theorem cons_not_unique {c : Cache} {s x : Nat} (hT : TreeOK g.n m root) (hx : x < g.n)
    (hc : Cons g m c s x) (hint : (m x).left ≠ none) {i : Nat} (hi : i < g.leafs)
    (hU : g.unique (i * g.chunks + s) = 0) :
    c (idx g (m x).id i s) = sentinel g + sentinel g := by
  obtain ⟨l, r, hl, hr⟩ := hT.two_children hx hint
  rw [cons_internal_val hc hl hr hi]
  unfold min_cost
  rw [if_pos hU, if_pos hU]

theorem fill_val_root (c : Cache) (fill : Fill) {x s : Nat} (hup : (m x).up = none) (i : Nat) :
    fill_val g m c fill x s i = g.Kx (i * g.chunks + s) + c (idx g (m x).id i s) := by
  unfold fill_val idx
  rw [hup]

theorem fill_val_child (c : Cache) (fill : Fill) {x p s : Nat} (hup : (m x).up = some p)
    (i : Nat) :
    fill_val g m c fill x s i = PairCost g (fill p s) i s + c (idx g (m x).id i s) := by
  unfold fill_val idx PairCost
  rw [hup]

/-- What the lowest minimiser of `fill_val` is at every node of a tree with a consistent
cache: the own id at a leaf, a Unique witness at an internal node, and a witness that
attains `min_cost` under the fill of the parent. -/
theorem fillMin_local (hT : TreeOK g.n m root) (hL : LeafIds g m) {s : Nat}
    (hK : ∀ i < g.leafs, ∀ j < g.leafs, 0 ≤ PairCost g i j s)
    (hKx : ∀ i < g.leafs, 0 ≤ g.Kx (i * g.chunks + s))
    (hB : ∀ α, ValidAssign g m s α →
      g.Kx (α root * g.chunks + s) + edge_sum g m s α < sentinel g)
    {c : Cache} (hc : ∀ x < g.n, Cons g m c s x) {w : Nat} (hw : w < g.leafs)
    (hUw : g.unique (w * g.chunks + s) ≠ 0)
    {fill : Fill} (hF : ∀ x < g.n, FillMin g m c fill x s) :
    ∀ x < g.n, ((m x).left = none → fill x s = (m x).id) ∧
      ((m x).left ≠ none → g.unique (fill x s * g.chunks + s) ≠ 0) ∧
      (∀ p, (m x).up = some p →
        PairCost g (fill p s) (fill x s) s + c (idx g (m x).id (fill x s) s)
          = min_cost g c ((m x).id * g.leafs * g.chunks) (m x).id (fill p s) s) := by
  have hS := sentinel_nonneg g
  have hnn := cons_nonneg hT hK hc
  refine hT.up_induction _ (fun x hx ih => ?_)
  obtain ⟨hfx, hmin, _⟩ := hF x hx
  cases hup : (m x).up with
  | none =>
    have hxr : x = root := hT.one_root x hx hup
    have hval := fill_val_root (g := g) c fill (s := s) hup
    refine ⟨fun hleaf => ?_, fun hint hU0 => ?_, fun p hp => by cases hp⟩
    · by_contra hne
      have hid : (m x).id < g.leafs := (hL x hx).mp hleaf
      have h1 := hmin _ hid
      rw [hval, hval, cons_leaf_val (hc x hx) hleaf hfx, cons_leaf_val (hc x hx) hleaf hid,
        if_neg hne, if_pos rfl] at h1
      have hα := validAssign_exists (g := g) (m := m) s w hw hUw
      have h2 := hB _ hα
      have h3 : edge_sum g m s (fun y => if (m y).left = none then (m y).id else w) = 0 := by
        rw [← below_sum_root hT s, below_sum_leaf s _ (Or.inl (hxr ▸ hleaf))]
      rw [h3] at h2
      simp only [← hxr, hleaf, if_true] at h2
      have h4 := hKx _ hfx
      omega
    · push_neg at hU0
      have h1 := hmin _ hw
      rw [hval, hval, cons_not_unique hT hx (hc x hx) hint hfx hU0] at h1
      obtain ⟨⟨α, hα, hαx, e⟩, _⟩ := dp_row hT hL hK hc hw hUw x hx hint w hw hUw
      have h2 := hB α hα
      rw [← below_sum_root hT s α, ← hxr, e, hαx] at h2
      have h4 := hKx _ hfx
      omega
  | some p =>
    have hp : p < g.n := hT.up_lt x hx p hup
    have hpint : (m p).left ≠ none := by
      intro h
      rcases hT.up_child x hx p hup with h1 | h1
      · rw [h] at h1; cases h1
      · rw [(hT.two p hp).mp h] at h1; cases h1
    obtain ⟨l, r, hl, hr⟩ := hT.two_children hp hpint
    have hfp : fill p s < g.leafs := (hF p hp).1
    have hUp : g.unique (fill p s * g.chunks + s) ≠ 0 := (ih p hup).2.1 hpint
    have hval := fill_val_child (g := g) c fill (s := s) hup
    -- the value of `min_cost` for this child under the fill of the parent
    have hMlt : min_cost g c ((m x).id * g.leafs * g.chunks) (m x).id (fill p s) s
        < sentinel g := by
      have h1 := cons_lt_sentinel hT hL hK hKx hB hc hp hpint hfp hUp
      rw [cons_internal_val (hc p hp) hl hr hfp] at h1
      have hl0 := min_cost_nonneg g c (m l).id (fill p s) s hfp (hK _ hfp)
        (hnn l (hT.left_lt p hp l hl))
      have hr0 := min_cost_nonneg g c (m r).id (fill p s) s hfp (hK _ hfp)
        (hnn r (hT.right_lt p hp r hr))
      rcases hT.child_cases hx hup hl hr with e | e
      · rw [e]; omega
      · rw [e]; omega
    have hM0 := min_cost_nonneg g c (m x).id (fill p s) s hfp (hK _ hfp) (hnn x hx)
    have hMeq := min_cost_eq g c (m x).id (fill p s) s
      (fun j hj _ => add_nonneg (hnn x hx j hj) (hK _ hfp _ hj))
    rw [if_neg hUp] at hMeq
    by_cases hleaf : (m x).left = none
    · have hid : (m x).id < g.leafs := (hL x hx).mp hleaf
      rw [if_pos hid] at hMeq
      have hfill : fill x s = (m x).id := by
        by_contra hne
        have h1 := hmin _ hid
        rw [hval, hval, cons_leaf_val (hc x hx) hleaf hfx, cons_leaf_val (hc x hx) hleaf hid,
          if_neg hne, if_pos rfl] at h1
        have h4 := hK _ hfp _ hfx
        omega
      refine ⟨fun _ => hfill, fun h => absurd hleaf h, fun q hq => ?_⟩
      cases hq
      rw [hfill, cons_leaf_val (hc x hx) hleaf hid, if_pos rfl, hMeq, add_zero]
    · have hid : ¬ (m x).id < g.leafs := fun h => hleaf ((hL x hx).mpr h)
      rw [if_neg hid] at hMeq
      obtain ⟨hnone, hsome⟩ := least_upto_spec g s
        (fun j => c (idx g (m x).id j s) + PairCost g (fill p s) j s) g.leafs
      cases hlu : least_upto g s
          (fun j => c (idx g (m x).id j s) + PairCost g (fill p s) j s) g.leafs with
      | none => exact absurd (hnone hlu w hw) hUw
      | some M =>
        rw [hlu] at hMeq
        simp only [Option.getD_some] at hMeq
        obtain ⟨⟨j, hj, hUj, ej⟩, hlow⟩ := hsome M hlu
        have h1 := hmin j hj
        rw [hval, hval] at h1
        have hUx : g.unique (fill x s * g.chunks + s) ≠ 0 := by
          intro hU0
          rw [cons_not_unique hT hx (hc x hx) hleaf hfx hU0] at h1
          have h4 := hK _ hfp _ hfx
          omega
        refine ⟨fun h => absurd h hleaf, fun _ => hUx, fun q hq => ?_⟩
        cases hq
        have h2 := hlow _ hfx hUx
        omega

/-- Under the fill assignment the sum of the edge costs below a node is the cache entry of
the node at its fill. -/
theorem fillMin_below (hT : TreeOK g.n m root) (hL : LeafIds g m) {s : Nat}
    {c : Cache} (hc : ∀ x < g.n, Cons g m c s x) {fill : Fill}
    (hF : ∀ x < g.n, FillMin g m c fill x s)
    (hloc : ∀ x < g.n, ((m x).left = none → fill x s = (m x).id) ∧
      ((m x).left ≠ none → g.unique (fill x s * g.chunks + s) ≠ 0) ∧
      (∀ p, (m x).up = some p →
        PairCost g (fill p s) (fill x s) s + c (idx g (m x).id (fill x s) s)
          = min_cost g c ((m x).id * g.leafs * g.chunks) (m x).id (fill p s) s)) :
    ∀ x < g.n, below_sum g m s (fun y => fill y s) x = c (idx g (m x).id (fill x s) s) := by
  refine hT.down_induction _ (fun x hx ih => ?_)
  by_cases hleaf : (m x).left = none
  · have hid : (m x).id < g.leafs := (hL x hx).mp hleaf
    rw [below_sum_leaf s _ (Or.inl hleaf), (hloc x hx).1 hleaf,
      cons_leaf_val (hc x hx) hleaf hid, if_pos rfl]
  · obtain ⟨l, r, hl, hr⟩ := hT.two_children hx hleaf
    obtain ⟨hln, hlu, _⟩ := hT.child_facts hx (Or.inl hl)
    obtain ⟨hrn, hru, _⟩ := hT.child_facts hx (Or.inr hr)
    rw [below_sum_node hT s _ hx hl hr, ih l hln hlu, ih r hrn hru,
      cons_internal_val (hc x hx) hl hr (hF x hx).1]
    have h1 := (hloc l hln).2.2 x hlu
    have h2 := (hloc r hrn).2.2 x hru
    rw [h1, h2]

end fill_opt

/-- C30: on a well-formed tree whose leaves carry the ids below `leafs`, with a cache that is
consistent in segment `s`, where `s` has a non-zero weight and at least one Unique witness,
the entries of `Kyx` and `Kx` are non-negative and every tree sum (the `Kx` entry of the
witness at the root plus the sum over all edges) of an admissible assignment is below the
sentinel `RAND_MAX/256`: `fill_subtree` at the root returns; afterwards `fill[s]` of every
leaf is the own id of the leaf, `fill[s]` of every internal node is a Unique witness, and the
sum over all parent-child edges of `Kyx[parent.fill[s]][child.fill[s]][s]` is
`cost[root][root.fill[s]][s]`; no admissible assignment has a smaller tree sum. -/
theorem fill_assignment_optimal (g : Globals) (m : Mem) (root : Nat) (cost : Cache)
    (fill0 : Fill) (fuel s : Nat)
    (hT : TreeOK g.n m root) (hL : LeafIds g m) (hs : s < g.chunks) (hw : g.bootw s ≠ 0)
    (hU : ∃ w < g.leafs, g.unique (w * g.chunks + s) ≠ 0)
    (hK : ∀ i < g.leafs, ∀ j < g.leafs, 0 ≤ PairCost g i j s)
    (hKx : ∀ i < g.leafs, 0 ≤ g.Kx (i * g.chunks + s))
    (hB : ∀ α, ValidAssign g m s α →
      g.Kx (α root * g.chunks + s) + edge_sum g m s α < sentinel g)
    (hc : ∀ x < g.n, Cons g m cost s x) (hf : g.n ≤ fuel) :
    ∃ fill, fill_subtree g m cost fuel (some root) fill0 = some fill ∧
      (∀ x < g.n, (m x).left = none → fill x s = (m x).id) ∧
      (∀ x < g.n, (m x).left ≠ none →
        fill x s < g.leafs ∧ g.unique (fill x s * g.chunks + s) ≠ 0) ∧
      edge_sum g m s (fun x => fill x s) = cost (idx g (m root).id (fill root s) s) ∧
      ∀ α, ValidAssign g m s α →
        g.Kx (fill root s * g.chunks + s) + edge_sum g m s (fun x => fill x s)
          ≤ g.Kx (α root * g.chunks + s) + edge_sum g m s α := by
  obtain ⟨w, hwl, hUw⟩ := hU
  obtain ⟨fill, e, _, hmin, _⟩ :=
    fill_subtree_spec hT cost (Nat.lt_of_le_of_lt (Nat.zero_le w) hwl) fuel root fill0
      hT.root_lt (by omega)
  have hF : ∀ x < g.n, FillMin g m cost fill x s :=
    fun x hx => hmin x hx (hT.anc_root x hx) s ⟨hs, hw⟩
  have hloc := fillMin_local hT hL hK hKx hB hc hwl hUw hF
  have hbel := fillMin_below hT hL hc hF hloc
  have hsum : edge_sum g m s (fun x => fill x s) = cost (idx g (m root).id (fill root s) s) := by
    rw [← below_sum_root hT s, hbel root hT.root_lt]
  refine ⟨fill, e, fun x hx h => (hloc x hx).1 h,
    fun x hx h => ⟨(hF x hx).1, (hloc x hx).2.1 h⟩, hsum, fun α hα => ?_⟩
  rw [hsum]
  have hr := hα root hT.root_lt
  by_cases hleaf : (m root).left = none
  · rw [if_pos hleaf] at hr
    have hid : (m root).id < g.leafs := (hL root hT.root_lt).mp hleaf
    rw [← below_sum_root hT s α, below_sum_leaf s α (Or.inl hleaf), hr,
      (hloc root hT.root_lt).1 hleaf, cons_leaf_val (hc root hT.root_lt) hleaf hid, if_pos rfl]
  · rw [if_neg hleaf] at hr
    have h1 := (hF root hT.root_lt).2.1 (α root) hr.1
    rw [fill_val_root cost fill hT.root_up, fill_val_root cost fill hT.root_up] at h1
    have h2 := (dp_row hT hL hK hc hwl hUw root hT.root_lt hleaf (α root) hr.1 hr.2).2 α hα rfl
    rw [below_sum_root hT s α] at h2
    omega

set_option maxRecDepth 100000 in
theorem fill_assignment_optimal_witness :
    ∃ fill, fill_subtree exGlobals exMem exCache 7 (some 6) (fun _ _ => 0) = some fill ∧
      (∀ x < exGlobals.n, (exMem x).left = none → fill x 0 = (exMem x).id) ∧
      (∀ x < exGlobals.n, (exMem x).left ≠ none →
        fill x 0 < exGlobals.leafs ∧ exGlobals.unique (fill x 0 * exGlobals.chunks + 0) ≠ 0) ∧
      edge_sum exGlobals exMem 0 (fun x => fill x 0)
        = exCache (idx exGlobals (exMem 6).id (fill 6 0) 0) ∧
      ∀ α, ValidAssign exGlobals exMem 0 α →
        exGlobals.Kx (fill 6 0 * exGlobals.chunks + 0)
            + edge_sum exGlobals exMem 0 (fun x => fill x 0)
          ≤ exGlobals.Kx (α 6 * exGlobals.chunks + 0) + edge_sum exGlobals exMem 0 α :=
  fill_assignment_optimal exGlobals exMem 6 exCache (fun _ _ => 0) 7 0
    (by decide) (by decide) (by decide) (by decide) ⟨0, by decide, by decide⟩ (by decide)
    (by decide)
    (fun _ hα => lt_of_le_of_lt
      (add_le_add (le_refl (0 : Int))
        (edge_sum_le (B := 10) (by decide : TreeOK exGlobals.n exMem 6) (by decide)
          hα (by decide) (by decide)))
      (by decide))
    (by decide) (by decide)

/-! ## Which trees have a pair that passes the filter of `prep_mutate_tree` -/

section pairs
variable {n : Nat} {m : Mem} {root : Nat}

theorem reaches_up_none (m : Mem) (f b : Nat) : reaches_up m f none b = some false := by
  cases f <;> rfl

/-- The upward walk of `same_branch` ends with `0` when the target is not on the chain. -/
theorem reaches_up_not_anc (hT : TreeOK n m root) (b : Nat) :
    ∀ (f p : Nat), p < n → depth m n p < f → ¬ Anc m p b →
      reaches_up m f (some p) b = some false := by
  intro f
  induction f with
  | zero => intro p _ h; exact absurd h (Nat.not_lt_zero _)
  | succ f ih =>
    intro p hp hd hanc
    have hpb : p ≠ b := fun e => hanc (e ▸ Anc.refl _)
    rw [reaches_up, if_neg hpb]
    cases hup : (m p).up with
    | none => exact reaches_up_none m f b
    | some q =>
      have := hT.depth_up hp hup
      exact ih q (hT.up_lt p hp q hup) (by omega) (fun h => hanc (Anc.step hup h))

/-- A pair with the facts of `PairOK` passes the filter. -/
theorem admitted_of_pair (hT : TreeOK n m root) {alt : Bool} {a b pa pb : Nat}
    (ha : a < n) (hb : b < n) (h : PairOK m alt a b pa pb) : Admitted n m alt a b := by
  refine ⟨ha, hb, ?_⟩
  have hpa : pa < n := hT.up_lt a ha pa h.up_a
  have hpb : pb < n := hT.up_lt b hb pb h.up_b
  have da := hT.depth_up ha h.up_a
  have db := hT.depth_up hb h.up_b
  have dA := hT.acyclic a ha
  have dB := hT.acyclic b hb
  have r1 : reaches_up m n (some pa) b = some false :=
    reaches_up_not_anc hT b n pa hpa (by omega) (fun hh => h.not_anc_ab (Anc.step h.up_a hh))
  have r2 : reaches_up m n (some pb) a = some false :=
    reaches_up_not_anc hT a n pb hpb (by omega) (fun hh => h.not_anc_ba (Anc.step h.up_b hh))
  have sb : same_branch m n a b = some false := by
    unfold same_branch
    rw [if_neg h.ne, h.up_a, h.up_b, r1]
    exact r2
  unfold prep_filter
  rw [h.up_a, h.up_b]
  simp only [sb]
  cases alt with
  | true => simp [h.up_ne]
  | false =>
    obtain ⟨g1, g2⟩ := h.grand rfl
    simp [h.up_ne, Option.isSome_iff_ne_none, g1, g2]

/-- The filter is symmetric in the two nodes. -/
theorem admitted_symm (hT : TreeOK n m root) {alt : Bool} {a b : Nat}
    (h : Admitted n m alt a b) : Admitted n m alt b a := by
  obtain ⟨pa, pb, hp⟩ := h.pair
  exact admitted_of_pair hT h.2.1 h.1
    ⟨hp.up_b, hp.up_a, hp.ne.symm, hp.up_ne.symm, hp.not_anc_ba, hp.not_anc_ab,
      fun e => (hp.grand e).symm⟩

/-- A node with a parent has a parent with two children. -/
theorem TreeOK.parent_internal (hT : TreeOK n m root) {x p : Nat} (hx : x < n)
    (hup : (m x).up = some p) : (m p).left ≠ none := by
  intro h
  have hp := hT.up_lt x hx p hup
  rcases hT.up_child x hx p hup with h1 | h1
  · rw [h] at h1; cases h1
  · rw [(hT.two p hp).mp h] at h1; cases h1

/-- A full binary tree has one leaf more than it has internal nodes. -/
theorem leaf_count_eq (hT : TreeOK n m root) : leaf_count n m = internal_count n m + 1 := by
  have h1 : leaf_count n m + internal_count n m = n := by
    unfold leaf_count internal_count
    rw [Finset.filter_card_add_filter_neg_card_eq_card, Finset.card_range]
  have hroot : root ∈ Finset.range n := Finset.mem_range.mpr hT.root_lt
  have h2 : ((Finset.range n).erase root).card = n - 1 := by
    rw [Finset.card_erase_of_mem hroot, Finset.card_range]
  have hmaps : ∀ x ∈ (Finset.range n).erase root,
      ((m x).up).getD 0 ∈ (Finset.range n).filter (fun x => (m x).left ≠ none) := by
    intro x hx
    obtain ⟨hne, hxn⟩ := Finset.mem_erase.mp hx
    have hxn := Finset.mem_range.mp hxn
    cases hup : (m x).up with
    | none => exact absurd (hT.one_root x hxn hup) hne
    | some p =>
      simp only [Option.getD_some, Finset.mem_filter, Finset.mem_range]
      exact ⟨hT.up_lt x hxn p hup, hT.parent_internal hxn hup⟩
  have h3 := Finset.card_eq_sum_card_fiberwise hmaps
  have hfib : ∀ p ∈ (Finset.range n).filter (fun x => (m x).left ≠ none),
      (((Finset.range n).erase root).filter (fun x => ((m x).up).getD 0 = p)).card = 2 := by
    intro p hp
    obtain ⟨hpn, hpi⟩ := Finset.mem_filter.mp hp
    have hpn := Finset.mem_range.mp hpn
    obtain ⟨l, r, hl, hr⟩ : ∃ l r, (m p).left = some l ∧ (m p).right = some r := by
      obtain ⟨l, hl⟩ := Option.ne_none_iff_exists'.mp hpi
      cases hr : (m p).right with
      | none => exact absurd ((hT.two p hpn).mpr hr) hpi
      | some r => exact ⟨l, r, hl, rfl⟩
    have hlr : l ≠ r := fun e => hT.lr_ne p hpn l hl (e ▸ hr)
    have hset : ((Finset.range n).erase root).filter (fun x => ((m x).up).getD 0 = p)
        = {l, r} := by
      ext x
      simp only [Finset.mem_filter, Finset.mem_erase, Finset.mem_range, Finset.mem_insert,
        Finset.mem_singleton]
      constructor
      · rintro ⟨⟨hne, hxn⟩, hx⟩
        cases hup : (m x).up with
        | none => exact absurd (hT.one_root x hxn hup) hne
        | some q =>
          rw [hup, Option.getD_some] at hx
          subst hx
          exact hT.child_cases hxn hup hl hr
      · rintro (rfl | rfl)
        · have h5 := hT.left_up p hpn x hl
          refine ⟨⟨fun e => ?_, hT.left_lt p hpn x hl⟩, by rw [h5]; rfl⟩
          rw [e, hT.root_up] at h5; cases h5
        · have h5 := hT.right_up p hpn x hr
          refine ⟨⟨fun e => ?_, hT.right_lt p hpn x hr⟩, by rw [h5]; rfl⟩
          rw [e, hT.root_up] at h5; cases h5
    rw [hset, Finset.card_pair hlr]
  rw [Finset.sum_congr rfl hfib, Finset.sum_const, smul_eq_mul, h2] at h3
  have h4 : internal_count n m = ((Finset.range n).filter (fun x => (m x).left ≠ none)).card :=
    rfl
  have := hT.root_lt
  omega

/-- A node with a parent has a sibling. -/
theorem TreeOK.has_sibling (hT : TreeOK n m root) {x G : Nat} (hx : x < n)
    (hup : (m x).up = some G) : ∃ y < n, (m y).up = some G ∧ y ≠ x := by
  have hG := hT.up_lt x hx G hup
  rcases hT.child_slot hx hup with ⟨hl, hr⟩ | ⟨hl, hr⟩
  · cases hr2 : (m G).right with
    | none => rw [(hT.two G hG).mpr hr2] at hl; cases hl
    | some r =>
      exact ⟨r, hT.right_lt G hG r hr2, hT.right_up G hG r hr2, fun e => hr (e ▸ hr2)⟩
  · cases hl2 : (m G).left with
    | none => rw [(hT.two G hG).mp hl2] at hr; cases hr
    | some l =>
      exact ⟨l, hT.left_lt G hG l hl2, hT.left_up G hG l hl2, fun e => hl (e ▸ hl2)⟩

/-- An internal node has a child. -/
theorem TreeOK.has_child (hT : TreeOK n m root) {P : Nat} (hP : P < n)
    (hint : (m P).left ≠ none) : ∃ d < n, (m d).up = some P := by
  obtain ⟨l, hl⟩ := Option.ne_none_iff_exists'.mp hint
  exact ⟨l, hT.left_lt P hP l hl, hT.left_up P hP l hl⟩

/-- A swap pair from an internal node below the root: a child of the node and the sibling of
the node. -/
theorem swap_pair_exists (hT : TreeOK n m root) {P G : Nat} (hP : P < n)
    (hup : (m P).up = some G) (hint : (m P).left ≠ none) :
    ∃ a b, Admitted n m true a b := by
  obtain ⟨d, hd, hdu⟩ := hT.has_child hP hint
  obtain ⟨y, hy, hyu, hyP⟩ := hT.has_sibling hP hup
  have hGP : G ≠ P := hT.up_ne hP hup
  have hdy : d ≠ y := fun e => hGP (by rw [e, hyu] at hdu; exact Option.some.inj hdu)
  refine ⟨d, y, admitted_of_pair hT hd hy
    ⟨hdu, hyu, hdy, fun e => hGP e.symm, ?_, ?_, fun e => by cases e⟩⟩
  · intro h
    rcases h.cases_up with e | ⟨q, hq, hqy⟩
    · exact hdy e
    · rw [hdu] at hq; cases hq
      exact hT.desc_disjoint hP hy hup hyu (fun e => hyP e.symm) (Anc.refl _) hqy
  · intro h
    rcases h.cases_up with e | ⟨q, hq, hqd⟩
    · exact hdy e.symm
    · rw [hyu] at hq; cases hq
      exact hT.not_anc_up hd hdu ((Anc.of_up hup).trans hqd)

/-- A regraft pair from two internal nodes below the root of which neither is above the
other: a child of each. -/
theorem regraft_pair_apart (hT : TreeOK n m root) {P Q : Nat} (hP : P < n) (hQ : Q < n)
    (hPu : (m P).up ≠ none) (hQu : (m Q).up ≠ none)
    (hPi : (m P).left ≠ none) (hQi : (m Q).left ≠ none)
    (h1 : ¬ Anc m P Q) (h2 : ¬ Anc m Q P) : ∃ a b, Admitted n m false a b := by
  obtain ⟨d, hd, hdu⟩ := hT.has_child hP hPi
  obtain ⟨e, he, heu⟩ := hT.has_child hQ hQi
  have hPQ : P ≠ Q := fun h => h1 (h ▸ Anc.refl _)
  have hde : d ≠ e := fun h => hPQ (by rw [h, heu] at hdu; exact (Option.some.inj hdu).symm)
  refine ⟨d, e, admitted_of_pair hT hd he
    ⟨hdu, heu, hde, hPQ, ?_, ?_, fun _ => ⟨hPu, hQu⟩⟩⟩
  · intro h
    rcases h.cases_up with e1 | ⟨q, hq, hqe⟩
    · exact hde e1
    · rw [hdu] at hq; cases hq
      exact h1 (hqe.trans (Anc.of_up heu))
  · intro h
    rcases h.cases_up with e1 | ⟨q, hq, hqd⟩
    · exact hde e1.symm
    · rw [heu] at hq; cases hq
      exact h2 (hqd.trans (Anc.of_up hdu))

/-- A regraft pair from two internal nodes below the root of which one is above the other:
a child of the lower node and the child of the upper node that is not above the lower. -/
theorem regraft_pair_nested (hT : TreeOK n m root) {P Q : Nat} (hP : P < n)
    (hPu : (m P).up ≠ none) (hQu : (m Q).up ≠ none)
    (hPi : (m P).left ≠ none) (hPQ : P ≠ Q) (h1 : Anc m P Q) :
    ∃ a b, Admitted n m false a b := by
  obtain ⟨d, hd, hdu⟩ := hT.has_child hP hPi
  rcases h1.through_child with e | ⟨c, hcu, hPc⟩
  · exact absurd e hPQ
  · have hc : c < n := hPc.lt hT hP
    obtain ⟨y, hy, hyu, hyc⟩ := hT.has_sibling hc hcu
    have hyd : y ≠ d := fun h => hPQ (by rw [h, hdu] at hyu; exact Option.some.inj hyu)
    refine ⟨y, d, admitted_of_pair hT hy hd
      ⟨hyu, hdu, hyd, fun e => hPQ e.symm, ?_, ?_, fun _ => ⟨hQu, hPu⟩⟩⟩
    · intro h
      rcases h.cases_up with e1 | ⟨q, hq, hqd⟩
      · exact hyd e1
      · rw [hyu] at hq; cases hq
        exact hT.not_anc_up hd hdu (h1.trans hqd)
    · intro h
      rcases h.cases_up with e1 | ⟨q, hq, hqy⟩
      · exact hyd e1.symm
      · rw [hdu] at hq; cases hq
        exact hT.desc_disjoint hc hy hcu hyu (fun e => hyc e.symm) hPc hqy

/-- The root of a tree with a node that has a parent is internal. -/
theorem TreeOK.root_internal (hT : TreeOK n m root) {x p : Nat} (hx : x < n)
    (hup : (m x).up = some p) : (m root).left ≠ none := by
  rcases (hT.anc_root x hx).through_child with e | ⟨c, hcu, hxc⟩
  · rw [e, hT.root_up] at hup; cases hup
  · exact hT.parent_internal (hxc.lt hT hx) hcu

/-- A pair that passes the filter of a swap iteration shows two internal nodes; one that
passes the filter of a regraft iteration shows three. -/
theorem admitted_internal_count (hT : TreeOK n m root) {alt : Bool} {a b : Nat}
    (h : Admitted n m alt a b) :
    (if alt then 2 else 3) ≤ internal_count n m := by
  obtain ⟨pa, pb, hp⟩ := h.pair
  have hpa : pa < n := hT.up_lt a h.1 pa hp.up_a
  have hpb : pb < n := hT.up_lt b h.2.1 pb hp.up_b
  have ia := hT.parent_internal h.1 hp.up_a
  have ib := hT.parent_internal h.2.1 hp.up_b
  have mem : ∀ x, x < n → (m x).left ≠ none →
      x ∈ (Finset.range n).filter (fun x => (m x).left ≠ none) :=
    fun x hx hi => Finset.mem_filter.mpr ⟨Finset.mem_range.mpr hx, hi⟩
  unfold internal_count
  cases alt with
  | true =>
    rw [if_pos rfl, ← Finset.card_pair hp.up_ne]
    apply Finset.card_le_card
    intro x hx
    rcases Finset.mem_insert.mp hx with e | e
    · rw [e]; exact mem pa hpa ia
    · rw [Finset.mem_singleton.mp e]; exact mem pb hpb ib
  | false =>
    obtain ⟨g1, g2⟩ := hp.grand rfl
    have r1 : root ≠ pa := fun e => g1 (e ▸ hT.root_up)
    have r2 : root ≠ pb := fun e => g2 (e ▸ hT.root_up)
    have h3 : ({root, pa, pb} : Finset Nat).card = 3 :=
      Finset.card_eq_three.mpr ⟨root, pa, pb, r1, r2, hp.up_ne, rfl⟩
    rw [if_neg (by decide), ← h3]
    apply Finset.card_le_card
    intro x hx
    rcases Finset.mem_insert.mp hx with e | hx
    · rw [e]; exact mem root hT.root_lt (hT.root_internal h.1 hp.up_a)
    · rcases Finset.mem_insert.mp hx with e | e
      · rw [e]; exact mem pa hpa ia
      · rw [Finset.mem_singleton.mp e]; exact mem pb hpb ib

/-- With two internal nodes a pair passes the filter of a swap iteration; with three, one
passes the filter of a regraft iteration. -/
theorem admitted_of_internal_count (hT : TreeOK n m root) (alt : Bool)
    (h : (if alt then 2 else 3) ≤ internal_count n m) : ∃ a b, Admitted n m alt a b := by
  classical
  have hle := Finset.pred_card_le_card_erase
    (s := (Finset.range n).filter (fun x => (m x).left ≠ none)) (a := root)
  have facts : ∀ x ∈ ((Finset.range n).filter (fun x => (m x).left ≠ none)).erase root,
      x < n ∧ (m x).up ≠ none ∧ (m x).left ≠ none := by
    intro x hx
    obtain ⟨hne, hx⟩ := Finset.mem_erase.mp hx
    obtain ⟨hxn, hi⟩ := Finset.mem_filter.mp hx
    have hxn := Finset.mem_range.mp hxn
    exact ⟨hxn, fun e => hne (hT.one_root x hxn e), hi⟩
  unfold internal_count at h
  cases alt with
  | true =>
    rw [if_pos rfl] at h
    obtain ⟨P, hPm⟩ := Finset.card_pos.mp (by omega :
      0 < (((Finset.range n).filter (fun x => (m x).left ≠ none)).erase root).card)
    obtain ⟨hP, hPu, hPi⟩ := facts P hPm
    obtain ⟨G, hG⟩ := Option.ne_none_iff_exists'.mp hPu
    exact swap_pair_exists hT hP hG hPi
  | false =>
    rw [if_neg (by decide)] at h
    obtain ⟨P, hPm, Q, hQm, hPQ⟩ := Finset.one_lt_card.mp (by omega :
      1 < (((Finset.range n).filter (fun x => (m x).left ≠ none)).erase root).card)
    obtain ⟨hP, hPu, hPi⟩ := facts P hPm
    obtain ⟨hQ, hQu, hQi⟩ := facts Q hQm
    by_cases h1 : Anc m P Q
    · exact regraft_pair_nested hT hP hPu hQu hPi hPQ h1
    · by_cases h2 : Anc m Q P
      · exact regraft_pair_nested hT hQ hQu hPu hQi (fun e => hPQ e.symm) h2
      · exact regraft_pair_apart hT hP hQ hPu hQu hPi hQi h1 h2

/-- A pair passes the filter exactly when the tree has enough leaves: three for a swap
iteration, four for a regraft iteration. -/
theorem admitted_iff_leaves (hT : TreeOK n m root) (alt : Bool) :
    (∃ a b, Admitted n m alt a b) ↔ (if alt then 3 else 4) ≤ leaf_count n m := by
  rw [leaf_count_eq hT]
  constructor
  · rintro ⟨a, b, h⟩
    have := admitted_internal_count hT h
    cases alt
    · simp only [Bool.false_eq_true, if_false] at this ⊢; omega
    · simp only [if_true] at this ⊢; omega
  · intro h
    refine admitted_of_internal_count hT alt ?_
    cases alt
    · simp only [Bool.false_eq_true, if_false] at h ⊢; omega
    · simp only [if_true] at h ⊢; omega

/-- One pass of the loop on the draws `u`, `v` in their ranges that select the ids `i`, `j`
of an admitted pair. -/
theorem prep_pass_admitted {array : Nat → Option Nat} {alt : Bool} {a b i j : Nat}
    (hi : i < n) (hj : j < n) (hij : i ≠ j)
    (ha : array i = some a) (hb : array j = some b) (h : Admitted n m alt a b) :
    prep_pass m array n alt (i : Int) (j : Int) = some (some (a, b)) := by
  unfold prep_pass select_pair
  have hne : ((j : Int) = (i : Int)) = False := by
    simp only [Nat.cast_inj, eq_iff_iff, iff_false]; exact fun e => hij e.symm
  simp only [hne, if_false]
  rw [if_neg (by omega)]
  simp only [Int.toNat_ofNat, ha, hb, h.2.2]

end pairs

/-- C24: on a full binary tree (every node has no child or two) with `k` leaves whose lookup
array holds the node of every id: two ids `i`, `j` whose nodes pass the acceptance test of
`prep_mutate_tree` on a swap iteration exist exactly when `3 ≤ k`, and two that pass it on a
regraft iteration exactly when `4 ≤ k`; for both kinds of iteration there are draws in their
ranges on which a pass of the loop breaks exactly when `4 ≤ k`; and on no draws does the loop
end on a swap iteration with `k < 3` or on a regraft iteration with `k < 4`. -/
theorem admissible_pair_iff (n : Nat) (m : Mem) (root : Nat) (array : Nat → Option Nat)
    (hT : TreeOK n m root) (hI : IdsOK n m)
    (hA : ∀ i < n, ∀ p, array i = some p → p < n)
    (hA2 : ∀ p < n, array (m p).id = some p) :
    ((∃ i < n, ∃ j < n, ∃ a b, array i = some a ∧ array j = some b ∧
        prep_filter m n true a b = some true) ↔ 3 ≤ leaf_count n m) ∧
    ((∃ i < n, ∃ j < n, ∃ a b, array i = some a ∧ array j = some b ∧
        prep_filter m n false a b = some true) ↔ 4 ≤ leaf_count n m) ∧
    ((∀ alt, ∃ u v : Int, 0 ≤ u ∧ u < n ∧ 0 ≤ v ∧ v < (n : Int) - 1 ∧
        ∃ a b, prep_pass m array n alt u v = some (some (a, b))) ↔ 4 ≤ leaf_count n m) ∧
    (∀ alt draws fuel k r, prep_loop m array n alt draws fuel k = some r →
        (if alt then 3 else 4) ≤ leaf_count n m) := by
  have ids : ∀ alt, (∃ i < n, ∃ j < n, ∃ a b, array i = some a ∧ array j = some b ∧
      prep_filter m n alt a b = some true) ↔ ∃ a b, Admitted n m alt a b := by
    intro alt
    constructor
    · rintro ⟨i, hi, j, hj, a, b, ha, hb, hf⟩
      exact ⟨a, b, hA i hi a ha, hA j hj b hb, hf⟩
    · rintro ⟨a, b, ha, hb, hf⟩
      exact ⟨(m a).id, hI.id_lt a ha, (m b).id, hI.id_lt b hb, a, b, hA2 a ha, hA2 b hb, hf⟩
  have loop : ∀ alt draws fuel k r, prep_loop m array n alt draws fuel k = some r →
      (if alt then 3 else 4) ≤ leaf_count n m := by
    intro alt draws fuel k r h
    obtain ⟨a, b, k1⟩ := r
    exact (admitted_iff_leaves hT alt).mp ⟨a, b, prep_loop_admitted hA fuel k h⟩
  refine ⟨(ids true).trans (admitted_iff_leaves hT true),
    (ids false).trans (admitted_iff_leaves hT false), ⟨fun h => ?_, fun h alt => ?_⟩, loop⟩
  · obtain ⟨u, v, _, _, _, _, a, b, hp⟩ := h false
    have hl : prep_loop m array n false (fun t => if t = 0 then u else v) 1 0
        = some (a, b, 2) := by
      simp only [prep_loop, if_true, Nat.zero_add, one_ne_zero, if_false, hp]
    exact loop false _ 1 0 _ hl
  · have hk : (if alt then 3 else 4) ≤ leaf_count n m := by
      cases alt
      · exact h
      · simp only [if_true]; omega
    obtain ⟨a, b, hadm⟩ := (admitted_iff_leaves hT alt).mpr hk
    obtain ⟨pa, pb, hp⟩ := hadm.pair
    have hi := hI.id_lt a hadm.1
    have hj := hI.id_lt b hadm.2.1
    have hij : (m a).id ≠ (m b).id := fun e => hp.ne (hI.id_inj a hadm.1 b hadm.2.1 e)
    by_cases hjn : (m b).id < n - 1
    · exact ⟨(m a).id, (m b).id, by omega, by omega, by omega, by omega, a, b,
        prep_pass_admitted hi hj hij (hA2 a hadm.1) (hA2 b hadm.2.1) hadm⟩
    · exact ⟨(m b).id, (m a).id, by omega, by omega, by omega, by omega, b, a,
        prep_pass_admitted hj hi (fun e => hij e.symm) (hA2 b hadm.2.1)
          (hA2 a hadm.1) (admitted_symm hT hadm)⟩

theorem admissible_pair_iff_witness :
    ((∃ i < 7, ∃ j < 7, ∃ a b, exArray i = some a ∧ exArray j = some b ∧
        prep_filter exMem 7 true a b = some true) ↔ 3 ≤ leaf_count 7 exMem) ∧
    ((∃ i < 7, ∃ j < 7, ∃ a b, exArray i = some a ∧ exArray j = some b ∧
        prep_filter exMem 7 false a b = some true) ↔ 4 ≤ leaf_count 7 exMem) ∧
    ((∀ alt, ∃ u v : Int, 0 ≤ u ∧ u < (7 : Nat) ∧ 0 ≤ v ∧ v < ((7 : Nat) : Int) - 1 ∧
        ∃ a b, prep_pass exMem exArray 7 alt u v = some (some (a, b)))
      ↔ 4 ≤ leaf_count 7 exMem) ∧
    (∀ alt draws fuel k r, prep_loop exMem exArray 7 alt draws fuel k = some r →
        (if alt then 3 else 4) ≤ leaf_count 7 exMem) :=
  admissible_pair_iff 7 exMem 6 exArray (by decide) (by decide) (by decide) (by decide)

/-! ## The copy has the shape of the source -/

theorem copy_subtree_none (bound fuel : Nat) (s : CopyState) :
    copy_subtree bound fuel none s = some (none, s) := by
  cases fuel <;> rfl

theorem setLeft_same (m : Mem) (p : Nat) (v : Option Nat) :
    setLeft m p v p = { m p with left := v } := by
  unfold setLeft; rw [Function.update_same]

theorem setLeft_other (m : Mem) {p y : Nat} (v : Option Nat) (h : y ≠ p) :
    setLeft m p v y = m y := by
  unfold setLeft; rw [Function.update_noteq h]

theorem setRight_same (m : Mem) (p : Nat) (v : Option Nat) :
    setRight m p v p = { m p with right := v } := by
  unfold setRight; rw [Function.update_same]

theorem setRight_other (m : Mem) {p y : Nat} (v : Option Nat) (h : y ≠ p) :
    setRight m p v y = m y := by
  unfold setRight; rw [Function.update_noteq h]

theorem setUp_same (m : Mem) (p : Nat) (v : Option Nat) :
    setUp m p v p = { m p with up := v } := by
  unfold setUp; rw [Function.update_same]

theorem setUp_other (m : Mem) {p y : Nat} (v : Option Nat) (h : y ≠ p) :
    setUp m p v y = m y := by
  unfold setUp; rw [Function.update_noteq h]

theorem attach_other (m : Mem) (node : Nat) {c : Option Nat} {y : Nat} (h : c ≠ some y) :
    attach m node c y = m y := by
  cases c with
  | none => rfl
  | some c1 => exact setUp_other m _ (fun e => h (by rw [e]))

theorem attach_same (m : Mem) (node y : Nat) :
    attach m node (some y) y = { m y with up := some node } :=
  setUp_same m y _

/-- One call of `copy_subtree` on a node, from the results of the calls on its children. -/
theorem copy_subtree_step (bound fuel src : Nat) (s : CopyState)
    (l r : Option Nat) (s3 s6 : CopyState)
    (hid : (s.mem src).id < bound) (hne : src ≠ s.alloc)
    (e1 : copy_subtree bound fuel (s.mem src).left
      ⟨s.alloc + 1, Function.update s.mem s.alloc ⟨(s.mem src).id, none, none, none⟩,
        Function.update s.array (s.mem src).id (some s.alloc)⟩ = some (l, s3))
    (e2 : copy_subtree bound fuel
      ((attach (setLeft s3.mem s.alloc l) s.alloc l) src).right
      ⟨s3.alloc, attach (setLeft s3.mem s.alloc l) s.alloc l, s3.array⟩ = some (r, s6)) :
    copy_subtree bound (fuel + 1) (some src) s =
      some (some s.alloc, ⟨s6.alloc, attach (setRight s6.mem s.alloc r) s.alloc r, s6.array⟩) := by
  rw [copy_subtree]
  simp only [Function.update_same, hid, if_true, Function.update_noteq hne, e1, setLeft_same]
  cases l <;> simp only [attach] at e2 ⊢ <;> rw [e2] <;> simp only [setRight_same]

theorem bind_array_congr {o : Option Nat} {f g : Nat → Option Nat}
    (h : ∀ c, o = some c → f c = g c) : o.bind f = o.bind g := by
  cases o with
  | none => rfl
  | some c => exact h c rfl

theorem copy_subtree_spec {n : Nat} {m : Mem} {root : Nat} (hT : TreeOK n m root)
    (hI : IdsOK n m) :
    ∀ (fuel p : Nat) (s : CopyState), p < n → n ≤ depth m n p + fuel → n ≤ s.alloc →
      (∀ x < n, s.mem x = m x) →
      ∃ st1, copy_subtree n fuel (some p) s = some (some s.alloc, st1) ∧
        CopySpec n m (some p) s st1 := by
  intro fuel
  induction fuel with
  | zero =>
    intro p s hp hf
    have := hT.acyclic p hp
    omega
  | succ fuel ih =>
    intro p s hp hf ha hm
    have hpm : s.mem p = m p := hm p hp
    have hid : (m p).id < n := hI.id_lt p hp
    have hpn : p ≠ s.alloc := by omega
    have child : ∀ (c : Option Nat) (st : CopyState),
        (∀ y, c = some y → y < n ∧ (m y).up = some p) → n ≤ st.alloc →
        (∀ x < n, st.mem x = m x) →
        ∃ st1, copy_subtree n fuel c st = some (c.map (fun _ => st.alloc), st1) ∧
          CopySpec n m c st st1 := by
      intro c st hc hal hmem
      cases c with
      | none =>
        exact ⟨st, copy_subtree_none n fuel st, le_refl _, fun h => absurd rfl h,
          fun _ _ => rfl, fun _ _ => rfl, fun h => absurd rfl h, fun x _ y0 h => by cases h⟩
      | some y =>
        obtain ⟨hy, hyu⟩ := hc y rfl
        have hd := hT.depth_up hy hyu
        exact ih y st hy (by omega) hal hmem
    -- the call on the left slot
    obtain ⟨s3, e1, a1, a1s, f1, g1, u1, c1⟩ := child (m p).left
      ⟨s.alloc + 1, Function.update s.mem s.alloc ⟨(m p).id, none, none, none⟩,
        Function.update s.array (m p).id (some s.alloc)⟩
      (fun y hy => ⟨hT.left_lt p hp y hy, hT.left_up p hp y hy⟩) (Nat.le_succ_of_le ha)
      (fun x hx => by
        have : x ≠ s.alloc := by omega
        simp only [Function.update_noteq this]; exact hm x hx)
    simp only at a1 a1s f1 g1 u1 c1
    have hl1 : ∀ y, (m p).left.map (fun _ => s.alloc + 1) = some y →
        y = s.alloc + 1 ∧ (m p).left ≠ none := by
      intro y hy
      cases hl : (m p).left with
      | none => rw [hl] at hy; cases hy
      | some l => rw [hl] at hy; exact ⟨(Option.some.inj hy).symm, fun h => by cases h⟩
    have mem5_at : ∀ y, y ≠ s.alloc → (y = s.alloc + 1 → (m p).left = none) →
        attach (setLeft s3.mem s.alloc ((m p).left.map (fun _ => s.alloc + 1))) s.alloc
          ((m p).left.map (fun _ => s.alloc + 1)) y = s3.mem y := by
      intro y h1 h2
      rw [attach_other _ _ (fun h => (hl1 y h).2 (h2 (hl1 y h).1)), setLeft_other _ _ h1]
    have hmem5 : ∀ x < n,
        attach (setLeft s3.mem s.alloc ((m p).left.map (fun _ => s.alloc + 1))) s.alloc
          ((m p).left.map (fun _ => s.alloc + 1)) x = m x := by
      intro x hx
      have h1 : x ≠ s.alloc := by omega
      rw [mem5_at x h1 (fun h => by omega), f1 x (Or.inl (by omega)),
        Function.update_noteq h1]
      exact hm x hx
    -- the call on the right slot
    obtain ⟨s6, e2, a2, a2s, f2, g2, u2, c2⟩ := child (m p).right
      ⟨s3.alloc, attach (setLeft s3.mem s.alloc ((m p).left.map (fun _ => s.alloc + 1)))
        s.alloc ((m p).left.map (fun _ => s.alloc + 1)), s3.array⟩
      (fun y hy => ⟨hT.right_lt p hp y hy, hT.right_up p hp y hy⟩)
      (show n ≤ s3.alloc by omega) hmem5
    simp only at a2 a2s f2 g2 u2 c2
    have hr1 : ∀ y, (m p).right.map (fun _ => s3.alloc) = some y →
        y = s3.alloc ∧ (m p).right ≠ none := by
      intro y hy
      cases hr : (m p).right with
      | none => rw [hr] at hy; cases hy
      | some r => rw [hr] at hy; exact ⟨(Option.some.inj hy).symm, fun h => by cases h⟩
    have hstep := copy_subtree_step n fuel p s ((m p).left.map (fun _ => s.alloc + 1))
      ((m p).right.map (fun _ => s3.alloc)) s3 s6 (by rw [hpm]; exact hid) hpn
      (by rw [hpm]; exact e1) (by rw [hmem5 p hp]; exact e2)
    refine ⟨_, hstep, ?_⟩
    -- the memory after the call
    have mem8_at : ∀ y, y ≠ s.alloc → (y = s3.alloc → (m p).right = none) →
        attach (setRight s6.mem s.alloc ((m p).right.map (fun _ => s3.alloc))) s.alloc
          ((m p).right.map (fun _ => s3.alloc)) y = s6.mem y := by
      intro y h1 h2
      rw [attach_other _ _ (fun h => (hr1 y h).2 (h2 (hr1 y h).1)), setRight_other _ _ h1]
    have mem8_node :
        attach (setRight s6.mem s.alloc ((m p).right.map (fun _ => s3.alloc))) s.alloc
          ((m p).right.map (fun _ => s3.alloc)) s.alloc
        = ⟨(m p).id, (m p).left.map (fun _ => s.alloc + 1),
            (m p).right.map (fun _ => s3.alloc), none⟩ := by
      rw [attach_other _ _ (fun h => by have := (hr1 _ h).1; omega), setRight_same,
        f2 s.alloc (Or.inl (by omega)),
        attach_other _ _ (fun h => by have := (hl1 _ h).1; omega), setLeft_same,
        f1 s.alloc (Or.inl (by omega)), Function.update_same]
    -- the two subtrees
    have inL_ne : ∀ x l, (m p).left = some l → Anc m x l → x ≠ p := by
      rintro x l hl hx rfl
      exact hT.not_anc_up (hT.left_lt x hp l hl) (hT.left_up x hp l hl) hx
    have inR_ne : ∀ x r, (m p).right = some r → Anc m x r → x ≠ p := by
      rintro x r hr hx rfl
      exact hT.not_anc_up (hT.right_lt x hp r hr) (hT.right_up x hp r hr) hx
    have apart : ∀ x l r, (m p).left = some l → (m p).right = some r → Anc m x l →
        Anc m x r → False := by
      intro x l r hl hr h1 h2
      exact hT.desc_disjoint (hT.left_lt p hp l hl) (hT.right_lt p hp r hr)
        (hT.left_up p hp l hl) (hT.right_up p hp r hr)
        (fun e => hT.lr_ne p hp l hl (e ▸ hr)) h1 h2
    have arrL : ∀ x < n, ∀ l, (m p).left = some l → Anc m x l →
        s6.array (m x).id = s3.array (m x).id := by
      intro x hx l hl hxl
      refine g2 _ (fun x1 hx1 r hr hx1r e => ?_)
      have := hI.id_inj x1 hx1 x hx e
      subst this
      exact apart x1 l r hl hr hxl hx1r
    have arrP : s6.array (m p).id = some s.alloc := by
      rw [g2 _ (fun x1 hx1 r hr hx1r e => inR_ne x1 r hr hx1r (hI.id_inj x1 hx1 p hp e)),
        g1 _ (fun x1 hx1 l hl hx1l e => inL_ne x1 l hl hx1l (hI.id_inj x1 hx1 p hp e)),
        Function.update_same]
    refine ⟨show s.alloc ≤ s6.alloc by omega, fun _ => show s.alloc < s6.alloc by omega,
      ?_, ?_, ?_, ?_⟩
    · intro y hy
      have hy : y < s.alloc ∨ s6.alloc ≤ y := hy
      have h1 : y ≠ s.alloc := by
        rcases hy with h | h
        · omega
        · omega
      have h2 : y = s3.alloc → (m p).right = none := by
        intro e
        by_contra hne
        have := a2s hne
        omega
      have h3 : y = s.alloc + 1 → (m p).left = none := by
        intro e
        by_contra hne
        have := a1s hne
        omega
      show attach _ _ _ y = s.mem y
      rw [mem8_at y h1 h2, f2 y (by omega), mem5_at y h1 h3, f1 y (by omega),
        Function.update_noteq h1]
    · intro i hi
      show s6.array i = s.array i
      rw [g2 i (fun x hx r hr hxr => hi x hx p rfl (hxr.trans (Anc.of_up (hT.right_up p hp r hr)))),
        g1 i (fun x hx l hl hxl => hi x hx p rfl (hxl.trans (Anc.of_up (hT.left_up p hp l hl)))),
        Function.update_noteq (fun e => hi p hp p rfl (Anc.refl p) e.symm)]
    · intro _
      show (attach _ _ _ s.alloc).up = none
      rw [mem8_node]
    · intro x hx y0 hy0 hanc
      cases hy0
      show ∃ y, CopyOf m (attach _ _ _) s6.array x y ∧ _
      by_cases hxp : x = p
      · subst hxp
        refine ⟨s.alloc, ⟨arrP, ?_, ?_, ?_⟩, le_refl _, show s.alloc < s6.alloc by omega,
          fun _ => rfl,
          fun h => absurd rfl h⟩
        · rw [mem8_node]
        · rw [mem8_node]
          cases hl : (m x).left with
          | none => rfl
          | some l =>
            have hln := hT.left_lt x hp l hl
            obtain ⟨y, hy, _, _, hyl, _⟩ := c1 l hln l hl (Anc.refl l)
            show some (s.alloc + 1) = s6.array (m l).id
            rw [arrL l hln l hl (Anc.refl l), hy.1, hyl rfl]
        · rw [mem8_node]
          cases hr : (m x).right with
          | none => rfl
          | some r =>
            have hrn := hT.right_lt x hp r hr
            obtain ⟨y, hy, _, _, hyr, _⟩ := c2 r hrn r hr (Anc.refl r)
            show some s3.alloc = s6.array (m r).id
            rw [hy.1, hyr rfl]
      · rcases hanc.through_child with e | ⟨c, hcu, hxc⟩
        · exact absurd e hxp
        · have hcn : c < n := hxc.lt hT hx
          rcases hT.up_child c hcn p hcu with hl | hr
          · -- the node lies below the left child
            obtain ⟨y, hy, hy1, hy2, hyc, hyu⟩ := c1 x hx c hl hxc
            obtain ⟨yc, hyc0, _, _, hycc, _⟩ := c1 c hcn c hl (Anc.refl c)
            have hycc := hycc rfl
            have h1 : y ≠ s.alloc := by omega
            have h8 : attach (setRight s6.mem s.alloc ((m p).right.map (fun _ => s3.alloc)))
                s.alloc ((m p).right.map (fun _ => s3.alloc)) y
                = attach (setLeft s3.mem s.alloc ((m p).left.map (fun _ => s.alloc + 1)))
                  s.alloc ((m p).left.map (fun _ => s.alloc + 1)) y := by
              rw [mem8_at y h1 (fun e => by omega), f2 y (Or.inl hy2)]
            have kids : ∀ k, ((m x).left = some k ∨ (m x).right = some k) →
                s3.array (m k).id = s6.array (m k).id := by
              intro k hk
              obtain ⟨hkn, hku, _⟩ := hT.child_facts hx hk
              exact (arrL k hkn c hl ((Anc.of_up hku).trans hxc)).symm
            by_cases hxc0 : x = c
            · subst hxc0
              have hyy : y = s.alloc + 1 := hyc rfl
              have h5 : attach (setLeft s3.mem s.alloc ((m p).left.map (fun _ => s.alloc + 1)))
                  s.alloc ((m p).left.map (fun _ => s.alloc + 1)) y
                  = { s3.mem y with up := some s.alloc } := by
                rw [hl, hyy]
                show attach _ _ (some (s.alloc + 1)) _ = _
                rw [attach_same, setLeft_other _ _ (by omega)]
              refine ⟨y, ⟨?_, ?_, ?_, ?_⟩, by omega, show y < s6.alloc by omega,
                fun e => absurd e hxp, fun _ => ?_⟩
              · rw [arrL x hx x hl hxc]; exact hy.1
              · rw [h8, h5]; exact hy.2.1
              · rw [h8, h5]
                exact hy.2.2.1.trans (bind_array_congr (fun k hk => kids k (Or.inl hk)))
              · rw [h8, h5]
                exact hy.2.2.2.trans (bind_array_congr (fun k hk => kids k (Or.inr hk)))
              · show (attach _ _ _ y).up = (m x).up.bind (fun q => s6.array (m q).id)
                rw [h8, h5, hcu]
                exact arrP.symm
            · have hyne : y ≠ s.alloc + 1 := by
                intro e
                apply hxc0
                refine hI.id_inj x hx c hcn ?_
                rw [← hy.2.1, ← hyc0.2.1, e, hycc]
              have h5 : attach (setLeft s3.mem s.alloc ((m p).left.map (fun _ => s.alloc + 1)))
                  s.alloc ((m p).left.map (fun _ => s.alloc + 1)) y = s3.mem y :=
                mem5_at y h1 (fun e => absurd e hyne)
              refine ⟨y, ⟨?_, ?_, ?_, ?_⟩, by omega, show y < s6.alloc by omega,
                fun e => absurd e hxp, fun _ => ?_⟩
              · rw [arrL x hx c hl hxc]; exact hy.1
              · rw [h8, h5]; exact hy.2.1
              · rw [h8, h5]
                exact hy.2.2.1.trans (bind_array_congr (fun k hk => kids k (Or.inl hk)))
              · rw [h8, h5]
                exact hy.2.2.2.trans (bind_array_congr (fun k hk => kids k (Or.inr hk)))
              · show (attach _ _ _ y).up = (m x).up.bind (fun q => s6.array (m q).id)
                rw [h8, h5, hyu hxc0]
                refine bind_array_congr (fun q hq => ?_)
                rcases hxc.cases_up with e | ⟨q1, hq1, hq1c⟩
                · exact absurd e hxc0
                · rw [hq] at hq1; cases hq1
                  exact (arrL q (hT.up_lt x hx q hq) c hl hq1c).symm
          · -- the node lies below the right child
            obtain ⟨y, hy, hy1, hy2, hyc, hyu⟩ := c2 x hx c hr hxc
            obtain ⟨yc, hyc0, _, _, hycc, _⟩ := c2 c hcn c hr (Anc.refl c)
            have hycc := hycc rfl
            have h1 : y ≠ s.alloc := by omega
            by_cases hxc0 : x = c
            · subst hxc0
              have hyy : y = s3.alloc := hyc rfl
              have h8 : attach (setRight s6.mem s.alloc ((m p).right.map (fun _ => s3.alloc)))
                  s.alloc ((m p).right.map (fun _ => s3.alloc)) y
                  = { s6.mem y with up := some s.alloc } := by
                rw [hr, hyy]
                show attach _ _ (some s3.alloc) _ = _
                rw [attach_same, setRight_other _ _ (by omega)]
              refine ⟨y, ⟨hy.1, ?_, ?_, ?_⟩, by omega, show y < s6.alloc by omega,
                fun e => absurd e hxp, fun _ => ?_⟩
              · rw [h8]; exact hy.2.1
              · rw [h8]; exact hy.2.2.1
              · rw [h8]; exact hy.2.2.2
              · show (attach _ _ _ y).up = (m x).up.bind (fun q => s6.array (m q).id)
                rw [h8, hcu]
                exact arrP.symm
            · have hyne : y ≠ s3.alloc := by
                intro e
                apply hxc0
                refine hI.id_inj x hx c hcn ?_
                rw [← hy.2.1, ← hyc0.2.1, e, hycc]
              have h8 : attach (setRight s6.mem s.alloc ((m p).right.map (fun _ => s3.alloc)))
                  s.alloc ((m p).right.map (fun _ => s3.alloc)) y = s6.mem y :=
                mem8_at y h1 (fun e => absurd e hyne)
              refine ⟨y, ⟨hy.1, ?_, ?_, ?_⟩, by omega, show y < s6.alloc by omega,
                fun e => absurd e hxp, fun _ => ?_⟩
              · rw [h8]; exact hy.2.1
              · rw [h8]; exact hy.2.2.1
              · rw [h8]; exact hy.2.2.2
              · show (attach _ _ _ y).up = (m x).up.bind (fun q => s6.array (m q).id)
                rw [h8]; exact hyu hxc0

/-- C22: on a well-formed tree with the ids in `[0, n)`, `copy_tree` returns (with fuel for
the height of the tree and the new nodes at addresses from `alloc` on, behind the `n` nodes
of the source). With `cp x` the node that the new lookup array holds for the id of the source
node `x`: the root of the copy is `cp root`; `cp x` is a new node with the id of `x` whose
left child, right child and parent are the copies of the left child, right child and parent
of `x` (none where `x` has none), so the parent link of every child of a copy points back
to that copy; different nodes have different copies; every node below `alloc`, so every
node of the source, is as it was; and the cache of the copy is absent when the source has
none and otherwise agrees with the cache of the source, which is only read, in all
`2*n*leafs*chunks` entries. -/
theorem copy_tree_same_shape (g : Globals) (m : Mem) (root alloc fuel : Nat)
    (junk : Nat → Option Nat) (fresh : Cache) (cost : Option Cache)
    (hT : TreeOK g.n m root) (hI : IdsOK g.n m) (ha : g.n ≤ alloc) (hf : g.n ≤ fuel) :
    ∃ t cp, copy_tree g m alloc junk fresh fuel root cost = some t ∧
      t.tree = some (cp root) ∧
      (∀ x < g.n, t.array (m x).id = some (cp x) ∧ alloc ≤ cp x ∧
        (t.mem (cp x)).id = (m x).id ∧
        (t.mem (cp x)).left = (m x).left.map cp ∧
        (t.mem (cp x)).right = (m x).right.map cp ∧
        (t.mem (cp x)).up = (m x).up.map cp) ∧
      (∀ x < g.n, ∀ c, ((t.mem (cp x)).left = some c ∨ (t.mem (cp x)).right = some c) →
        (t.mem c).up = some (cp x)) ∧
      (∀ x < g.n, ∀ y < g.n, cp x = cp y → x = y) ∧
      (∀ y < alloc, t.mem y = m y) ∧
      (cost = none → t.cost = none) ∧
      (∀ c, cost = some c → ∃ c1, t.cost = some c1 ∧
        ∀ k < 2 * g.n * g.leafs * g.chunks, c1 k = c k) := by
  obtain ⟨st1, e, _, _, frame, _, hup, nodes⟩ :=
    copy_subtree_spec hT hI fuel root ⟨alloc, m, junk⟩ hT.root_lt (by omega) ha
      (fun _ _ => rfl)
  simp only at frame hup nodes
  have hcp : ∀ x < g.n, ∃ y, CopyOf m st1.mem st1.array x y ∧ alloc ≤ y ∧
      (x = root → y = alloc) ∧
      (x ≠ root → (st1.mem y).up = (m x).up.bind (fun q => st1.array (m q).id)) := by
    intro x hx
    obtain ⟨y, h1, h2, _, h4, h5⟩ := nodes x hx root rfl (hT.anc_root x hx)
    exact ⟨y, h1, h2, h4, h5⟩
  have harr : ∀ x < g.n, st1.array (m x).id = some ((st1.array (m x).id).getD 0) := by
    intro x hx
    obtain ⟨y, h1, _⟩ := hcp x hx
    rw [h1.1]; rfl
  have hbind : ∀ (o : Option Nat), (∀ c, o = some c → c < g.n) →
      o.bind (fun c => st1.array (m c).id) = o.map (fun x => (st1.array (m x).id).getD 0) := by
    intro o ho
    cases o with
    | none => rfl
    | some c => exact harr c (ho c rfl)
  have hnode : ∀ x < g.n,
      st1.array (m x).id = some ((st1.array (m x).id).getD 0) ∧
      alloc ≤ (st1.array (m x).id).getD 0 ∧
      (st1.mem ((st1.array (m x).id).getD 0)).id = (m x).id ∧
      (st1.mem ((st1.array (m x).id).getD 0)).left
        = (m x).left.map (fun x => (st1.array (m x).id).getD 0) ∧
      (st1.mem ((st1.array (m x).id).getD 0)).right
        = (m x).right.map (fun x => (st1.array (m x).id).getD 0) ∧
      (st1.mem ((st1.array (m x).id).getD 0)).up
        = (m x).up.map (fun x => (st1.array (m x).id).getD 0) := by
    intro x hx
    obtain ⟨y, h1, h2, h4, h5⟩ := hcp x hx
    have hy : (st1.array (m x).id).getD 0 = y := by rw [h1.1]; rfl
    rw [hy]
    refine ⟨h1.1, h2, h1.2.1, ?_, ?_, ?_⟩
    · rw [h1.2.2.1]; exact hbind _ (fun c hc => hT.left_lt x hx c hc)
    · rw [h1.2.2.2]; exact hbind _ (fun c hc => hT.right_lt x hx c hc)
    · by_cases hxr : x = root
      · rw [h4 hxr, hup (fun h => by cases h), hxr, hT.root_up]; rfl
      · rw [h5 hxr]; exact hbind _ (fun c hc => hT.up_lt x hx c hc)
  have hres : ∃ tc, copy_tree g m alloc junk fresh fuel root cost
        = some ⟨st1.mem, some alloc, st1.array, tc⟩ ∧
      (cost = none → tc = none) ∧
      (∀ c, cost = some c → tc
        = some (fun k => if k < g.n * g.leafs * g.chunks * 2 then c k else fresh k)) := by
    unfold copy_tree
    rw [e]
    exact ⟨_, rfl, fun h => by subst h; rfl, fun c h => by subst h; rfl⟩
  obtain ⟨tc, hres, hc0, hc1⟩ := hres
  refine ⟨_, fun x => (st1.array (m x).id).getD 0, hres, ?_, hnode, ?_, ?_, ?_, ?_, ?_⟩
  · obtain ⟨y, h1, _, h4, _⟩ := hcp root hT.root_lt
    show some alloc = some ((st1.array (m root).id).getD 0)
    rw [h1.1, h4 rfl]; rfl
  · intro x hx c hc
    show (st1.mem c).up = _
    obtain ⟨_, _, _, hl, hr, _⟩ := hnode x hx
    have key : ∀ k, k < g.n → (m k).up = some x → c = (st1.array (m k).id).getD 0 →
        (st1.mem c).up = some ((st1.array (m x).id).getD 0) := by
      intro k hk hku hck
      rw [hck, (hnode k hk).2.2.2.2.2, hku]; rfl
    rcases hc with hc | hc
    · have hc : (st1.mem ((st1.array (m x).id).getD 0)).left = some c := hc
      rw [hl] at hc
      cases hxl : (m x).left with
      | none => rw [hxl] at hc; cases hc
      | some l =>
        rw [hxl] at hc
        exact key l (hT.left_lt x hx l hxl) (hT.left_up x hx l hxl) (Option.some.inj hc).symm
    · have hc : (st1.mem ((st1.array (m x).id).getD 0)).right = some c := hc
      rw [hr] at hc
      cases hxr : (m x).right with
      | none => rw [hxr] at hc; cases hc
      | some r =>
        rw [hxr] at hc
        exact key r (hT.right_lt x hx r hxr) (hT.right_up x hx r hxr) (Option.some.inj hc).symm
  · intro x hx y hy hxy
    simp only at hxy
    refine hI.id_inj x hx y hy ?_
    rw [← (hnode x hx).2.2.1, ← (hnode y hy).2.2.1, hxy]
  · intro y hy
    exact frame y (Or.inl hy)
  · exact hc0
  · intro c h
    refine ⟨_, hc1 c h, fun k hk => ?_⟩
    have : k < g.n * g.leafs * g.chunks * 2 := by
      have : g.n * g.leafs * g.chunks * 2 = 2 * g.n * g.leafs * g.chunks := by ring
      omega
    simp only [this, if_true]

theorem copy_tree_same_shape_witness :
    ∃ t cp, copy_tree exGlobals exMem 7 (fun _ => none) (fun _ => 0) 7 6 (some exCache)
        = some t ∧
      t.tree = some (cp 6) ∧
      (∀ x < exGlobals.n, t.array (exMem x).id = some (cp x) ∧ 7 ≤ cp x ∧
        (t.mem (cp x)).id = (exMem x).id ∧
        (t.mem (cp x)).left = (exMem x).left.map cp ∧
        (t.mem (cp x)).right = (exMem x).right.map cp ∧
        (t.mem (cp x)).up = (exMem x).up.map cp) ∧
      (∀ x < exGlobals.n, ∀ c,
        ((t.mem (cp x)).left = some c ∨ (t.mem (cp x)).right = some c) →
        (t.mem c).up = some (cp x)) ∧
      (∀ x < exGlobals.n, ∀ y < exGlobals.n, cp x = cp y → x = y) ∧
      (∀ y < 7, t.mem y = exMem y) ∧
      ((some exCache : Option Cache) = none → t.cost = none) ∧
      (∀ c, some exCache = some c → ∃ c1, t.cost = some c1 ∧
        ∀ k < 2 * exGlobals.n * exGlobals.leafs * exGlobals.chunks, c1 k = c k) :=
  copy_tree_same_shape exGlobals exMem 6 7 7 (fun _ => none) (fun _ => 0) (some exCache)
    (by decide) (by decide) (by decide) (by decide)

/-! ## `bestval`, `minval` and the accepted costs -/

/-- What a pass of the loop does to `minval` and `bestval`. -/
theorem optimize_iter_values {g : Globals} {array : Nat → Option Nat} {tree : Nat}
    {fresh : Cache} {fuel : Nat} {draws : Nat → Int} {tpos lucky : Bool} {s s1 : OptState}
    (h : optimize_iter g array tree fresh fuel draws tpos lucky s = some s1) :
    ∃ nv, pass_newval g array tree fresh fuel draws s = some nv ∧
      ((nv ≤ s.minval ∨ (tpos = true ∧ lucky = true)) →
        s1.minval = nv ∧ s1.bestval = min s.bestval nv) ∧
      (¬ (nv ≤ s.minval ∨ (tpos = true ∧ lucky = true)) →
        s1.minval = s.minval ∧ s1.bestval = s.bestval) := by
  unfold optimize_iter at h
  unfold pass_newval
  cases hp : prep_mutate_tree s.m array g.n s.alternate draws fuel s.k with
  | none => simp [hp] at h
  | some r =>
    simp only [hp] at h ⊢
    cases hq : optimize_propose g s.m fresh fuel tree r.alternate r.a r.b r.ra r.rb s.cost with
    | none => simp [hq] at h
    | some q =>
      obtain ⟨m1, newval, c1⟩ := q
      simp only [hq] at h ⊢
      refine ⟨newval, rfl, fun hacc => ?_, fun hrej => ?_⟩
      · rw [if_pos hacc] at h
        split_ifs at h with h2
        · cases hf : fill_subtree g m1 c1 fuel (some tree) s.fill with
          | none => simp [hf] at h
          | some f =>
            simp only [hf, Option.some.injEq] at h
            rw [← h]
            exact ⟨rfl, (min_eq_right (le_of_lt h2)).symm⟩
        · simp only [Option.some.injEq] at h
          rw [← h]
          exact ⟨rfl, (min_eq_left (not_lt.mp h2)).symm⟩
      · rw [if_neg hrej] at h
        cases hr : optimize_reject g m1 fuel tree r.alternate r.a r.b r.ra r.rb c1 with
        | none => simp [hr] at h
        | some q2 =>
          obtain ⟨m2, t2⟩ := q2
          simp only [hr, Option.some.injEq] at h
          rw [← h]
          exact ⟨rfl, rfl⟩

/-- The values of `minval` and `bestval` before the first pass. -/
theorem optimize_start_values {g : Globals} {m : Mem} {tree : Nat} {fresh : Cache}
    {fuel : Nat} {cache : Option Cache} {fill : Fill} {alternate : Bool} {k : Nat}
    {v0 : Int} {c0 : Cache} {s : OptState}
    (h0 : eval_tree g m fresh fuel tree cache none none = some (v0, c0))
    (h : optimize_start g m tree fresh fuel cache fill alternate k = some s) :
    s.minval = v0 ∧ s.bestval = v0 := by
  unfold optimize_start at h
  simp only [h0] at h
  cases hf : fill_subtree g m c0 fuel (some tree) fill with
  | none => simp [hf] at h
  | some f =>
    simp only [hf, Option.some.injEq] at h
    rw [← h]
    exact ⟨rfl, rfl⟩

/-- C34: in a run of `optimize_tree`, after the initial evaluation and after every pass of
the loop, `bestval ≤ minval`, and `bestval` is the minimum of the initial cost `v0` and the
new costs that the passes so far have accepted; so a proposal whose new cost is at most
`bestval` passes the acceptance test whatever the temperature and the random number are, and
the pass, when it returns, leaves `minval` and `bestval` at that new cost. -/
theorem bestval_le_minval (g : Globals) (array : Nat → Option Nat) (m : Mem) (tree : Nat)
    (fresh : Cache) (fuel : Nat) (cache : Option Cache) (fill : Fill) (alternate : Bool)
    (draws : Nat → Int) (tpos lucky : Nat → Bool) (t : Nat) (s : OptState) (v0 : Int)
    (c0 : Cache)
    (h0 : eval_tree g m fresh fuel tree cache none none = some (v0, c0))
    (h : optimize_after g array tree fresh fuel draws tpos lucky
      (optimize_start g m tree fresh fuel cache fill alternate 0) t = some s) :
    s.bestval ≤ s.minval ∧
    s.bestval = (accepted_costs g array tree fresh fuel draws tpos lucky
      (optimize_start g m tree fresh fuel cache fill alternate 0) t).foldr min v0 ∧
    ∀ nv, pass_newval g array tree fresh fuel draws s = some nv → nv ≤ s.bestval →
      ∀ tp lk : Bool, (nv ≤ s.minval ∨ (tp = true ∧ lk = true)) ∧
        ∀ s1, optimize_iter g array tree fresh fuel draws tp lk s = some s1 →
          s1.minval = nv ∧ s1.bestval = nv := by
  have inv : ∀ (t : Nat) (s : OptState),
      optimize_after g array tree fresh fuel draws tpos lucky
        (optimize_start g m tree fresh fuel cache fill alternate 0) t = some s →
      s.bestval ≤ s.minval ∧
      s.bestval = (accepted_costs g array tree fresh fuel draws tpos lucky
        (optimize_start g m tree fresh fuel cache fill alternate 0) t).foldr min v0 := by
    intro t
    induction t with
    | zero =>
      intro s hs
      rw [optimize_after] at hs
      obtain ⟨e1, e2⟩ := optimize_start_values h0 hs
      refine ⟨by rw [e1, e2], ?_⟩
      rw [e2]
      rfl
    | succ t ih =>
      intro s hs
      rw [optimize_after] at hs
      cases hprev : optimize_after g array tree fresh fuel draws tpos lucky
          (optimize_start g m tree fresh fuel cache fill alternate 0) t with
      | none => simp [hprev] at hs
      | some sp =>
        simp only [hprev] at hs
        obtain ⟨i1, i2⟩ := ih sp hprev
        obtain ⟨nv, hnv, hacc, hrej⟩ := optimize_iter_values hs
        rw [accepted_costs]
        simp only [hprev, hnv]
        by_cases hc : nv ≤ sp.minval ∨ (tpos (t + 1) = true ∧ lucky (t + 1) = true)
        · obtain ⟨e1, e2⟩ := hacc hc
          rw [if_pos hc, List.foldr_cons, ← i2, e1, e2]
          exact ⟨min_le_right _ _, min_comm _ _⟩
        · obtain ⟨e1, e2⟩ := hrej hc
          rw [if_neg hc, e1, e2]
          exact ⟨i1, i2⟩
  obtain ⟨i1, i2⟩ := inv t s h
  refine ⟨i1, i2, fun nv hnv hle tp lk => ⟨Or.inl (le_trans hle i1), fun s1 hs1 => ?_⟩⟩
  obtain ⟨nv1, hnv1, hacc, _⟩ := optimize_iter_values hs1
  rw [hnv] at hnv1
  cases hnv1
  obtain ⟨e1, e2⟩ := hacc (Or.inl (le_trans hle i1))
  exact ⟨e1, by rw [e2]; exact min_eq_right hle⟩

/-- The initial evaluation of the example run returns 16. -/
theorem exEval_eq :
    eval_tree exGlobals exMem (fun _ => 0) 7 6 none none none
      = some (16, ((eval_tree exGlobals exMem (fun _ => 0) 7 6 none none none).get
          exEval_isSome).2) := by
  have e := (Option.some_get exEval_isSome).symm
  have v := exEval_value
  rw [e] at v
  simp only [Option.map_some', Option.some.injEq] at v
  rw [← v]
  exact e

theorem bestval_le_minval_witness :
    ∃ (s : OptState) (c0 : Cache),
      eval_tree exGlobals exMem (fun _ => 0) 7 6 none none none = some (16, c0) ∧
      exRun 2 = some s ∧
      s.bestval ≤ s.minval ∧
      s.bestval = (accepted_costs exGlobals exArray 6 (fun _ => 0) 7 exDraws
        (fun iter => decide (iter < 2)) (fun _ => true)
        (optimize_start exGlobals exMem 6 (fun _ => 0) 7 none (fun _ _ => 0) false 0)
        2).foldr min 16 ∧
      ∀ nv, pass_newval exGlobals exArray 6 (fun _ => 0) 7 exDraws s = some nv →
        nv ≤ s.bestval →
        ∀ tp lk : Bool, (nv ≤ s.minval ∨ (tp = true ∧ lk = true)) ∧
          ∀ s1, optimize_iter exGlobals exArray 6 (fun _ => 0) 7 exDraws tp lk s = some s1 →
            s1.minval = nv ∧ s1.bestval = nv :=
  ⟨(exRun 2).get exRun_two_isSome, _, exEval_eq, (Option.some_get exRun_two_isSome).symm,
    bestval_le_minval exGlobals exArray exMem 6 (fun _ => 0) 7 none (fun _ _ => 0) false
      exDraws (fun iter => decide (iter < 2)) (fun _ => true) 2
      ((exRun 2).get exRun_two_isSome) 16 _ exEval_eq
      (Option.some_get exRun_two_isSome).symm⟩

/-! ## `min_cost` on arbitrary integer rows -/

/-- The loop of `min_cost` computes the least candidate when the running minimum is never
`-1` at the moment a further Unique witness is met, that is when no Unique witness with a
Unique witness after it has the candidate sum `-1`. -/
theorem min_cost_fold_int (g : Globals) (cost : Cache) (base i ch : Nat) : ∀ L,
    (∀ j < L, ∀ j1 < L, j < j1 → g.unique (j * g.chunks + ch) ≠ 0 →
      g.unique (j1 * g.chunks + ch) ≠ 0 →
      cost (base + (j * g.chunks + ch)) + PairCost g i j ch ≠ -1) →
    (List.range L).foldl (min_cost_step g cost base i ch) (-1) =
      (least_upto g ch (fun j => cost (base + (j * g.chunks + ch)) + PairCost g i j ch)
        L).getD (-1) := by
  intro L
  induction L with
  | zero => intro _; rfl
  | succ L ih =>
    intro hno
    have ih' := ih (fun j hj j1 hj1 => hno j (Nat.lt_succ_of_lt hj) j1 (Nat.lt_succ_of_lt hj1))
    rw [List.range_succ, List.foldl_append, List.foldl_cons, List.foldl_nil, ih',
      least_upto_succ]
    unfold min_cost_step
    by_cases hU : g.unique (L * g.chunks + ch) ≠ 0
    · rw [if_pos hU, if_pos hU]
      cases hprev : least_upto g ch
          (fun j => cost (base + (j * g.chunks + ch)) + PairCost g i j ch) L with
      | none => simp [PairCost]
      | some a =>
        obtain ⟨⟨j0, hj0, hU0, e0⟩, _⟩ := (least_upto_spec g ch _ L).2 a hprev
        have ha1 : a ≠ -1 :=
          e0 ▸ hno j0 (Nat.lt_succ_of_lt hj0) L (Nat.lt_succ_self L) hj0 hU0 hU
        simp only [Option.getD_some, PairCost, ha1, or_false]
        by_cases hlt : cost (base + (L * g.chunks + ch))
            + g.Kyx (i * g.leafs * g.chunks + L * g.chunks + ch) < a
        · rw [if_pos hlt, min_eq_right (le_of_lt hlt)]
        · rw [if_neg hlt, min_eq_left (not_lt.mp hlt)]
    · rw [if_neg hU, if_neg hU]

/-- C31 (the claim fails): under `cxGlobals` (two witnesses, both Unique, one segment) with
the row `cost[2][0] = -1`, `cost[2][1] = 3` of the internal node id 2 and the candidate
`i = 0`, the candidate sums are `-1 + 0 = -1` and `3 + 1 = 4`; `min_cost` returns 4, which
is above the sum `-1` of the Unique witness 0. -/
theorem min_cost_minus_one_counterexample :
    ¬ (2 < cxGlobals.leafs) ∧ cxGlobals.unique (0 * cxGlobals.chunks + 0) ≠ 0 ∧
    (0 < cxGlobals.leafs ∧ cxGlobals.unique (0 * cxGlobals.chunks + 0) ≠ 0) ∧
    cxRowMinusOne (idx cxGlobals 2 0 0) + PairCost cxGlobals 0 0 0 = -1 ∧
    cxRowMinusOne (idx cxGlobals 2 1 0) + PairCost cxGlobals 0 1 0 = 4 ∧
    min_cost cxGlobals cxRowMinusOne (2 * cxGlobals.leafs * cxGlobals.chunks) 2 0 0 = 4 ∧
    ¬ (min_cost cxGlobals cxRowMinusOne (2 * cxGlobals.leafs * cxGlobals.chunks) 2 0 0
        ≤ cxRowMinusOne (idx cxGlobals 2 0 0) + PairCost cxGlobals 0 0 0) := by
  decide

/-- C31 (amended): for an internal child node (`id ≥ leafs`) and a candidate `i` that is
Unique in segment `ch`, with at least one witness Unique in `ch`, and for every integer cost
row and table (negative entries included) in which no Unique witness that has a Unique
witness after it has the candidate sum `cost[j][ch] + Kyx[i][j][ch]` equal to `-1`:
`min_cost` returns the minimum of the candidate sums over the witnesses `j` that are Unique
in `ch` (the sum of some Unique witness, and at most the sum of every Unique witness). -/
theorem min_cost_is_minimum (g : Globals) (c : Cache) (id i ch : Nat)
    (hid : ¬ id < g.leafs) (hUi : g.unique (i * g.chunks + ch) ≠ 0)
    (hU : ∃ w < g.leafs, g.unique (w * g.chunks + ch) ≠ 0)
    (hno : ∀ j1 < g.leafs, ∀ j < j1, g.unique (j * g.chunks + ch) ≠ 0 →
      g.unique (j1 * g.chunks + ch) ≠ 0 → c (idx g id j ch) + PairCost g i j ch ≠ -1) :
    (∃ j < g.leafs, g.unique (j * g.chunks + ch) ≠ 0 ∧
      min_cost g c (id * g.leafs * g.chunks) id i ch
        = c (idx g id j ch) + PairCost g i j ch) ∧
    ∀ j < g.leafs, g.unique (j * g.chunks + ch) ≠ 0 →
      min_cost g c (id * g.leafs * g.chunks) id i ch
        ≤ c (idx g id j ch) + PairCost g i j ch := by
  have e : ∀ j, c (id * g.leafs * g.chunks + (j * g.chunks + ch)) = c (idx g id j ch) := by
    intro j; unfold idx; rw [Nat.add_assoc]
  have hm : min_cost g c (id * g.leafs * g.chunks) id i ch =
      (least_upto g ch (fun j => c (idx g id j ch) + PairCost g i j ch) g.leafs).getD (-1) := by
    unfold min_cost
    rw [if_neg hUi, if_neg hid,
      min_cost_fold_int g c (id * g.leafs * g.chunks) i ch g.leafs
        (fun j _ j1 hj1 hlt h1 h2 => by rw [e j]; exact hno j1 hj1 j hlt h1 h2)]
    simp only [e]
  obtain ⟨w, hw, hUw⟩ := hU
  obtain ⟨hnone, hsome⟩ := least_upto_spec g ch
    (fun j => c (idx g id j ch) + PairCost g i j ch) g.leafs
  cases hl : least_upto g ch (fun j => c (idx g id j ch) + PairCost g i j ch) g.leafs with
  | none => exact absurd (hnone hl w hw) hUw
  | some M =>
    obtain ⟨⟨j0, hj0, hU0, e0⟩, lb⟩ := hsome M hl
    rw [hm, hl, Option.getD_some]
    exact ⟨⟨j0, hj0, hU0, e0⟩, lb⟩

theorem min_cost_is_minimum_witness :
    (∃ j < cxGlobals.leafs, cxGlobals.unique (j * cxGlobals.chunks + 0) ≠ 0 ∧
      min_cost cxGlobals cxRowNegative (2 * cxGlobals.leafs * cxGlobals.chunks) 2 0 0
        = cxRowNegative (idx cxGlobals 2 j 0) + PairCost cxGlobals 0 j 0) ∧
    ∀ j < cxGlobals.leafs, cxGlobals.unique (j * cxGlobals.chunks + 0) ≠ 0 →
      min_cost cxGlobals cxRowNegative (2 * cxGlobals.leafs * cxGlobals.chunks) 2 0 0
        ≤ cxRowNegative (idx cxGlobals 2 j 0) + PairCost cxGlobals 0 j 0 :=
  min_cost_is_minimum cxGlobals cxRowNegative 2 0 0 (by decide) (by decide)
    ⟨0, by decide, by decide⟩ (by decide)

/-! ## The last witness stays Unique -/

/-- A pass of the segment loop leaves the flags `unique` of the witness `f1i` and of the
witnesses after it as they are. -/
theorem segment_step_unique {zout : List Nat → Int} {chunksize : Int}
    {leafs chunks f1i f2i ch : Nat} {t t1 : Tables} {f1 f2 f1a f2a : Stream}
    (h : segment_step zout chunksize leafs chunks f1i f2i ch t f1 f2 = some (t1, f1a, f2a))
    (hch : ch < chunks) : ∀ e, f1i * chunks ≤ e → t1.unique e = t.unique e := by
  intro e he
  unfold segment_step at h
  cases h1 : read_chunk1 chunksize (f1i * chunks + ch) t.buf f1 t.empty with
  | none => simp [h1] at h
  | some r1 =>
    obtain ⟨buf1, bufpos1, f1b, empty1⟩ := r1
    simp only [h1] at h
    cases h2 : read_chunk2 chunksize buf1 bufpos1
        (if f2i = f1i then fseek f1b f1.pos else f2) with
    | none => simp [h2] at h
    | some r2 =>
      obtain ⟨buf2, bufpos2, g1⟩ := r2
      simp only [h2, Option.some.injEq, Prod.mk.injEq] at h
      obtain ⟨ht, _, _⟩ := h
      rw [← ht]
      show (if strncmp_eq buf2 (bufpos2 / 2) 0 bufpos1 = true ∧ f2i < f1i
        then Function.update t.unique (f2i * chunks + ch) 0 else t.unique) e = t.unique e
      split_ifs with hc
      · have h3 : (f2i + 1) * chunks ≤ f1i * chunks := Nat.mul_le_mul_right _ hc.2
        have h4 : (f2i + 1) * chunks = f2i * chunks + chunks := by ring
        have hne : e ≠ f2i * chunks + ch := by omega
        rw [Function.update_noteq hne]
      · rfl

theorem segment_loop_unique {zout : List Nat → Int} {chunksize : Int}
    {leafs chunks f1i f2i : Nat} {t : Tables} {f1 f2 : Stream} :
    ∀ (k : Nat) {t1 : Tables} {f1a f2a : Stream}, k ≤ chunks →
      segment_loop zout chunksize leafs chunks f1i f2i t f1 f2 k = some (t1, f1a, f2a) →
      ∀ e, f1i * chunks ≤ e → t1.unique e = t.unique e := by
  intro k
  induction k with
  | zero =>
    intro t1 f1a f2a _ h e _
    simp only [segment_loop, Option.some.injEq, Prod.mk.injEq] at h
    rw [← h.1]
  | succ k ih =>
    intro t1 f1a f2a hk h e he
    rw [segment_loop] at h
    cases hp : segment_loop zout chunksize leafs chunks f1i f2i t f1 f2 k with
    | none => simp [hp] at h
    | some r =>
      obtain ⟨t2, f1b, f2b⟩ := r
      simp only [hp] at h
      rw [segment_step_unique h (by omega) e he, ih (by omega) hp e he]

theorem pair_step_unique {zout : List Nat → Int} {chunksize : Int}
    {files : List (List Nat)} {chunks f1i f2i : Nat} {t t1 : Tables} {f1 f1a : Stream}
    (h : pair_step zout chunksize files chunks f1i f2i t f1 = some (t1, f1a)) :
    ∀ e, f1i * chunks ≤ e → t1.unique e = t.unique e := by
  intro e he
  unfold pair_step at h
  cases hp : segment_loop zout chunksize files.length chunks f1i f2i t (fseek f1 0)
      (if f2i ≠ f1i then fopen (files.getD f2i []) else fseek f1 0) chunks with
  | none => dsimp only at h; rw [hp] at h; cases h
  | some r =>
    obtain ⟨t2, f1b, f2b⟩ := r
    simp only [hp, Option.some.injEq, Prod.mk.injEq] at h
    rw [← h.1]
    exact segment_loop_unique chunks (le_refl _) hp e he

theorem pair_loop_unique {zout : List Nat → Int} {chunksize : Int}
    {files : List (List Nat)} {chunks f1i : Nat} {t : Tables} {f1 : Stream} :
    ∀ (k : Nat) {t1 : Tables} {f1a : Stream},
      pair_loop zout chunksize files chunks f1i t f1 k = some (t1, f1a) →
      ∀ e, f1i * chunks ≤ e → t1.unique e = t.unique e := by
  intro k
  induction k with
  | zero =>
    intro t1 f1a h e _
    simp only [pair_loop, Option.some.injEq, Prod.mk.injEq] at h
    rw [← h.1]
  | succ k ih =>
    intro t1 f1a h e he
    rw [pair_loop] at h
    cases hp : pair_loop zout chunksize files chunks f1i t f1 k with
    | none => simp [hp] at h
    | some r =>
      obtain ⟨t2, f1b⟩ := r
      simp only [hp] at h
      rw [pair_step_unique h e he, ih hp e he]

/-- After the pass `f1i` of the outer file loop, the witness `f1i` is Unique in every
segment. -/
theorem file_step_unique {zout : List Nat → Int} {chunksize : Int}
    {files : List (List Nat)} {chunks f1i : Nat} {t t1 : Tables}
    (h : file_step zout chunksize files chunks f1i t = some t1) :
    ∀ s < chunks, t1.unique (f1i * chunks + s) = 1 := by
  intro s hs
  unfold file_step at h
  cases hp : pair_loop zout chunksize files chunks f1i
      ⟨t.buf, init_row t.Kx chunks f1i (-1) chunks, t.Kyx,
        init_row t.empty chunks f1i 1 chunks, init_row t.unique chunks f1i 1 chunks⟩
      (fopen (files.getD f1i [])) files.length with
  | none => dsimp only at h; rw [hp] at h; cases h
  | some r =>
    obtain ⟨t2, f1b⟩ := r
    simp only [hp, Option.some.injEq] at h
    rw [← h, pair_loop_unique files.length hp _ (Nat.le_add_right _ _)]
    show init_row t.unique chunks f1i 1 chunks (f1i * chunks + s) = 1
    rw [init_row_spec t.unique chunks f1i 1 chunks (le_refl _) f1i s hs, if_pos ⟨rfl, hs⟩]

/-- Once a Unique witness has been met, the running minimum of the loop of `min_cost` is the
candidate sum of a Unique witness. -/
theorem min_cost_fold_attained (g : Globals) (cost : Cache) (base i ch : Nat) : ∀ L,
    (∃ w < L, g.unique (w * g.chunks + ch) ≠ 0) →
    ∃ j < L, g.unique (j * g.chunks + ch) ≠ 0 ∧
      (List.range L).foldl (min_cost_step g cost base i ch) (-1)
        = cost (base + (j * g.chunks + ch)) + PairCost g i j ch := by
  intro L
  induction L with
  | zero => rintro ⟨w, hw, _⟩; exact absurd hw (Nat.not_lt_zero w)
  | succ L ih =>
    intro hU
    rw [List.range_succ, List.foldl_append, List.foldl_cons, List.foldl_nil]
    unfold min_cost_step
    by_cases hL : g.unique (L * g.chunks + ch) ≠ 0
    · rw [if_pos hL]
      simp only
      split_ifs with hc
      · exact ⟨L, Nat.lt_succ_self L, hL, rfl⟩
      · by_cases hprev : ∃ w < L, g.unique (w * g.chunks + ch) ≠ 0
        · obtain ⟨j, hj, hUj, e⟩ := ih hprev
          exact ⟨j, Nat.lt_succ_of_lt hj, hUj, e⟩
        · exfalso
          apply hc
          right
          have hstart : ∀ M, (∀ w < M, g.unique (w * g.chunks + ch) = 0) →
              (List.range M).foldl (min_cost_step g cost base i ch) (-1) = -1 := by
            intro M
            induction M with
            | zero => intro _; rfl
            | succ M ihM =>
              intro hM
              rw [List.range_succ, List.foldl_append, List.foldl_cons, List.foldl_nil,
                ihM (fun w hw => hM w (Nat.lt_succ_of_lt hw))]
              unfold min_cost_step
              rw [if_neg (not_not.mpr (hM M (Nat.lt_succ_self M)))]
          exact hstart L (fun w hw => by
            by_contra hne
            exact hprev ⟨w, hw, hne⟩)
    · rw [if_neg hL]
      obtain ⟨w, hw, hUw⟩ := hU
      have hwL : w < L := by
        rcases Nat.lt_succ_iff_lt_or_eq.mp hw with h | h
        · exact h
        · exact absurd (h ▸ hUw) hL
      obtain ⟨j, hj, hUj, e⟩ := ih ⟨w, hwL, hUw⟩
      exact ⟨j, Nat.lt_succ_of_lt hj, hUj, e⟩

/-- C33: when `read_file` has run on at least one witness (it returns `leafs`, leaves
`chunks` segments and the tables), the witness with the highest index is Unique in every
segment: `unique[(leafs-1)*chunks + s] = 1` for every `s` in `[0, chunks)`. So every segment
has a Unique witness, and with these flags the loop of `min_cost` (internal child, Unique
candidate `i`) never returns its start value `-1` as a placeholder: what it returns is the
candidate sum `cost[j][ch] + Kyx[i][j][ch]` of a witness `j` that is Unique in `ch`. -/
theorem last_witness_unique (zout : List Nat → Int) (chunksize : Int)
    (files : List (List Nat)) (t0 : Tables) (r : Nat × Int × Tables)
    (h : read_file zout chunksize files t0 = some r) :
    1 ≤ r.1 ∧
    (∀ s < r.2.1.toNat, r.2.2.unique ((r.1 - 1) * r.2.1.toNat + s) = 1) ∧
    (∀ s < r.2.1.toNat, ∃ w < r.1, r.2.2.unique (w * r.2.1.toNat + s) ≠ 0) ∧
    ∀ (g : Globals), g.leafs = r.1 → g.chunks = r.2.1.toNat → g.unique = r.2.2.unique →
      ∀ (c : Cache) (id i ch : Nat), ch < g.chunks → ¬ id < g.leafs →
        g.unique (i * g.chunks + ch) ≠ 0 →
        ∃ j < g.leafs, g.unique (j * g.chunks + ch) ≠ 0 ∧
          min_cost g c (id * g.leafs * g.chunks) id i ch
            = c (idx g id j ch) + PairCost g i j ch := by
  unfold read_file at h
  split_ifs at h with h0
  cases hl : count_lines (files.getD 0 []) with
  | none => rw [hl] at h; cases h
  | some lines =>
    rw [hl] at h
    dsimp only at h
    cases hf : file_loop zout chunksize files (chunk_count lines chunksize).toNat t0
        files.length with
    | none => rw [hf] at h; cases h
    | some t =>
      rw [hf] at h
      simp only [Option.some.injEq] at h
      subst h
      obtain ⟨k, hk⟩ : ∃ k, files.length = k + 1 := ⟨files.length - 1, by omega⟩
      have hlast : ∀ s < (chunk_count lines chunksize).toNat,
          t.unique ((files.length - 1) * (chunk_count lines chunksize).toNat + s) = 1 := by
        rw [hk] at hf
        rw [file_loop] at hf
        cases hp : file_loop zout chunksize files (chunk_count lines chunksize).toNat t0 k with
        | none => rw [hp] at hf; cases hf
        | some t1 =>
          rw [hp] at hf
          rw [hk]
          exact file_step_unique hf
      have hex : ∀ s < (chunk_count lines chunksize).toNat, ∃ w < files.length,
          t.unique (w * (chunk_count lines chunksize).toNat + s) ≠ 0 := by
        intro s hs
        refine ⟨files.length - 1, by omega, ?_⟩
        rw [hlast s hs]
        decide
      refine ⟨by show 1 ≤ files.length; omega, hlast, hex, ?_⟩
      intro g hgl hgc hgu c id i ch hch hid hUi
      have hgl : g.leafs = files.length := hgl
      have hgc : g.chunks = (chunk_count lines chunksize).toNat := hgc
      have hgu : g.unique = t.unique := hgu
      have e : ∀ j, c (id * g.leafs * g.chunks + (j * g.chunks + ch)) = c (idx g id j ch) := by
        intro j; unfold idx; rw [Nat.add_assoc]
      obtain ⟨w, hw, hUw⟩ := hex ch (hgc ▸ hch)
      obtain ⟨j, hj, hUj, ej⟩ := min_cost_fold_attained g c (id * g.leafs * g.chunks) i ch
        g.leafs ⟨w, hgl ▸ hw, by rw [hgu, hgc]; exact hUw⟩
      refine ⟨j, hj, hUj, ?_⟩
      unfold min_cost
      rw [if_neg hUi, if_neg hid, ej, e j]

set_option maxRecDepth 1000000 in
theorem exRead_isSome :
    (read_file exZout 1 [[97, 10], [97, 10]] exTables).isSome = true := by decide

theorem last_witness_unique_witness :
    ∃ r, read_file exZout 1 [[97, 10], [97, 10]] exTables = some r ∧
      1 ≤ r.1 ∧
      (∀ s < r.2.1.toNat, r.2.2.unique ((r.1 - 1) * r.2.1.toNat + s) = 1) ∧
      (∀ s < r.2.1.toNat, ∃ w < r.1, r.2.2.unique (w * r.2.1.toNat + s) ≠ 0) ∧
      ∀ (g : Globals), g.leafs = r.1 → g.chunks = r.2.1.toNat → g.unique = r.2.2.unique →
        ∀ (c : Cache) (id i ch : Nat), ch < g.chunks → ¬ id < g.leafs →
          g.unique (i * g.chunks + ch) ≠ 0 →
          ∃ j < g.leafs, g.unique (j * g.chunks + ch) ≠ 0 ∧
            min_cost g c (id * g.leafs * g.chunks) id i ch
              = c (idx g id j ch) + PairCost g i j ch :=
  ⟨(read_file exZout 1 [[97, 10], [97, 10]] exTables).get exRead_isSome,
    (Option.some_get exRead_isSome).symm,
    last_witness_unique exZout 1 [[97, 10], [97, 10]] exTables
      ((read_file exZout 1 [[97, 10], [97, 10]] exTables).get exRead_isSome)
      (Option.some_get exRead_isSome).symm⟩

/-! ## The shape of the initial tree -/

/-- The links after the first two rounds of `init_tree`. -/
theorem init_links_two (k : Nat) (pi junk : Nat → Nat) :
    (init_iter k pi junk 2).alloc = 3 ∧ (init_iter k pi junk 2).tree = some 1 ∧
    ∀ x, node_links ((init_iter k pi junk 2).mem x) = caterpillar_links 2 x := by
  obtain ⟨a1, _, a3, a4⟩ := init_iter_one k pi junk
  have hl : ((init_iter k pi junk 1).mem 1).left = none := by rw [a4]; simp
  obtain ⟨h1, _, h3, _, _, h6⟩ := init_step_fill k pi (init_iter k pi junk 1) 1 1 a3 hl
    (by omega)
  rw [init_iter_succ]
  refine ⟨by omega, h3, fun x => ?_⟩
  rw [h6, a1]
  unfold caterpillar_links node_links
  by_cases e2 : x = 2
  · subst e2; simp
  · by_cases e1 : x = 1
    · subst e1; simp [a4]
    · by_cases e0 : x = 0
      · subst e0; simp [a4]
      · have h3 : 2 * 2 - 1 ≤ x := by omega
        simp [e2, e1, e0, a4, h3]

theorem caterpillar_out {j x : Nat} (hx : 2 * j - 1 ≤ x) :
    caterpillar_links j x = (none, none, none) := by
  unfold caterpillar_links; rw [if_pos hx]

/-- A further leaf changes the links of the old root only. -/
theorem caterpillar_keep {j x : Nat} (hj : 2 ≤ j) (hx : x < 2 * j - 1)
    (hr : x ≠ caterpillar_root j) : caterpillar_links (j + 1) x = caterpillar_links j x := by
  unfold caterpillar_root at hr
  unfold caterpillar_links
  split_ifs at hr ⊢ <;> first | rfl | omega

theorem caterpillar_grow_root {j : Nat} (hj : 2 ≤ j) :
    caterpillar_links (j + 1) (caterpillar_root j)
      = ((caterpillar_links j (caterpillar_root j)).1,
         (caterpillar_links j (caterpillar_root j)).2.1, some (2 * j)) := by
  unfold caterpillar_root caterpillar_links
  split_ifs <;> first | rfl | omega | contradiction |
    (simp only [Prod.mk.injEq, Option.some.injEq, true_and, and_true]; omega)

theorem caterpillar_new_leaf {j : Nat} (hj : 2 ≤ j) :
    caterpillar_links (j + 1) (2 * j - 1) = (none, none, some (2 * j - 1 + 1)) := by
  unfold caterpillar_links
  split_ifs <;> first | rfl | omega

theorem caterpillar_new_root {j : Nat} (hj : 2 ≤ j) :
    caterpillar_links (j + 1) (2 * j - 1 + 1)
      = (some (2 * j - 1), some (caterpillar_root j), none) := by
  unfold caterpillar_root caterpillar_links
  split_ifs <;> first | rfl | omega | contradiction

/-- The root of the caterpillar: two children and no parent. -/
theorem caterpillar_root_links {j : Nat} (hj : 2 ≤ j) :
    ∃ l r, caterpillar_links j (caterpillar_root j) = (some l, some r, none) := by
  unfold caterpillar_root caterpillar_links
  split_ifs <;> first | exact ⟨_, _, rfl⟩ | omega | contradiction

theorem caterpillar_root_lt {j : Nat} (hj : 2 ≤ j) : caterpillar_root j < 2 * j - 1 := by
  unfold caterpillar_root; split_ifs <;> omega

/-- One more round keeps the caterpillar. -/
theorem init_links_step (k : Nat) (pi : Nat → Nat) (s : InitState) (j : Nat) (hj : 2 ≤ j)
    (ha : s.alloc = 2 * j - 1) (ht : s.tree = some (caterpillar_root j))
    (hl : ∀ x, node_links (s.mem x) = caterpillar_links j x) :
    (init_step k pi s j).alloc = 2 * (j + 1) - 1 ∧
    (init_step k pi s j).tree = some (caterpillar_root (j + 1)) ∧
    ∀ x, node_links ((init_step k pi s j).mem x) = caterpillar_links (j + 1) x := by
  have hroot_lt : caterpillar_root j < s.alloc := by
    rw [ha]; exact caterpillar_root_lt hj
  obtain ⟨rl, rr, hrl⟩ := caterpillar_root_links hj
  have hroot := hl (caterpillar_root j)
  have hL : (s.mem (caterpillar_root j)).left = (caterpillar_links j (caterpillar_root j)).1 :=
    congrArg Prod.fst hroot
  have hR : (s.mem (caterpillar_root j)).right
      = (caterpillar_links j (caterpillar_root j)).2.1 :=
    congrArg (fun t => t.2.1) hroot
  obtain ⟨g1, _, g3, _, _, g6⟩ :=
    init_step_grow k pi s j (caterpillar_root j) ht (by rw [hL, hrl]; simp) hroot_lt
  have hnew : caterpillar_root (j + 1) = 2 * j := by
    unfold caterpillar_root; rw [if_neg (by omega)]; omega
  refine ⟨by omega, ?_, fun x => ?_⟩
  · rw [g3, ha, hnew]
    congr 1
    omega
  · rw [g6, ha]
    by_cases e1 : x = 2 * j - 1
    · rw [if_pos e1, e1, caterpillar_new_leaf hj]
      rfl
    · rw [if_neg e1]
      by_cases e2 : x = 2 * j - 1 + 1
      · rw [if_pos e2, e2, caterpillar_new_root hj]
        rfl
      · rw [if_neg e2]
        by_cases e3 : x = caterpillar_root j
        · rw [if_pos e3, e3, caterpillar_grow_root hj, ← hL, ← hR]
          have : 2 * j - 1 + 1 = 2 * j := by omega
          rw [this]
          rfl
        · rw [if_neg e3, hl x]
          by_cases hx : x < 2 * j - 1
          · exact (caterpillar_keep hj hx e3).symm
          · rw [caterpillar_out (by omega), caterpillar_out (by omega)]

theorem init_links_iter (k : Nat) (pi junk : Nat → Nat) : ∀ j, 2 ≤ j →
    (init_iter k pi junk j).alloc = 2 * j - 1 ∧
    (init_iter k pi junk j).tree = some (caterpillar_root j) ∧
    ∀ x, node_links ((init_iter k pi junk j).mem x) = caterpillar_links j x := by
  intro j hj
  induction j with
  | zero => omega
  | succ i ih =>
    by_cases e : i = 1
    · subst e
      obtain ⟨h1, h2, h3⟩ := init_links_two k pi junk
      exact ⟨h1, h2, h3⟩
    · obtain ⟨h1, h2, h3⟩ := ih (by omega)
      rw [init_iter_succ]
      exact init_links_step k pi _ i (by omega) h1 h2 h3

theorem caterpillar_one {j : Nat} (hj : 2 ≤ j) :
    caterpillar_links j 1 = (some 2, some 0, if j = 2 then none else some 4) := by
  unfold caterpillar_links
  rw [if_neg (by omega), if_neg (by omega), if_pos rfl]

theorem caterpillar_leaf {j x : Nat} (hx : x = 0 ∨ x = 2 ∨ (3 ≤ x ∧ x % 2 = 1))
    (hlt : x < 2 * j - 1) : ∃ u, caterpillar_links j x = (none, none, some u) := by
  unfold caterpillar_links
  split_ifs <;> first | exact ⟨_, rfl⟩ | omega

theorem caterpillar_inner {j x : Nat} (h4 : 4 ≤ x) (he : x % 2 = 0) (hx : x < 2 * j - 1) :
    ∃ u, caterpillar_links j x = (some (x - 1), some (if x = 4 then 1 else x - 2), u) := by
  unfold caterpillar_links
  split_ifs <;> first | exact ⟨_, rfl⟩ | omega

/-- The addresses of the caterpillar that have a left child are `1, 4, 6, ...`. -/
theorem caterpillar_internal {j x : Nat} (h : (caterpillar_links j x).1 ≠ none) :
    x = 1 ∨ (4 ≤ x ∧ x % 2 = 0 ∧ x < 2 * j - 1) := by
  unfold caterpillar_links at h
  split_ifs at h <;> first | omega | exact absurd rfl h

/-- C32: for `k ≥ 2` witnesses and in-range draws (`pi i < k - i`), `init_tree` builds a
caterpillar: the node with id `k` has two leaves as children; for `1 ≤ m ≤ k-2` the node with
id `k+m` has a leaf as left child and the node with id `k+m-1`, an internal node, as right
child; the root is the node with id `2k-2`; every id below `k` sits at a leaf. The draws
decide the ids of the leaves only: for any other in-range draws (and other junk in the
permutation buffer) the root is at the same address, every address has the same `left`,
`right` and `up` links, and every node with children has the same id. -/
theorem init_tree_caterpillar (k : Nat) (pi junk : Nat → Nat) (hk : 2 ≤ k)
    (hpi : ∀ i < k, pi i < k - i) :
    (∃ a l r, (init_tree k pi junk).array k = some a ∧
      ((init_tree k pi junk).mem a).id = k ∧
      ((init_tree k pi junk).mem a).left = some l ∧
      ((init_tree k pi junk).mem a).right = some r ∧ l ≠ r ∧
      ((init_tree k pi junk).mem l).left = none ∧ ((init_tree k pi junk).mem l).right = none ∧
      ((init_tree k pi junk).mem l).id < k ∧
      ((init_tree k pi junk).mem r).left = none ∧ ((init_tree k pi junk).mem r).right = none ∧
      ((init_tree k pi junk).mem r).id < k) ∧
    (∀ m, 1 ≤ m → m ≤ k - 2 → ∃ a l r, (init_tree k pi junk).array (k + m) = some a ∧
      ((init_tree k pi junk).mem a).id = k + m ∧
      ((init_tree k pi junk).mem a).left = some l ∧
      ((init_tree k pi junk).mem a).right = some r ∧
      ((init_tree k pi junk).mem l).left = none ∧ ((init_tree k pi junk).mem l).right = none ∧
      ((init_tree k pi junk).mem l).id < k ∧
      (init_tree k pi junk).array (k + m - 1) = some r ∧
      ((init_tree k pi junk).mem r).id = k + m - 1 ∧
      ((init_tree k pi junk).mem r).left ≠ none) ∧
    (∃ r, (init_tree k pi junk).tree = some r ∧ ((init_tree k pi junk).mem r).id = 2 * k - 2 ∧
      ((init_tree k pi junk).mem r).up = none) ∧
    (∀ id < k, ∃ p < 2 * k - 1, ((init_tree k pi junk).mem p).left = none ∧
      ((init_tree k pi junk).mem p).right = none ∧ ((init_tree k pi junk).mem p).id = id) ∧
    (∀ pi1 junk1 : Nat → Nat, (∀ i < k, pi1 i < k - i) →
      (init_tree k pi1 junk1).tree = (init_tree k pi junk).tree ∧
      ∀ x, ((init_tree k pi1 junk1).mem x).left = ((init_tree k pi junk).mem x).left ∧
        ((init_tree k pi1 junk1).mem x).right = ((init_tree k pi junk).mem x).right ∧
        ((init_tree k pi1 junk1).mem x).up = ((init_tree k pi junk).mem x).up ∧
        (((init_tree k pi junk).mem x).left ≠ none →
          ((init_tree k pi1 junk1).mem x).id = ((init_tree k pi junk).mem x).id)) := by
  -- what holds for any in-range draws
  have facts : ∀ pi0 junk0 : Nat → Nat, (∀ i < k, pi0 i < k - i) →
      (init_tree k pi0 junk0).alloc = 2 * k - 1 ∧
      (init_tree k pi0 junk0).tree = some (caterpillar_root k) ∧
      (∀ x, ((init_tree k pi0 junk0).mem x).left = (caterpillar_links k x).1 ∧
        ((init_tree k pi0 junk0).mem x).right = (caterpillar_links k x).2.1 ∧
        ((init_tree k pi0 junk0).mem x).up = (caterpillar_links k x).2.2) ∧
      (∀ p < 2 * k - 1, (init_tree k pi0 junk0).array ((init_tree k pi0 junk0).mem p).id
        = some p) ∧
      ((init_tree k pi0 junk0).mem 1).id = k ∧
      (∀ i, 2 ≤ i → i < k → ((init_tree k pi0 junk0).mem (2 * i)).id = k + i - 1) ∧
      (∀ p < 2 * k - 1, ((init_tree k pi0 junk0).mem p).left = none →
        ((init_tree k pi0 junk0).mem p).id < k) ∧
      (∀ id < k, ∃ p < 2 * k - 1, ((init_tree k pi0 junk0).mem p).left = none ∧
        ((init_tree k pi0 junk0).mem p).id = id) := by
    intro pi0 junk0 hpi0
    obtain ⟨h1, h2, h3⟩ := init_links_iter k pi0 junk0 k hk
    have hI := initIds_iter k pi0 junk0 hpi0 k hk (Nat.le_refl k)
    have hP := permInv_iter k pi0 junk0 hpi0 k (Nat.le_refl k)
    rw [← init_tree_eq] at h1 h2 h3 hI
    refine ⟨h1, h2, fun x => ?_, fun p hp => hI.arr p (by omega), hI.int1, hI.ints,
      fun p hp hleaf => ?_, fun id hid => ?_⟩
    · have := h3 x
      exact ⟨congrArg Prod.fst this, congrArg (fun t => t.2.1) this,
        congrArg (fun t => t.2.2) this⟩
    · obtain ⟨i, hi, hid⟩ := hI.leaf_used p (by omega) hleaf
      rw [hid]; exact leaf_id_lt k pi0 junk0 hpi0 hi
    · rcases hP.cover id hid with ⟨i, hi, hu⟩ | ⟨x, hx, _⟩
      · obtain ⟨p, hp, e1, e2⟩ := hI.used_leaf i hi
        exact ⟨p, by omega, e1, e2.trans hu⟩
      · omega
  obtain ⟨fa, ft, fl, farr, f1, fints, fleaf, fcover⟩ := facts pi junk hpi
  -- the three kinds of address
  have leafAt : ∀ x, (x = 0 ∨ x = 2 ∨ (3 ≤ x ∧ x % 2 = 1)) → x < 2 * k - 1 →
      ((init_tree k pi junk).mem x).left = none ∧ ((init_tree k pi junk).mem x).right = none ∧
      ((init_tree k pi junk).mem x).id < k := by
    intro x hx hlt
    obtain ⟨u, hu⟩ := caterpillar_leaf hx hlt
    have hl : ((init_tree k pi junk).mem x).left = none := by rw [(fl x).1, hu]
    exact ⟨hl, by rw [(fl x).2.1, hu], fleaf x hlt hl⟩
  have innerAt : ∀ x, 4 ≤ x → x % 2 = 0 → x < 2 * k - 1 →
      ((init_tree k pi junk).mem x).left = some (x - 1) ∧
      ((init_tree k pi junk).mem x).right = some (if x = 4 then 1 else x - 2) := by
    intro x h4 he hlt
    obtain ⟨u, hu⟩ := caterpillar_inner h4 he hlt
    exact ⟨by rw [(fl x).1, hu], by rw [(fl x).2.1, hu]⟩
  have oneAt : ((init_tree k pi junk).mem 1).left = some 2 ∧
      ((init_tree k pi junk).mem 1).right = some 0 := by
    have := caterpillar_one hk
    exact ⟨by rw [(fl 1).1, this], by rw [(fl 1).2.1, this]⟩
  refine ⟨?_, ?_, ?_, ?_, ?_⟩
  · have a1 := farr 1 (by omega)
    rw [f1] at a1
    obtain ⟨l1, l2, l3⟩ := leafAt 2 (Or.inr (Or.inl rfl)) (by omega)
    obtain ⟨r1, r2, r3⟩ := leafAt 0 (Or.inl rfl) (by omega)
    exact ⟨1, 2, 0, a1, f1, oneAt.1, oneAt.2, by omega, l1, l2, l3, r1, r2, r3⟩
  · intro m hm1 hm2
    have hid : ((init_tree k pi junk).mem (2 * (m + 1))).id = k + m := by
      rw [fints (m + 1) (by omega) (by omega)]; omega
    have a1 := farr (2 * (m + 1)) (by omega)
    rw [hid] at a1
    obtain ⟨i1, i2⟩ := innerAt (2 * (m + 1)) (by omega) (by omega) (by omega)
    obtain ⟨l1, l2, l3⟩ := leafAt (2 * (m + 1) - 1) (Or.inr (Or.inr ⟨by omega, by omega⟩))
      (by omega)
    by_cases e : m = 1
    · subst e
      have a2 := farr 1 (by omega)
      rw [f1] at a2
      refine ⟨_, _, _, a1, hid, i1, i2, l1, l2, l3, ?_, ?_, ?_⟩
      · exact a2
      · exact f1
      · show ((init_tree k pi junk).mem 1).left ≠ none
        rw [oneAt.1]; simp
    · have hr : (if 2 * (m + 1) = 4 then 1 else 2 * (m + 1) - 2) = 2 * m := by
        rw [if_neg (by omega)]; omega
      rw [hr] at i2
      have hid2 : ((init_tree k pi junk).mem (2 * m)).id = k + m - 1 :=
        fints m (by omega) (by omega)
      have a2 := farr (2 * m) (by omega)
      rw [hid2] at a2
      refine ⟨_, _, _, a1, hid, i1, i2, l1, l2, l3, a2, hid2, ?_⟩
      rw [(innerAt (2 * m) (by omega) (by omega) (by omega)).1]; simp
  · obtain ⟨l, r, hroot⟩ := caterpillar_root_links hk
    refine ⟨caterpillar_root k, ft, ?_, by rw [(fl _).2.2, hroot]⟩
    unfold caterpillar_root
    by_cases e : k = 2
    · rw [if_pos e, f1]; omega
    · rw [if_neg e]
      have : 2 * k - 2 = 2 * (k - 1) := by omega
      rw [this, fints (k - 1) (by omega) (by omega)]
      omega
  · intro id hid
    obtain ⟨p, hp, e1, e2⟩ := fcover id hid
    refine ⟨p, hp, e1, ?_, e2⟩
    have h1 := (fl p).1
    rw [e1] at h1
    rw [(fl p).2.1]
    unfold caterpillar_links at h1 ⊢
    split_ifs at h1 ⊢ <;> rfl
  · intro pi1 junk1 hpi1
    obtain ⟨_, gt, gl, _, g1, gints, _, _⟩ := facts pi1 junk1 hpi1
    refine ⟨by rw [gt, ft], fun x => ⟨?_, ?_, ?_, fun hne => ?_⟩⟩
    · rw [(gl x).1, (fl x).1]
    · rw [(gl x).2.1, (fl x).2.1]
    · rw [(gl x).2.2, (fl x).2.2]
    · rw [(fl x).1] at hne
      rcases caterpillar_internal hne with e | ⟨h4, he, hlt⟩
      · rw [e, g1, f1]
      · have : x = 2 * (x / 2) := by omega
        rw [this, gints (x / 2) (by omega) (by omega), fints (x / 2) (by omega) (by omega)]

theorem init_tree_caterpillar_witness :
    (∃ a l r, (init_tree 3 (fun _ => 0) (fun _ => 0)).array 3 = some a ∧
      ((init_tree 3 (fun _ => 0) (fun _ => 0)).mem a).id = 3 ∧
      ((init_tree 3 (fun _ => 0) (fun _ => 0)).mem a).left = some l ∧
      ((init_tree 3 (fun _ => 0) (fun _ => 0)).mem a).right = some r ∧ l ≠ r ∧
      ((init_tree 3 (fun _ => 0) (fun _ => 0)).mem l).left = none ∧
      ((init_tree 3 (fun _ => 0) (fun _ => 0)).mem l).right = none ∧
      ((init_tree 3 (fun _ => 0) (fun _ => 0)).mem l).id < 3 ∧
      ((init_tree 3 (fun _ => 0) (fun _ => 0)).mem r).left = none ∧
      ((init_tree 3 (fun _ => 0) (fun _ => 0)).mem r).right = none ∧
      ((init_tree 3 (fun _ => 0) (fun _ => 0)).mem r).id < 3) ∧
    (∀ m, 1 ≤ m → m ≤ 3 - 2 → ∃ a l r,
      (init_tree 3 (fun _ => 0) (fun _ => 0)).array (3 + m) = some a ∧
      ((init_tree 3 (fun _ => 0) (fun _ => 0)).mem a).id = 3 + m ∧
      ((init_tree 3 (fun _ => 0) (fun _ => 0)).mem a).left = some l ∧
      ((init_tree 3 (fun _ => 0) (fun _ => 0)).mem a).right = some r ∧
      ((init_tree 3 (fun _ => 0) (fun _ => 0)).mem l).left = none ∧
      ((init_tree 3 (fun _ => 0) (fun _ => 0)).mem l).right = none ∧
      ((init_tree 3 (fun _ => 0) (fun _ => 0)).mem l).id < 3 ∧
      (init_tree 3 (fun _ => 0) (fun _ => 0)).array (3 + m - 1) = some r ∧
      ((init_tree 3 (fun _ => 0) (fun _ => 0)).mem r).id = 3 + m - 1 ∧
      ((init_tree 3 (fun _ => 0) (fun _ => 0)).mem r).left ≠ none) ∧
    (∃ r, (init_tree 3 (fun _ => 0) (fun _ => 0)).tree = some r ∧
      ((init_tree 3 (fun _ => 0) (fun _ => 0)).mem r).id = 2 * 3 - 2 ∧
      ((init_tree 3 (fun _ => 0) (fun _ => 0)).mem r).up = none) ∧
    (∀ id < 3, ∃ p < 2 * 3 - 1, ((init_tree 3 (fun _ => 0) (fun _ => 0)).mem p).left = none ∧
      ((init_tree 3 (fun _ => 0) (fun _ => 0)).mem p).right = none ∧
      ((init_tree 3 (fun _ => 0) (fun _ => 0)).mem p).id = id) ∧
    (∀ pi1 junk1 : Nat → Nat, (∀ i < 3, pi1 i < 3 - i) →
      (init_tree 3 pi1 junk1).tree = (init_tree 3 (fun _ => 0) (fun _ => 0)).tree ∧
      ∀ x, ((init_tree 3 pi1 junk1).mem x).left
          = ((init_tree 3 (fun _ => 0) (fun _ => 0)).mem x).left ∧
        ((init_tree 3 pi1 junk1).mem x).right
          = ((init_tree 3 (fun _ => 0) (fun _ => 0)).mem x).right ∧
        ((init_tree 3 pi1 junk1).mem x).up
          = ((init_tree 3 (fun _ => 0) (fun _ => 0)).mem x).up ∧
        (((init_tree 3 (fun _ => 0) (fun _ => 0)).mem x).left ≠ none →
          ((init_tree 3 pi1 junk1).mem x).id
            = ((init_tree 3 (fun _ => 0) (fun _ => 0)).mem x).id)) :=
  init_tree_caterpillar 3 (fun _ => 0) (fun _ => 0) (by decide) (by decide)

end Rhm
